import Mathlib

/-!
# MagicLS arithmetic generators: a shallow embedding

The generators of `src/core/arithmetic.hpp` build gate networks.  Here a signal is
interpreted by the Boolean value it takes under one (arbitrary, fixed) assignment of the
primary inputs, so that a gate request becomes the Boolean operation the gate computes and a
vector of signals becomes a list of bits, index 0 first.  A statement proved for all bit
lists is therefore a statement about the truth table of the generated network.

Loops are written as structurally recursive functions.  The loops over `j` recurse on
the number of rounds that remain.  The inner loops over `i` recurse on a bound of the
number of iterations, the length of the vector: `i` grows in every iteration, so the loop
condition `i < a.size()` is false when the bound is used up.  The up-sweep, whose iterator
can step back, recurses on a budget of `2 * pg.size()` iterations; running out of budget
is reported as `none`, as is undefined behaviour of the source (an access outside a
vector), so that a result `some r` is always a result of the source.

The dividers return `Except Failure`, which tells a failed size assertion from the other
ways a call can end without a result.  A pluggable adder or subtractor is a parameter
`func` of the generator that takes it.  A shell command is embedded as the list of its
observable steps (text printed, primary inputs and outputs created, generator called,
store extended, exit), in program order.

Statements about the calls of `PG::o_operation` are made on a second form of the
scheduling loops, named `*_calls`, whose state carries the list of the calls made so far
next to the vector `pg`; each call is recorded with the node as it is at that moment and
with the node passed to it.  Both forms compute the same nodes, and the generators are
the carry assembly applied to the nodes of the second form.  In the same way
`advance_multiplier_calls` lists the invocations of the pluggable adder next to the
vector that `advance_multiplier` returns.

Statements about the state in which a call ends (the size assertions) are made on a
third form of the ripple subtractor and of the dividers, named `*_run`, which carries
the list of the requests made to the network so far and, for the ripple subtractor,
the reference parameters `a` and `borrow`; it returns what the generator returns.

The two dividers are compared through the restoring recurrence on values
(`restoring_quotient`, `restoring_remainder`), which both loops are proved to compute,
for any divisor, zero included.
-/

namespace MagicLS

/-- Value of a signal under the fixed input assignment. -/
abbrev Signal := Bool

/-! ## Network capability contract -/

namespace Ntk

/-- Modelled from the spec: `constant(bool)` of the network capability contract. -/
def get_constant (b : Bool) : Signal := b

/-- Modelled from the spec: `not(s)` of the network capability contract
(also written `!s` in the source). -/
def create_not (a : Signal) : Signal := !a

/-- Modelled from the spec: `and(s,s)` of the network capability contract. -/
def create_and (a b : Signal) : Signal := a && b

/-- Modelled from the spec: `or(s,s)` of the network capability contract. -/
def create_or (a b : Signal) : Signal := a || b

/-- Modelled from the spec: `xor(s,s)` of the network capability contract. -/
def create_xor (a b : Signal) : Signal := xor a b

/-- Modelled from the spec: `nor(s,s)` of the network capability contract. -/
def create_nor (a b : Signal) : Signal := !(a || b)

/-- Modelled from the spec: `buf(s)` of the network capability contract. -/
def create_buf (a : Signal) : Signal := a

/-- Modelled from the spec: `majority(s,s,s)` of the network capability contract. -/
def create_maj (a b c : Signal) : Signal := (a && b) || (a && c) || (b && c)

/-- Modelled from the spec: `xor3(s,s,s)` of the network capability contract. -/
def create_xor3 (a b c : Signal) : Signal := xor (xor a b) c

/-- Value of one hexadecimal digit, `none` for any other character. -/
def hex_digit (ch : Char) : Option Nat :=
  if ch.toNat ≥ 48 ∧ ch.toNat ≤ 57 then some (ch.toNat - 48)
  else if ch.toNat ≥ 97 ∧ ch.toNat ≤ 102 then some (ch.toNat - 87)
  else if ch.toNat ≥ 65 ∧ ch.toNat ≤ 70 then some (ch.toNat - 55)
  else none

/-- Modelled from the spec: the truth-table library call `create_from_hex_string`; the
string is read most significant nibble first and the result is the number whose binary
digit `k` is the function value at the assignment with index `k`. -/
def create_from_hex_string (s : List Char) : Nat :=
  s.foldl (fun acc ch => 16 * acc + (hex_digit ch).getD 0) 0

/-- Index of the assignment given by the fan-in values: fan-in `i` is variable `i`, of
weight `2^i`. -/
def assignment_index : List Signal → Nat
  | [] => 0
  | s :: rest => s.toNat + 2 * assignment_index rest

/-- Modelled from the spec: `lutNode(signals, truthTable)` of the network capability
contract; the node evaluates the truth table at the assignment of its fan-ins. -/
def create_node (fanin : List Signal) (tt : Nat) : Signal :=
  Nat.testBit tt (assignment_index fanin)

end Ntk

open Ntk

/-- Capabilities a network type declares; they select the cell realization at compile
time (`if constexpr`). -/
structure Capability where
  has_create_node : Bool
  is_aig : Bool
  has_create_maj : Bool
  has_create_xor3 : Bool
deriving DecidableEq

/-- A network offering only two-input gates (the default realization is selected). -/
def gate_network : Capability := ⟨false, false, false, false⟩

/-- A LUT network (`create_node` available). -/
def lut_network : Capability := ⟨true, false, true, true⟩

/-- A majority network without `create_node`. -/
def maj_network : Capability := ⟨false, false, true, true⟩

/-! ## Cells -/

/-- The `detail::mux` cell. -/
def mux (cond f_then f_else : Signal) : Signal :=
  create_or (create_and cond f_then) (create_and (!cond) f_else)

/-- The LUT realization of `full_subtractor`. -/
def full_subtractor_lut (a b c : Signal) : Signal × Signal :=
  let tt_borrow := create_from_hex_string ['4', 'e']
  let tt_xor := create_from_hex_string ['9', '6']
  let difference := create_node [a, b, c] tt_xor
  let borrow := create_node [a, b, c] tt_borrow
  (difference, borrow)

/-- The MAJ/XOR3 realization of `full_subtractor`. -/
def full_subtractor_maj (a b c : Signal) : Signal × Signal :=
  let borrow := create_maj (!a) b c
  let difference := create_xor3 a b c
  (difference, borrow)

/-- The default seven-gate realization of `full_subtractor`. -/
def full_subtractor_gates (a b c : Signal) : Signal × Signal :=
  let w1 := create_and a (!c)
  let w2 := create_and (!a) c
  let w3 := create_nor w1 w2
  let w4 := create_and (!b) w3
  let w5 := create_and b (!w3)
  let sum := create_nor w4 w5
  let carry := create_nor w1 w4
  (sum, carry)

/-- The cell `full_subtractor`: the realization is chosen by the network capabilities. -/
def full_subtractor (cap : Capability) (a b c : Signal) : Signal × Signal :=
  if cap.has_create_node then full_subtractor_lut a b c
  else if !cap.is_aig && cap.has_create_maj && cap.has_create_xor3 then
    full_subtractor_maj a b c
  else full_subtractor_gates a b c

/-! ## Ripple subtractor -/

/-- The loop of `borrow_ripple_subtractor_inplace`: `pa` and `pb` advance together until
`pa` reaches the end of `a`; reading `pb` past the end of `b` is undefined. -/
def borrow_ripple_loop (cap : Capability) :
    List Signal → List Signal → Signal → Option (List Signal × Signal)
  | [], _, borrow => some ([], borrow)
  | _ :: _, [], _ => none
  | x :: pa, y :: pb, borrow =>
    let r := full_subtractor cap x y borrow
    match borrow_ripple_loop cap pa pb r.2 with
    | some (rest, out) => some (r.1 :: rest, out)
    | none => none

/-- The generator `borrow_ripple_subtractor_inplace`: the result is the new content of `a`
and of `borrow`; `none` when the size assertion fails. -/
def borrow_ripple_subtractor_inplace (cap : Capability) (a b : List Signal)
    (borrow : Signal) : Option (List Signal × Signal) :=
  if a.length = b.length then borrow_ripple_loop cap a b borrow else none

/-! ## The generate/propagate node -/

/-- The class `PG`: a generate and a propagate signal with the bit range they cover. -/
structure PG where
  g : Signal
  p : Signal
  begin_ : Nat
  end_ : Nat
deriving DecidableEq

/-- The constructor `PG(a, b, bit_width, index)`. -/
def PG.new (a b : Signal) (_bit_width index : Nat) : PG := ⟨a, b, index, index⟩

/-- The method `PG::o_operation`. -/
def PG.o_operation (self other : PG) : PG :=
  ⟨create_or self.g (create_and self.p other.g), create_and self.p other.p,
    self.begin_, other.end_⟩

/-- The assertion inside `PG::o_operation`. -/
def PG.o_assertion (self other : PG) : Bool := decide (self.begin_ ≥ other.begin_)

/-- The loop that fills `pg`: node `i` is built from `gen[i]` and `pro[i]`. -/
def pg_build (bit_width : Nat) : Nat → List Signal → List Signal → List PG
  | i, g :: gen, p :: pro => PG.new g p bit_width i :: pg_build bit_width (i + 1) gen pro
  | _, _, _ => []

/-- The statement `pg[x].o_operation(ntk, src[y])`; an index outside either vector leaves
the state as it was (no call in the generators is out of range). -/
def o_at (pg : List PG) (x : Nat) (src : List PG) (y : Nat) : List PG :=
  match pg[x]?, src[y]? with
  | some X, some Y => pg.set x (X.o_operation Y)
  | _, _ => pg

/-- The value `pg.rbegin()->end`; never evaluated on an empty vector. -/
def last_end (pg : List PG) : Nat :=
  match pg.getLast? with
  | some x => x.end_
  | none => 0

/-- The integer `ceil(log2(n))` searched upwards from `k`. -/
def ceil_log2_from (n : Nat) : Nat → Nat → Nat
  | 0, k => k
  | fuel + 1, k => if n ≤ 2 ^ k then k else ceil_log2_from n fuel (k + 1)

/-- The integer `ceil(log2(n))`: the least `k` with `n ≤ 2^k`. -/
def ceil_log2 (n : Nat) : Nat := ceil_log2_from n n 0

/-! ## The scheduling loops -/

/-- Inner loop of a Brent-Kung round `j`: `i` starts at `2^j - 1` and advances by
`2^(j+1)` while `i < a.size()`; node `i + 2^j` absorbs the live node `i`. -/
def brent_kung_inner (j : Nat) : Nat → Nat → List PG → List PG
  | 0, _, pg => pg
  | fuel + 1, i, pg =>
    if i < pg.length then
      if i + 2 ^ j ≥ pg.length then brent_kung_inner j fuel (i + 2 ^ (j + 1)) pg
      else brent_kung_inner j fuel (i + 2 ^ (j + 1)) (o_at pg (i + 2 ^ j) pg i)
    else pg

/-- The loop "first round of carry generation" of the Brent-Kung generators: `rounds` is
the distance of `j` from `ceil(log2(pg.size()))`. -/
def brent_kung_first_round : Nat → Nat → List PG → List PG
  | 0, _, pg => pg
  | rounds + 1, j, pg =>
    if last_end pg ≠ 0 then
      brent_kung_first_round rounds (j + 1) (brent_kung_inner j pg.length (2 ^ j - 1) pg)
    else pg

/-- Inner loop of a Kogge-Stone round `j`: `i` runs from 0 and the loop is left as soon as
`i + 2^j` is outside; node `i + 2^j` absorbs node `i` of the snapshot `pg_bak`. -/
def kogge_stone_inner (j : Nat) (pg_bak : List PG) : Nat → Nat → List PG → List PG
  | 0, _, pg => pg
  | fuel + 1, i, pg =>
    if i < pg.length then
      if i + 2 ^ j ≥ pg.length then pg
      else kogge_stone_inner j pg_bak fuel (i + 1) (o_at pg (i + 2 ^ j) pg_bak i)
    else pg

/-- The loop "first round of carry generation" of the Kogge-Stone generators. -/
def kogge_stone_rounds : Nat → Nat → List PG → List PG
  | 0, _, pg => pg
  | rounds + 1, j, pg =>
    if last_end pg ≠ 0 then
      kogge_stone_rounds rounds (j + 1) (kogge_stone_inner j pg pg.length 0 pg)
    else pg

/-- Inner loop of a Han-Carlson round `j ≥ 2`: `i` starts at `2^2 - 1` and advances by
`2^2`; node `i + 2^j` absorbs node `i` of the snapshot `pg_bak`. -/
def han_carlson_inner (j : Nat) (pg_bak : List PG) : Nat → Nat → List PG → List PG
  | 0, _, pg => pg
  | fuel + 1, i, pg =>
    if i < pg.length then
      if i + 2 ^ j ≥ pg.length then han_carlson_inner j pg_bak fuel (i + 2 ^ 2) pg
      else han_carlson_inner j pg_bak fuel (i + 2 ^ 2) (o_at pg (i + 2 ^ j) pg_bak i)
    else pg

/-- The round loop of the Han-Carlson generators: Brent-Kung rounds for `j < 2`,
Kogge-Stone style rounds on every fourth node afterwards. -/
def han_carlson_rounds : Nat → Nat → List PG → List PG
  | 0, _, pg => pg
  | rounds + 1, j, pg =>
    if last_end pg ≠ 0 then
      if j < 2 then
        han_carlson_rounds rounds (j + 1) (brent_kung_inner j pg.length (2 ^ j - 1) pg)
      else
        han_carlson_rounds rounds (j + 1) (han_carlson_inner j pg pg.length (2 ^ 2 - 1) pg)
    else pg

/-- The element a reverse iterator at distance `r` from `rbegin()` points to. -/
def rev_at (pg : List PG) (r : Nat) : Option PG :=
  if r < pg.length then pg[pg.length - 1 - r]? else none

/-- The field `end` read through a reverse iterator at distance `r < pg.size()`. -/
def rev_end (pg : List PG) (r : Nat) : Nat :=
  match rev_at pg r with
  | some x => x.end_
  | none => 0

/-- The search for `j` in the second round: advance from `i` until `rend()` or a node
whose `end` is 0. -/
def find_j (pg : List PG) : Nat → Nat → Nat
  | 0, j => j
  | fuel + 1, j =>
    if j = pg.length then j
    else if rev_end pg j = 0 then j
    else find_j pg fuel (j + 1)

/-- The search for `k` in the second round: advance from `i` until `j` or a node whose
`end` equals that of the node before `j`. -/
def find_k (pg : List PG) (j : Nat) : Nat → Nat → Nat
  | 0, k => k
  | fuel + 1, k =>
    if k = j then k
    else if rev_end pg k = rev_end pg (j - 1) then k
    else find_k pg j fuel (k + 1)

/-- The loop "second round of carry generation" (the up-sweep), on reverse iterators:
`i` is the distance from `rbegin()`.  The result is `none` when `j` or `k` reaches
`rend()` and is dereferenced, or when the budget of iterations is used up. -/
def second_round : Nat → Nat → List PG → Option (List PG)
  | 0, _, _ => none
  | fuel + 1, i, pg =>
    if i = pg.length then some pg
    else if rev_end pg i = 0 then second_round fuel (i + 1) pg
    else
      let j := find_j pg pg.length i
      let k := find_k pg j pg.length i
      if j < pg.length ∧ k < pg.length then
        let pg1 := o_at pg (pg.length - 1 - k) pg (pg.length - 1 - j)
        if k ≠ i then second_round fuel i pg1
        else second_round fuel (i + 1) pg1
      else none

/-- The carry assembly `bor[0] = carry; bor[i] = pg[i-1].g`. -/
def assemble (carry : Signal) (pg : List PG) : List Signal := carry :: pg.map PG.g

/-- The last statements shared by the generators: the result bits
`pro2[i] xor bor[i]` and the output carry `bor.back()`. -/
def finish (pro2 : List Signal) (bor : List Signal) (carry : Signal) :
    List Signal × Signal :=
  (List.zipWith create_xor pro2 bor, bor.getLastD carry)

/-! ## The generators -/

/-- The generator `detail::kogge_stone_adder_inplace`; the result is the new content of
`a` and of `carry`, `none` where the source reads outside a vector. -/
def kogge_stone_adder_inplace (a b : List Signal) (carry : Signal) :
    Option (List Signal × Signal) :=
  if a.length = 0 ∨ b.length < a.length then none
  else
    let gen := List.zipWith (fun f g => create_and f g) a b
    let pro := List.zipWith (fun f g => create_xor f g) a b
    let pro2 := List.zipWith (fun f g => create_xor f g) a b
    let pg := pg_build a.length 0 gen pro
    let pg0 := PG.new carry (get_constant false) a.length 0
    let pg := o_at pg 0 [pg0] 0
    let pg := kogge_stone_rounds (ceil_log2 pg.length) 0 pg
    some (finish pro2 (assemble carry pg) carry)

/-- The generator `detail::kogge_stone_subtractor_inplace`. -/
def kogge_stone_subtractor_inplace (a b : List Signal) (borrow : Signal) :
    Option (List Signal × Signal) :=
  if a.length = 0 ∨ b.length < a.length then none
  else
    let gen := List.zipWith (fun f g => create_and (create_not f) g) a b
    let pro := List.zipWith (fun f g => create_or (create_not f) g) a b
    let pro2 := List.zipWith (fun f g => create_xor f g) a b
    let pg := pg_build a.length 0 gen pro
    let pg0 := PG.new borrow (get_constant false) a.length 0
    let pg := o_at pg 0 [pg0] 0
    let pg := kogge_stone_rounds (ceil_log2 pg.length) 0 pg
    some (finish pro2 (assemble borrow pg) borrow)

/-- The generator `detail::brent_kung_adder_inplace`. -/
def brent_kung_adder_inplace (a b : List Signal) (carry : Signal) :
    Option (List Signal × Signal) :=
  if a.length = 0 ∨ b.length < a.length then none
  else
    let gen := List.zipWith (fun f g => create_and f g) a b
    let pro := List.zipWith (fun f g => create_xor f g) a b
    let pro2 := List.zipWith (fun f g => create_xor f g) a b
    let pg := pg_build a.length 0 gen pro
    let pg0 := PG.new carry (get_constant false) a.length 0
    let pg := o_at pg 0 [pg0] 0
    let pg := brent_kung_first_round (ceil_log2 pg.length) 0 pg
    match second_round (2 * pg.length) 0 pg with
    | some pg => some (finish pro2 (assemble carry pg) carry)
    | none => none

/-- The generator `detail::brent_kung_subtractor_inplace`; the fold of the input borrow
into node 0 is commented out in the source. -/
def brent_kung_subtractor_inplace (a b : List Signal) (borrow : Signal) :
    Option (List Signal × Signal) :=
  if a.length = 0 ∨ b.length < a.length then none
  else
    let gen := List.zipWith (fun f g => create_and (create_not f) g) a b
    let pro := List.zipWith (fun f g => create_or (create_not f) g) a b
    let pro2 := List.zipWith (fun f g => create_xor f g) a b
    let pg := pg_build a.length 0 gen pro
    let pg := brent_kung_first_round (ceil_log2 pg.length) 0 pg
    match second_round (2 * pg.length) 0 pg with
    | some pg => some (finish pro2 (assemble borrow pg) borrow)
    | none => none

/-- The generator `detail::han_carlson_adder_inplace`; the fold of the input carry into
node 0 is commented out in the source. -/
def han_carlson_adder_inplace (a b : List Signal) (carry : Signal) :
    Option (List Signal × Signal) :=
  if a.length ≤ 4 then brent_kung_adder_inplace a b carry
  else if b.length < a.length then none
  else
    let gen := List.zipWith (fun f g => create_and f g) a b
    let pro := List.zipWith (fun f g => create_xor f g) a b
    let pro2 := List.zipWith (fun f g => create_xor f g) a b
    let pg := pg_build a.length 0 gen pro
    let pg := han_carlson_rounds (ceil_log2 pg.length) 0 pg
    match second_round (2 * pg.length) 0 pg with
    | some pg => some (finish pro2 (assemble carry pg) carry)
    | none => none

/-- The generator `detail::han_carlson_subtractor_inplace`; the fold of the input borrow
into node 0 is commented out in the source. -/
def han_carlson_subtractor_inplace (a b : List Signal) (borrow : Signal) :
    Option (List Signal × Signal) :=
  if a.length ≤ 4 then brent_kung_subtractor_inplace a b borrow
  else if b.length < a.length then none
  else
    let gen := List.zipWith (fun f g => create_and (create_not f) g) a b
    let pro := List.zipWith (fun f g => create_or (create_not f) g) a b
    let pro2 := List.zipWith (fun f g => create_xor f g) a b
    let pg := pg_build a.length 0 gen pro
    let pg := han_carlson_rounds (ceil_log2 pg.length) 0 pg
    match second_round (2 * pg.length) 0 pg with
    | some pg => some (finish pro2 (assemble borrow pg) borrow)
    | none => none

/-- Unsigned value of a bit vector, index 0 least significant. -/
def value : List Signal → Nat
  | [] => 0
  | x :: xs => x.toNat + 2 * value xs

/-- The `n` low bits of `v`, index 0 least significant. -/
def low_bits : Nat → Nat → List Bool
  | 0, _ => []
  | n + 1, v => Nat.testBit v 0 :: low_bits n (v / 2)

/-! ## Specification-level notions -/

/-- Bit `i` of a vector, `false` outside. -/
def bit_at (l : List Signal) (i : Nat) : Bool := l.getD i false

/-- Value of the first `n` entries of a bit sequence. -/
def value_upto (f : Nat → Bool) : Nat → Nat
  | 0 => 0
  | n + 1 => value_upto f n + 2 ^ n * (f n).toNat

/-- The serial carry recurrence: the carry into bit `i` when `c` enters bit 0. -/
def chain (gs ps : Nat → Bool) (c : Bool) : Nat → Bool
  | 0 => c
  | i + 1 => gs i || (ps i && chain gs ps c i)

/-- Group generate signal of the bits `lo, ..., lo + d`. -/
def group_g (gs ps : Nat → Bool) (lo : Nat) : Nat → Bool
  | 0 => gs lo
  | d + 1 => gs (lo + d + 1) || (ps (lo + d + 1) && group_g gs ps lo d)

/-- Group propagate signal of the bits `lo, ..., lo + d`. -/
def group_p (ps : Nat → Bool) (lo : Nat) : Nat → Bool
  | 0 => ps lo
  | d + 1 => ps (lo + d + 1) && group_p ps lo d

/-! ## Invariants of the generate/propagate state -/

/-- Node `m` of a state (a default node outside the vector). -/
def node (pg : List PG) (m : Nat) : PG := pg.getD m ⟨false, false, 0, 0⟩

/-- Node `m` summarises the bits `end, ..., m` of the sequences `gs`, `ps`. -/
def node_ok (gs ps : Nat → Bool) (m : Nat) (x : PG) : Prop :=
  x.begin_ = m ∧ x.end_ ≤ m ∧ x.g = group_g gs ps x.end_ (m - x.end_)
    ∧ x.p = group_p ps x.end_ (m - x.end_)

/-- Every node of the state summarises a range of bits that ends at its own index. -/
def state_ok (gs ps : Nat → Bool) (pg : List PG) : Prop :=
  ∀ m, m < pg.length → node_ok gs ps m (node pg m)

/-- The ranges of the nodes are nested or disjoint: a range that reaches down to a lower
node contains the whole range of that node. -/
def laminar (pg : List PG) : Prop :=
  ∀ m k, m < k → k < pg.length → (node pg k).end_ ≤ m → (node pg k).end_ ≤ (node pg m).end_

/-- All nodes are fully reduced. -/
def all_reduced (pg : List PG) : Prop := ∀ m, m < pg.length → (node pg m).end_ = 0

/-- Number of nodes that are not yet fully reduced. -/
def pending : List PG → Nat
  | [] => 0
  | x :: rest => (if x.end_ = 0 then 0 else 1) + pending rest

/-- Generate sequence after the input carry has been folded into bit 0. -/
def folded_g (gs ps : Nat → Bool) (c : Bool) : Nat → Bool :=
  fun i => if i = 0 then gs 0 || (ps 0 && c) else gs i

/-- Propagate sequence after the input carry has been folded into bit 0. -/
def folded_p (ps : Nat → Bool) : Nat → Bool :=
  fun i => if i = 0 then ps 0 && false else ps i

/-- Range invariant of the Kogge-Stone rounds: before round `j` node `m` reaches down
to `m + 1 - 2^j` (to 0 when that is negative). -/
def kogge_stone_inv (j : Nat) (pg : List PG) : Prop :=
  ∀ m, m < pg.length → (node pg m).end_ = m + 1 - 2 ^ j

/-- Range invariant of the Brent-Kung down-sweep: before round `j` node `m` covers the
aligned block of `2^t` bits that ends at `m`, where `2^t` is the largest power of two
that divides `m + 1` and does not exceed `2^j`. -/
def brent_kung_inv (j : Nat) (pg : List PG) : Prop :=
  ∀ m, m < pg.length → ∀ t, t ≤ j → 2 ^ t ∣ m + 1 → (t = j ∨ ¬ 2 ^ (t + 1) ∣ m + 1) →
    (node pg m).end_ + 2 ^ t = m + 1

/-- Range invariant inside round `j` of the down-sweep, when the loop variable is `i`:
the nodes `m < i + 2^j` with `2^(j+1)` dividing `m + 1` have absorbed their neighbour. -/
def brent_kung_mid (j i : Nat) (pg : List PG) : Prop :=
  (∀ m, m < pg.length → ∀ t, t < j → 2 ^ t ∣ m + 1 → ¬ 2 ^ (t + 1) ∣ m + 1 →
      (node pg m).end_ + 2 ^ t = m + 1)
  ∧ (∀ m, m < pg.length → 2 ^ j ∣ m + 1 →
      ((2 ^ (j + 1) ∣ m + 1 ∧ m < i + 2 ^ j) → (node pg m).end_ + 2 ^ (j + 1) = m + 1)
      ∧ (¬ (2 ^ (j + 1) ∣ m + 1 ∧ m < i + 2 ^ j) → (node pg m).end_ + 2 ^ j = m + 1))

/-- Range invariant of the Han-Carlson rounds `j ≥ 2`: every fourth node follows the
Kogge-Stone doubling, the other nodes keep the blocks of the first two rounds. -/
def han_carlson_inv (j : Nat) (pg : List PG) : Prop :=
  ∀ m, m < pg.length →
    (m % 4 = 3 → (node pg m).end_ = m + 1 - 2 ^ j)
    ∧ (m % 4 = 1 → (node pg m).end_ + 1 = m)
    ∧ (m % 2 = 0 → (node pg m).end_ = m)

/-- Range invariant inside a Han-Carlson round `j ≥ 2`, when the loop variable is `i`. -/
def han_carlson_mid (j i : Nat) (pg : List PG) : Prop :=
  ∀ m, m < pg.length →
    (m % 4 = 3 →
      (node pg m).end_ = if m < i + 2 ^ j then m + 1 - 2 ^ (j + 1) else m + 1 - 2 ^ j)
    ∧ (m % 4 = 1 → (node pg m).end_ + 1 = m)
    ∧ (m % 2 = 0 → (node pg m).end_ = m)

/-- Ranges at the end of the Han-Carlson rounds. -/
def han_carlson_final (pg : List PG) : Prop :=
  ∀ m, m < pg.length →
    (m % 4 = 3 → (node pg m).end_ = 0)
    ∧ (m % 4 = 1 → (node pg m).end_ + 1 = m)
    ∧ (m % 2 = 0 → (node pg m).end_ = m)

/-! ## Word-level helpers of the network library -/

/-- Modelled from the spec: `naryOr(signals)` of the network capability contract, the
disjunction of all the signals (false for no signal). -/
def Ntk.create_nary_or (l : List Signal) : Signal := l.foldl (fun acc s => acc || s) false

/-- Modelled from the spec: the if-then-else gate behind the word-level multiplexers of
the network library. -/
def Ntk.create_ite (cond f_then f_else : Signal) : Signal := if cond then f_then else f_else

/-- Modelled from the spec: the word-level multiplexer `mux(ntk, cond, t, e)` of the
network library ("a multiplexer gated on the borrow signal"): entry `i` is
`cond ? t[i] : e[i]`, for every entry of `t`. -/
def mux_word (cond : Signal) (t e : List Signal) : List Signal :=
  List.zipWith (fun x y => Ntk.create_ite cond x y) t e

/-- Modelled from the spec: the in-place word-level multiplexer
`mux_inplace(ntk, cond, t, e)` of the network library; the result is the new content
of `t`. -/
def mux_inplace (cond : Signal) (t e : List Signal) : List Signal :=
  List.zipWith (fun x y => Ntk.create_ite cond x y) t e

/-- Modelled from the spec: `zero_extend(ntk, a, bitwidth)` of the network library
("zero-extend every row to `n+m` bits"): constant-false entries are appended until the
vector has `bitwidth` entries. -/
def zero_extend (a : List Signal) (bitwidth : Nat) : List Signal :=
  a ++ List.replicate (bitwidth - a.length) (Ntk.get_constant false)

/-- Modelled from the spec: `constant_word(ntk, value, bitwidth)` of the network library,
the `bitwidth` low bits of `value` as constant signals. -/
def constant_word (value : Nat) (bitwidth : Nat) : List Signal :=
  (List.range bitwidth).map (fun i => Ntk.get_constant (Nat.testBit value i))

/-! ## Dividers -/

/-- Ways a call can end without a result. -/
inductive Failure where
  /-- The assertion `a.size() == b.size()` of the function itself failed. -/
  | size_assertion
  /-- A generator called by the function failed. -/
  | inner
  /-- The source leaves defined behaviour: an exception of the standard library or an
  access outside a vector. -/
  | undefined
deriving DecidableEq

/-- The type of the in-place generators that can be plugged into the divider and the
multiplier: the result is the new content of the first operand and of the carry. -/
abbrev Inplace := List Signal → List Signal → Signal → Option (List Signal × Signal)

/-- The loop of `restoring_array_divider`; the state is `(y, quo, p_rem)` and the first
argument is the number of iterations that remain. -/
def restoring_array_divider_loop (cap : Capability) :
    Nat → List Signal × List Signal × List Signal →
      Except Failure (List Signal × List Signal × List Signal)
  | 0, st => .ok st
  | r + 1, (y, quo, p_rem) =>
    let tmp := p_rem
    match borrow_ripple_subtractor_inplace cap p_rem y (get_constant false) with
    | none => .error Failure.inner
    | some (p_rem, borrow) =>
      let back := create_not borrow
      let quo := quo ++ [back]
      let p_rem := mux_inplace back p_rem tmp
      match y, p_rem with
      | _ :: y, _ :: _ => restoring_array_divider_loop cap r (y, quo, p_rem.dropLast)
      | _, _ => .error Failure.undefined

/-- The generator `restoring_array_divider`: the result is the pair `(quo, p_rem)`. -/
def restoring_array_divider (cap : Capability) (a b : List Signal) :
    Except Failure (List Signal × List Signal) :=
  if a.length ≠ b.length then .error Failure.size_assertion
  else
    let x := a
    let y := b
    let N := x.length
    if N = 0 then .error Failure.undefined
    else
      let y := List.replicate (N - 1) (get_constant false) ++ y
      let quo : List Signal := []
      let p_rem := x
      let p_rem := zero_extend p_rem y.length
      match restoring_array_divider_loop cap N (y, quo, p_rem) with
      | .error e => .error e
      | .ok (_, quo, p_rem) => .ok (quo.reverse, p_rem)

/-- The loop of `restoring_array_divider_advance`; the state is `(y, quo, p_rem)` and the
first argument is the distance of `i` from `N`. -/
def restoring_array_divider_advance_loop (N : Nat) (func : Inplace) :
    Nat → List Signal × List Signal × List Signal →
      Except Failure (List Signal × List Signal × List Signal)
  | 0, st => .ok st
  | r + 1, (y, quo, p_rem) =>
    if y.length > N then
      let y_mNbit := y.drop N
      let y_lNbit := y.take N
      let cond := create_nary_or y_mNbit
      let tmp_prem := p_rem
      let borrow := get_constant false
      match func p_rem y_lNbit borrow with
      | none => .error Failure.inner
      | some (p_rem, borrow) =>
        let quo := quo ++ [mux cond (create_not cond) (create_not borrow)]
        let p_rem := mux_word cond tmp_prem (mux_word borrow tmp_prem p_rem)
        match y with
        | _ :: y => restoring_array_divider_advance_loop N func r (y, quo, p_rem)
        | [] => .error Failure.undefined
    else .ok (y, quo, p_rem)

/-- The generator `restoring_array_divider_advance` with the pluggable subtractor
`func`: the result is the pair `(quo, p_rem)`. -/
def restoring_array_divider_advance (a b : List Signal) (func : Inplace) :
    Except Failure (List Signal × List Signal) :=
  if a.length ≠ b.length then .error Failure.size_assertion
  else
    let logic0 := get_constant false
    let x := a
    let y := b
    let N := x.length
    if N = 0 then .error Failure.undefined
    else
      let y := List.replicate (N - 1) logic0 ++ y
      let quo : List Signal := []
      let p_rem := x
      match restoring_array_divider_advance_loop N func N (y, quo, p_rem) with
      | .error e => .error e
      | .ok (y, quo, p_rem) =>
        let tmp_prem := p_rem
        let y_lNbit := y.take N
        let borrow := logic0
        match func p_rem y_lNbit borrow with
        | none => .error Failure.inner
        | some (p_rem, borrow) =>
          let back := create_not borrow
          let quo := quo ++ [back]
          let p_rem := mux_inplace back p_rem tmp_prem
          match y with
          | _ :: _ => .ok (quo.reverse, p_rem)
          | [] => .error Failure.undefined

/-! ## Multipliers -/

/-- The cell `kogge_stone_full_adder`: a one-bit call of `kogge_stone_adder_inplace`. -/
def kogge_stone_full_adder (a b c : Signal) : Option (Signal × Signal) :=
  let A := [a]
  let B := [b]
  let carry := create_buf c
  match kogge_stone_adder_inplace A B carry with
  | some (A, carry) =>
    match A[0]? with
    | some s => some (s, carry)
    | none => none
  | none => none

/-- Inner loop of the first phase of `new_multiplier`, for the row of `b[j]`: the state
is `(res, tmp)`, `i` runs over the bits of `a`. -/
def new_multiplier_row (a : List Signal) (bj : Signal) (j : Nat) :
    Nat → Nat → List Signal × List Signal → Option (List Signal × List Signal)
  | 0, _, st => some st
  | r + 1, i, (res, tmp) =>
    match a[i]?, tmp[a.length + i]?, tmp[i]? with
    | some ai, some s, some c =>
      match kogge_stone_full_adder (create_and ai bj) s c with
      | some (sum, carry) =>
        let st := if i ≠ 0 then (res, tmp.set (a.length + i - 1) sum) else (res.set j sum, tmp)
        new_multiplier_row a bj j r (i + 1) (st.1, st.2.set i carry)
      | none => none
    | _, _, _ => none

/-- Outer loop of the first phase of `new_multiplier`: `j` runs over the bits of `b`. -/
def new_multiplier_rows (a : List Signal) :
    List Signal → Nat → List Signal × List Signal → Option (List Signal × List Signal)
  | [], _, st => some st
  | bj :: rest, j, st =>
    match new_multiplier_row a bj j a.length 0 st with
    | some st => new_multiplier_rows a rest (j + 1) st
    | none => none

/-- Second phase of `new_multiplier`: the carry resolution over the last row; the state
is `(res, carry)`. -/
def new_multiplier_resolve (n m : Nat) (tmp : List Signal) :
    Nat → Nat → List Signal × Signal → Option (List Signal × Signal)
  | 0, _, st => some st
  | r + 1, i, (res, carry) =>
    match tmp[i]?, tmp[n + i]? with
    | some x, some y =>
      match kogge_stone_full_adder x y carry with
      | some (sum, carry) => new_multiplier_resolve n m tmp r (i + 1) (res.set (m + i) sum, carry)
      | none => none
    | _, _ => none

/-- The generator `new_multiplier`. -/
def new_multiplier (a b : List Signal) : Option (List Signal) :=
  let res := constant_word 0 (a.length + b.length)
  let tmp := constant_word 0 (a.length * 2)
  match new_multiplier_rows a b 0 (res, tmp) with
  | none => none
  | some (res, tmp) =>
    if tmp.length = 0 then none
    else
      let tmp := tmp.set (tmp.length - 1) (get_constant false)
      let carry := get_constant false
      match new_multiplier_resolve a.length b.length tmp a.length 0 (res, carry) with
      | some (res, _) => some res
      | none => none

/-- The loop "partial_product generation" of `advance_multiplier`. -/
def partial_products (a b : List Signal) : List (List Signal) :=
  b.map (fun bj => a.map (fun ai => create_and ai bj))

/-- The loop "extend partial_product to a+b bit" of `advance_multiplier`: row `i` gets
`i` constant-false entries in front and is zero-extended to `res_bit` entries. -/
def extend_partial_products (res_bit : Nat) : Nat → List (List Signal) → List (List Signal)
  | _, [] => []
  | i, row :: rest =>
    (if i = 0 then zero_extend row res_bit
      else zero_extend (List.replicate i (get_constant false) ++ row) res_bit)
      :: extend_partial_products res_bit (i + 1) rest

/-- The adder loop of `advance_multiplier`: row `i` is added into row `i + 1`; the state
is `(partial_product, multiplier_result)` and the first argument is the distance of `i`
from `partial_product.size() - 1`. -/
def advance_multiplier_loop (func : Inplace) :
    Nat → Nat → List (List Signal) × List Signal → Option (List (List Signal) × List Signal)
  | 0, _, st => some st
  | r + 1, i, (partial_product, multiplier_result) =>
    match partial_product[i + 1]?, partial_product[i]? with
    | some x, some y =>
      match func x y (get_constant false) with
      | some (x, _) =>
        let partial_product := partial_product.set (i + 1) x
        let multiplier_result :=
          if i = partial_product.length - 2 then x else multiplier_result
        advance_multiplier_loop func r (i + 1) (partial_product, multiplier_result)
      | none => none
    | _, _ => none

/-- The generator `advance_multiplier` with the pluggable adder `func`; `none` where the
source leaves defined behaviour or `func` fails. -/
def advance_multiplier (a b : List Signal) (func : Inplace) : Option (List Signal) :=
  let res_bit := a.length + b.length
  let partial_product := partial_products a b
  let partial_product := extend_partial_products res_bit 0 partial_product
  let multiplier_result : List Signal := []
  if partial_product.length = 0 then none
  else
    match advance_multiplier_loop func (partial_product.length - 1) 0
        (partial_product, multiplier_result) with
    | some (_, multiplier_result) => some multiplier_result
    | none => none

/-! ## The multiplier command -/

/-- The generators the multiplier command can call. -/
inductive Generator where
  | carry_ripple_multiplier
  | new_multiplier
  | advance_brent_kung
  | advance_kogge_stone
  | advance_han_carlson
deriving DecidableEq

/-- Observable steps of a shell command, in program order; the network is the local
`aig` of the command. -/
inductive Event where
  /-- Text sent to `std::cout`. -/
  | print (text : String)
  /-- Text sent to `std::cerr`. -/
  | print_error (text : String)
  /-- A primary input is created in the network. -/
  | create_pi
  /-- A generator builds its gates in the network, on operands of `n` and `m` bits. -/
  | build (g : Generator) (n m : Nat)
  /-- The assertion on the size of the result fails. -/
  | assertion_failed
  /-- The generator leaves defined behaviour. -/
  | undefined
  /-- A primary output is created in the network. -/
  | create_po
  /-- The call `cleanup_dangling(aig)`. -/
  | cleanup_dangling
  /-- The network is added to the AIG store (`extend()` and assignment to `current()`). -/
  | store_extend
  /-- The call `MagicLS::print_stats(aig)`. -/
  | print_stats
  /-- The call `exit(status)`. -/
  | exit (status : Nat)
deriving DecidableEq

/-- Options of the multiplier command as the shell hands them over: an option that is
not set is `none`, a flag that is not set is `false`. -/
structure MultiplierOptions where
  bit : Option Nat
  bit1 : Option Nat
  carry_ripple_multiplier : Bool
  new_multiplier : Bool
  advance : Option String

/-- The operand set-up shared by the branches of `multiplier_command::execute`: the
message printed and the sizes of `a` and `b`. -/
def operand_setup (BIT : Nat) (bit1 : Option Nat) : List Event × Nat × Nat :=
  match bit1 with
  | some BIT_1 =>
    ([Event.print ("multiplicand bit: " ++ toString BIT ++ " multiplier bit: "
        ++ toString BIT_1)], BIT, BIT_1)
  | none =>
    ([Event.print ("multiplicand and multiplier bit are same: " ++ toString BIT)], BIT, BIT)

/-- The statements of a branch after the generator has returned a vector of `size`
signals: primary outputs, clean-up, store and statistics. -/
def publish (size : Nat) : List Event :=
  List.replicate size Event.create_po
    ++ [Event.cleanup_dangling, Event.store_extend, Event.print_stats]

/-- Size of the vector `advance_multiplier` returns on operands of `n` and `m` bits; the
size does not depend on the values the signals take, it is read off at the assignment
where every primary input is false. -/
def advance_multiplier_size (n m : Nat) (func : Inplace) : Option Nat :=
  (advance_multiplier (List.replicate n false) (List.replicate m false) func).map List.length

/-- The statements of the branch `--advance` after the adder has been selected. -/
def advance_branch (g : Generator) (func : Inplace) (text : String) (n m : Nat) :
    List Event :=
  [Event.print text, Event.build g n m]
    ++ (match advance_multiplier_size n m func with
        | none => [Event.undefined]
        | some size =>
          if size = n + m then publish size else [Event.assertion_failed])

/-- The method `multiplier_command::execute`, as the list of its observable steps. -/
def multiplier_command_execute (opts : MultiplierOptions) : List Event :=
  match opts.bit with
  | none => []
  | some BIT =>
    if opts.carry_ripple_multiplier then
      let s := operand_setup BIT opts.bit1
      [Event.print "carry_ripple_multiplier\n"] ++ s.1
        ++ List.replicate s.2.1 Event.create_pi ++ List.replicate s.2.2 Event.create_pi
        ++ [Event.build Generator.carry_ripple_multiplier s.2.1 s.2.2]
        ++ publish (s.2.1 + s.2.2)
    else if opts.new_multiplier then
      let s := operand_setup BIT opts.bit1
      [Event.print "multiplier based on kogge-stone based full adder\n"] ++ s.1
        ++ List.replicate s.2.1 Event.create_pi ++ List.replicate s.2.2 Event.create_pi
        ++ [Event.build Generator.new_multiplier s.2.1 s.2.2]
        ++ publish (s.2.1 + s.2.2)
    else
      match opts.advance with
      | some func =>
        let s := operand_setup BIT opts.bit1
        s.1 ++ List.replicate s.2.1 Event.create_pi ++ List.replicate s.2.2 Event.create_pi
          ++ (if func = "brent-kung" then
                advance_branch Generator.advance_brent_kung brent_kung_adder_inplace
                  "multiplier based on partial product adder function: brent-kung\n"
                  s.2.1 s.2.2
              else if func = "kogge-stone" then
                advance_branch Generator.advance_kogge_stone kogge_stone_adder_inplace
                  "multiplier based on partial product adder function: kogge-stone\n"
                  s.2.1 s.2.2
              else if func = "han-carlson" then
                advance_branch Generator.advance_han_carlson han_carlson_adder_inplace
                  "multiplier based on partial product adder function: han-carlson\n"
                  s.2.1 s.2.2
              else
                [Event.print ("error: no " ++ func ++ "function!"), Event.exit 1])
      | none => [Event.print_error "select one flag!"]

/-- The contract the divider asks of its pluggable subtractor: on operands of `N` bits
and borrow-in false it leaves `(p - y) mod 2^N` in `p` and `[p < y]` in `borrow`. -/
def is_subtractor (N : Nat) (func : Inplace) : Prop :=
  ∀ p y : List Signal, p.length = N → y.length = N →
    func p y false
      = some (low_bits N ((((value p : Int) - value y) % 2 ^ N).toNat),
          decide (value p < value y))

/-- Sum bit of cell `k` in a row of `new_multiplier`: the partial product `a[k] AND b[j]`
added to the sum and carry bits `tmp[n + k]`, `tmp[k]` the row starts from. -/
def row_sum (a tmp0 : List Signal) (bj : Signal) (k : Nat) : Bool :=
  xor (xor (bit_at a k && bj) (bit_at tmp0 (a.length + k))) (bit_at tmp0 k)

/-- Carry bit of cell `k` in a row of `new_multiplier`. -/
def row_carry (a tmp0 : List Signal) (bj : Signal) (k : Nat) : Bool :=
  ((bit_at a k && bj) && bit_at tmp0 (a.length + k))
    || (xor (bit_at a k && bj) (bit_at tmp0 (a.length + k)) && bit_at tmp0 k)

/-! ## The adder command on the ripple subtractor -/

/-- The branch `borrow_ripple_subtractor` of `adder_command::execute`, on a network with
the capabilities `cap`: `x` and `y` are the values of the primary inputs behind `a` and
behind `b`, the result lists the values of the primary outputs in the order of their
creation. -/
def adder_borrow_ripple (cap : Capability) (x y : List Signal) : Option (List Signal) :=
  let borrow := get_constant true
  let a := x
  let b := y.map create_not
  match borrow_ripple_subtractor_inplace cap a b borrow with
  | some (a, borrow) => some (a ++ [create_not borrow])
  | none => none

/-! ## The calls of the combine operator -/

/-- One call `pg[x].o_operation(ntk, other)`: the index `x` of the node that is updated,
the node `X` as it is when the call is made, and the argument `Y` passed as `other`. -/
structure Call where
  x : Nat
  X : PG
  Y : PG
deriving DecidableEq

/-- The statement `pg[x].o_operation(ntk, src[y])` on a state that also lists the calls
made so far. -/
def o_call (st : List PG × List Call) (x : Nat) (src : List PG) (y : Nat) :
    List PG × List Call :=
  match st.1[x]?, src[y]? with
  | some X, some Y => (o_at st.1 x src y, st.2 ++ [⟨x, X, Y⟩])
  | _, _ => st

/-- The loop `brent_kung_inner` on a state that lists the calls. -/
def brent_kung_inner_calls (j : Nat) :
    Nat → Nat → List PG × List Call → List PG × List Call
  | 0, _, st => st
  | fuel + 1, i, st =>
    if i < st.1.length then
      if i + 2 ^ j ≥ st.1.length then brent_kung_inner_calls j fuel (i + 2 ^ (j + 1)) st
      else brent_kung_inner_calls j fuel (i + 2 ^ (j + 1)) (o_call st (i + 2 ^ j) st.1 i)
    else st

/-- The loop `brent_kung_first_round` on a state that lists the calls. -/
def brent_kung_first_round_calls :
    Nat → Nat → List PG × List Call → List PG × List Call
  | 0, _, st => st
  | rounds + 1, j, st =>
    if last_end st.1 ≠ 0 then
      brent_kung_first_round_calls rounds (j + 1)
        (brent_kung_inner_calls j st.1.length (2 ^ j - 1) st)
    else st

/-- The loop `kogge_stone_inner` on a state that lists the calls. -/
def kogge_stone_inner_calls (j : Nat) (pg_bak : List PG) :
    Nat → Nat → List PG × List Call → List PG × List Call
  | 0, _, st => st
  | fuel + 1, i, st =>
    if i < st.1.length then
      if i + 2 ^ j ≥ st.1.length then st
      else kogge_stone_inner_calls j pg_bak fuel (i + 1) (o_call st (i + 2 ^ j) pg_bak i)
    else st

/-- The loop `kogge_stone_rounds` on a state that lists the calls. -/
def kogge_stone_rounds_calls :
    Nat → Nat → List PG × List Call → List PG × List Call
  | 0, _, st => st
  | rounds + 1, j, st =>
    if last_end st.1 ≠ 0 then
      kogge_stone_rounds_calls rounds (j + 1)
        (kogge_stone_inner_calls j st.1 st.1.length 0 st)
    else st

/-- The loop `han_carlson_inner` on a state that lists the calls. -/
def han_carlson_inner_calls (j : Nat) (pg_bak : List PG) :
    Nat → Nat → List PG × List Call → List PG × List Call
  | 0, _, st => st
  | fuel + 1, i, st =>
    if i < st.1.length then
      if i + 2 ^ j ≥ st.1.length then han_carlson_inner_calls j pg_bak fuel (i + 2 ^ 2) st
      else han_carlson_inner_calls j pg_bak fuel (i + 2 ^ 2) (o_call st (i + 2 ^ j) pg_bak i)
    else st

/-- The loop `han_carlson_rounds` on a state that lists the calls. -/
def han_carlson_rounds_calls :
    Nat → Nat → List PG × List Call → List PG × List Call
  | 0, _, st => st
  | rounds + 1, j, st =>
    if last_end st.1 ≠ 0 then
      if j < 2 then
        han_carlson_rounds_calls rounds (j + 1)
          (brent_kung_inner_calls j st.1.length (2 ^ j - 1) st)
      else
        han_carlson_rounds_calls rounds (j + 1)
          (han_carlson_inner_calls j st.1 st.1.length (2 ^ 2 - 1) st)
    else st

/-- The loop `second_round` on a state that lists the calls. -/
def second_round_calls :
    Nat → Nat → List PG × List Call → Option (List PG × List Call)
  | 0, _, _ => none
  | fuel + 1, i, st =>
    if i = st.1.length then some st
    else if rev_end st.1 i = 0 then second_round_calls fuel (i + 1) st
    else
      let j := find_j st.1 st.1.length i
      let k := find_k st.1 j st.1.length i
      if j < st.1.length ∧ k < st.1.length then
        let st1 := o_call st (st.1.length - 1 - k) st.1 (st.1.length - 1 - j)
        if k ≠ i then second_round_calls fuel i st1
        else second_round_calls fuel (i + 1) st1
      else none

/-- The vector `pg` of `kogge_stone_adder_inplace` when the round loop is reached, with
the calls made until then. -/
def kogge_stone_adder_start (a b : List Signal) (carry : Signal) :
    Option (List PG × List Call) :=
  if a.length = 0 ∨ b.length < a.length then none
  else
    let gen := List.zipWith (fun f g => create_and f g) a b
    let pro := List.zipWith (fun f g => create_xor f g) a b
    let pg := pg_build a.length 0 gen pro
    let pg0 := PG.new carry (get_constant false) a.length 0
    some (o_call (pg, []) 0 [pg0] 0)

/-- The vector `pg` of `kogge_stone_subtractor_inplace` when the round loop is reached. -/
def kogge_stone_subtractor_start (a b : List Signal) (borrow : Signal) :
    Option (List PG × List Call) :=
  if a.length = 0 ∨ b.length < a.length then none
  else
    let gen := List.zipWith (fun f g => create_and (create_not f) g) a b
    let pro := List.zipWith (fun f g => create_or (create_not f) g) a b
    let pg := pg_build a.length 0 gen pro
    let pg0 := PG.new borrow (get_constant false) a.length 0
    some (o_call (pg, []) 0 [pg0] 0)

/-- The vector `pg` of `brent_kung_adder_inplace` when the down-sweep is reached. -/
def brent_kung_adder_start (a b : List Signal) (carry : Signal) :
    Option (List PG × List Call) :=
  if a.length = 0 ∨ b.length < a.length then none
  else
    let gen := List.zipWith (fun f g => create_and f g) a b
    let pro := List.zipWith (fun f g => create_xor f g) a b
    let pg := pg_build a.length 0 gen pro
    let pg0 := PG.new carry (get_constant false) a.length 0
    some (o_call (pg, []) 0 [pg0] 0)

/-- The vector `pg` of `brent_kung_subtractor_inplace` when the down-sweep is reached;
no call has been made. -/
def brent_kung_subtractor_start (a b : List Signal) :
    Option (List PG × List Call) :=
  if a.length = 0 ∨ b.length < a.length then none
  else
    let gen := List.zipWith (fun f g => create_and (create_not f) g) a b
    let pro := List.zipWith (fun f g => create_or (create_not f) g) a b
    let pg := pg_build a.length 0 gen pro
    some (pg, [])

/-- The vector `pg` of `han_carlson_adder_inplace` when the round loop is reached, on
more than four bits (on fewer bits the function returns before the loop); no call has
been made. -/
def han_carlson_adder_start (a b : List Signal) : Option (List PG × List Call) :=
  if a.length ≤ 4 then none
  else if b.length < a.length then none
  else
    let gen := List.zipWith (fun f g => create_and f g) a b
    let pro := List.zipWith (fun f g => create_xor f g) a b
    let pg := pg_build a.length 0 gen pro
    some (pg, [])

/-- The vector `pg` of `han_carlson_subtractor_inplace` when the round loop is reached,
on more than four bits. -/
def han_carlson_subtractor_start (a b : List Signal) : Option (List PG × List Call) :=
  if a.length ≤ 4 then none
  else if b.length < a.length then none
  else
    let gen := List.zipWith (fun f g => create_and (create_not f) g) a b
    let pro := List.zipWith (fun f g => create_or (create_not f) g) a b
    let pg := pg_build a.length 0 gen pro
    some (pg, [])

/-- The state of `kogge_stone_adder_inplace` after `r` rounds of its loop, or at the end
of the loop when it has fewer rounds. -/
def kogge_stone_adder_rounds (a b : List Signal) (carry : Signal) (r : Nat) :
    Option (List PG × List Call) :=
  match kogge_stone_adder_start a b carry with
  | some st => some (kogge_stone_rounds_calls (min r (ceil_log2 st.1.length)) 0 st)
  | none => none

/-- The state of `kogge_stone_subtractor_inplace` after `r` rounds of its loop, or at
the end of the loop when it has fewer rounds. -/
def kogge_stone_subtractor_rounds (a b : List Signal) (borrow : Signal) (r : Nat) :
    Option (List PG × List Call) :=
  match kogge_stone_subtractor_start a b borrow with
  | some st => some (kogge_stone_rounds_calls (min r (ceil_log2 st.1.length)) 0 st)
  | none => none

/-- The state of `brent_kung_adder_inplace` after `r` rounds of the down-sweep, or at
the end of the down-sweep when it has fewer rounds. -/
def brent_kung_adder_rounds (a b : List Signal) (carry : Signal) (r : Nat) :
    Option (List PG × List Call) :=
  match brent_kung_adder_start a b carry with
  | some st => some (brent_kung_first_round_calls (min r (ceil_log2 st.1.length)) 0 st)
  | none => none

/-- The state of `han_carlson_adder_inplace` after `r` rounds of its round loop, or at
the end of the loop when it has fewer rounds. -/
def han_carlson_adder_rounds (a b : List Signal) (r : Nat) :
    Option (List PG × List Call) :=
  match han_carlson_adder_start a b with
  | some st => some (han_carlson_rounds_calls (min r (ceil_log2 st.1.length)) 0 st)
  | none => none

/-- The nodes of `kogge_stone_adder_inplace` when the carry assembly starts, with the
calls made until then. -/
def kogge_stone_adder_nodes (a b : List Signal) (carry : Signal) :
    Option (List PG × List Call) :=
  match kogge_stone_adder_start a b carry with
  | some st => some (kogge_stone_rounds_calls (ceil_log2 st.1.length) 0 st)
  | none => none

/-- The nodes of `kogge_stone_subtractor_inplace` when the carry assembly starts. -/
def kogge_stone_subtractor_nodes (a b : List Signal) (borrow : Signal) :
    Option (List PG × List Call) :=
  match kogge_stone_subtractor_start a b borrow with
  | some st => some (kogge_stone_rounds_calls (ceil_log2 st.1.length) 0 st)
  | none => none

/-- The nodes of `brent_kung_adder_inplace` when the carry assembly starts. -/
def brent_kung_adder_nodes (a b : List Signal) (carry : Signal) :
    Option (List PG × List Call) :=
  match brent_kung_adder_start a b carry with
  | some st =>
    let st := brent_kung_first_round_calls (ceil_log2 st.1.length) 0 st
    second_round_calls (2 * st.1.length) 0 st
  | none => none

/-- The nodes of `brent_kung_subtractor_inplace` when the carry assembly starts. -/
def brent_kung_subtractor_nodes (a b : List Signal) : Option (List PG × List Call) :=
  match brent_kung_subtractor_start a b with
  | some st =>
    let st := brent_kung_first_round_calls (ceil_log2 st.1.length) 0 st
    second_round_calls (2 * st.1.length) 0 st
  | none => none

/-- The nodes of `han_carlson_adder_inplace` when the carry assembly starts; on at most
four bits they are those of `brent_kung_adder_inplace`. -/
def han_carlson_adder_nodes (a b : List Signal) (carry : Signal) :
    Option (List PG × List Call) :=
  if a.length ≤ 4 then brent_kung_adder_nodes a b carry
  else
    match han_carlson_adder_start a b with
    | some st =>
      let st := han_carlson_rounds_calls (ceil_log2 st.1.length) 0 st
      second_round_calls (2 * st.1.length) 0 st
    | none => none

/-- The nodes of `han_carlson_subtractor_inplace` when the carry assembly starts; on at
most four bits they are those of `brent_kung_subtractor_inplace`. -/
def han_carlson_subtractor_nodes (a b : List Signal) : Option (List PG × List Call) :=
  if a.length ≤ 4 then brent_kung_subtractor_nodes a b
  else
    match han_carlson_subtractor_start a b with
    | some st =>
      let st := han_carlson_rounds_calls (ceil_log2 st.1.length) 0 st
      second_round_calls (2 * st.1.length) 0 st
    | none => none

/-- The ranges of a call lie side by side: the range of `other` is not empty and ends one
below the least index of the range of the node, which is not empty either. -/
def adjacent (c : Call) : Prop :=
  c.Y.end_ ≤ c.Y.begin_ ∧ c.Y.begin_ + 1 = c.X.end_ ∧ c.X.end_ ≤ c.X.begin_

/-- What round `j` of the Kogge-Stone loop makes of the state `S`, the state `T`: every
node `m` of `T` reaches down to `m + 1 - 2^(j+1)` (to 0 when that is negative), every
node `m ≥ 2^j` is node `m` of `S` combined with node `m - 2^j` of `S`, the nodes below
`2^j` are those of `S`, and the calls of the round are one call for every node
`m ≥ 2^j`, in ascending order, with node `m - 2^j` of `S` as argument. -/
def kogge_stone_round (j : Nat) (S T : List PG × List Call) : Prop :=
  T.1.length = S.1.length
    ∧ (∀ m, m < S.1.length → (node T.1 m).end_ = m + 1 - 2 ^ (j + 1))
    ∧ (∀ m, m < S.1.length → 2 ^ j ≤ m →
        node T.1 m = (node S.1 m).o_operation (node S.1 (m - 2 ^ j)))
    ∧ (∀ m, m < 2 ^ j → node T.1 m = node S.1 m)
    ∧ T.2 = S.2 ++ (List.range (S.1.length - 2 ^ j)).map
        (fun i => ⟨i + 2 ^ j, node S.1 (i + 2 ^ j), node S.1 i⟩)

/-! ## Borrow lookahead subtractor -/

/-- The call `v.resize(n, x)` of the standard library: the first `n` entries are kept
and entries `x` are appended until the vector has `n` entries. -/
def resize (v : List Signal) (n : Nat) (x : Signal) : List Signal :=
  v.take n ++ List.replicate (n - v.length) x

/-- The type of the carry resolver `carry_lookahead_adder_inplace_rec`, a function of
the network library that works on iterators into `gen`, `pro` and `bor`: the generators
are embedded for any function `resolve gen pro bor` whose result is the new content of
the vector `bor`. -/
abbrev Resolver := List Signal → List Signal → List Signal → List Signal

/-- The generator `detail::borrow_lookahead_subtractor_inplace_pow2`; the result is the
new content of `a` and of `borrow`, which no statement of the function assigns.  The
entries of `bor` after the first hold value-initialised signals when the resolver is
called.  The resolver cannot change the size of `bor`: a result of another size is no
result of the source. -/
def borrow_lookahead_subtractor_inplace_pow2 (cap : Capability) (resolve : Resolver)
    (a b : List Signal) (borrow : Signal) : Option (List Signal × Signal) :=
  if a.length = 1 then
    match a[0]?, b[0]? with
    | some a0, some b0 => some ([(full_subtractor cap a0 b0 borrow).1], borrow)
    | _, _ => none
  else if b.length < a.length then none
  else
    let bor := borrow :: List.replicate a.length (get_constant false)
    let gen := List.zipWith (fun f g => create_and (create_not f) g) a b
    let pro := List.zipWith (fun f g => create_or (create_not f) g) a b
    let pro2 := List.zipWith (fun f g => create_xor f g) a b
    let bor := resolve gen pro bor
    if bor.length ≠ a.length + 1 then none
    else some (List.zipWith (fun f g => create_xor f g) pro2 bor, borrow)

/-- The generator `detail::borrow_lookahead_subtractor_inplace`; the result is the new
content of `a` and of `borrow`.  The source computes `log2` in floating point; here it
is the integer `ceil(log2(a.size() + 1))`. -/
def borrow_lookahead_subtractor_inplace (cap : Capability) (resolve : Resolver)
    (a b : List Signal) (borrow : Signal) : Option (List Signal × Signal) :=
  let log2 := ceil_log2 (a.length + 1)
  let a_ext := resize a (2 ^ log2) (get_constant false)
  let b_ext := resize b (2 ^ log2) (get_constant false)
  match borrow_lookahead_subtractor_inplace_pow2 cap resolve a_ext b_ext borrow with
  | none => none
  | some (a_ext, _) =>
    match a_ext[a.length]? with
    | some w => some (a_ext.take a.length, w)
    | none => none

/-- The carries of the serial recurrence, entry 0 first. -/
def carry_chain : List Signal → List Signal → Signal → List Signal
  | g :: gen, p :: pro, c => c :: carry_chain gen pro (create_or g (create_and p c))
  | _, _, c => [c]

/-- Modelled from the spec: the carry resolver `carry_lookahead_adder_inplace_rec` of
the network library ("recursively resolve carries within each half, then compose
across the midpoint boundary using the same combine operator"), by the carries it
leaves in `bor`: entry 0 is kept and entry `i + 1` is `gen[i] or (pro[i] and bor[i])`. -/
def carry_lookahead_adder_inplace_rec : Resolver :=
  fun gen pro bor => carry_chain gen pro (bit_at bor 0)

/-- The assumption on the carry resolver: on a block of `2^k` generate and propagate
signals it keeps the size of `bor` and the entry `bor[0]` and fills
`bor[i + 1] = gen[i] or (pro[i] and bor[i])` for every entry that is read afterwards
(the last entry, `bor[2^k]`, is not). -/
def is_carry_resolver (resolve : Resolver) : Prop :=
  ∀ (k : Nat) (gen pro bor : List Signal), gen.length = 2 ^ k → pro.length = 2 ^ k →
    bor.length = 2 ^ k + 1 →
    (resolve gen pro bor).length = 2 ^ k + 1
      ∧ bit_at (resolve gen pro bor) 0 = bit_at bor 0
      ∧ ∀ i, i + 1 < 2 ^ k →
          bit_at (resolve gen pro bor) (i + 1)
            = (bit_at gen i || (bit_at pro i && bit_at (resolve gen pro bor) i))

/-! ## The ripple subtractor that returns its result -/

/-- The loop of `borrow_ripple_subtractor`: `pa` runs over the copy `x` of `a`, `pb` over
`b`, and `z` carries the borrow; reading `pb` past the end of `b` is undefined. -/
def borrow_ripple_subtractor_loop (cap : Capability) :
    List Signal → List Signal → Signal → Option (List Signal × Signal)
  | [], _, z => some ([], z)
  | _ :: _, [], _ => none
  | xi :: pa, y :: pb, z =>
    let r := full_subtractor cap xi y z
    match borrow_ripple_subtractor_loop cap pa pb r.2 with
    | some (x, z) => some (r.1 :: x, z)
    | none => none

/-- The generator `borrow_ripple_subtractor` (not in place): the result is the returned
pair `{x, z}`; `none` when the size assertion fails. -/
def borrow_ripple_subtractor (cap : Capability) (a b : List Signal) (borrow : Signal) :
    Option (List Signal × Signal) :=
  if a.length = b.length then
    let x := a
    let z := borrow
    borrow_ripple_subtractor_loop cap x b z
  else none

/-! ## The invocations of the adder of `advance_multiplier` -/

/-- One invocation `func(ntk, x, y, carry)` of the pluggable adder: the two operands and
the carry as they are passed. -/
structure Invocation where
  x : List Signal
  y : List Signal
  carry : Signal
deriving DecidableEq

/-- The adder loop of `advance_multiplier` on a state that also lists the invocations of
`func` made so far. -/
def advance_multiplier_loop_calls (func : Inplace) :
    Nat → Nat → (List (List Signal) × List Signal) × List Invocation →
      Option ((List (List Signal) × List Signal) × List Invocation)
  | 0, _, st => some st
  | r + 1, i, ((partial_product, multiplier_result), calls) =>
    match partial_product[i + 1]?, partial_product[i]? with
    | some x, some y =>
      let carry := get_constant false
      match func x y carry with
      | some (x1, _) =>
        let partial_product := partial_product.set (i + 1) x1
        let multiplier_result :=
          if i = partial_product.length - 2 then x1 else multiplier_result
        advance_multiplier_loop_calls func r (i + 1)
          ((partial_product, multiplier_result), calls ++ [⟨x, y, carry⟩])
      | none => none
    | _, _ => none

/-- The generator `advance_multiplier` with the invocations of `func` it makes: the
result is the vector returned and the list of the invocations, in order. -/
def advance_multiplier_calls (a b : List Signal) (func : Inplace) :
    Option (List Signal × List Invocation) :=
  let res_bit := a.length + b.length
  let partial_product := partial_products a b
  let partial_product := extend_partial_products res_bit 0 partial_product
  let multiplier_result : List Signal := []
  if partial_product.length = 0 then none
  else
    match advance_multiplier_loop_calls func (partial_product.length - 1) 0
        ((partial_product, multiplier_result), []) with
    | some ((_, multiplier_result), calls) => some (multiplier_result, calls)
    | none => none

/-- The rows `advance_multiplier` adds up, after the extension loop. -/
def advance_multiplier_rows (a b : List Signal) : List (List Signal) :=
  extend_partial_products (a.length + b.length) 0 (partial_products a b)

/-- The sequential chain over the rows: the row accumulated after `i` additions is row 0
for `i = 0` and otherwise what `func` leaves in row `i` when the row accumulated so far
is added into it with carry-in constant false (empty where `func` fails). -/
def accumulated (func : Inplace) (rows : List (List Signal)) : Nat → List Signal
  | 0 => rows.getD 0 []
  | i + 1 =>
    match func (rows.getD (i + 1) []) (accumulated func rows i) (get_constant false) with
    | some (s, _) => s
    | none => []

/-- The assumption on a pluggable function that operands of `N` bits are accepted and
`N` bits are left in the first operand. -/
def keeps_width (N : Nat) (func : Inplace) : Prop :=
  ∀ x y : List Signal, x.length = N → y.length = N →
    ∃ s k, func x y (get_constant false) = some (s, k) ∧ s.length = N

/-- The contract of the adder of `advance_multiplier`: for operands of `N` bits and
carry-in false, `(x + y) mod 2^N` is left in the first operand. -/
def is_adder (N : Nat) (func : Inplace) : Prop :=
  ∀ x y : List Signal, x.length = N → y.length = N →
    ∃ k, func x y (get_constant false)
      = some (low_bits N ((value x + value y) % 2 ^ N), k)

/-! ## The restoring recurrence -/

/-- The quotient bits of `k` steps of restoring division on values, most significant
first: the step of weight `2^(k-1)` compares the partial remainder `R` with
`2^(k-1) * B`, yields 1 when it is not below, and subtracts in that case. -/
def restoring_quotient (B : Nat) : Nat → Nat → List Bool
  | 0, _ => []
  | k + 1, R =>
    decide (2 ^ k * B ≤ R)
      :: restoring_quotient B k (if 2 ^ k * B ≤ R then R - 2 ^ k * B else R)

/-- The partial remainder after `k` steps of restoring division on values. -/
def restoring_remainder (B : Nat) : Nat → Nat → Nat
  | 0, R => R
  | k + 1, R => restoring_remainder B k (if 2 ^ k * B ≤ R then R - 2 ^ k * B else R)

/-! ## The generators on an explicit state -/

/-- A call that receives the network `ntk`: a method of the network, a helper of the
network library (whose own calls are those of the library) or the pluggable
subtractor. -/
inductive Request where
  | get_constant
  | create_not
  | create_and
  | create_or
  | create_nor
  | create_maj
  | create_xor3
  | create_node
  | create_nary_or
  /-- The helper `zero_extend(ntk, ...)` of the network library. -/
  | zero_extend
  /-- The word-level helper `mux(ntk, ...)` of the network library. -/
  | mux
  /-- The helper `mux_inplace(ntk, ...)` of the network library. -/
  | mux_inplace
  /-- The call `func(ntk, ...)` of the pluggable subtractor. -/
  | func
deriving DecidableEq

/-- The requests of the cell `full_subtractor`, in program order. -/
def full_subtractor_requests (cap : Capability) : List Request :=
  if cap.has_create_node then [Request.create_node, Request.create_node]
  else if !cap.is_aig && cap.has_create_maj && cap.has_create_xor3 then
    [Request.create_maj, Request.create_xor3]
  else
    [Request.create_and, Request.create_and, Request.create_nor, Request.create_and,
      Request.create_and, Request.create_nor, Request.create_nor]

/-- What the caller of `borrow_ripple_subtractor_inplace` can observe: the requests made
to the network so far and the content of the reference parameters `a` and `borrow`. -/
structure RippleState where
  requests : List Request
  a : List Signal
  borrow : Signal
deriving DecidableEq

/-- The loop of `borrow_ripple_subtractor_inplace` with the requests it makes: every
iteration makes the requests of one cell and assigns `*pa` and `borrow`. -/
def borrow_ripple_loop_run (cap : Capability) :
    List Signal → List Signal → List Request × Signal →
      Option (List Request × List Signal × Signal)
  | [], _, (requests, borrow) => some (requests, [], borrow)
  | _ :: _, [], _ => none
  | x :: pa, y :: pb, (requests, borrow) =>
    let r := full_subtractor cap x y borrow
    match borrow_ripple_loop_run cap pa pb
        (requests ++ full_subtractor_requests cap, r.2) with
    | some (requests, rest, out) => some (requests, r.1 :: rest, out)
    | none => none

/-- The generator `borrow_ripple_subtractor_inplace` on the explicit state: the result
is the state in which the call ends and the way it ends.  The assertion is the first
statement; when it fails the call ends in the state in which the assertion is
evaluated. -/
def borrow_ripple_subtractor_inplace_run (cap : Capability) (b : List Signal)
    (s : RippleState) : RippleState × Except Failure Unit :=
  if s.a.length = b.length then
    match borrow_ripple_loop_run cap s.a b (s.requests, s.borrow) with
    | some (requests, a, borrow) => (⟨requests, a, borrow⟩, .ok ())
    | none => (s, .error Failure.undefined)
  else (s, .error Failure.size_assertion)

/-- The loop of `restoring_array_divider` with the requests made to the network; the
state is `(requests, y, quo, p_rem)`. -/
def restoring_array_divider_loop_run (cap : Capability) :
    Nat → List Request × List Signal × List Signal × List Signal →
      List Request × Except Failure (List Signal × List Signal × List Signal)
  | 0, (requests, st) => (requests, .ok st)
  | r + 1, (requests, y, quo, p_rem) =>
    let tmp := p_rem
    let requests := requests ++ [Request.get_constant]
    match borrow_ripple_subtractor_inplace_run cap y
        ⟨requests, p_rem, get_constant false⟩ with
    | (s, .error _) => (s.requests, .error Failure.inner)
    | (s, .ok _) =>
      let requests := s.requests ++ [Request.create_not]
      let back := create_not s.borrow
      let quo := quo ++ [back]
      let requests := requests ++ [Request.mux_inplace]
      let p_rem := mux_inplace back s.a tmp
      match y, p_rem with
      | _ :: y, _ :: _ =>
        restoring_array_divider_loop_run cap r (requests, y, quo, p_rem.dropLast)
      | _, _ => (requests, .error Failure.undefined)

/-- The generator `restoring_array_divider` with the requests made to the network: the
result is the list of the requests when the call ends, after those made before the
call, and the way the call ends.  The assertion is the first statement. -/
def restoring_array_divider_run (cap : Capability) (a b : List Signal)
    (requests : List Request) :
    List Request × Except Failure (List Signal × List Signal) :=
  if a.length ≠ b.length then (requests, .error Failure.size_assertion)
  else
    let x := a
    let y := b
    let N := x.length
    let requests := requests ++ [Request.get_constant]
    if N = 0 then (requests, .error Failure.undefined)
    else
      let y := List.replicate (N - 1) (get_constant false) ++ y
      let quo : List Signal := []
      let p_rem := x
      let requests := requests ++ [Request.zero_extend]
      let p_rem := zero_extend p_rem y.length
      match restoring_array_divider_loop_run cap N (requests, y, quo, p_rem) with
      | (requests, .error e) => (requests, .error e)
      | (requests, .ok (_, quo, p_rem)) => (requests, .ok (quo.reverse, p_rem))

/-- The loop of `restoring_array_divider_advance` with the requests made to the
network; the state is `(requests, y, quo, p_rem)`. -/
def restoring_array_divider_advance_loop_run (N : Nat) (func : Inplace) :
    Nat → List Request × List Signal × List Signal × List Signal →
      List Request × Except Failure (List Signal × List Signal × List Signal)
  | 0, (requests, st) => (requests, .ok st)
  | r + 1, (requests, y, quo, p_rem) =>
    if y.length > N then
      let y_mNbit := y.drop N
      let y_lNbit := y.take N
      let requests := requests ++ [Request.create_nary_or]
      let cond := create_nary_or y_mNbit
      let tmp_prem := p_rem
      let borrow := get_constant false
      let requests := requests ++ [Request.func]
      match func p_rem y_lNbit borrow with
      | none => (requests, .error Failure.inner)
      | some (p_rem, borrow) =>
        let requests := requests ++ [Request.create_not, Request.create_not,
          Request.create_and, Request.create_and, Request.create_or]
        let quo := quo ++ [mux cond (create_not cond) (create_not borrow)]
        let requests := requests ++ [Request.mux, Request.mux]
        let p_rem := mux_word cond tmp_prem (mux_word borrow tmp_prem p_rem)
        match y with
        | _ :: y => restoring_array_divider_advance_loop_run N func r (requests, y, quo, p_rem)
        | [] => (requests, .error Failure.undefined)
    else (requests, .ok (y, quo, p_rem))

/-- The generator `restoring_array_divider_advance` with the requests made to the
network.  The assertion is the first statement. -/
def restoring_array_divider_advance_run (a b : List Signal) (func : Inplace)
    (requests : List Request) :
    List Request × Except Failure (List Signal × List Signal) :=
  if a.length ≠ b.length then (requests, .error Failure.size_assertion)
  else
    let requests := requests ++ [Request.get_constant]
    let logic0 := get_constant false
    let x := a
    let y := b
    let N := x.length
    if N = 0 then (requests, .error Failure.undefined)
    else
      let y := List.replicate (N - 1) logic0 ++ y
      let quo : List Signal := []
      let p_rem := x
      match restoring_array_divider_advance_loop_run N func N (requests, y, quo, p_rem) with
      | (requests, .error e) => (requests, .error e)
      | (requests, .ok (y, quo, p_rem)) =>
        let tmp_prem := p_rem
        let y_lNbit := y.take N
        let borrow := logic0
        let requests := requests ++ [Request.func]
        match func p_rem y_lNbit borrow with
        | none => (requests, .error Failure.inner)
        | some (p_rem, borrow) =>
          let requests := requests ++ [Request.create_not]
          let back := create_not borrow
          let quo := quo ++ [back]
          let requests := requests ++ [Request.mux_inplace]
          let p_rem := mux_inplace back p_rem tmp_prem
          match y with
          | _ :: _ => (requests, .ok (quo.reverse, p_rem))
          | [] => (requests, .error Failure.undefined)

/-! ## Theorems -/

/-! ### Cells -/

/-- C10: the default seven-gate realization of `full_subtractor` returns `(d, w)` with
`a - b - c = d - 2*w` over the integers, `d = a XOR b XOR c` and
`w = majority(NOT a, b, c)`. -/
theorem full_subtractor_gates_correct (a b c : Bool) :
    ((a.toNat : Int) - b.toNat - c.toNat
        = (full_subtractor gate_network a b c).1.toNat
          - 2 * (full_subtractor gate_network a b c).2.toNat)
      ∧ (full_subtractor gate_network a b c).1 = xor (xor a b) c
      ∧ (full_subtractor gate_network a b c).2 = create_maj (!a) b c := by
  cases a <;> cases b <;> cases c <;> decide

/-- Balance of the seven-gate cell over the natural numbers. -/
theorem full_subtractor_gates_balance (a b c : Bool) :
    a.toNat + 2 * (full_subtractor gate_network a b c).2.toNat
      = (full_subtractor gate_network a b c).1.toNat + b.toNat + c.toNat := by
  cases a <;> cases b <;> cases c <;> decide

/-- The MAJ/XOR3 realization and the seven-gate realization of `full_subtractor` agree. -/
theorem full_subtractor_maj_eq_gates (a b c : Bool) :
    full_subtractor maj_network a b c = full_subtractor gate_network a b c := by
  cases a <;> cases b <;> cases c <;> decide

/-- C9: at `a = 1, b = 0, c = 0` the LUT realization of `full_subtractor` (truth table
`0x4e`) returns borrow 1, while the MAJ/XOR3 and the seven-gate realizations return
borrow 0, the borrow of `1 - 0 - 0`; at `a = b = c = 1`, the assignment with index 7
whatever the order of the fan-ins, the LUT realization returns borrow 0 while the other
two return borrow 1, the borrow of `1 - 1 - 1`. -/
theorem full_subtractor_lut_disagrees :
    full_subtractor lut_network true false false = (true, true)
      ∧ full_subtractor maj_network true false false = (true, false)
      ∧ full_subtractor gate_network true false false = (true, false)
      ∧ full_subtractor lut_network true true true = (true, false)
      ∧ full_subtractor maj_network true true true = (true, true)
      ∧ full_subtractor gate_network true true true = (true, true) := by
  decide

/-! ### Arithmetic of bit vectors -/

theorem value_lt (l : List Signal) : value l < 2 ^ l.length := by
  induction l with
  | nil => simp [value]
  | cons x xs ih =>
    simp only [value, List.length_cons, pow_succ]
    cases x <;> simp <;> omega

/-- From the balance `A + 2^n * w = D + B + c` of a subtractor: `D` is the difference
modulo `2^n` and `w` is the comparison. -/
theorem difference_of_balance (A B D n : Nat) (c w : Bool)
    (h : A + 2 ^ n * w.toNat = D + B + c.toNat) (hD : D < 2 ^ n) :
    (D : Int) = ((A : Int) - B - c.toNat) % 2 ^ n ∧ w = decide (A < B + c.toNat) := by
  have hpos : (0 : Int) < 2 ^ n := by positivity
  have hDi : (D : Int) < 2 ^ n := by exact_mod_cast hD
  cases w with
  | false =>
    simp only [Bool.toNat_false, Nat.mul_zero, Nat.add_zero] at h
    constructor
    · have e : ((A : Int) - B - c.toNat) = D := by
        have : (A : Int) = D + B + c.toNat := by exact_mod_cast h
        omega
      rw [e, Int.emod_eq_of_lt (by omega) hDi]
    · have : ¬ (A < B + c.toNat) := by omega
      simp [this]
  | true =>
    simp only [Bool.toNat_true, Nat.mul_one] at h
    constructor
    · have e : ((A : Int) - B - c.toNat) = D + (-1) * 2 ^ n := by
        have : (A : Int) + 2 ^ n = D + B + c.toNat := by exact_mod_cast h
        omega
      rw [e, Int.add_mul_emod_self, Int.emod_eq_of_lt (by omega) hDi]
    · have : A < B + c.toNat := by omega
      simp [this]

/-- From the balance `S + 2^n * k = A + B + c` of an adder: `S` is the sum modulo `2^n`
and `k` is bit `n` of the sum. -/
theorem sum_of_balance (A B S n : Nat) (c k : Bool)
    (h : S + 2 ^ n * k.toNat = A + B + c.toNat) (hS : S < 2 ^ n) :
    S = (A + B + c.toNat) % 2 ^ n ∧ k = Nat.testBit (A + B + c.toNat) n := by
  have hc : c.toNat ≤ 1 := by cases c <;> simp
  rw [← h]
  constructor
  · rw [Nat.add_mul_mod_self_left, Nat.mod_eq_of_lt hS]
  · rw [Nat.testBit, Nat.shiftRight_eq_div_pow]
    have hk : (S + 2 ^ n * k.toNat) / 2 ^ n = k.toNat := by
      rw [Nat.add_mul_div_left _ _ (by positivity), Nat.div_eq_of_lt hS, Nat.zero_add]
    rw [hk]
    cases k <;> simp

/-! ### Ripple subtractor -/

theorem borrow_ripple_loop_balance (cap : Capability)
    (hcap : ∀ x y z, full_subtractor cap x y z = full_subtractor gate_network x y z) :
    ∀ (a b : List Signal) (c : Signal), a.length = b.length →
      ∃ d w, borrow_ripple_loop cap a b c = some (d, w) ∧ d.length = a.length
        ∧ value a + 2 ^ a.length * w.toNat = value d + value b + c.toNat := by
  intro a
  induction a with
  | nil =>
    intro b c hl
    refine ⟨[], c, ?_, rfl, ?_⟩
    · simp [borrow_ripple_loop]
    · have : b = [] := by
        cases b with
        | nil => rfl
        | cons y ys => simp at hl
      subst this
      simp [value]
  | cons x xs ih =>
    intro b c hl
    cases b with
    | nil => simp at hl
    | cons y ys =>
      have hl2 : xs.length = ys.length := by simpa using hl
      obtain ⟨d, w, hd, hlen, hbal⟩ := ih ys (full_subtractor cap x y c).2 hl2
      refine ⟨(full_subtractor cap x y c).1 :: d, w, ?_, ?_, ?_⟩
      · simp [borrow_ripple_loop, hd]
      · simp [hlen]
      · have hcell := full_subtractor_gates_balance x y c
        rw [← hcap] at hcell
        simp only [value, List.length_cons, pow_succ]
        have h2 := congrArg (fun t => 2 * t) hbal
        simp only at h2
        linarith

/-- The ripple subtractor with the seven-gate cell returns the difference modulo `2^n`
and the comparison `A < B + c`. -/
theorem borrow_ripple_subtractor_inplace_difference (a b : List Signal) (c : Signal)
    (hlen : a.length = b.length) :
    ∃ d w, borrow_ripple_subtractor_inplace gate_network a b c = some (d, w)
      ∧ d.length = a.length
      ∧ (value d : Int) = ((value a : Int) - value b - c.toNat) % 2 ^ a.length
      ∧ w = decide (value a < value b + c.toNat) := by
  obtain ⟨d, w, hd, hl, hbal⟩ :=
    borrow_ripple_loop_balance gate_network (fun _ _ _ => rfl) a b c hlen
  refine ⟨d, w, ?_, hl, ?_⟩
  · simp [borrow_ripple_subtractor_inplace, hlen, hd]
  · have hD : value d < 2 ^ a.length := hl ▸ value_lt d
    exact difference_of_balance (value a) (value b) (value d) a.length c w hbal hD

/-! ### Group signals -/

theorem group_g_append (gs ps : Nat → Bool) (lo d1 d2 : Nat) :
    group_g gs ps lo (d1 + d2 + 1)
      = (group_g gs ps (lo + d1 + 1) d2
          || (group_p ps (lo + d1 + 1) d2 && group_g gs ps lo d1)) := by
  induction d2 with
  | zero => simp [group_g, group_p]
  | succ d ih =>
    have e1 : d1 + (d + 1) + 1 = (d1 + d + 1) + 1 := by omega
    have e2 : lo + (d1 + d + 1) + 1 = lo + d1 + 1 + d + 1 := by omega
    rw [e1, group_g, ih, e2]
    simp only [group_g, group_p]
    generalize gs (lo + d1 + 1 + d + 1) = x
    generalize ps (lo + d1 + 1 + d + 1) = y
    generalize group_g gs ps (lo + d1 + 1) d = u
    generalize group_p ps (lo + d1 + 1) d = v
    generalize group_g gs ps lo d1 = w
    cases x <;> cases y <;> cases u <;> cases v <;> cases w <;> rfl

theorem group_p_append (ps : Nat → Bool) (lo d1 d2 : Nat) :
    group_p ps lo (d1 + d2 + 1)
      = (group_p ps (lo + d1 + 1) d2 && group_p ps lo d1) := by
  induction d2 with
  | zero => simp [group_p]
  | succ d ih =>
    have e1 : d1 + (d + 1) + 1 = (d1 + d + 1) + 1 := by omega
    have e2 : lo + (d1 + d + 1) + 1 = lo + d1 + 1 + d + 1 := by omega
    rw [e1, group_p, ih, e2]
    simp only [group_p, Bool.and_assoc]

theorem group_g_zero_eq_chain (gs ps : Nat → Bool) (i : Nat) :
    group_g gs ps 0 i = chain gs ps false (i + 1) := by
  induction i with
  | zero => simp [group_g, chain]
  | succ i ih =>
    conv_rhs => rw [chain]
    rw [group_g, ih]
    simp

theorem group_g_folded_eq_chain (gs ps : Nat → Bool) (c : Bool) (i : Nat) :
    group_g (folded_g gs ps c) (folded_p ps) 0 i = chain gs ps c (i + 1) := by
  induction i with
  | zero => simp [group_g, chain, folded_g]
  | succ i ih =>
    conv_rhs => rw [chain]
    rw [group_g, ih]
    simp [folded_g, folded_p]

/-- The combine operator on two adjacent ranges yields the summary of their union. -/
theorem node_ok_o_operation (gs ps : Nat → Bool) (m j : Nat) (X Y : PG)
    (hX : node_ok gs ps m X) (hY : node_ok gs ps j Y) (hadj : j + 1 = X.end_) :
    node_ok gs ps m (X.o_operation Y) := by
  obtain ⟨hb, he, hg, hp⟩ := hX
  obtain ⟨_, hej, hgj, hpj⟩ := hY
  have e1 : m - Y.end_ = (j - Y.end_) + (m - X.end_) + 1 := by omega
  have e2 : Y.end_ + (j - Y.end_) + 1 = X.end_ := by omega
  refine ⟨hb, by simp only [PG.o_operation]; omega, ?_, ?_⟩
  · simp only [PG.o_operation, create_or, create_and]
    rw [e1, group_g_append, e2, ← hg, ← hp, ← hgj]
  · simp only [PG.o_operation, create_and]
    rw [e1, group_p_append, e2, ← hp, ← hpj]

/-! ### States as lists of nodes -/

theorem length_o_at (pg src : List PG) (x y : Nat) : (o_at pg x src y).length = pg.length := by
  unfold o_at
  split <;> simp

theorem node_o_at (pg src : List PG) (x y m : Nat) (hx : x < pg.length)
    (hy : y < src.length) :
    node (o_at pg x src y) m
      = if m = x then (node pg x).o_operation (node src y) else node pg m := by
  unfold o_at node
  simp only [List.getD_eq_getElem?_getD, List.getElem?_eq_getElem hx,
    List.getElem?_eq_getElem hy]
  by_cases h : m = x
  · subst h
    simp [List.getElem?_set, hx]
  · have h2 : x ≠ m := fun e => h e.symm
    simp [List.getElem?_set, h, h2]

theorem last_end_eq (pg : List PG) (h : 0 < pg.length) :
    last_end pg = (node pg (pg.length - 1)).end_ := by
  unfold last_end node
  rw [List.getLast?_eq_getElem?]
  have h1 : pg.length - 1 < pg.length := by omega
  simp [List.getElem?_eq_getElem h1]

theorem rev_end_eq (pg : List PG) (r : Nat) (h : r < pg.length) :
    rev_end pg r = (node pg (pg.length - 1 - r)).end_ := by
  unfold rev_end rev_at node
  have h1 : pg.length - 1 - r < pg.length := by omega
  simp [h, List.getElem?_eq_getElem h1]

/-! ### The integer `ceil(log2 n)` -/

theorem le_two_pow_ceil_log2_from (n : Nat) :
    ∀ fuel k, n ≤ fuel + k → n ≤ 2 ^ ceil_log2_from n fuel k := by
  intro fuel
  induction fuel with
  | zero =>
    intro k h
    simp only [ceil_log2_from]
    have : k < 2 ^ k := Nat.lt_two_pow k
    omega
  | succ f ih =>
    intro k h
    simp only [ceil_log2_from]
    split
    · assumption
    · exact ih (k + 1) (by omega)

theorem le_two_pow_ceil_log2 (n : Nat) : n ≤ 2 ^ ceil_log2 n :=
  le_two_pow_ceil_log2_from n n 0 (by omega)

theorem ceil_log2_from_least (n : Nat) :
    ∀ fuel k, (∀ i, i < k → 2 ^ i < n) → ∀ i, i < ceil_log2_from n fuel k → 2 ^ i < n := by
  intro fuel
  induction fuel with
  | zero =>
    intro k h i hi
    exact h i hi
  | succ f ih =>
    intro k h i hi
    simp only [ceil_log2_from] at hi
    split at hi
    · exact h i hi
    · rename_i hk
      refine ih (k + 1) ?_ i hi
      intro i2 hi2
      by_cases e : i2 = k
      · subst e; omega
      · exact h i2 (by omega)

/-- The function `ceil_log2` is the ceiling of the binary logarithm. -/
theorem ceil_log2_eq_clog (n : Nat) : ceil_log2 n = Nat.clog 2 n := by
  apply le_antisymm
  · by_contra hlt
    have hlt : Nat.clog 2 n < ceil_log2 n := by omega
    have h1 := ceil_log2_from_least n n 0 (by intro i hi; omega) _ hlt
    have h2 := Nat.le_pow_clog (by norm_num : 1 < 2) n
    omega
  · exact (Nat.le_pow_iff_clog_le (by norm_num : 1 < 2)).mp (le_two_pow_ceil_log2 n)

/-! ### The initial state -/

theorem length_pg_build (w : Nat) :
    ∀ (gen pro : List Signal) (i : Nat),
      (pg_build w i gen pro).length = min gen.length pro.length := by
  intro gen
  induction gen with
  | nil => intro pro i; simp [pg_build]
  | cons g gen ih =>
    intro pro i
    cases pro with
    | nil => simp [pg_build]
    | cons p pro =>
      simp [pg_build, ih]
      omega

theorem node_pg_build (w : Nat) :
    ∀ (gen pro : List Signal) (i m : Nat), m < gen.length → m < pro.length →
      node (pg_build w i gen pro) m = ⟨bit_at gen m, bit_at pro m, i + m, i + m⟩ := by
  intro gen
  induction gen with
  | nil => intro pro i m h; simp at h
  | cons g gen ih =>
    intro pro i m h1 h2
    cases pro with
    | nil => simp at h2
    | cons p pro =>
      cases m with
      | zero => simp [pg_build, node, bit_at, PG.new]
      | succ m =>
        have h3 : m < gen.length := by simpa using h1
        have h4 : m < pro.length := by simpa using h2
        have := ih pro (i + 1) m h3 h4
        simp only [node, bit_at, pg_build, List.getD_cons_succ] at this ⊢
        rw [this]
        simp
        omega

theorem state_ok_pg_build (w : Nat) (gen pro : List Signal) :
    state_ok (bit_at gen) (bit_at pro) (pg_build w 0 gen pro) := by
  intro m hm
  rw [length_pg_build] at hm
  rw [node_pg_build w gen pro 0 m (by omega) (by omega)]
  simp [node_ok, group_g, group_p]

theorem kogge_stone_inv_pg_build (w : Nat) (gen pro : List Signal) :
    kogge_stone_inv 0 (pg_build w 0 gen pro) := by
  intro m hm
  rw [length_pg_build] at hm
  rw [node_pg_build w gen pro 0 m (by omega) (by omega)]
  simp

/-- The state after `pg[0].o_operation(ntk, pg0)` summarises the folded sequences. -/
theorem state_ok_fold (w : Nat) (gen pro : List Signal) (c : Signal) :
    state_ok (folded_g (bit_at gen) (bit_at pro) c) (folded_p (bit_at pro))
      (o_at (pg_build w 0 gen pro) 0 [PG.new c (get_constant false) w 0] 0) := by
  intro m hm
  rw [length_o_at] at hm
  have hm2 := hm
  rw [length_pg_build] at hm2
  rw [node_o_at _ _ _ _ _ (by omega) (by simp)]
  rw [node_pg_build w gen pro 0 0 (by omega) (by omega)]
  by_cases h : m = 0
  · subst h
    simp [node_ok, group_g, group_p, PG.o_operation, node, PG.new, folded_g, folded_p,
      create_or, create_and, get_constant]
  · rw [node_pg_build w gen pro 0 m (by omega) (by omega)]
    simp [node_ok, group_g, group_p, h, folded_g, folded_p]

theorem end_fold (w : Nat) (gen pro : List Signal) (c : Signal) (m : Nat)
    (hm : m < (pg_build w 0 gen pro).length) :
    (node (o_at (pg_build w 0 gen pro) 0 [PG.new c (get_constant false) w 0] 0) m).end_
      = m := by
  have hm2 := hm
  rw [length_pg_build] at hm2
  rw [node_o_at _ _ _ _ _ (by omega) (by simp)]
  by_cases h : m = 0
  · subst h
    simp [PG.o_operation, node, PG.new]
  · rw [if_neg h, node_pg_build w gen pro 0 m (by omega) (by omega)]
    simp

/-! ### Kogge-Stone rounds -/

theorem kogge_stone_inner_spec (gs ps : Nat → Bool) (j : Nat) (bak : List PG)
    (hbak : state_ok gs ps bak) (hinv : kogge_stone_inv j bak) :
    ∀ (fuel i : Nat) (pg : List PG), pg.length = bak.length → pg.length ≤ fuel + i →
      state_ok gs ps pg →
      (∀ m, m < pg.length →
        (node pg m).end_ = if m < i + 2 ^ j then m + 1 - 2 ^ (j + 1) else m + 1 - 2 ^ j) →
      (kogge_stone_inner j bak fuel i pg).length = pg.length
        ∧ state_ok gs ps (kogge_stone_inner j bak fuel i pg)
        ∧ kogge_stone_inv (j + 1) (kogge_stone_inner j bak fuel i pg) := by
  have hq : 0 < 2 ^ j := Nat.two_pow_pos j
  intro fuel
  induction fuel with
  | zero =>
    intro i pg _ hf hok hend
    refine ⟨rfl, hok, ?_⟩
    intro m hm
    simp only [kogge_stone_inner] at hm ⊢
    rw [hend m hm, if_pos (by omega)]
  | succ f ih =>
    intro i pg hlen hf hok hend
    simp only [kogge_stone_inner]
    split
    · rename_i hi
      split
      · rename_i hge
        refine ⟨rfl, hok, ?_⟩
        intro m hm
        rw [hend m hm, if_pos (by omega)]
      · rename_i hlt
        have hx : i + 2 ^ j < pg.length := by omega
        have hy : i < bak.length := by omega
        have hnode := node_o_at pg bak (i + 2 ^ j) i
        have hstep := ih (i + 1) (o_at pg (i + 2 ^ j) bak i)
          (by rw [length_o_at]; exact hlen) (by rw [length_o_at]; omega) ?_ ?_
        · rw [length_o_at] at hstep
          exact hstep
        · intro m hm
          rw [length_o_at] at hm
          rw [hnode m hx hy]
          by_cases e : m = i + 2 ^ j
          · rw [if_pos e, e]
            apply node_ok_o_operation gs ps (i + 2 ^ j) i _ _ (hok _ hx) (hbak _ hy)
            rw [hend _ hx, if_neg (by omega)]
            omega
          · rw [if_neg e]
            exact hok m hm
        · intro m hm
          rw [length_o_at] at hm
          rw [hnode m hx hy]
          have hp : 2 ^ (j + 1) = 2 * 2 ^ j := by rw [pow_succ]; omega
          by_cases e : m = i + 2 ^ j
          · rw [if_pos e, e, if_pos (by omega)]
            simp only [PG.o_operation]
            rw [hinv i hy, hp]
            omega
          · rw [if_neg e, hend m hm]
            by_cases h2 : m < i + 2 ^ j
            · rw [if_pos h2, if_pos (by omega)]
            · rw [if_neg h2, if_neg (by omega)]
    · rename_i hi
      refine ⟨rfl, hok, ?_⟩
      intro m hm
      rw [hend m hm, if_pos (by omega)]

theorem kogge_stone_rounds_spec (gs ps : Nat → Bool) :
    ∀ (rounds j : Nat) (pg : List PG), 0 < pg.length → pg.length ≤ 2 ^ (rounds + j) →
      state_ok gs ps pg → kogge_stone_inv j pg →
      (kogge_stone_rounds rounds j pg).length = pg.length
        ∧ state_ok gs ps (kogge_stone_rounds rounds j pg)
        ∧ all_reduced (kogge_stone_rounds rounds j pg) := by
  intro rounds
  induction rounds with
  | zero =>
    intro j pg _ hpow hok hinv
    refine ⟨rfl, hok, ?_⟩
    intro m hm
    simp only [kogge_stone_rounds] at hm ⊢
    rw [hinv m hm]
    simp only [Nat.zero_add] at hpow
    omega
  | succ r ih =>
    intro j pg hpos hpow hok hinv
    simp only [kogge_stone_rounds]
    split
    · have hin := kogge_stone_inner_spec gs ps j pg hok hinv pg.length 0 pg rfl (by omega)
        hok ?_
      · obtain ⟨hl, hok2, hinv2⟩ := hin
        have := ih (j + 1) _ (by rw [hl]; exact hpos)
          (by rw [hl]; have e : r + (j + 1) = r + 1 + j := by omega
              rw [e]; exact hpow) hok2 hinv2
        rw [hl] at this
        exact this
      · intro m hm
        rw [hinv m hm]
        have hp : 2 ^ (j + 1) = 2 * 2 ^ j := by rw [pow_succ]; omega
        split
        · omega
        · rfl
    · rename_i hlast
      refine ⟨rfl, hok, ?_⟩
      intro m hm
      rw [last_end_eq pg hpos, hinv _ (by omega)] at hlast
      rw [hinv m hm]
      omega

/-! ### From carries to values -/

theorem value_upto_congr (f g : Nat → Bool) :
    ∀ n, (∀ i, i < n → f i = g i) → value_upto f n = value_upto g n := by
  intro n
  induction n with
  | zero => intro _; rfl
  | succ n ih =>
    intro h
    simp only [value_upto]
    rw [ih (fun i hi => h i (by omega)), h n (by omega)]

theorem value_upto_shift (f : Nat → Bool) :
    ∀ n, value_upto f (n + 1) = (f 0).toNat + 2 * value_upto (fun i => f (i + 1)) n := by
  intro n
  induction n with
  | zero => simp [value_upto]
  | succ n ih =>
    rw [value_upto, ih]
    simp only [value_upto, pow_succ]
    ring

theorem value_eq_value_upto (l : List Signal) : value l = value_upto (bit_at l) l.length := by
  induction l with
  | nil => rfl
  | cons x xs ih =>
    rw [List.length_cons, value_upto_shift, value, ih]
    rfl

theorem chain_congr (gs ps gs2 ps2 : Nat → Bool) (c : Bool) :
    ∀ n, (∀ i, i < n → gs i = gs2 i ∧ ps i = ps2 i) →
      chain gs ps c n = chain gs2 ps2 c n := by
  intro n
  induction n with
  | zero => intro _; rfl
  | succ n ih =>
    intro h
    simp only [chain]
    rw [ih (fun i hi => h i (by omega)), (h n (by omega)).1, (h n (by omega)).2]

/-- Balance of the carry recurrence of an addition. -/
theorem add_balance (a b : Nat → Bool) (c : Bool) :
    ∀ n, value_upto (fun i => xor (xor (a i) (b i))
            (chain (fun i => a i && b i) (fun i => xor (a i) (b i)) c i)) n
        + 2 ^ n * (chain (fun i => a i && b i) (fun i => xor (a i) (b i)) c n).toNat
      = value_upto a n + value_upto b n + c.toNat := by
  intro n
  induction n with
  | zero => simp [value_upto, chain]
  | succ n ih =>
    simp only [value_upto, chain, pow_succ]
    generalize chain (fun i => a i && b i) (fun i => xor (a i) (b i)) c n = k at ih ⊢
    generalize value_upto (fun i => xor (xor (a i) (b i))
      (chain (fun i => a i && b i) (fun i => xor (a i) (b i)) c i)) n = s at ih ⊢
    have hcell : (xor (xor (a n) (b n)) k).toNat
        + 2 * (a n && b n || (xor (a n) (b n)) && k).toNat
        = (a n).toNat + (b n).toNat + k.toNat := by
      cases a n <;> cases b n <;> cases k <;> rfl
    have h2 := congrArg (fun t => 2 ^ n * t) hcell
    simp only at h2
    linarith [h2, ih]

/-- Balance of the borrow recurrence of a subtraction. -/
theorem sub_balance (a b : Nat → Bool) (c : Bool) :
    ∀ n, value_upto a n
        + 2 ^ n * (chain (fun i => !a i && b i) (fun i => !a i || b i) c n).toNat
      = value_upto (fun i => xor (xor (a i) (b i))
            (chain (fun i => !a i && b i) (fun i => !a i || b i) c i)) n
          + value_upto b n + c.toNat := by
  intro n
  induction n with
  | zero => simp [value_upto, chain]
  | succ n ih =>
    simp only [value_upto, chain, pow_succ]
    generalize chain (fun i => !a i && b i) (fun i => !a i || b i) c n = k at ih ⊢
    generalize value_upto (fun i => xor (xor (a i) (b i))
      (chain (fun i => !a i && b i) (fun i => !a i || b i) c i)) n = s at ih ⊢
    have hcell : (a n).toNat + 2 * (!a n && b n || (!a n || b n) && k).toNat
        = (xor (xor (a n) (b n)) k).toNat + (b n).toNat + k.toNat := by
      cases a n <;> cases b n <;> cases k <;> rfl
    have h2 := congrArg (fun t => 2 ^ n * t) hcell
    simp only at h2
    linarith [h2, ih]

/-! ### The carry assembly -/

theorem bit_at_zipWith (f : Signal → Signal → Signal) (a b : List Signal) (i : Nat)
    (h1 : i < a.length) (h2 : i < b.length) :
    bit_at (List.zipWith f a b) i = f (bit_at a i) (bit_at b i) := by
  simp [bit_at, List.getElem?_zipWith, List.getElem?_eq_getElem h1,
    List.getElem?_eq_getElem h2]

theorem bit_at_map_g (pg : List PG) (i : Nat) (h : i < pg.length) :
    bit_at (pg.map PG.g) i = (node pg i).g := by
  simp [bit_at, node, List.getElem?_eq_getElem h]

theorem bit_at_assemble (c : Signal) (pg : List PG) (ch : Nat → Bool) (h0 : ch 0 = c)
    (hg : ∀ m, m < pg.length → (node pg m).g = ch (m + 1)) :
    ∀ i, i ≤ pg.length → bit_at (assemble c pg) i = ch i := by
  intro i hi
  cases i with
  | zero => simp [assemble, bit_at, h0]
  | succ i =>
    have := bit_at_map_g pg i (by omega)
    simp only [assemble, bit_at, List.getD_cons_succ] at this ⊢
    rw [this, hg i (by omega)]

theorem getLastD_assemble (c : Signal) (pg : List PG) (h : 0 < pg.length) :
    (assemble c pg).getLastD c = (node pg (pg.length - 1)).g := by
  have h1 : pg.length - 1 < pg.length := by omega
  unfold assemble
  rw [List.getLastD_cons, List.getLastD_eq_getLast?, List.getLast?_eq_getElem?,
    List.length_map, List.getElem?_map, List.getElem?_eq_getElem h1]
  simp [node, List.getElem?_eq_getElem h1]

/-- What the last statements of a generator return when node `m` holds the carry
`ch (m + 1)` in its generate signal. -/
theorem finish_spec (pro2 : List Signal) (pg : List PG) (c : Signal) (ch : Nat → Bool)
    (h0 : ch 0 = c) (hlen : pg.length = pro2.length) (hpos : 0 < pg.length)
    (hg : ∀ m, m < pg.length → (node pg m).g = ch (m + 1)) :
    (finish pro2 (assemble c pg) c).1.length = pro2.length
      ∧ (∀ i, i < pro2.length →
          bit_at (finish pro2 (assemble c pg) c).1 i = xor (bit_at pro2 i) (ch i))
      ∧ (finish pro2 (assemble c pg) c).2 = ch pro2.length := by
  have hbl : (assemble c pg).length = pg.length + 1 := by simp [assemble]
  refine ⟨?_, ?_, ?_⟩
  · simp only [finish, List.length_zipWith, hbl]
    omega
  · intro i hi
    simp only [finish]
    rw [bit_at_zipWith _ _ _ i hi (by omega), bit_at_assemble c pg ch h0 hg i (by omega)]
    rfl
  · simp only [finish]
    rw [getLastD_assemble c pg hpos, hg _ (by omega)]
    congr 1
    omega

theorem reduced_g (gs ps : Nat → Bool) (pg : List PG) (hok : state_ok gs ps pg)
    (hred : all_reduced pg) :
    ∀ m, m < pg.length → (node pg m).g = group_g gs ps 0 m := by
  intro m hm
  have h := (hok m hm).2.2.1
  rw [hred m hm] at h
  exact h

/-- An adder whose nodes hold the carries of the serial recurrence returns the sum. -/
theorem adder_finish (a b : List Signal) (c : Signal) (pg : List PG)
    (hlen : b.length = a.length) (hpg : pg.length = a.length) (hpos : 0 < a.length)
    (hg : ∀ m, m < pg.length →
      (node pg m).g = chain (bit_at (List.zipWith (fun f g => create_and f g) a b))
        (bit_at (List.zipWith (fun f g => create_xor f g) a b)) c (m + 1)) :
    (finish (List.zipWith (fun f g => create_xor f g) a b) (assemble c pg) c).1.length
        = a.length
      ∧ value (finish (List.zipWith (fun f g => create_xor f g) a b) (assemble c pg) c).1
        = (value a + value b + c.toNat) % 2 ^ a.length
      ∧ (finish (List.zipWith (fun f g => create_xor f g) a b) (assemble c pg) c).2
        = Nat.testBit (value a + value b + c.toNat) a.length := by
  have hl2 : (List.zipWith (fun f g => create_xor f g) a b).length = a.length := by
    simp [hlen]
  obtain ⟨h1, h2, h3⟩ := finish_spec (List.zipWith (fun f g => create_xor f g) a b) pg c _
    rfl (by rw [hl2]; exact hpg) (by omega) hg
  rw [hl2] at h1 h2 h3
  have hch : ∀ n, n ≤ a.length →
      chain (bit_at (List.zipWith (fun f g => create_and f g) a b))
        (bit_at (List.zipWith (fun f g => create_xor f g) a b)) c n
      = chain (fun i => bit_at a i && bit_at b i)
          (fun i => xor (bit_at a i) (bit_at b i)) c n := by
    intro n hn
    apply chain_congr
    intro i hi
    rw [bit_at_zipWith _ _ _ i (by omega) (by omega),
      bit_at_zipWith _ _ _ i (by omega) (by omega)]
    exact ⟨rfl, rfl⟩
  have hbal := add_balance (bit_at a) (bit_at b) c a.length
  have hv : value (finish (List.zipWith (fun f g => create_xor f g) a b)
      (assemble c pg) c).1
      = value_upto (fun i => xor (xor (bit_at a i) (bit_at b i))
          (chain (fun i => bit_at a i && bit_at b i)
            (fun i => xor (bit_at a i) (bit_at b i)) c i)) a.length := by
    rw [value_eq_value_upto, h1]
    apply value_upto_congr
    intro i hi
    rw [h2 i hi, bit_at_zipWith _ _ _ i (by omega) (by omega), hch i (by omega)]
    rfl
  rw [← hv, ← hch a.length (le_refl _), ← h3] at hbal
  have hva : value_upto (bit_at a) a.length = value a := (value_eq_value_upto a).symm
  have hvb : value_upto (bit_at b) a.length = value b := by
    rw [← hlen]; exact (value_eq_value_upto b).symm
  rw [hva, hvb] at hbal
  have hS := value_lt (finish (List.zipWith (fun f g => create_xor f g) a b)
      (assemble c pg) c).1
  rw [h1] at hS
  exact ⟨h1, sum_of_balance _ _ _ _ c _ hbal hS⟩

/-- A subtractor whose nodes hold the borrows of the serial recurrence returns the
difference. -/
theorem subtractor_finish (a b : List Signal) (c : Signal) (pg : List PG)
    (hlen : b.length = a.length) (hpg : pg.length = a.length) (hpos : 0 < a.length)
    (hg : ∀ m, m < pg.length →
      (node pg m).g
        = chain (bit_at (List.zipWith (fun f g => create_and (create_not f) g) a b))
          (bit_at (List.zipWith (fun f g => create_or (create_not f) g) a b)) c (m + 1)) :
    (finish (List.zipWith (fun f g => create_xor f g) a b) (assemble c pg) c).1.length
        = a.length
      ∧ (value (finish (List.zipWith (fun f g => create_xor f g) a b)
            (assemble c pg) c).1 : Int)
        = ((value a : Int) - value b - c.toNat) % 2 ^ a.length
      ∧ (finish (List.zipWith (fun f g => create_xor f g) a b) (assemble c pg) c).2
        = decide (value a < value b + c.toNat) := by
  have hl2 : (List.zipWith (fun f g => create_xor f g) a b).length = a.length := by
    simp [hlen]
  obtain ⟨h1, h2, h3⟩ := finish_spec (List.zipWith (fun f g => create_xor f g) a b) pg c _
    rfl (by rw [hl2]; exact hpg) (by omega) hg
  rw [hl2] at h1 h2 h3
  have hch : ∀ n, n ≤ a.length →
      chain (bit_at (List.zipWith (fun f g => create_and (create_not f) g) a b))
        (bit_at (List.zipWith (fun f g => create_or (create_not f) g) a b)) c n
      = chain (fun i => !bit_at a i && bit_at b i)
          (fun i => !bit_at a i || bit_at b i) c n := by
    intro n hn
    apply chain_congr
    intro i hi
    rw [bit_at_zipWith _ _ _ i (by omega) (by omega),
      bit_at_zipWith _ _ _ i (by omega) (by omega)]
    exact ⟨rfl, rfl⟩
  have hbal := sub_balance (bit_at a) (bit_at b) c a.length
  have hv : value (finish (List.zipWith (fun f g => create_xor f g) a b)
      (assemble c pg) c).1
      = value_upto (fun i => xor (xor (bit_at a i) (bit_at b i))
          (chain (fun i => !bit_at a i && bit_at b i)
            (fun i => !bit_at a i || bit_at b i) c i)) a.length := by
    rw [value_eq_value_upto, h1]
    apply value_upto_congr
    intro i hi
    rw [h2 i hi, bit_at_zipWith _ _ _ i (by omega) (by omega), hch i (by omega)]
    rfl
  rw [← hv, ← hch a.length (le_refl _), ← h3] at hbal
  have hva : value_upto (bit_at a) a.length = value a := (value_eq_value_upto a).symm
  have hvb : value_upto (bit_at b) a.length = value b := by
    rw [← hlen]; exact (value_eq_value_upto b).symm
  rw [hva, hvb] at hbal
  have hS := value_lt (finish (List.zipWith (fun f g => create_xor f g) a b)
      (assemble c pg) c).1
  rw [h1] at hS
  exact ⟨h1, difference_of_balance _ _ _ _ c _ hbal hS⟩

/-! ### Kogge-Stone generators -/

/-- The Kogge-Stone rounds, started on the state with the input carry folded into node 0,
leave in node `m` the carry into bit `m + 1`. -/
theorem kogge_stone_carries (w : Nat) (gen pro : List Signal) (c : Signal)
    (hlen : pro.length = gen.length) (hpos : 0 < gen.length) :
    (kogge_stone_rounds
        (ceil_log2 (o_at (pg_build w 0 gen pro) 0 [PG.new c (get_constant false) w 0] 0).length)
        0 (o_at (pg_build w 0 gen pro) 0 [PG.new c (get_constant false) w 0] 0)).length
      = gen.length
    ∧ ∀ m, m < gen.length →
      (node (kogge_stone_rounds
        (ceil_log2 (o_at (pg_build w 0 gen pro) 0 [PG.new c (get_constant false) w 0] 0).length)
        0 (o_at (pg_build w 0 gen pro) 0 [PG.new c (get_constant false) w 0] 0)) m).g
      = chain (bit_at gen) (bit_at pro) c (m + 1) := by
  have hl : (o_at (pg_build w 0 gen pro) 0 [PG.new c (get_constant false) w 0] 0).length
      = gen.length := by
    rw [length_o_at, length_pg_build]; omega
  have hinv : kogge_stone_inv 0
      (o_at (pg_build w 0 gen pro) 0 [PG.new c (get_constant false) w 0] 0) := by
    intro m hm
    rw [length_o_at] at hm
    rw [end_fold w gen pro c m hm]
    simp
  obtain ⟨h1, h2, h3⟩ := kogge_stone_rounds_spec _ _ _ 0 _ (by rw [hl]; exact hpos)
    (by rw [Nat.add_zero]; exact le_two_pow_ceil_log2 _) (state_ok_fold w gen pro c) hinv
  have h1b := h1.trans hl
  refine ⟨h1b, ?_⟩
  intro m hm
  rw [reduced_g _ _ _ h2 h3 m (by rw [h1b]; exact hm)]
  exact group_g_folded_eq_chain _ _ c m

/-- The Kogge-Stone adder returns the sum modulo `2^n` and bit `n` of the sum. -/
theorem kogge_stone_adder_inplace_sum (a b : List Signal) (c : Signal)
    (hn : 1 ≤ a.length) (hlen : b.length = a.length) :
    ∃ s k, kogge_stone_adder_inplace a b c = some (s, k) ∧ s.length = a.length
      ∧ value s = (value a + value b + c.toNat) % 2 ^ a.length
      ∧ k = Nat.testBit (value a + value b + c.toNat) a.length := by
  have hguard : ¬ (a.length = 0 ∨ b.length < a.length) := by omega
  have hgl : (List.zipWith (fun f g => create_and f g) a b).length = a.length := by
    simp [hlen]
  have hpl : (List.zipWith (fun f g => create_xor f g) a b).length = a.length := by
    simp [hlen]
  obtain ⟨h1, h2⟩ := kogge_stone_carries a.length
    (List.zipWith (fun f g => create_and f g) a b)
    (List.zipWith (fun f g => create_xor f g) a b) c (by rw [hgl, hpl]) (by omega)
  rw [hgl] at h1 h2
  refine ⟨_, _, ?_, adder_finish a b c _ hlen h1 (by omega) ?_⟩
  · simp only [kogge_stone_adder_inplace, if_neg hguard]
  · intro m hm
    exact h2 m (by omega)

/-- The Kogge-Stone subtractor returns the difference modulo `2^n` and the comparison
`A < B + c`. -/
theorem kogge_stone_subtractor_inplace_difference (a b : List Signal) (c : Signal)
    (hn : 1 ≤ a.length) (hlen : b.length = a.length) :
    ∃ d w, kogge_stone_subtractor_inplace a b c = some (d, w) ∧ d.length = a.length
      ∧ (value d : Int) = ((value a : Int) - value b - c.toNat) % 2 ^ a.length
      ∧ w = decide (value a < value b + c.toNat) := by
  have hguard : ¬ (a.length = 0 ∨ b.length < a.length) := by omega
  have hgl : (List.zipWith (fun f g => create_and (create_not f) g) a b).length
      = a.length := by
    simp [hlen]
  have hpl : (List.zipWith (fun f g => create_or (create_not f) g) a b).length
      = a.length := by
    simp [hlen]
  obtain ⟨h1, h2⟩ := kogge_stone_carries a.length
    (List.zipWith (fun f g => create_and (create_not f) g) a b)
    (List.zipWith (fun f g => create_or (create_not f) g) a b) c (by rw [hgl, hpl])
    (by omega)
  rw [hgl] at h1 h2
  refine ⟨_, _, ?_, subtractor_finish a b c _ hlen h1 (by omega) ?_⟩
  · simp only [kogge_stone_subtractor_inplace, if_neg hguard]
  · intro m hm
    exact h2 m (by omega)

/-! ### Brent-Kung down-sweep -/

theorem multiple_gap (d x y : Nat) (hx : d ∣ x) (hy : d ∣ y) (h : x < y) : x + d ≤ y := by
  have h1 : d ∣ y - x := Nat.dvd_sub' hy hx
  have h2 : d ≤ y - x := Nat.le_of_dvd (by omega) h1
  omega

/-- Aligned blocks are nested or disjoint. -/
theorem aligned_nested (m k e f t u : Nat) (hm : 2 ^ t ∣ m + 1) (he : e + 2 ^ t = m + 1)
    (hk : 2 ^ u ∣ k + 1) (hf : f + 2 ^ u = k + 1) (hlt : m < k) (hreach : f ≤ m) :
    f ≤ e := by
  have hfd : 2 ^ u ∣ f := by
    have : f = k + 1 - 2 ^ u := by omega
    rw [this]
    exact Nat.dvd_sub' hk (dvd_refl _)
  rcases Nat.le_total t u with h | h
  · have hd : 2 ^ t ∣ 2 ^ u := pow_dvd_pow 2 h
    have := multiple_gap (2 ^ t) f (m + 1) (dvd_trans hd hfd) hm (by omega)
    omega
  · have hd : 2 ^ u ∣ 2 ^ t := pow_dvd_pow 2 h
    have := multiple_gap (2 ^ u) (m + 1) (k + 1) (dvd_trans hd hm) hk (by omega)
    omega

theorem exists_level (m : Nat) :
    ∀ j, ∃ t, t ≤ j ∧ 2 ^ t ∣ m + 1 ∧ (t = j ∨ ¬ 2 ^ (t + 1) ∣ m + 1) := by
  intro j
  induction j with
  | zero => exact ⟨0, le_refl _, by simp, Or.inl rfl⟩
  | succ j ih =>
    obtain ⟨t, htj, hd, hmax⟩ := ih
    rcases hmax with h | h
    · subst h
      by_cases h2 : 2 ^ (t + 1) ∣ m + 1
      · exact ⟨t + 1, le_refl _, h2, Or.inl rfl⟩
      · exact ⟨t, by omega, hd, Or.inr h2⟩
    · exact ⟨t, by omega, hd, Or.inr h⟩

theorem laminar_of_brent_kung_inv (j : Nat) (pg : List PG) (h : brent_kung_inv j pg) :
    laminar pg := by
  intro m k hmk hk hreach
  obtain ⟨t, ht, hd, hmax⟩ := exists_level m j
  obtain ⟨u, hu, hd2, hmax2⟩ := exists_level k j
  have h1 := h m (by omega) t ht hd hmax
  have h2 := h k hk u hu hd2 hmax2
  exact aligned_nested m k _ _ t u hd h1 hd2 h2 hmk hreach

theorem brent_kung_inner_spec (gs ps : Nat → Bool) (j : Nat) :
    ∀ (fuel i : Nat) (pg : List PG), pg.length ≤ fuel + i →
      (∃ t, i + 1 = 2 ^ (j + 1) * t + 2 ^ j) →
      state_ok gs ps pg → brent_kung_mid j i pg →
      (brent_kung_inner j fuel i pg).length = pg.length
        ∧ state_ok gs ps (brent_kung_inner j fuel i pg)
        ∧ brent_kung_inv (j + 1) (brent_kung_inner j fuel i pg) := by
  have hq : 0 < 2 ^ j := Nat.two_pow_pos j
  have hp : 2 ^ (j + 1) = 2 * 2 ^ j := by rw [pow_succ]; omega
  -- the invariant of the round follows once the loop variable has left the vector
  have hdone : ∀ (i : Nat) (pg : List PG), pg.length ≤ i → brent_kung_mid j i pg →
      brent_kung_inv (j + 1) pg := by
    intro i pg hi hmid m hm t ht hd hmax
    rcases Nat.lt_or_ge t j with h1 | h1
    · rcases hmax with h2 | h2
      · omega
      · exact hmid.1 m hm t h1 hd h2
    · rcases Nat.eq_or_lt_of_le h1 with h2 | h2
      · subst h2
        rcases hmax with h3 | h3
        · omega
        · exact (hmid.2 m hm hd).2 (fun hc => h3 hc.1)
      · have h3 : t = j + 1 := by omega
        subst h3
        have hdj : 2 ^ j ∣ m + 1 := dvd_trans (pow_dvd_pow 2 (by omega)) hd
        exact (hmid.2 m hm hdj).1 ⟨hd, by omega⟩
  intro fuel
  induction fuel with
  | zero =>
    intro i pg hf _ hok hmid
    exact ⟨rfl, hok, hdone i pg (by omega) hmid⟩
  | succ f ih =>
    intro i pg hf hi hok hmid
    obtain ⟨t, ht⟩ := hi
    have hnext : ∃ t2, i + 2 ^ (j + 1) + 1 = 2 ^ (j + 1) * t2 + 2 ^ j :=
      ⟨t + 1, by rw [Nat.mul_add]; omega⟩
    -- a multiple of `2^(j+1)` between `i + 2^j` and `i + 2^(j+1) + 2^j` is `i + 2^j`
    have honly : ∀ m, 2 ^ (j + 1) ∣ m + 1 → i + 2 ^ j ≤ m → m < i + 2 ^ (j + 1) + 2 ^ j →
        m = i + 2 ^ j := by
      intro m hd h1 h2
      obtain ⟨s, hs⟩ := hd
      have e1 : 2 ^ (j + 1) * (t + 1) ≤ 2 ^ (j + 1) * s := by
        rw [Nat.mul_add]; omega
      have e2 : 2 ^ (j + 1) * s < 2 ^ (j + 1) * (t + 2) := by
        rw [Nat.mul_add]; omega
      have e3 : t + 1 ≤ s := Nat.le_of_mul_le_mul_left e1 (by omega)
      have e4 : s < t + 2 := Nat.lt_of_mul_lt_mul_left e2
      have e5 : s = t + 1 := by omega
      subst e5
      rw [Nat.mul_add] at hs
      omega
    simp only [brent_kung_inner]
    split
    · rename_i hin
      split
      · rename_i hge
        refine ih (i + 2 ^ (j + 1)) pg (by omega) hnext hok ⟨hmid.1, ?_⟩
        intro m hm hd
        refine ⟨fun hc => ?_, fun hc => ?_⟩
        · exact (hmid.2 m hm hd).1 ⟨hc.1, by omega⟩
        · exact (hmid.2 m hm hd).2 (fun hc2 => hc ⟨hc2.1, by omega⟩)
      · rename_i hlt
        have hx : i + 2 ^ j < pg.length := by omega
        have hnode := fun m => node_o_at pg pg (i + 2 ^ j) i m hx hin
        have hdx : 2 ^ (j + 1) ∣ i + 2 ^ j + 1 := ⟨t + 1, by rw [Nat.mul_add]; omega⟩
        have hdxj : 2 ^ j ∣ i + 2 ^ j + 1 := dvd_trans (pow_dvd_pow 2 (by omega)) hdx
        have hdi : 2 ^ j ∣ i + 1 := ⟨2 * t + 1, by rw [ht, hp]; ring⟩
        have hndi : ¬ 2 ^ (j + 1) ∣ i + 1 := by
          intro hc
          obtain ⟨s, hs⟩ := hc
          have e1 : 2 ^ (j + 1) * t < 2 ^ (j + 1) * s := by omega
          have e2 : 2 ^ (j + 1) * s < 2 ^ (j + 1) * (t + 1) := by
            rw [Nat.mul_add]; omega
          have e3 := Nat.lt_of_mul_lt_mul_left e1
          have e4 := Nat.lt_of_mul_lt_mul_left e2
          omega
        have hex : (node pg (i + 2 ^ j)).end_ + 2 ^ j = i + 2 ^ j + 1 :=
          (hmid.2 _ hx hdxj).2 (fun hc => by omega)
        have hei : (node pg i).end_ + 2 ^ j = i + 1 :=
          (hmid.2 _ hin hdi).2 (fun hc => hndi hc.1)
        have hstep := ih (i + 2 ^ (j + 1)) (o_at pg (i + 2 ^ j) pg i)
          (by rw [length_o_at]; omega) hnext ?_ ?_
        · rw [length_o_at] at hstep
          exact hstep
        · intro m hm
          rw [length_o_at] at hm
          rw [hnode m]
          by_cases e : m = i + 2 ^ j
          · rw [if_pos e, e]
            exact node_ok_o_operation gs ps (i + 2 ^ j) i _ _ (hok _ hx) (hok _ hin)
              (by omega)
          · rw [if_neg e]
            exact hok m hm
        · refine ⟨?_, ?_⟩
          · intro m hm u hu hd hnd
            rw [length_o_at] at hm
            rw [hnode m]
            by_cases e : m = i + 2 ^ j
            · exfalso
              subst e
              exact hnd (dvd_trans (pow_dvd_pow 2 (by omega)) hdxj)
            · rw [if_neg e]
              exact hmid.1 m hm u hu hd hnd
          · intro m hm hd
            rw [length_o_at] at hm
            rw [hnode m]
            by_cases e : m = i + 2 ^ j
            · rw [if_pos e, e]
              simp only [PG.o_operation]
              exact ⟨fun _ => by omega, fun hc => absurd ⟨hdx, by omega⟩ hc⟩
            · rw [if_neg e]
              refine ⟨fun hc => ?_, fun hc => ?_⟩
              · refine (hmid.2 m hm hd).1 ⟨hc.1, ?_⟩
                by_contra hge
                exact e (honly m hc.1 (by omega) hc.2)
              · exact (hmid.2 m hm hd).2 (fun hc2 => hc ⟨hc2.1, by omega⟩)
    · rename_i hout
      exact ⟨rfl, hok, hdone i pg (by omega) hmid⟩

theorem brent_kung_mid_start (j : Nat) (pg : List PG) (h : brent_kung_inv j pg) :
    brent_kung_mid j (2 ^ j - 1) pg := by
  have hq : 0 < 2 ^ j := Nat.two_pow_pos j
  have hp : 2 ^ (j + 1) = 2 * 2 ^ j := by rw [pow_succ]; omega
  refine ⟨?_, ?_⟩
  · intro m hm t ht hd hnd
    exact h m hm t (by omega) hd (Or.inr hnd)
  · intro m hm hd
    refine ⟨fun hc => ?_, fun _ => h m hm j (le_refl _) hd (Or.inl rfl)⟩
    have := Nat.le_of_dvd (by omega) hc.1
    omega

theorem brent_kung_first_round_spec (gs ps : Nat → Bool) :
    ∀ (rounds j : Nat) (pg : List PG), state_ok gs ps pg → brent_kung_inv j pg →
      (brent_kung_first_round rounds j pg).length = pg.length
        ∧ state_ok gs ps (brent_kung_first_round rounds j pg)
        ∧ ∃ j2, brent_kung_inv j2 (brent_kung_first_round rounds j pg) := by
  intro rounds
  induction rounds with
  | zero =>
    intro j pg hok hinv
    exact ⟨rfl, hok, j, hinv⟩
  | succ r ih =>
    intro j pg hok hinv
    have hq : 0 < 2 ^ j := Nat.two_pow_pos j
    simp only [brent_kung_first_round]
    split
    · obtain ⟨hl, hok2, hinv2⟩ := brent_kung_inner_spec gs ps j pg.length (2 ^ j - 1) pg
        (by omega) ⟨0, by omega⟩ hok (brent_kung_mid_start j pg hinv)
      have := ih (j + 1) _ hok2 hinv2
      rw [hl] at this
      exact this
    · exact ⟨rfl, hok, j, hinv⟩

/-! ### The up-sweep -/

theorem o_at_eq_set (pg src : List PG) (x y : Nat) (hx : x < pg.length)
    (hy : y < src.length) :
    o_at pg x src y = pg.set x ((node pg x).o_operation (node src y)) := by
  unfold o_at node
  simp [List.getElem?_eq_getElem hx, List.getElem?_eq_getElem hy]

theorem pending_set :
    ∀ (pg : List PG) (k : Nat) (x : PG), k < pg.length →
      pending (pg.set k x) + (if (node pg k).end_ = 0 then 0 else 1)
        = pending pg + (if x.end_ = 0 then 0 else 1) := by
  intro pg
  induction pg with
  | nil => intro k x h; simp at h
  | cons y ys ih =>
    intro k x h
    cases k with
    | zero =>
      simp only [List.set_cons_zero, pending, node, List.getD_cons_zero]
      omega
    | succ k =>
      have h2 : k < ys.length := by simpa using h
      have := ih k x h2
      simp only [List.set_cons_succ, pending, node, List.getD_cons_succ] at this ⊢
      omega

theorem pending_o_at (pg : List PG) (k j : Nat) (hk : k < pg.length) (hj : j < pg.length)
    (hzero : (node pg j).end_ = 0) (hne : (node pg k).end_ ≠ 0) :
    pending (o_at pg k pg j) + 1 = pending pg := by
  rw [o_at_eq_set pg pg k j hk hj]
  have := pending_set pg k ((node pg k).o_operation (node pg j)) hk
  have he : ((node pg k).o_operation (node pg j)).end_ = 0 := hzero
  rw [he, if_neg hne, if_pos rfl] at this
  omega

theorem find_j_spec (pg : List PG) :
    ∀ (fuel j : Nat), j ≤ pg.length → pg.length ≤ fuel + j →
      j ≤ find_j pg fuel j ∧ find_j pg fuel j ≤ pg.length
        ∧ (find_j pg fuel j = pg.length ∨ rev_end pg (find_j pg fuel j) = 0)
        ∧ ∀ x, j ≤ x → x < find_j pg fuel j → rev_end pg x ≠ 0 := by
  intro fuel
  induction fuel with
  | zero =>
    intro j h1 h2
    simp only [find_j]
    exact ⟨le_refl _, h1, Or.inl (by omega), fun x h3 h4 => by omega⟩
  | succ f ih =>
    intro j h1 h2
    simp only [find_j]
    split
    · rename_i e
      exact ⟨le_refl _, h1, Or.inl e, fun x h3 h4 => by omega⟩
    · rename_i e
      split
      · rename_i hz
        exact ⟨le_refl _, h1, Or.inr hz, fun x h3 h4 => by omega⟩
      · rename_i hz
        obtain ⟨a1, a2, a3, a4⟩ := ih (j + 1) (by omega) (by omega)
        refine ⟨by omega, a2, a3, ?_⟩
        intro x h3 h4
        by_cases e2 : x = j
        · subst e2; exact hz
        · exact a4 x (by omega) h4

theorem find_k_spec (pg : List PG) (j : Nat) :
    ∀ (fuel k : Nat), k ≤ j → j ≤ fuel + k →
      k ≤ find_k pg j fuel k ∧ find_k pg j fuel k ≤ j
        ∧ (find_k pg j fuel k = j ∨ rev_end pg (find_k pg j fuel k) = rev_end pg (j - 1))
        ∧ ∀ x, k ≤ x → x < find_k pg j fuel k → rev_end pg x ≠ rev_end pg (j - 1) := by
  intro fuel
  induction fuel with
  | zero =>
    intro k h1 h2
    simp only [find_k]
    exact ⟨le_refl _, h1, Or.inl (by omega), fun x h3 h4 => by omega⟩
  | succ f ih =>
    intro k h1 h2
    simp only [find_k]
    split
    · rename_i e
      exact ⟨le_refl _, h1, Or.inl e, fun x h3 h4 => by omega⟩
    · rename_i e
      split
      · rename_i hz
        exact ⟨le_refl _, h1, Or.inr hz, fun x h3 h4 => by omega⟩
      · rename_i hz
        obtain ⟨a1, a2, a3, a4⟩ := ih (k + 1) (by omega) (by omega)
        refine ⟨by omega, a2, a3, ?_⟩
        intro x h3 h4
        by_cases e2 : x = k
        · subst e2; exact hz
        · exact a4 x (by omega) h4

/-- One combination of the up-sweep: node `k` absorbs the fully reduced node `j`. -/
theorem up_sweep_step (gs ps : Nat → Bool) (pg : List PG) (top j k : Nat)
    (hok : state_ok gs ps pg) (hlam : laminar pg)
    (htop : top < pg.length) (hjk : j < k) (hkt : k ≤ top)
    (habove : ∀ m, top < m → m < pg.length → (node pg m).end_ = 0)
    (hj0 : (node pg j).end_ = 0)
    (hbetween : ∀ m, j < m → m ≤ top → (node pg m).end_ ≠ 0)
    (hk : (node pg k).end_ = (node pg (j + 1)).end_)
    (hfirst : ∀ m, k < m → m ≤ top → (node pg m).end_ ≠ (node pg (j + 1)).end_) :
    state_ok gs ps (o_at pg k pg j) ∧ laminar (o_at pg k pg j)
      ∧ (∀ m, m < pg.length →
          (node (o_at pg k pg j) m).end_ = if m = k then 0 else (node pg m).end_) := by
  have hkl : k < pg.length := by omega
  have hjl : j < pg.length := by omega
  have hnode := fun m => node_o_at pg pg k j m hkl hjl
  -- the node above `j` starts right after `j`
  have hj1 : (node pg (j + 1)).end_ = j + 1 := by
    have h1 := (hok (j + 1) (by omega)).2.1
    by_contra hne
    have h2 := hlam j (j + 1) (by omega) (by omega) (by omega)
    rw [hj0] at h2
    exact hbetween (j + 1) (by omega) (by omega) (by omega)
  have hend : ∀ m, m < pg.length →
      (node (o_at pg k pg j) m).end_ = if m = k then 0 else (node pg m).end_ := by
    intro m _
    rw [hnode m]
    by_cases e : m = k
    · simp [e, PG.o_operation, hj0]
    · simp [e]
  refine ⟨?_, ?_, hend⟩
  · intro m hm
    rw [length_o_at] at hm
    rw [hnode m]
    by_cases e : m = k
    · rw [if_pos e, e]
      exact node_ok_o_operation gs ps k j _ _ (hok k hkl) (hok j hjl) (by omega)
    · rw [if_neg e]
      exact hok m hm
  · intro m m2 hlt hm2 hreach
    rw [length_o_at] at hm2
    rw [hend m2 hm2] at hreach ⊢
    rw [hend m (by omega)]
    by_cases e2 : m2 = k
    · simp [e2]
    · rw [if_neg e2] at hreach ⊢
      by_cases e : m = k
      · rw [if_pos e]
        subst e
        by_cases ht : top < m2
        · rw [habove m2 ht hm2]
        · exfalso
          have h1 := hlam m m2 hlt hm2 hreach
          have h2 := hfirst m2 hlt (by omega)
          have h3 := hlam j m2 (by omega) hm2 (by omega)
          rw [hj0] at h3
          exact hbetween m2 (by omega) (by omega) (by omega)
      · rw [if_neg e]
        exact hlam m m2 hlt hm2 hreach

theorem second_round_spec (gs ps : Nat → Bool) :
    ∀ (fuel i : Nat) (pg : List PG), 0 < pg.length → i ≤ pg.length →
      state_ok gs ps pg → laminar pg →
      (∀ m, m < pg.length → pg.length ≤ m + i → (node pg m).end_ = 0) →
      pending pg + (pg.length - i) < fuel →
      ∃ out, second_round fuel i pg = some out ∧ out.length = pg.length
        ∧ state_ok gs ps out ∧ all_reduced out := by
  intro fuel
  induction fuel with
  | zero => intro i pg _ _ _ _ _ hf; omega
  | succ f ih =>
    intro i pg hpos hi hok hlam hzero hf
    simp only [second_round]
    split
    · rename_i e
      exact ⟨pg, rfl, rfl, hok, fun m hm => hzero m hm (by omega)⟩
    · rename_i e
      have hiN : i < pg.length := by omega
      have hre := rev_end_eq pg i hiN
      split
      · rename_i hz
        refine ih (i + 1) pg hpos (by omega) hok hlam ?_ (by omega)
        intro m hm hge
        by_cases e2 : m = pg.length - 1 - i
        · rw [e2, ← hre]; exact hz
        · exact hzero m hm (by omega)
      · rename_i hz
        obtain ⟨a1, a2, a3, a4⟩ := find_j_spec pg pg.length i (by omega) (by omega)
        generalize find_j pg pg.length i = j at a1 a2 a3 a4 ⊢
        -- node 0 is fully reduced, so the search for `j` stops inside the vector
        have h0 : rev_end pg (pg.length - 1) = 0 := by
          rw [rev_end_eq pg _ (by omega)]
          have := (hok 0 hpos).2.1
          have e3 : pg.length - 1 - (pg.length - 1) = 0 := by omega
          rw [e3]
          omega
        have hjN : j < pg.length := by
          by_contra hge
          exact a4 (pg.length - 1) (by omega) (by omega) h0
        have hj0 : rev_end pg j = 0 := by
          rcases a3 with h | h
          · omega
          · exact h
        have hij : i < j := by
          rcases Nat.eq_or_lt_of_le a1 with h | h
          · rw [h] at hz; exact absurd hj0 hz
          · exact h
        obtain ⟨b1, b2, b3, b4⟩ := find_k_spec pg j pg.length i (by omega) (by omega)
        generalize find_k pg j pg.length i = k at b1 b2 b3 b4 ⊢
        have hkj : k < j := by
          by_contra hge
          exact b4 (j - 1) (by omega) (by omega) rfl
        have hk : rev_end pg k = rev_end pg (j - 1) := by
          rcases b3 with h | h
          · omega
          · exact h
        rw [if_pos ⟨hjN, by omega⟩]
        -- the same facts in terms of indices
        have ej1 : pg.length - 1 - (j - 1) = pg.length - 1 - j + 1 := by omega
        rw [rev_end_eq pg j hjN] at hj0
        rw [rev_end_eq pg k (by omega), rev_end_eq pg (j - 1) (by omega), ej1] at hk
        obtain ⟨s1, s2, s3⟩ := up_sweep_step gs ps pg (pg.length - 1 - i)
          (pg.length - 1 - j) (pg.length - 1 - k) hok hlam (by omega) (by omega) (by omega)
          (fun m h1 h2 => hzero m h2 (by omega)) hj0
          (fun m h1 h2 => by
            have := a4 (pg.length - 1 - m) (by omega) (by omega)
            rw [rev_end_eq pg _ (by omega)] at this
            have e3 : pg.length - 1 - (pg.length - 1 - m) = m := by omega
            rw [e3] at this
            exact this)
          hk
          (fun m h1 h2 => by
            have := b4 (pg.length - 1 - m) (by omega) (by omega)
            rw [rev_end_eq pg _ (by omega), rev_end_eq pg (j - 1) (by omega), ej1] at this
            have e3 : pg.length - 1 - (pg.length - 1 - m) = m := by omega
            rw [e3] at this
            exact this)
        have hpend := pending_o_at pg (pg.length - 1 - k) (pg.length - 1 - j) (by omega)
          (by omega) hj0 (by
            rw [hk]
            have := a4 (j - 1) (by omega) (by omega)
            rw [rev_end_eq pg _ (by omega), ej1] at this
            exact this)
        have hl := length_o_at pg pg (pg.length - 1 - k) (pg.length - 1 - j)
        split
        · rename_i hne
          have := ih i (o_at pg (pg.length - 1 - k) pg (pg.length - 1 - j))
            (by rw [hl]; exact hpos) (by rw [hl]; exact hi) s1 s2 ?_ (by rw [hl]; omega)
          · rw [hl] at this
            exact this
          · intro m hm hge
            rw [hl] at hm hge
            rw [s3 m hm]
            split
            · rfl
            · exact hzero m hm hge
        · rename_i heq
          have := ih (i + 1) (o_at pg (pg.length - 1 - k) pg (pg.length - 1 - j))
            (by rw [hl]; exact hpos) (by rw [hl]; omega) s1 s2 ?_ (by rw [hl]; omega)
          · rw [hl] at this
            exact this
          · intro m hm hge
            rw [hl] at hm hge
            rw [s3 m hm]
            split
            · rfl
            · rename_i hmk
              exact hzero m hm (by omega)

theorem pending_lt_length (gs ps : Nat → Bool) (pg : List PG) (hpos : 0 < pg.length)
    (hok : state_ok gs ps pg) : pending pg < pg.length := by
  have hle : ∀ l : List PG, pending l ≤ l.length := by
    intro l
    induction l with
    | nil => simp [pending]
    | cons x xs ih =>
      simp only [pending, List.length_cons]
      split <;> omega
  cases pg with
  | nil => simp at hpos
  | cons x xs =>
    have h0 := (hok 0 hpos).2.1
    simp only [node, List.getD_cons_zero] at h0
    have := hle xs
    simp only [pending, List.length_cons]
    rw [if_pos (by omega)]
    omega

/-- On a state with nested ranges the up-sweep terminates within its budget, without
leaving the vector, and leaves every node fully reduced. -/
theorem up_sweep_total (gs ps : Nat → Bool) (pg : List PG) (hpos : 0 < pg.length)
    (hok : state_ok gs ps pg) (hlam : laminar pg) :
    ∃ out, second_round (2 * pg.length) 0 pg = some out ∧ out.length = pg.length
      ∧ state_ok gs ps out ∧ all_reduced out := by
  have := pending_lt_length gs ps pg hpos hok
  exact second_round_spec gs ps (2 * pg.length) 0 pg hpos (by omega) hok hlam
    (fun m h1 h2 => by omega) (by omega)

/-! ### Brent-Kung generators -/

theorem brent_kung_inv_zero (pg : List PG) (h : ∀ m, m < pg.length → (node pg m).end_ = m) :
    brent_kung_inv 0 pg := by
  intro m hm t ht _ _
  have : t = 0 := by omega
  subst this
  rw [h m hm]
  simp

/-- Down-sweep followed by up-sweep, started on single-bit nodes. -/
theorem brent_kung_sweeps (gs ps : Nat → Bool) (pg : List PG) (hpos : 0 < pg.length)
    (hok : state_ok gs ps pg) (hend : ∀ m, m < pg.length → (node pg m).end_ = m) :
    ∃ out, second_round (2 * (brent_kung_first_round (ceil_log2 pg.length) 0 pg).length) 0
        (brent_kung_first_round (ceil_log2 pg.length) 0 pg) = some out
      ∧ out.length = pg.length ∧ state_ok gs ps out ∧ all_reduced out := by
  obtain ⟨h1, h2, j2, h3⟩ := brent_kung_first_round_spec gs ps (ceil_log2 pg.length) 0 pg hok
    (brent_kung_inv_zero pg hend)
  obtain ⟨out, o1, o2, o3, o4⟩ := up_sweep_total gs ps _ (by rw [h1]; exact hpos) h2
    (laminar_of_brent_kung_inv j2 _ h3)
  exact ⟨out, o1, o2.trans h1, o3, o4⟩

/-- The Brent-Kung sweeps of the adder, with the input carry folded into node 0, end
without failure and leave in node `m` the carry into bit `m + 1`. -/
theorem brent_kung_folded_carries (w : Nat) (gen pro : List Signal) (c : Signal)
    (hlen : pro.length = gen.length) (hpos : 0 < gen.length) :
    ∃ out, second_round
        (2 * (brent_kung_first_round
          (ceil_log2 (o_at (pg_build w 0 gen pro) 0
            [PG.new c (get_constant false) w 0] 0).length) 0
          (o_at (pg_build w 0 gen pro) 0 [PG.new c (get_constant false) w 0] 0)).length) 0
        (brent_kung_first_round
          (ceil_log2 (o_at (pg_build w 0 gen pro) 0
            [PG.new c (get_constant false) w 0] 0).length) 0
          (o_at (pg_build w 0 gen pro) 0 [PG.new c (get_constant false) w 0] 0)) = some out
      ∧ out.length = gen.length
      ∧ ∀ m, m < out.length → (node out m).g = chain (bit_at gen) (bit_at pro) c (m + 1) := by
  have hl : (o_at (pg_build w 0 gen pro) 0 [PG.new c (get_constant false) w 0] 0).length
      = gen.length := by
    rw [length_o_at, length_pg_build]; omega
  obtain ⟨out, o1, o2, o3, o4⟩ := brent_kung_sweeps _ _
    (o_at (pg_build w 0 gen pro) 0 [PG.new c (get_constant false) w 0] 0)
    (by rw [hl]; exact hpos) (state_ok_fold w gen pro c)
    (fun m hm => end_fold w gen pro c m (by rw [length_o_at] at hm; exact hm))
  refine ⟨out, o1, o2.trans hl, ?_⟩
  intro m hm
  rw [reduced_g _ _ _ o3 o4 m hm]
  exact group_g_folded_eq_chain _ _ c m

/-- The Brent-Kung sweeps of the subtractor, where nothing is folded into node 0, end
without failure and leave in node `m` the borrow into bit `m + 1` for borrow-in 0. -/
theorem brent_kung_plain_carries (w : Nat) (gen pro : List Signal)
    (hlen : pro.length = gen.length) (hpos : 0 < gen.length) :
    ∃ out, second_round
        (2 * (brent_kung_first_round (ceil_log2 (pg_build w 0 gen pro).length) 0
          (pg_build w 0 gen pro)).length) 0
        (brent_kung_first_round (ceil_log2 (pg_build w 0 gen pro).length) 0
          (pg_build w 0 gen pro)) = some out
      ∧ out.length = gen.length
      ∧ ∀ m, m < out.length →
          (node out m).g = chain (bit_at gen) (bit_at pro) false (m + 1) := by
  have hl : (pg_build w 0 gen pro).length = gen.length := by
    rw [length_pg_build]; omega
  obtain ⟨out, o1, o2, o3, o4⟩ := brent_kung_sweeps _ _ (pg_build w 0 gen pro)
    (by rw [hl]; exact hpos) (state_ok_pg_build w gen pro)
    (fun m hm => by
      rw [node_pg_build w gen pro 0 m (by omega) (by omega)]
      simp)
  refine ⟨out, o1, o2.trans hl, ?_⟩
  intro m hm
  rw [reduced_g _ _ _ o3 o4 m hm]
  exact group_g_zero_eq_chain _ _ m

/-- The Brent-Kung adder returns the sum modulo `2^n` and bit `n` of the sum. -/
theorem brent_kung_adder_inplace_sum (a b : List Signal) (c : Signal)
    (hn : 1 ≤ a.length) (hlen : b.length = a.length) :
    ∃ s k, brent_kung_adder_inplace a b c = some (s, k) ∧ s.length = a.length
      ∧ value s = (value a + value b + c.toNat) % 2 ^ a.length
      ∧ k = Nat.testBit (value a + value b + c.toNat) a.length := by
  have hguard : ¬ (a.length = 0 ∨ b.length < a.length) := by omega
  have hgl : (List.zipWith (fun f g => create_and f g) a b).length = a.length := by
    simp [hlen]
  have hpl : (List.zipWith (fun f g => create_xor f g) a b).length = a.length := by
    simp [hlen]
  obtain ⟨out, o1, o2, o3⟩ := brent_kung_folded_carries a.length
    (List.zipWith (fun f g => create_and f g) a b)
    (List.zipWith (fun f g => create_xor f g) a b) c (by rw [hgl, hpl]) (by omega)
  rw [hgl] at o2
  refine ⟨_, _, ?_, adder_finish a b c out hlen o2 (by omega) o3⟩
  simp only [brent_kung_adder_inplace, if_neg hguard, o1]

/-- With borrow-in 0, `brent_kung_subtractor_inplace` returns the difference modulo
`2^n` and the comparison `A < B`. -/
theorem brent_kung_subtractor_inplace_zero (a b : List Signal)
    (hn : 1 ≤ a.length) (hlen : b.length = a.length) :
    ∃ d w, brent_kung_subtractor_inplace a b false = some (d, w) ∧ d.length = a.length
      ∧ (value d : Int) = ((value a : Int) - value b - false.toNat) % 2 ^ a.length
      ∧ w = decide (value a < value b + false.toNat) := by
  have hguard : ¬ (a.length = 0 ∨ b.length < a.length) := by omega
  have hgl : (List.zipWith (fun f g => create_and (create_not f) g) a b).length
      = a.length := by
    simp [hlen]
  have hpl : (List.zipWith (fun f g => create_or (create_not f) g) a b).length
      = a.length := by
    simp [hlen]
  obtain ⟨out, o1, o2, o3⟩ := brent_kung_plain_carries a.length
    (List.zipWith (fun f g => create_and (create_not f) g) a b)
    (List.zipWith (fun f g => create_or (create_not f) g) a b) (by rw [hgl, hpl]) (by omega)
  rw [hgl] at o2
  refine ⟨_, _, ?_, subtractor_finish a b false out hlen o2 (by omega) o3⟩
  simp only [brent_kung_subtractor_inplace, if_neg hguard, o1]

/-! ### Han-Carlson rounds -/

theorem laminar_of_han_carlson_final (pg : List PG) (h : han_carlson_final pg) :
    laminar pg := by
  intro m k hmk hk hreach
  obtain ⟨k1, k2, k3⟩ := h k hk
  obtain ⟨_, _, m3⟩ := h m (by omega)
  have hcases : k % 4 = 3 ∨ k % 4 = 1 ∨ k % 2 = 0 := by omega
  rcases hcases with c | c | c
  · rw [k1 c]; omega
  · have e := k2 c
    have hm : m % 2 = 0 := by omega
    have := m3 hm
    omega
  · have := k3 c
    omega

theorem han_carlson_inner_spec (gs ps : Nat → Bool) (j : Nat) (hj : 2 ≤ j) (bak : List PG)
    (hbak : state_ok gs ps bak) (hinv : han_carlson_inv j bak) :
    ∀ (fuel i : Nat) (pg : List PG), pg.length = bak.length → pg.length ≤ fuel + i →
      i % 4 = 3 → state_ok gs ps pg → han_carlson_mid j i pg →
      (han_carlson_inner j bak fuel i pg).length = pg.length
        ∧ state_ok gs ps (han_carlson_inner j bak fuel i pg)
        ∧ han_carlson_inv (j + 1) (han_carlson_inner j bak fuel i pg) := by
  have hp : 2 ^ (j + 1) = 2 * 2 ^ j := by rw [pow_succ]; omega
  obtain ⟨u, hu⟩ : 2 ^ 2 ∣ 2 ^ j := pow_dvd_pow 2 hj
  have hu : 2 ^ j = 4 * u := by omega
  have hdone : ∀ (i : Nat) (pg : List PG), pg.length ≤ i → han_carlson_mid j i pg →
      han_carlson_inv (j + 1) pg := by
    intro i pg hi hmid m hm
    obtain ⟨m1, m2, m3⟩ := hmid m hm
    refine ⟨fun c => ?_, m2, m3⟩
    rw [m1 c, if_pos (by omega)]
  intro fuel
  induction fuel with
  | zero =>
    intro i pg _ hf _ hok hmid
    exact ⟨rfl, hok, hdone i pg (by omega) hmid⟩
  | succ f ih =>
    intro i pg hlen hf hi hok hmid
    simp only [han_carlson_inner]
    have h4 : (2 : Nat) ^ 2 = 4 := by norm_num
    split
    · rename_i hin
      split
      · rename_i hge
        refine ih (i + 2 ^ 2) pg hlen (by omega) (by omega) hok ?_
        intro m hm
        obtain ⟨m1, m2, m3⟩ := hmid m hm
        refine ⟨fun c => ?_, m2, m3⟩
        rw [m1 c, if_pos (by omega), if_pos (by omega)]
      · rename_i hlt
        have hx : i + 2 ^ j < pg.length := by omega
        have hy : i < bak.length := by omega
        have hnode := fun m => node_o_at pg bak (i + 2 ^ j) i m hx hy
        have hex : (node pg (i + 2 ^ j)).end_ = i + 1 := by
          rw [(hmid _ hx).1 (by omega), if_neg (by omega)]
          omega
        have hstep := ih (i + 2 ^ 2) (o_at pg (i + 2 ^ j) bak i)
          (by rw [length_o_at]; exact hlen) (by rw [length_o_at]; omega) (by omega) ?_ ?_
        · rw [length_o_at] at hstep
          exact hstep
        · intro m hm
          rw [length_o_at] at hm
          rw [hnode m]
          by_cases e : m = i + 2 ^ j
          · rw [if_pos e, e]
            exact node_ok_o_operation gs ps (i + 2 ^ j) i _ _ (hok _ hx) (hbak _ hy)
              (by omega)
          · rw [if_neg e]
            exact hok m hm
        · intro m hm
          rw [length_o_at] at hm
          rw [hnode m]
          by_cases e : m = i + 2 ^ j
          · rw [if_pos e, e]
            simp only [PG.o_operation]
            refine ⟨fun _ => ?_, fun c => by omega, fun c => by omega⟩
            rw [(hinv i hy).1 hi, if_pos (by omega)]
            omega
          · rw [if_neg e]
            obtain ⟨m1, m2, m3⟩ := hmid m hm
            refine ⟨fun c => ?_, m2, m3⟩
            rw [m1 c]
            by_cases h2 : m < i + 2 ^ j
            · rw [if_pos h2, if_pos (by omega)]
            · rw [if_neg h2, if_neg (by omega)]
    · rename_i hout
      exact ⟨rfl, hok, hdone i pg (by omega) hmid⟩

/-- The Kogge-Stone style rounds of the Han-Carlson loop. -/
theorem han_carlson_late_rounds (gs ps : Nat → Bool) :
    ∀ (rounds j : Nat) (pg : List PG), 2 ≤ j → 5 ≤ pg.length →
      pg.length ≤ 2 ^ (rounds + j) → state_ok gs ps pg → han_carlson_inv j pg →
      (han_carlson_rounds rounds j pg).length = pg.length
        ∧ state_ok gs ps (han_carlson_rounds rounds j pg)
        ∧ han_carlson_final (han_carlson_rounds rounds j pg) := by
  intro rounds
  induction rounds with
  | zero =>
    intro j pg _ _ hpow hok hinv
    refine ⟨rfl, hok, ?_⟩
    intro m hm
    simp only [han_carlson_rounds] at hm ⊢
    obtain ⟨m1, m2, m3⟩ := hinv m hm
    refine ⟨fun c => ?_, m2, m3⟩
    rw [m1 c]
    simp only [Nat.zero_add] at hpow
    omega
  | succ r ih =>
    intro j pg hj hn hpow hok hinv
    obtain ⟨u, hu⟩ : 2 ^ 2 ∣ 2 ^ j := pow_dvd_pow 2 hj
    have hu : 2 ^ j = 4 * u := by omega
    have hp : 2 ^ (j + 1) = 2 * 2 ^ j := by rw [pow_succ]; omega
    simp only [han_carlson_rounds]
    split
    · rw [if_neg (by omega)]
      have hin := han_carlson_inner_spec gs ps j hj pg hok hinv pg.length (2 ^ 2 - 1) pg rfl
        (by omega) (by norm_num) hok ?_
      · obtain ⟨hl, hok2, hinv2⟩ := hin
        have := ih (j + 1) _ (by omega) (by rw [hl]; exact hn)
          (by rw [hl]; have e : r + (j + 1) = r + 1 + j := by omega
              rw [e]; exact hpow) hok2 hinv2
        rw [hl] at this
        exact this
      · intro m hm
        obtain ⟨m1, m2, m3⟩ := hinv m hm
        refine ⟨fun c => ?_, m2, m3⟩
        rw [m1 c]
        have h4 : (2 : Nat) ^ 2 - 1 = 3 := by norm_num
        rw [h4]
        split
        · omega
        · rfl
    · rename_i hlast
      refine ⟨rfl, hok, ?_⟩
      rw [last_end_eq pg (by omega)] at hlast
      obtain ⟨l1, l2, l3⟩ := hinv (pg.length - 1) (by omega)
      have hcases : (pg.length - 1) % 4 = 3 ∨ (pg.length - 1) % 4 = 1
          ∨ (pg.length - 1) % 2 = 0 := by omega
      rcases hcases with c | c | c
      · have e := l1 c
        intro m hm
        obtain ⟨m1, m2, m3⟩ := hinv m hm
        refine ⟨fun c2 => ?_, m2, m3⟩
        rw [m1 c2]
        omega
      · have := l2 c
        omega
      · have := l3 c
        omega

theorem han_carlson_inv_two (pg : List PG) (h : brent_kung_inv 2 pg) :
    han_carlson_inv 2 pg := by
  intro m hm
  refine ⟨fun c => ?_, fun c => ?_, fun c => ?_⟩
  · have := h m hm 2 (le_refl _) (by norm_num; omega) (Or.inl rfl)
    norm_num at this ⊢
    omega
  · have := h m hm 1 (by omega) (by norm_num; omega) (Or.inr (by norm_num; omega))
    norm_num at this
    omega
  · have := h m hm 0 (by omega) (by simp) (Or.inr (by norm_num; omega))
    norm_num at this
    omega

/-- The round loop of the Han-Carlson generators on more than four bits. -/
theorem han_carlson_rounds_spec (gs ps : Nat → Bool) :
    ∀ (rounds j : Nat) (pg : List PG), j ≤ 2 → 5 ≤ pg.length →
      pg.length ≤ 2 ^ (rounds + j) → state_ok gs ps pg → brent_kung_inv j pg →
      (han_carlson_rounds rounds j pg).length = pg.length
        ∧ state_ok gs ps (han_carlson_rounds rounds j pg)
        ∧ han_carlson_final (han_carlson_rounds rounds j pg) := by
  intro rounds
  induction rounds with
  | zero =>
    intro j pg hj hn hpow _ _
    exfalso
    simp only [Nat.zero_add] at hpow
    have : 2 ^ j ≤ 2 ^ 2 := Nat.pow_le_pow_right (by norm_num) hj
    norm_num at this
    omega
  | succ r ih =>
    intro j pg hj hn hpow hok hinv
    rcases Nat.lt_or_ge j 2 with hlt | hge
    · have hq : 0 < 2 ^ j := Nat.two_pow_pos j
      have hq2 : 2 ^ j ≤ 2 := by
        have : 2 ^ j ≤ 2 ^ 1 := Nat.pow_le_pow_right (by norm_num) (by omega)
        simpa using this
      have hlast : last_end pg ≠ 0 := by
        rw [last_end_eq pg (by omega)]
        obtain ⟨t, ht, hd, hmax⟩ := exists_level (pg.length - 1) j
        have := hinv (pg.length - 1) (by omega) t ht hd hmax
        have : 2 ^ t ≤ 2 ^ j := Nat.pow_le_pow_right (by norm_num) ht
        omega
      simp only [han_carlson_rounds]
      rw [if_pos hlast, if_pos hlt]
      obtain ⟨hl, hok2, hinv2⟩ := brent_kung_inner_spec gs ps j pg.length (2 ^ j - 1) pg
        (by omega) ⟨0, by omega⟩ hok (brent_kung_mid_start j pg hinv)
      have := ih (j + 1) _ (by omega) (by rw [hl]; exact hn)
        (by rw [hl]; have e : r + (j + 1) = r + 1 + j := by omega
            rw [e]; exact hpow) hok2 hinv2
      rw [hl] at this
      exact this
    · have e : j = 2 := by omega
      subst e
      exact han_carlson_late_rounds gs ps (r + 1) 2 pg (le_refl _) hn hpow hok
        (han_carlson_inv_two pg hinv)

/-- Han-Carlson rounds followed by the up-sweep, started on single-bit nodes. -/
theorem han_carlson_sweeps (gs ps : Nat → Bool) (pg : List PG) (hn : 5 ≤ pg.length)
    (hok : state_ok gs ps pg) (hend : ∀ m, m < pg.length → (node pg m).end_ = m) :
    ∃ out, second_round (2 * (han_carlson_rounds (ceil_log2 pg.length) 0 pg).length) 0
        (han_carlson_rounds (ceil_log2 pg.length) 0 pg) = some out
      ∧ out.length = pg.length ∧ state_ok gs ps out ∧ all_reduced out := by
  obtain ⟨h1, h2, h3⟩ := han_carlson_rounds_spec gs ps (ceil_log2 pg.length) 0 pg
    (by omega) hn (by rw [Nat.add_zero]; exact le_two_pow_ceil_log2 _) hok
    (brent_kung_inv_zero pg hend)
  obtain ⟨out, o1, o2, o3, o4⟩ := up_sweep_total gs ps _ (by rw [h1]; omega) h2
    (laminar_of_han_carlson_final _ h3)
  exact ⟨out, o1, o2.trans h1, o3, o4⟩

/-- The Han-Carlson rounds and up-sweep on more than four bits, where nothing is folded
into node 0, end without failure and leave in node `m` the carry into bit `m + 1` for
carry-in 0. -/
theorem han_carlson_plain_carries (w : Nat) (gen pro : List Signal)
    (hlen : pro.length = gen.length) (hn : 5 ≤ gen.length) :
    ∃ out, second_round
        (2 * (han_carlson_rounds (ceil_log2 (pg_build w 0 gen pro).length) 0
          (pg_build w 0 gen pro)).length) 0
        (han_carlson_rounds (ceil_log2 (pg_build w 0 gen pro).length) 0
          (pg_build w 0 gen pro)) = some out
      ∧ out.length = gen.length
      ∧ ∀ m, m < out.length →
          (node out m).g = chain (bit_at gen) (bit_at pro) false (m + 1) := by
  have hl : (pg_build w 0 gen pro).length = gen.length := by
    rw [length_pg_build]; omega
  obtain ⟨out, o1, o2, o3, o4⟩ := han_carlson_sweeps _ _ (pg_build w 0 gen pro)
    (by rw [hl]; exact hn) (state_ok_pg_build w gen pro)
    (fun m hm => by
      rw [node_pg_build w gen pro 0 m (by omega) (by omega)]
      simp)
  refine ⟨out, o1, o2.trans hl, ?_⟩
  intro m hm
  rw [reduced_g _ _ _ o3 o4 m hm]
  exact group_g_zero_eq_chain _ _ m

/-- With carry-in 0, `han_carlson_adder_inplace` returns the sum, for every width. -/
theorem han_carlson_adder_inplace_zero (a b : List Signal)
    (hn : 1 ≤ a.length) (hlen : b.length = a.length) :
    ∃ s k, han_carlson_adder_inplace a b false = some (s, k) ∧ s.length = a.length
      ∧ value s = (value a + value b + false.toNat) % 2 ^ a.length
      ∧ k = Nat.testBit (value a + value b + false.toNat) a.length := by
  rcases Nat.lt_or_ge 4 a.length with h5 | h4
  · have hgl : (List.zipWith (fun f g => create_and f g) a b).length = a.length := by
      simp [hlen]
    have hpl : (List.zipWith (fun f g => create_xor f g) a b).length = a.length := by
      simp [hlen]
    obtain ⟨out, o1, o2, o3⟩ := han_carlson_plain_carries a.length
      (List.zipWith (fun f g => create_and f g) a b)
      (List.zipWith (fun f g => create_xor f g) a b) (by rw [hgl, hpl]) (by omega)
    rw [hgl] at o2
    refine ⟨_, _, ?_, adder_finish a b false out hlen o2 (by omega) o3⟩
    simp only [han_carlson_adder_inplace, if_neg (by omega : ¬ a.length ≤ 4),
      if_neg (by omega : ¬ b.length < a.length), o1]
  · obtain ⟨s, k, h1, h2⟩ := brent_kung_adder_inplace_sum a b false hn hlen
    refine ⟨s, k, ?_, h2⟩
    simp only [han_carlson_adder_inplace, if_pos h4, h1]

/-- With borrow-in 0, `han_carlson_subtractor_inplace` returns the difference modulo
`2^n` and the comparison `A < B`, for every width. -/
theorem han_carlson_subtractor_inplace_zero (a b : List Signal)
    (hn : 1 ≤ a.length) (hlen : b.length = a.length) :
    ∃ d w, han_carlson_subtractor_inplace a b false = some (d, w) ∧ d.length = a.length
      ∧ (value d : Int) = ((value a : Int) - value b - false.toNat) % 2 ^ a.length
      ∧ w = decide (value a < value b + false.toNat) := by
  rcases Nat.lt_or_ge 4 a.length with h5 | h4
  · have hgl : (List.zipWith (fun f g => create_and (create_not f) g) a b).length
        = a.length := by
      simp [hlen]
    have hpl : (List.zipWith (fun f g => create_or (create_not f) g) a b).length
        = a.length := by
      simp [hlen]
    obtain ⟨out, o1, o2, o3⟩ := han_carlson_plain_carries a.length
      (List.zipWith (fun f g => create_and (create_not f) g) a b)
      (List.zipWith (fun f g => create_or (create_not f) g) a b) (by rw [hgl, hpl])
      (by omega)
    rw [hgl] at o2
    refine ⟨_, _, ?_, subtractor_finish a b false out hlen o2 (by omega) o3⟩
    simp only [han_carlson_subtractor_inplace, if_neg (by omega : ¬ a.length ≤ 4),
      if_neg (by omega : ¬ b.length < a.length), o1]
  · obtain ⟨d, w, h1, h2⟩ := brent_kung_subtractor_inplace_zero a b hn hlen
    refine ⟨d, w, ?_, h2⟩
    simp only [han_carlson_subtractor_inplace, if_pos h4, h1]

/-! ### Bit vectors are determined by length and value -/

theorem eq_low_bits :
    ∀ (s : List Signal) (n v : Nat), s.length = n → value s = v % 2 ^ n →
      s = low_bits n v := by
  intro s
  induction s with
  | nil =>
    intro n v hl _
    simp only [List.length_nil] at hl
    subst hl
    rfl
  | cons x xs ih =>
    intro n v hl hv
    cases n with
    | zero => simp at hl
    | succ n =>
      have hl2 : xs.length = n := by simpa using hl
      have hsplit : v % 2 ^ (n + 1) = v % 2 + 2 * (v / 2 % 2 ^ n) := by
        rw [pow_succ, Nat.mul_comm (2 ^ n) 2, Nat.mod_mul]
      have hx : x.toNat ≤ 1 := by cases x <;> simp
      have hm : v % 2 < 2 := Nat.mod_lt _ (by norm_num)
      simp only [value] at hv
      rw [hsplit] at hv
      have h1 : x.toNat = v % 2 := by omega
      have h2 : value xs = v / 2 % 2 ^ n := by omega
      simp only [low_bits]
      rw [← ih n (v / 2) hl2 h2]
      congr 1
      rw [Nat.testBit_zero]
      cases x <;> simp at h1 ⊢ <;> omega

theorem eq_of_value_eq (s t : List Signal) (hl : s.length = t.length)
    (hv : value s = value t) : s = t := by
  have h1 := eq_low_bits s s.length (value s) rfl
    (Nat.mod_eq_of_lt (value_lt s)).symm
  have h2 := eq_low_bits t s.length (value s) hl.symm
    (by rw [← hv]; exact (Nat.mod_eq_of_lt (value_lt s)).symm)
  rw [h1, ← h2]

theorem length_low_bits : ∀ (n v : Nat), (low_bits n v).length = n := by
  intro n
  induction n with
  | zero => intro v; rfl
  | succ n ih => intro v; simp [low_bits, ih]

theorem value_low_bits : ∀ (n v : Nat), value (low_bits n v) = v % 2 ^ n := by
  intro n
  induction n with
  | zero => intro v; simp [low_bits, value, Nat.mod_one]
  | succ n ih =>
    intro v
    simp only [low_bits, value, ih]
    rw [pow_succ, Nat.mul_comm (2 ^ n) 2, Nat.mod_mul, Nat.testBit_zero]
    rcases Nat.mod_two_eq_zero_or_one v with h0 | h0 <;> simp [h0]

theorem eq_low_bits_int (d : List Signal) (n : Nat) (X : Int) (hl : d.length = n)
    (hv : (value d : Int) = X % 2 ^ n) : d = low_bits n (X % 2 ^ n).toNat := by
  have e : (X % 2 ^ n).toNat = value d := by
    rw [← hv]
    exact Int.toNat_ofNat _
  rw [e]
  exact eq_low_bits d n _ hl (Nat.mod_eq_of_lt (hl ▸ value_lt d)).symm

/-! ### The generators compute sums and differences -/

/-- C1: `kogge_stone_adder_inplace` on two `n`-bit vectors (`n ≥ 1`) and a carry-in `c`
leaves in `a` the `n` low bits of `A + B + c` and in `carry` bit `n` of `A + B + c`;
the number of rounds is the integer `ceil(log2 n)`. -/
theorem kogge_stone_adder_inplace_correct (a b : List Signal) (c : Signal)
    (hn : 1 ≤ a.length) (hlen : b.length = a.length) :
    kogge_stone_adder_inplace a b c
      = some (low_bits a.length (value a + value b + c.toNat),
          Nat.testBit (value a + value b + c.toNat) a.length) := by
  obtain ⟨s, k, e, l, v, hk⟩ := kogge_stone_adder_inplace_sum a b c hn hlen
  rw [e, eq_low_bits s _ _ l v, hk]

/-- Witness for C1 on `5 + 3 + 1` over three bits. -/
theorem kogge_stone_adder_inplace_correct_witness :
    kogge_stone_adder_inplace [true, false, true] [true, true, false] true
      = some (low_bits [true, false, true].length
          (value [true, false, true] + value [true, true, false] + true.toNat),
          Nat.testBit (value [true, false, true] + value [true, true, false] + true.toNat)
            [true, false, true].length) :=
  kogge_stone_adder_inplace_correct [true, false, true] [true, true, false] true
    (by decide) (by decide)

/-- C2: `brent_kung_adder_inplace` on two `n`-bit vectors (`n ≥ 1`) and a carry-in `c`:
after the down-sweep and the up-sweep `a` holds the `n` low bits of `A + B + c` and
`carry` holds bit `n` of `A + B + c`. -/
theorem brent_kung_adder_inplace_correct (a b : List Signal) (c : Signal)
    (hn : 1 ≤ a.length) (hlen : b.length = a.length) :
    brent_kung_adder_inplace a b c
      = some (low_bits a.length (value a + value b + c.toNat),
          Nat.testBit (value a + value b + c.toNat) a.length) := by
  obtain ⟨s, k, e, l, v, hk⟩ := brent_kung_adder_inplace_sum a b c hn hlen
  rw [e, eq_low_bits s _ _ l v, hk]

/-- Witness for C2 on `5 + 3 + 1` over three bits. -/
theorem brent_kung_adder_inplace_correct_witness :
    brent_kung_adder_inplace [true, false, true] [true, true, false] true
      = some (low_bits [true, false, true].length
          (value [true, false, true] + value [true, true, false] + true.toNat),
          Nat.testBit (value [true, false, true] + value [true, true, false] + true.toNat)
            [true, false, true].length) :=
  brent_kung_adder_inplace_correct [true, false, true] [true, true, false] true
    (by decide) (by decide)

/-- C4: `kogge_stone_subtractor_inplace` on two `n`-bit vectors (`n ≥ 1`) and a
borrow-in `c` leaves `(A - B - c) mod 2^n` in `a`, and `borrow` is 1 exactly when
`A < B + c`. -/
theorem kogge_stone_subtractor_inplace_correct (a b : List Signal) (c : Signal)
    (hn : 1 ≤ a.length) (hlen : b.length = a.length) :
    kogge_stone_subtractor_inplace a b c
      = some (low_bits a.length
            ((((value a : Int) - value b - c.toNat) % 2 ^ a.length).toNat),
          decide (value a < value b + c.toNat)) := by
  obtain ⟨d, w, e, l, v, hw⟩ := kogge_stone_subtractor_inplace_difference a b c hn hlen
  rw [e, eq_low_bits_int d _ _ l v, hw]

/-- Witness for C4 on `2 - 5 - 1` over three bits. -/
theorem kogge_stone_subtractor_inplace_correct_witness :
    kogge_stone_subtractor_inplace [false, true, false] [true, false, true] true
      = some (low_bits [false, true, false].length
            ((((value [false, true, false] : Int) - value [true, false, true]
              - true.toNat) % 2 ^ [false, true, false].length).toNat),
          decide (value [false, true, false] < value [true, false, true] + true.toNat)) :=
  kogge_stone_subtractor_inplace_correct [false, true, false] [true, false, true] true
    (by decide) (by decide)

/-- C8: `borrow_ripple_subtractor_inplace` with the default two-input-gate cell, on
vectors of equal length `n ≥ 0` and a borrow-in `c`: `a` receives `(A - B - c) mod 2^n`
and the in/out borrow parameter receives the final borrow, which is 1 exactly when
`A < B + c`.  The vector `b` is a read-only argument of the generator. -/
theorem borrow_ripple_subtractor_inplace_correct (a b : List Signal) (c : Signal)
    (hlen : a.length = b.length) :
    borrow_ripple_subtractor_inplace gate_network a b c
      = some (low_bits a.length
            ((((value a : Int) - value b - c.toNat) % 2 ^ a.length).toNat),
          decide (value a < value b + c.toNat)) := by
  obtain ⟨d, w, e, l, v, hw⟩ := borrow_ripple_subtractor_inplace_difference a b c hlen
  rw [e, eq_low_bits_int d _ _ l v, hw]

/-- Witness for C8 on `5 - 6 - 1` over three bits. -/
theorem borrow_ripple_subtractor_inplace_correct_witness :
    borrow_ripple_subtractor_inplace gate_network [true, false, true] [false, true, true]
        true
      = some (low_bits [true, false, true].length
            ((((value [true, false, true] : Int) - value [false, true, true]
              - true.toNat) % 2 ^ [true, false, true].length).toNat),
          decide (value [true, false, true] < value [false, true, true] + true.toNat)) :=
  borrow_ripple_subtractor_inplace_correct [true, false, true] [false, true, true] true
    (by decide)

/-! ### Equivalence of the topologies -/

/-- C6: for every `n ≥ 1` (in particular `1 ≤ n ≤ 8`), all `n`-bit `A`, `B` and carry-in
constant false, `brent_kung_adder_inplace`, `kogge_stone_adder_inplace` and
`han_carlson_adder_inplace` leave the same sum vector in `a` and the same carry-out:
the `n` low bits and bit `n` of `A + B`. -/
theorem adders_agree (a b : List Signal) (hn : 1 ≤ a.length) (hlen : b.length = a.length) :
    brent_kung_adder_inplace a b (get_constant false)
        = some (low_bits a.length (value a + value b),
            Nat.testBit (value a + value b) a.length)
      ∧ kogge_stone_adder_inplace a b (get_constant false)
        = some (low_bits a.length (value a + value b),
            Nat.testBit (value a + value b) a.length)
      ∧ han_carlson_adder_inplace a b (get_constant false)
        = some (low_bits a.length (value a + value b),
            Nat.testBit (value a + value b) a.length) := by
  obtain ⟨s1, k1, e1, l1, v1, c1⟩ := brent_kung_adder_inplace_sum a b false hn hlen
  obtain ⟨s2, k2, e2, l2, v2, c2⟩ := kogge_stone_adder_inplace_sum a b false hn hlen
  obtain ⟨s3, k3, e3, l3, v3, c3⟩ := han_carlson_adder_inplace_zero a b hn hlen
  simp only [Bool.toNat_false, Nat.add_zero] at v1 v2 v3 c1 c2 c3
  simp only [get_constant]
  rw [e1, e2, e3, eq_low_bits s1 _ _ l1 v1, eq_low_bits s2 _ _ l2 v2,
    eq_low_bits s3 _ _ l3 v3, c1, c2, c3]
  exact ⟨rfl, rfl, rfl⟩

/-- Witness for C6 on `5 + 3` over three bits. -/
theorem adders_agree_witness :
    brent_kung_adder_inplace [true, false, true] [true, true, false] (get_constant false)
        = some (low_bits [true, false, true].length
            (value [true, false, true] + value [true, true, false]),
            Nat.testBit (value [true, false, true] + value [true, true, false])
              [true, false, true].length)
      ∧ kogge_stone_adder_inplace [true, false, true] [true, true, false]
          (get_constant false)
        = some (low_bits [true, false, true].length
            (value [true, false, true] + value [true, true, false]),
            Nat.testBit (value [true, false, true] + value [true, true, false])
              [true, false, true].length)
      ∧ han_carlson_adder_inplace [true, false, true] [true, true, false]
          (get_constant false)
        = some (low_bits [true, false, true].length
            (value [true, false, true] + value [true, true, false]),
            Nat.testBit (value [true, false, true] + value [true, true, false])
              [true, false, true].length) :=
  adders_agree [true, false, true] [true, true, false] (by decide) (by decide)

/-- C7: for every `n ≥ 1` (in particular `1 ≤ n ≤ 8`), all `n`-bit `A`, `B` and
borrow-in constant false, `brent_kung_subtractor_inplace`,
`kogge_stone_subtractor_inplace` and `han_carlson_subtractor_inplace` leave the same
difference vector and borrow-out as `borrow_ripple_subtractor_inplace` with the
two-input-gate cell, namely `(A - B) mod 2^n` and `[A < B]`. -/
theorem subtractors_agree (a b : List Signal) (hn : 1 ≤ a.length)
    (hlen : b.length = a.length) :
    borrow_ripple_subtractor_inplace gate_network a b (get_constant false)
        = some (low_bits a.length ((((value a : Int) - value b) % 2 ^ a.length).toNat),
            decide (value a < value b))
      ∧ brent_kung_subtractor_inplace a b (get_constant false)
        = some (low_bits a.length ((((value a : Int) - value b) % 2 ^ a.length).toNat),
            decide (value a < value b))
      ∧ kogge_stone_subtractor_inplace a b (get_constant false)
        = some (low_bits a.length ((((value a : Int) - value b) % 2 ^ a.length).toNat),
            decide (value a < value b))
      ∧ han_carlson_subtractor_inplace a b (get_constant false)
        = some (low_bits a.length ((((value a : Int) - value b) % 2 ^ a.length).toNat),
            decide (value a < value b)) := by
  obtain ⟨d0, w0, e0, l0, v0, c0⟩ :=
    borrow_ripple_subtractor_inplace_difference a b false hlen.symm
  obtain ⟨d1, w1, e1, l1, v1, c1⟩ := brent_kung_subtractor_inplace_zero a b hn hlen
  obtain ⟨d2, w2, e2, l2, v2, c2⟩ :=
    kogge_stone_subtractor_inplace_difference a b false hn hlen
  obtain ⟨d3, w3, e3, l3, v3, c3⟩ := han_carlson_subtractor_inplace_zero a b hn hlen
  simp only [Bool.toNat_false, Nat.add_zero, Nat.cast_zero, sub_zero]
    at v0 v1 v2 v3 c0 c1 c2 c3
  simp only [get_constant]
  rw [e0, e1, e2, e3, eq_low_bits_int d0 _ _ l0 v0, eq_low_bits_int d1 _ _ l1 v1,
    eq_low_bits_int d2 _ _ l2 v2, eq_low_bits_int d3 _ _ l3 v3, c0, c1, c2, c3]
  exact ⟨rfl, rfl, rfl, rfl⟩

/-- Witness for C7 on `2 - 5` over three bits. -/
theorem subtractors_agree_witness :
    borrow_ripple_subtractor_inplace gate_network [false, true, false] [true, false, true]
          (get_constant false)
        = some (low_bits [false, true, false].length
            ((((value [false, true, false] : Int) - value [true, false, true])
              % 2 ^ [false, true, false].length).toNat),
            decide (value [false, true, false] < value [true, false, true]))
      ∧ brent_kung_subtractor_inplace [false, true, false] [true, false, true]
          (get_constant false)
        = some (low_bits [false, true, false].length
            ((((value [false, true, false] : Int) - value [true, false, true])
              % 2 ^ [false, true, false].length).toNat),
            decide (value [false, true, false] < value [true, false, true]))
      ∧ kogge_stone_subtractor_inplace [false, true, false] [true, false, true]
          (get_constant false)
        = some (low_bits [false, true, false].length
            ((((value [false, true, false] : Int) - value [true, false, true])
              % 2 ^ [false, true, false].length).toNat),
            decide (value [false, true, false] < value [true, false, true]))
      ∧ han_carlson_subtractor_inplace [false, true, false] [true, false, true]
          (get_constant false)
        = some (low_bits [false, true, false].length
            ((((value [false, true, false] : Int) - value [true, false, true])
              % 2 ^ [false, true, false].length).toNat),
            decide (value [false, true, false] < value [true, false, true])) :=
  subtractors_agree [false, true, false] [true, false, true] (by decide) (by decide)

/-! ### The input carry of the generators that do not fold it -/

/-- C3: on five bits, `A = 1`, `B = 0` and carry-in 1, `han_carlson_adder_inplace`
leaves the vector 0 in `a` and carry 0, while `A + B + c = 2`; on the same inputs
`kogge_stone_adder_inplace`, which folds the carry into node 0, leaves 2. -/
theorem han_carlson_adder_ignores_carry :
    han_carlson_adder_inplace [true, false, false, false, false]
        [false, false, false, false, false] true
      = some ([false, false, false, false, false], false)
    ∧ kogge_stone_adder_inplace [true, false, false, false, false]
        [false, false, false, false, false] true
      = some ([false, true, false, false, false], false)
    ∧ low_bits 5 (value [true, false, false, false, false]
        + value [false, false, false, false, false] + true.toNat)
      = [false, true, false, false, false] := by
  decide

/-- C5: on one bit, `A = 0`, `B = 0` and borrow-in 1, `brent_kung_subtractor_inplace`
returns borrow 0, while `A < B + c`; on two bits with the same values it leaves 1 in
`a`, while `(A - B - c) mod 4 = 3`.  On the same inputs
`kogge_stone_subtractor_inplace`, which folds the borrow into node 0, returns borrow 1
and the vector 3. -/
theorem brent_kung_subtractor_ignores_borrow :
    brent_kung_subtractor_inplace [false] [false] true = some ([true], false)
    ∧ kogge_stone_subtractor_inplace [false] [false] true = some ([true], true)
    ∧ decide (value [false] < value [false] + true.toNat) = true
    ∧ brent_kung_subtractor_inplace [false, false] [false, false] true
      = some ([true, false], false)
    ∧ kogge_stone_subtractor_inplace [false, false] [false, false] true
      = some ([true, true], true)
    ∧ low_bits 2 ((((value [false, false] : Int) - value [false, false] - true.toNat)
        % 2 ^ 2).toNat) = [true, true] := by
  decide

/-! ### Operands of different lengths -/

theorem zipWith_take_right (f : Signal → Signal → Signal) :
    ∀ (a b : List Signal), List.zipWith f a (b.take a.length) = List.zipWith f a b := by
  intro a
  induction a with
  | nil => intro b; simp
  | cons x xs ih =>
    intro b
    cases b with
    | nil => simp
    | cons y ys => simp [ih]

theorem guard_take (a b : List Signal) (h : a.length ≤ b.length) :
    (a.length = 0 ∨ b.length < a.length)
      ↔ (a.length = 0 ∨ (b.take a.length).length < a.length) := by
  have hl : (b.take a.length).length = a.length := by simp [h]
  rw [hl]
  constructor <;> intro h2 <;> omega

theorem guard_take_lt (a b : List Signal) (h : a.length ≤ b.length) :
    (b.length < a.length) ↔ ((b.take a.length).length < a.length) := by
  have hl : (b.take a.length).length = a.length := by simp [h]
  rw [hl]
  constructor <;> intro h2 <;> omega

theorem kogge_stone_adder_inplace_take (a b : List Signal) (c : Signal)
    (h : a.length ≤ b.length) :
    kogge_stone_adder_inplace a b c = kogge_stone_adder_inplace a (b.take a.length) c := by
  simp only [kogge_stone_adder_inplace, zipWith_take_right, guard_take a b h]

theorem kogge_stone_subtractor_inplace_take (a b : List Signal) (c : Signal)
    (h : a.length ≤ b.length) :
    kogge_stone_subtractor_inplace a b c
      = kogge_stone_subtractor_inplace a (b.take a.length) c := by
  simp only [kogge_stone_subtractor_inplace, zipWith_take_right, guard_take a b h]

theorem brent_kung_adder_inplace_take (a b : List Signal) (c : Signal)
    (h : a.length ≤ b.length) :
    brent_kung_adder_inplace a b c = brent_kung_adder_inplace a (b.take a.length) c := by
  simp only [brent_kung_adder_inplace, zipWith_take_right, guard_take a b h]

theorem brent_kung_subtractor_inplace_take (a b : List Signal) (c : Signal)
    (h : a.length ≤ b.length) :
    brent_kung_subtractor_inplace a b c
      = brent_kung_subtractor_inplace a (b.take a.length) c := by
  simp only [brent_kung_subtractor_inplace, zipWith_take_right, guard_take a b h]

theorem han_carlson_adder_inplace_take (a b : List Signal) (c : Signal)
    (h : a.length ≤ b.length) :
    han_carlson_adder_inplace a b c = han_carlson_adder_inplace a (b.take a.length) c := by
  simp only [han_carlson_adder_inplace, zipWith_take_right, guard_take_lt a b h,
    brent_kung_adder_inplace_take a b c h]

theorem han_carlson_subtractor_inplace_take (a b : List Signal) (c : Signal)
    (h : a.length ≤ b.length) :
    han_carlson_subtractor_inplace a b c
      = han_carlson_subtractor_inplace a (b.take a.length) c := by
  simp only [han_carlson_subtractor_inplace, zipWith_take_right, guard_take_lt a b h,
    brent_kung_subtractor_inplace_take a b c h]

/-! ### The generators that do not fold the input carry, for every input carry -/

/-- The Brent-Kung subtractor ends without failure; its nodes hold the borrows of the
serial recurrence started with borrow 0, whatever the input borrow. -/
theorem brent_kung_subtractor_inplace_plain (a b : List Signal) (c : Signal)
    (hn : 1 ≤ a.length) (hlen : b.length = a.length) :
    ∃ out, brent_kung_subtractor_inplace a b c
        = some (finish (List.zipWith (fun f g => create_xor f g) a b) (assemble c out) c)
      ∧ out.length = a.length
      ∧ ∀ m, m < out.length →
          (node out m).g
            = chain (bit_at (List.zipWith (fun f g => create_and (create_not f) g) a b))
              (bit_at (List.zipWith (fun f g => create_or (create_not f) g) a b))
              false (m + 1) := by
  have hguard : ¬ (a.length = 0 ∨ b.length < a.length) := by omega
  have hgl : (List.zipWith (fun f g => create_and (create_not f) g) a b).length
      = a.length := by
    simp [hlen]
  have hpl : (List.zipWith (fun f g => create_or (create_not f) g) a b).length
      = a.length := by
    simp [hlen]
  obtain ⟨out, o1, o2, o3⟩ := brent_kung_plain_carries a.length
    (List.zipWith (fun f g => create_and (create_not f) g) a b)
    (List.zipWith (fun f g => create_or (create_not f) g) a b) (by rw [hgl, hpl]) (by omega)
  rw [hgl] at o2
  refine ⟨out, ?_, o2, o3⟩
  simp only [brent_kung_subtractor_inplace, if_neg hguard, o1]

/-- The Han-Carlson adder on more than four bits ends without failure; its nodes hold
the carries of the serial recurrence started with carry 0, whatever the input carry. -/
theorem han_carlson_adder_inplace_wide (a b : List Signal) (c : Signal)
    (hn : 5 ≤ a.length) (hlen : b.length = a.length) :
    ∃ out, han_carlson_adder_inplace a b c
        = some (finish (List.zipWith (fun f g => create_xor f g) a b) (assemble c out) c)
      ∧ out.length = a.length
      ∧ ∀ m, m < out.length →
          (node out m).g
            = chain (bit_at (List.zipWith (fun f g => create_and f g) a b))
              (bit_at (List.zipWith (fun f g => create_xor f g) a b)) false (m + 1) := by
  have hgl : (List.zipWith (fun f g => create_and f g) a b).length = a.length := by
    simp [hlen]
  have hpl : (List.zipWith (fun f g => create_xor f g) a b).length = a.length := by
    simp [hlen]
  obtain ⟨out, o1, o2, o3⟩ := han_carlson_plain_carries a.length
    (List.zipWith (fun f g => create_and f g) a b)
    (List.zipWith (fun f g => create_xor f g) a b) (by rw [hgl, hpl]) (by omega)
  rw [hgl] at o2
  refine ⟨out, ?_, o2, o3⟩
  simp only [han_carlson_adder_inplace, if_neg (by omega : ¬ a.length ≤ 4),
    if_neg (by omega : ¬ b.length < a.length), o1]

/-- The Han-Carlson subtractor on more than four bits ends without failure; its nodes
hold the borrows of the serial recurrence started with borrow 0, whatever the input
borrow. -/
theorem han_carlson_subtractor_inplace_wide (a b : List Signal) (c : Signal)
    (hn : 5 ≤ a.length) (hlen : b.length = a.length) :
    ∃ out, han_carlson_subtractor_inplace a b c
        = some (finish (List.zipWith (fun f g => create_xor f g) a b) (assemble c out) c)
      ∧ out.length = a.length
      ∧ ∀ m, m < out.length →
          (node out m).g
            = chain (bit_at (List.zipWith (fun f g => create_and (create_not f) g) a b))
              (bit_at (List.zipWith (fun f g => create_or (create_not f) g) a b))
              false (m + 1) := by
  have hgl : (List.zipWith (fun f g => create_and (create_not f) g) a b).length
      = a.length := by
    simp [hlen]
  have hpl : (List.zipWith (fun f g => create_or (create_not f) g) a b).length
      = a.length := by
    simp [hlen]
  obtain ⟨out, o1, o2, o3⟩ := han_carlson_plain_carries a.length
    (List.zipWith (fun f g => create_and (create_not f) g) a b)
    (List.zipWith (fun f g => create_or (create_not f) g) a b) (by rw [hgl, hpl])
    (by omega)
  rw [hgl] at o2
  refine ⟨out, ?_, o2, o3⟩
  simp only [han_carlson_subtractor_inplace, if_neg (by omega : ¬ a.length ≤ 4),
    if_neg (by omega : ¬ b.length < a.length), o1]

/-- On operands of equal length `n ≥ 1` every prefix generator returns a result. -/
theorem generators_return (a b : List Signal) (c : Signal)
    (hn : 1 ≤ a.length) (hlen : b.length = a.length) :
    (∃ r, kogge_stone_adder_inplace a b c = some r)
      ∧ (∃ r, kogge_stone_subtractor_inplace a b c = some r)
      ∧ (∃ r, brent_kung_adder_inplace a b c = some r)
      ∧ (∃ r, brent_kung_subtractor_inplace a b c = some r)
      ∧ (∃ r, han_carlson_adder_inplace a b c = some r)
      ∧ (∃ r, han_carlson_subtractor_inplace a b c = some r) := by
  obtain ⟨s1, k1, e1, _⟩ := kogge_stone_adder_inplace_sum a b c hn hlen
  obtain ⟨s2, k2, e2, _⟩ := kogge_stone_subtractor_inplace_difference a b c hn hlen
  obtain ⟨s3, k3, e3, _⟩ := brent_kung_adder_inplace_sum a b c hn hlen
  obtain ⟨o4, e4, _⟩ := brent_kung_subtractor_inplace_plain a b c hn hlen
  refine ⟨⟨_, e1⟩, ⟨_, e2⟩, ⟨_, e3⟩, ⟨_, e4⟩, ?_, ?_⟩
  · rcases Nat.lt_or_ge 4 a.length with h5 | h4
    · obtain ⟨o5, e5, _⟩ := han_carlson_adder_inplace_wide a b c h5 hlen
      exact ⟨_, e5⟩
    · exact ⟨(s3, k3), by simp only [han_carlson_adder_inplace, if_pos h4, e3]⟩
  · rcases Nat.lt_or_ge 4 a.length with h5 | h4
    · obtain ⟨o6, e6, _⟩ := han_carlson_subtractor_inplace_wide a b c h5 hlen
      exact ⟨_, e6⟩
    · exact ⟨_, by simp only [han_carlson_subtractor_inplace, if_pos h4]; exact e4⟩

/-! ### Round trip, boundary width and small widths -/

/-- From the difference modulo `2^n` and the comparison back to the balance. -/
theorem balance_of_difference (A B D n : Nat) (c w : Bool)
    (hv : (D : Int) = ((A : Int) - B - c.toNat) % 2 ^ n)
    (hw : w = decide (A < B + c.toNat)) (hA : A < 2 ^ n) (hB : B < 2 ^ n) :
    A + 2 ^ n * w.toNat = D + B + c.toNat := by
  have hc : c.toNat ≤ 1 := by cases c <;> simp
  have hAi : (A : Int) < 2 ^ n := by exact_mod_cast hA
  have hBi : (B : Int) < 2 ^ n := by exact_mod_cast hB
  have hpc : ((2 ^ n : Nat) : Int) = (2 : Int) ^ n := by push_cast; rfl
  by_cases h : A < B + c.toNat
  · have hw2 : w = true := by rw [hw]; simp [h]
    subst hw2
    have e : ((A : Int) - B - c.toNat) % 2 ^ n = (A : Int) - B - c.toNat + 2 ^ n := by
      rw [← Int.add_emod_self]
      exact Int.emod_eq_of_lt (by omega) (by omega)
    rw [e] at hv
    simp only [Bool.toNat_true, Nat.mul_one]
    zify
    omega
  · have hw2 : w = false := by rw [hw]; simp [h]
    subst hw2
    have e : ((A : Int) - B - c.toNat) % 2 ^ n = (A : Int) - B - c.toNat :=
      Int.emod_eq_of_lt (by omega) (by omega)
    rw [e] at hv
    simp only [Bool.toNat_false, Nat.mul_zero, Nat.add_zero]
    zify
    omega

/-- C11: subtract/add round trip.  For `n ≥ 1`, all `n`-bit `A`, `B` and every
borrow-in `c`: `kogge_stone_subtractor_inplace` on `(A, B, c)` returns some `(d, w)`,
and `kogge_stone_adder_inplace` on `(d, B)` with carry-in `c` returns the vector `A`
and the carry-out `w`, the borrow-out of the subtraction. -/
theorem kogge_stone_round_trip (a b : List Signal) (c : Signal)
    (hn : 1 ≤ a.length) (hlen : b.length = a.length) :
    ∃ d w, kogge_stone_subtractor_inplace a b c = some (d, w)
      ∧ kogge_stone_adder_inplace d b c = some (a, w) := by
  obtain ⟨d, w, e, l, v, hw⟩ := kogge_stone_subtractor_inplace_difference a b c hn hlen
  obtain ⟨s, k, e2, l2, v2, hk⟩ :=
    kogge_stone_adder_inplace_sum d b c (by omega) (hlen.trans l.symm)
  have hB : value b < 2 ^ a.length := hlen ▸ value_lt b
  have hbal := balance_of_difference (value a) (value b) (value d) a.length c w v hw
    (value_lt a) hB
  obtain ⟨h1, h2⟩ := sum_of_balance (value d) (value b) (value a) a.length c w hbal
    (value_lt a)
  rw [l] at v2 hk
  refine ⟨d, w, e, ?_⟩
  rw [e2, eq_of_value_eq s a (by omega) (by rw [v2, ← h1]), hk, ← h2]

/-- Witness for C11 on `2 - 5 - 1` over three bits. -/
theorem kogge_stone_round_trip_witness :
    ∃ d w, kogge_stone_subtractor_inplace [false, true, false] [true, false, true] true
        = some (d, w)
      ∧ kogge_stone_adder_inplace d [true, false, true] true
        = some ([false, true, false], w) :=
  kogge_stone_round_trip [false, true, false] [true, false, true] true
    (by decide) (by decide)

/-- On one-bit vectors the three adders return `a XOR b XOR c` and `majority(a, b, c)`
for every carry-in, the Kogge-Stone subtractor returns the pair of `full_subtractor`
for every borrow-in, and the Brent-Kung and Han-Carlson subtractors do so for
borrow-in 0. -/
theorem one_bit_generators (a b c : Bool) :
    brent_kung_adder_inplace [a] [b] c = some ([xor (xor a b) c], create_maj a b c)
      ∧ kogge_stone_adder_inplace [a] [b] c = some ([xor (xor a b) c], create_maj a b c)
      ∧ han_carlson_adder_inplace [a] [b] c = some ([xor (xor a b) c], create_maj a b c)
      ∧ kogge_stone_subtractor_inplace [a] [b] c
        = some ([(full_subtractor gate_network a b c).1],
            (full_subtractor gate_network a b c).2)
      ∧ brent_kung_subtractor_inplace [a] [b] false
        = some ([(full_subtractor gate_network a b false).1],
            (full_subtractor gate_network a b false).2)
      ∧ han_carlson_subtractor_inplace [a] [b] false
        = some ([(full_subtractor gate_network a b false).1],
            (full_subtractor gate_network a b false).2) := by
  cases a <;> cases b <;> cases c <;> decide

/-- C19: on one bit, `a = 0`, `b = 0` and borrow-in 1, `brent_kung_subtractor_inplace`
and `han_carlson_subtractor_inplace` return `(1, 0)` while `full_subtractor(0, 0, 1)`
returns `(1, 1)`, as `kogge_stone_subtractor_inplace` does; the three adders return
the pair of a full adder on the same bits. -/
theorem one_bit_subtractor_ignores_borrow :
    brent_kung_subtractor_inplace [false] [false] true = some ([true], false)
      ∧ han_carlson_subtractor_inplace [false] [false] true = some ([true], false)
      ∧ full_subtractor gate_network false false true = (true, true)
      ∧ full_subtractor maj_network false false true = (true, true)
      ∧ kogge_stone_subtractor_inplace [false] [false] true = some ([true], true)
      ∧ brent_kung_adder_inplace [false] [false] true = some ([true], false)
      ∧ kogge_stone_adder_inplace [false] [false] true = some ([true], false)
      ∧ han_carlson_adder_inplace [false] [false] true = some ([true], false) := by
  decide

/-- C20: for `1 ≤ n ≤ 4` and all inputs, `han_carlson_adder_inplace` returns a result,
the one `brent_kung_adder_inplace` returns, and `han_carlson_subtractor_inplace` returns
a result, the one `brent_kung_subtractor_inplace` returns. -/
theorem han_carlson_small_widths (a b : List Signal) (c : Signal)
    (h1 : 1 ≤ a.length) (h4 : a.length ≤ 4) (hlen : b.length = a.length) :
    (∃ r, brent_kung_adder_inplace a b c = some r
        ∧ han_carlson_adder_inplace a b c = some r)
      ∧ (∃ r, brent_kung_subtractor_inplace a b c = some r
        ∧ han_carlson_subtractor_inplace a b c = some r) := by
  obtain ⟨_, _, ⟨r1, e1⟩, ⟨r2, e2⟩, _, _⟩ := generators_return a b c h1 hlen
  refine ⟨⟨r1, e1, ?_⟩, ⟨r2, e2, ?_⟩⟩
  · simp only [han_carlson_adder_inplace, if_pos h4, e1]
  · simp only [han_carlson_subtractor_inplace, if_pos h4, e2]

/-- Witness for C20 on three bits. -/
theorem han_carlson_small_widths_witness :
    (∃ r, brent_kung_adder_inplace [true, false, true] [true, true, false] true = some r
        ∧ han_carlson_adder_inplace [true, false, true] [true, true, false] true = some r)
      ∧ (∃ r, brent_kung_subtractor_inplace [true, false, true] [true, true, false] true
          = some r
        ∧ han_carlson_subtractor_inplace [true, false, true] [true, true, false] true
          = some r) :=
  han_carlson_small_widths [true, false, true] [true, true, false] true
    (by decide) (by decide) (by decide)

/-! ### No size test in the prefix generators -/

/-- C16, refuted: on the one-bit vector `a = [1]`, the two-bit vector `b = [1, 1]` and
carry or borrow 0, each of the six prefix generators returns a result: the adders
overwrite `a` with `[0]` and the carry with 1, the subtractors overwrite `a` with
`[0]`. -/
theorem no_size_test_counterexample :
    brent_kung_adder_inplace [true] [true, true] false = some ([false], true)
      ∧ kogge_stone_adder_inplace [true] [true, true] false = some ([false], true)
      ∧ han_carlson_adder_inplace [true] [true, true] false = some ([false], true)
      ∧ brent_kung_subtractor_inplace [true] [true, true] false = some ([false], false)
      ∧ kogge_stone_subtractor_inplace [true] [true, true] false = some ([false], false)
      ∧ han_carlson_subtractor_inplace [true] [true, true] false
        = some ([false], false) := by
  decide

/-- C16, amended: the six prefix generators make no size test.  When `b` is longer than
the non-empty `a`, each of them returns a result, the one it returns on the first
`a.size()` entries of `b`. -/
theorem no_size_test (a b : List Signal) (c : Signal)
    (hn : 1 ≤ a.length) (hlen : a.length < b.length) :
    (∃ r, brent_kung_adder_inplace a b c = some r
        ∧ brent_kung_adder_inplace a (b.take a.length) c = some r)
      ∧ (∃ r, kogge_stone_adder_inplace a b c = some r
        ∧ kogge_stone_adder_inplace a (b.take a.length) c = some r)
      ∧ (∃ r, han_carlson_adder_inplace a b c = some r
        ∧ han_carlson_adder_inplace a (b.take a.length) c = some r)
      ∧ (∃ r, brent_kung_subtractor_inplace a b c = some r
        ∧ brent_kung_subtractor_inplace a (b.take a.length) c = some r)
      ∧ (∃ r, kogge_stone_subtractor_inplace a b c = some r
        ∧ kogge_stone_subtractor_inplace a (b.take a.length) c = some r)
      ∧ (∃ r, han_carlson_subtractor_inplace a b c = some r
        ∧ han_carlson_subtractor_inplace a (b.take a.length) c = some r) := by
  have hl : (b.take a.length).length = a.length := by
    rw [List.length_take]; omega
  have hle : a.length ≤ b.length := by omega
  obtain ⟨⟨r1, e1⟩, ⟨r2, e2⟩, ⟨r3, e3⟩, ⟨r4, e4⟩, ⟨r5, e5⟩, ⟨r6, e6⟩⟩ :=
    generators_return a (b.take a.length) c hn hl
  refine ⟨⟨r3, ?_, e3⟩, ⟨r1, ?_, e1⟩, ⟨r5, ?_, e5⟩, ⟨r4, ?_, e4⟩, ⟨r2, ?_, e2⟩,
    ⟨r6, ?_, e6⟩⟩
  · rw [brent_kung_adder_inplace_take a b c hle, e3]
  · rw [kogge_stone_adder_inplace_take a b c hle, e1]
  · rw [han_carlson_adder_inplace_take a b c hle, e5]
  · rw [brent_kung_subtractor_inplace_take a b c hle, e4]
  · rw [kogge_stone_subtractor_inplace_take a b c hle, e2]
  · rw [han_carlson_subtractor_inplace_take a b c hle, e6]

/-- Witness for the amended C16 on `a = [1, 0]`, `b = [1, 1, 1]`. -/
theorem no_size_test_witness :
    (∃ r, brent_kung_adder_inplace [true, false] [true, true, true] false = some r
        ∧ brent_kung_adder_inplace [true, false]
            ([true, true, true].take [true, false].length) false = some r)
      ∧ (∃ r, kogge_stone_adder_inplace [true, false] [true, true, true] false = some r
        ∧ kogge_stone_adder_inplace [true, false]
            ([true, true, true].take [true, false].length) false = some r)
      ∧ (∃ r, han_carlson_adder_inplace [true, false] [true, true, true] false = some r
        ∧ han_carlson_adder_inplace [true, false]
            ([true, true, true].take [true, false].length) false = some r)
      ∧ (∃ r, brent_kung_subtractor_inplace [true, false] [true, true, true] false = some r
        ∧ brent_kung_subtractor_inplace [true, false]
            ([true, true, true].take [true, false].length) false = some r)
      ∧ (∃ r, kogge_stone_subtractor_inplace [true, false] [true, true, true] false
          = some r
        ∧ kogge_stone_subtractor_inplace [true, false]
            ([true, true, true].take [true, false].length) false = some r)
      ∧ (∃ r, han_carlson_subtractor_inplace [true, false] [true, true, true] false
          = some r
        ∧ han_carlson_subtractor_inplace [true, false]
            ([true, true, true].take [true, false].length) false = some r) :=
  no_size_test [true, false] [true, true, true] false (by decide) (by decide)

/-! ### The partial-product multiplier on a one-bit multiplier -/

/-- With a single bit in `b` the adder loop of `advance_multiplier` runs zero times and
the vector returned is empty, whatever `a` and the adder. -/
theorem advance_multiplier_one_row (a : List Signal) (bj : Signal) (func : Inplace) :
    advance_multiplier a [bj] func = some [] := by
  simp [advance_multiplier, partial_products, extend_partial_products,
    advance_multiplier_loop]

/-- C15: for `n = m = 1`, `A = B = 1`, `advance_multiplier` returns the empty vector with
each of the three adders, where the product `1 * 1` has the two bits `[1, 0]`; the
command then fails its assertion `results.size() == a.size() + b.size()`. -/
theorem advance_multiplier_single_bit :
    advance_multiplier [true] [true] brent_kung_adder_inplace = some []
      ∧ advance_multiplier [true] [true] kogge_stone_adder_inplace = some []
      ∧ advance_multiplier [true] [true] han_carlson_adder_inplace = some []
      ∧ low_bits ([true].length + [true].length) (value [true] * value [true])
        = [true, false]
      ∧ Event.assertion_failed
        ∈ multiplier_command_execute ⟨some 1, none, false, false, some "kogge-stone"⟩ := by
  refine ⟨advance_multiplier_one_row _ _ _, advance_multiplier_one_row _ _ _,
    advance_multiplier_one_row _ _ _, by decide, ?_⟩
  have hs : advance_multiplier_size 1 1 kogge_stone_adder_inplace = some 0 := by
    simp [advance_multiplier_size, advance_multiplier_one_row]
  simp [multiplier_command_execute, operand_setup, advance_branch, hs]

/-! ### The remainder of the basic divider -/

/-- C13: for `N = 2`, `A = 2`, `B = 3`, `restoring_array_divider` returns the quotient
`[0, 0]` and the one-bit remainder `[0]`, so that `quo * B + rem = 0`, not `A = 2`; the
optimized divider returns the remainder `[0, 1]`, of value 2. -/
theorem restoring_array_divider_truncates :
    restoring_array_divider gate_network [false, true] [true, true]
        = .ok ([false, false], [false])
      ∧ value [false, false] * value [true, true] + value [false] = 0
      ∧ value [false, true] = 2
      ∧ restoring_array_divider_advance [false, true] [true, true]
          (borrow_ripple_subtractor_inplace gate_network)
        = .ok ([false, false], [false, true]) := by
  refine ⟨rfl, by decide, by decide, rfl⟩

/-! ### The size assertions -/

theorem borrow_ripple_loop_returns (cap : Capability) :
    ∀ (a b : List Signal) (c : Signal), a.length = b.length →
      ∃ r, borrow_ripple_loop cap a b c = some r := by
  intro a
  induction a with
  | nil => intro b c _; exact ⟨_, rfl⟩
  | cons x xs ih =>
    intro b c hl
    cases b with
    | nil => simp at hl
    | cons y ys =>
      obtain ⟨r, hr⟩ := ih ys (full_subtractor cap x y c).2 (by simpa using hl)
      exact ⟨((full_subtractor cap x y c).1 :: r.1, r.2), by
        simp only [borrow_ripple_loop, hr]⟩

theorem restoring_array_divider_loop_assertion (cap : Capability) :
    ∀ (r : Nat) (st : List Signal × List Signal × List Signal),
      restoring_array_divider_loop cap r st ≠ .error Failure.size_assertion := by
  intro r
  induction r with
  | zero => intro st; simp [restoring_array_divider_loop]
  | succ r ih =>
    intro st
    obtain ⟨y, quo, p_rem⟩ := st
    simp only [restoring_array_divider_loop]
    split
    · simp
    · split
      · exact ih _
      · simp

theorem restoring_array_divider_advance_loop_assertion (N : Nat) (func : Inplace) :
    ∀ (r : Nat) (st : List Signal × List Signal × List Signal),
      restoring_array_divider_advance_loop N func r st ≠ .error Failure.size_assertion := by
  intro r
  induction r with
  | zero => intro st; simp [restoring_array_divider_advance_loop]
  | succ r ih =>
    intro st
    obtain ⟨y, quo, p_rem⟩ := st
    simp only [restoring_array_divider_advance_loop]
    split
    · split
      · simp
      · split
        · exact ih _
        · simp
    · simp

/-- The three generators fail their size assertion exactly when the sizes differ: the
failure is decided by the two sizes alone, and a failed call returns neither a vector
nor a borrow. -/
theorem size_assertions_iff (cap : Capability) (a b : List Signal) (c : Signal)
    (func : Inplace) :
    (borrow_ripple_subtractor_inplace cap a b c = none ↔ a.length ≠ b.length)
      ∧ (restoring_array_divider cap a b = .error Failure.size_assertion
          ↔ a.length ≠ b.length)
      ∧ (restoring_array_divider_advance a b func = .error Failure.size_assertion
          ↔ a.length ≠ b.length) := by
  refine ⟨?_, ?_, ?_⟩
  · constructor
    · intro h hl
      obtain ⟨r, hr⟩ := borrow_ripple_loop_returns cap a b c hl
      simp [borrow_ripple_subtractor_inplace, hl, hr] at h
    · intro hl
      simp [borrow_ripple_subtractor_inplace, hl]
  · constructor
    · intro h hl
      simp only [restoring_array_divider, hl, ne_eq, not_true_eq_false, if_false] at h
      split at h
      · simp at h
      · split at h
        · rename_i e he
          simp only [Except.error.injEq] at h
          subst h
          exact restoring_array_divider_loop_assertion cap _ _ he
        · simp at h
    · intro hl
      simp [restoring_array_divider, hl]
  · constructor
    · intro h hl
      simp only [restoring_array_divider_advance, hl, ne_eq, not_true_eq_false,
        if_false] at h
      split at h
      · simp at h
      · split at h
        · rename_i e he
          simp only [Except.error.injEq] at h
          subst h
          exact restoring_array_divider_advance_loop_assertion _ func _ _ he
        · split at h
          · simp at h
          · split at h <;> simp at h
    · intro hl
      simp [restoring_array_divider_advance, hl]

/-! ### The size assertions on the explicit state -/

theorem borrow_ripple_loop_run_value (cap : Capability) :
    ∀ (a b : List Signal) (requests : List Request) (c : Signal),
      (borrow_ripple_loop_run cap a b (requests, c)).map Prod.snd
        = borrow_ripple_loop cap a b c := by
  intro a
  induction a with
  | nil => intro b requests c; rfl
  | cons x xs ih =>
    intro b requests c
    cases b with
    | nil => rfl
    | cons y ys =>
      have h := ih ys (requests ++ full_subtractor_requests cap)
        (full_subtractor cap x y c).2
      simp only [borrow_ripple_loop_run, borrow_ripple_loop]
      rw [← h]
      rcases borrow_ripple_loop_run cap xs ys
        (requests ++ full_subtractor_requests cap, (full_subtractor cap x y c).2)
        with _ | ⟨l, rest, out⟩
      · rfl
      · rfl

theorem borrow_ripple_loop_run_requests (cap : Capability) :
    ∀ (a b : List Signal) (requests : List Request) (c : Signal)
      (r : List Request × List Signal × Signal),
      borrow_ripple_loop_run cap a b (requests, c) = some r →
      ∃ more, r.1 = requests ++ more
        ∧ more.length = a.length * (full_subtractor_requests cap).length := by
  intro a
  induction a with
  | nil =>
    intro b requests c r h
    simp only [borrow_ripple_loop_run, Option.some.injEq] at h
    exact ⟨[], by rw [← h]; simp, by simp⟩
  | cons x xs ih =>
    intro b requests c r h
    cases b with
    | nil => simp [borrow_ripple_loop_run] at h
    | cons y ys =>
      simp only [borrow_ripple_loop_run] at h
      split at h
      · rename_i l rest out e
        obtain ⟨more, m1, m2⟩ := ih ys _ _ _ e
        simp only [Option.some.injEq] at h
        refine ⟨full_subtractor_requests cap ++ more, ?_, ?_⟩
        · rw [← h]
          simp only [] at m1 ⊢
          rw [m1, List.append_assoc]
        · rw [List.length_append, m2, List.length_cons]
          ring
      · simp at h

/-- The ripple subtractor on the explicit state returns what the generator returns: a
call that returns leaves the result in `a` and `borrow`, a call that does not return
ends with a failure. -/
theorem borrow_ripple_subtractor_inplace_run_value (cap : Capability) (b : List Signal)
    (s : RippleState) :
    (∀ d w, borrow_ripple_subtractor_inplace cap s.a b s.borrow = some (d, w) →
        ∃ requests, borrow_ripple_subtractor_inplace_run cap b s
          = (⟨requests, d, w⟩, .ok ()))
      ∧ (borrow_ripple_subtractor_inplace cap s.a b s.borrow = none →
        ∃ e, borrow_ripple_subtractor_inplace_run cap b s = (s, .error e)) := by
  have h := borrow_ripple_loop_run_value cap s.a b s.requests s.borrow
  constructor
  · intro d w hv
    simp only [borrow_ripple_subtractor_inplace] at hv
    split at hv
    · rename_i hl
      rw [hv] at h
      simp only [borrow_ripple_subtractor_inplace_run, if_pos hl]
      rcases hr : borrow_ripple_loop_run cap s.a b (s.requests, s.borrow)
        with _ | ⟨l, d2, w2⟩
      · rw [hr] at h; simp at h
      · rw [hr] at h
        simp only [Option.map, Option.some.injEq, Prod.mk.injEq] at h
        exact ⟨l, by rw [h.1, h.2]⟩
    · simp at hv
  · intro hv
    simp only [borrow_ripple_subtractor_inplace] at hv
    simp only [borrow_ripple_subtractor_inplace_run]
    split
    · rename_i hl
      rw [if_pos hl] at hv
      rw [hv] at h
      rcases hr : borrow_ripple_loop_run cap s.a b (s.requests, s.borrow)
        with _ | ⟨l, d2, w2⟩
      · exact ⟨_, rfl⟩
      · rw [hr] at h; simp at h
    · exact ⟨_, rfl⟩

/-- The loop of the basic divider with its requests computes the loop of the basic
divider. -/
theorem restoring_array_divider_loop_run_value (cap : Capability) :
    ∀ (r : Nat) (requests : List Request) (st : List Signal × List Signal × List Signal),
      (restoring_array_divider_loop_run cap r (requests, st)).2
        = restoring_array_divider_loop cap r st := by
  intro r
  induction r with
  | zero => intro requests st; rfl
  | succ r ih =>
    intro requests st
    obtain ⟨y, quo, p_rem⟩ := st
    obtain ⟨h1, h2⟩ := borrow_ripple_subtractor_inplace_run_value cap y
      ⟨requests ++ [Request.get_constant], p_rem, get_constant false⟩
    simp only [restoring_array_divider_loop_run, restoring_array_divider_loop]
    rcases hv : borrow_ripple_subtractor_inplace cap p_rem y (get_constant false)
      with _ | ⟨d, w⟩
    · obtain ⟨e, he⟩ := h2 hv
      rw [he]
    · obtain ⟨l, hl⟩ := h1 d w hv
      rw [hl]
      simp only []
      generalize mux_inplace (create_not w) d p_rem = m
      rcases y with _ | ⟨y0, ys⟩
      · rfl
      · rcases m with _ | ⟨m0, ms⟩
        · rfl
        · exact ih _ _

/-- The basic divider with its requests returns what the basic divider returns. -/
theorem restoring_array_divider_run_value (cap : Capability) (a b : List Signal)
    (requests : List Request) :
    (restoring_array_divider_run cap a b requests).2 = restoring_array_divider cap a b := by
  simp only [restoring_array_divider_run, restoring_array_divider]
  split
  · rfl
  · split
    · rfl
    · have h := restoring_array_divider_loop_run_value cap a.length
        (requests ++ [Request.get_constant] ++ [Request.zero_extend])
        (List.replicate (a.length - 1) (get_constant false) ++ b, [],
          zero_extend a (List.replicate (a.length - 1) (get_constant false) ++ b).length)
      rw [← h]
      rcases restoring_array_divider_loop_run cap a.length
        (requests ++ [Request.get_constant] ++ [Request.zero_extend],
          List.replicate (a.length - 1) (get_constant false) ++ b, [],
          zero_extend a (List.replicate (a.length - 1) (get_constant false) ++ b).length)
        with ⟨l, _ | ⟨y, quo, p⟩⟩
      · rfl
      · rfl

/-- The loop of the optimized divider with its requests computes the loop of the
optimized divider. -/
theorem restoring_array_divider_advance_loop_run_value (N : Nat) (func : Inplace) :
    ∀ (r : Nat) (requests : List Request) (st : List Signal × List Signal × List Signal),
      (restoring_array_divider_advance_loop_run N func r (requests, st)).2
        = restoring_array_divider_advance_loop N func r st := by
  intro r
  induction r with
  | zero => intro requests st; rfl
  | succ r ih =>
    intro requests st
    obtain ⟨y, quo, p_rem⟩ := st
    simp only [restoring_array_divider_advance_loop_run,
      restoring_array_divider_advance_loop]
    split
    · rcases func p_rem (y.take N) (get_constant false) with _ | ⟨d, w⟩
      · rfl
      · simp only []
        split
        · exact ih _ _
        · rfl
    · rfl

/-- The optimized divider with its requests returns what the optimized divider
returns. -/
theorem restoring_array_divider_advance_run_value (a b : List Signal) (func : Inplace)
    (requests : List Request) :
    (restoring_array_divider_advance_run a b func requests).2
      = restoring_array_divider_advance a b func := by
  simp only [restoring_array_divider_advance_run, restoring_array_divider_advance]
  split
  · rfl
  · split
    · rfl
    · have h := restoring_array_divider_advance_loop_run_value a.length func a.length
        (requests ++ [Request.get_constant])
        (List.replicate (a.length - 1) (get_constant false) ++ b, [], a)
      rw [← h]
      rcases restoring_array_divider_advance_loop_run a.length func a.length
        (requests ++ [Request.get_constant],
          List.replicate (a.length - 1) (get_constant false) ++ b, [], a)
        with ⟨l, _ | ⟨y, quo, p⟩⟩
      · rfl
      · simp only []
        rcases func p (y.take a.length) (get_constant false) with _ | ⟨d, w⟩
        · rfl
        · simp only []
          split <;> rfl

/-- The requests of the loop of the basic divider come after those made before. -/
theorem restoring_array_divider_loop_run_requests (cap : Capability) :
    ∀ (r : Nat) (requests : List Request) (st : List Signal × List Signal × List Signal),
      ∃ more, (restoring_array_divider_loop_run cap r (requests, st)).1
        = requests ++ more := by
  intro r
  induction r with
  | zero => intro requests st; exact ⟨[], by simp [restoring_array_divider_loop_run]⟩
  | succ r ih =>
    intro requests st
    obtain ⟨y, quo, p_rem⟩ := st
    simp only [restoring_array_divider_loop_run]
    have hrun : ∃ more, (borrow_ripple_subtractor_inplace_run cap y
        ⟨requests ++ [Request.get_constant], p_rem, get_constant false⟩).1.requests
        = requests ++ more := by
      simp only [borrow_ripple_subtractor_inplace_run]
      split
      · rcases hr : borrow_ripple_loop_run cap p_rem y
          (requests ++ [Request.get_constant], get_constant false) with _ | ⟨l, d, w⟩
        · exact ⟨[Request.get_constant], rfl⟩
        · obtain ⟨more, m1, _⟩ := borrow_ripple_loop_run_requests cap _ _ _ _ _ hr
          simp only [] at m1
          exact ⟨[Request.get_constant] ++ more, by
            simp only []
            rw [m1, List.append_assoc]⟩
      · exact ⟨[Request.get_constant], rfl⟩
    obtain ⟨more, hm⟩ := hrun
    generalize borrow_ripple_subtractor_inplace_run cap y
      ⟨requests ++ [Request.get_constant], p_rem, get_constant false⟩ = res at hm ⊢
    obtain ⟨s, o⟩ := res
    cases o
    · exact ⟨more, hm⟩
    · simp only [] at hm ⊢
      split
      · obtain ⟨more2, hm2⟩ := ih (s.requests ++ [Request.create_not]
          ++ [Request.mux_inplace]) _
        rw [hm2, hm]
        exact ⟨more ++ [Request.create_not] ++ [Request.mux_inplace] ++ more2, by
          simp only [List.append_assoc]⟩
      · rw [hm]
        exact ⟨more ++ [Request.create_not] ++ [Request.mux_inplace], by
          simp only [List.append_assoc]⟩

/-- The requests of the loop of the optimized divider come after those made before. -/
theorem restoring_array_divider_advance_loop_run_requests (N : Nat) (func : Inplace) :
    ∀ (r : Nat) (requests : List Request) (st : List Signal × List Signal × List Signal),
      ∃ more, (restoring_array_divider_advance_loop_run N func r (requests, st)).1
        = requests ++ more := by
  intro r
  induction r with
  | zero =>
    intro requests st
    exact ⟨[], by simp [restoring_array_divider_advance_loop_run]⟩
  | succ r ih =>
    intro requests st
    obtain ⟨y, quo, p_rem⟩ := st
    simp only [restoring_array_divider_advance_loop_run]
    split
    · rcases func p_rem (y.take N) (get_constant false) with _ | ⟨d, w⟩
      · exact ⟨[Request.create_nary_or] ++ [Request.func], by
          simp only [List.append_assoc]⟩
      · simp only []
        split
        · obtain ⟨more2, hm2⟩ := ih (requests ++ [Request.create_nary_or]
            ++ [Request.func] ++ [Request.create_not, Request.create_not,
              Request.create_and, Request.create_and, Request.create_or]
            ++ [Request.mux, Request.mux]) _
          rw [hm2]
          exact ⟨[Request.create_nary_or] ++ [Request.func]
            ++ [Request.create_not, Request.create_not, Request.create_and,
              Request.create_and, Request.create_or]
            ++ [Request.mux, Request.mux] ++ more2, by simp only [List.append_assoc]⟩
        · exact ⟨[Request.create_nary_or] ++ [Request.func]
            ++ [Request.create_not, Request.create_not, Request.create_and,
              Request.create_and, Request.create_or]
            ++ [Request.mux, Request.mux], by simp only [List.append_assoc]⟩
    · exact ⟨[], by simp⟩

/-- The basic divider on operands of equal size requests a constant first, after the
requests made before the call. -/
theorem restoring_array_divider_run_requests (cap : Capability) (a b : List Signal)
    (requests : List Request) (hl : a.length = b.length) :
    ∃ more, (restoring_array_divider_run cap a b requests).1
      = requests ++ Request.get_constant :: more := by
  simp only [restoring_array_divider_run, hl, ne_eq, not_true_eq_false, if_false]
  split
  · exact ⟨[], rfl⟩
  · obtain ⟨more, hm⟩ := restoring_array_divider_loop_run_requests cap b.length
      (requests ++ [Request.get_constant] ++ [Request.zero_extend])
      (List.replicate (b.length - 1) (get_constant false) ++ b, [],
        zero_extend a (List.replicate (b.length - 1) (get_constant false) ++ b).length)
    generalize restoring_array_divider_loop_run cap b.length
      (requests ++ [Request.get_constant] ++ [Request.zero_extend],
        List.replicate (b.length - 1) (get_constant false) ++ b, [],
        zero_extend a (List.replicate (b.length - 1) (get_constant false) ++ b).length)
      = res at hm ⊢
    obtain ⟨l, o⟩ := res
    simp only [] at hm
    refine ⟨Request.zero_extend :: more, ?_⟩
    have e : l = requests ++ Request.get_constant :: Request.zero_extend :: more := by
      rw [hm]; simp
    cases o with
    | error e2 => exact e
    | ok v => exact e

/-- The optimized divider on operands of equal size requests a constant first, after
the requests made before the call. -/
theorem restoring_array_divider_advance_run_requests (a b : List Signal) (func : Inplace)
    (requests : List Request) (hl : a.length = b.length) :
    ∃ more, (restoring_array_divider_advance_run a b func requests).1
      = requests ++ Request.get_constant :: more := by
  simp only [restoring_array_divider_advance_run, hl, ne_eq, not_true_eq_false, if_false]
  split
  · exact ⟨[], rfl⟩
  · obtain ⟨more, hm⟩ := restoring_array_divider_advance_loop_run_requests b.length func
      b.length (requests ++ [Request.get_constant])
      (List.replicate (b.length - 1) (get_constant false) ++ b, [], a)
    generalize restoring_array_divider_advance_loop_run b.length func b.length
      (requests ++ [Request.get_constant],
        List.replicate (b.length - 1) (get_constant false) ++ b, [], a) = res at hm ⊢
    obtain ⟨l, o⟩ := res
    simp only [] at hm
    have e : l = requests ++ Request.get_constant :: more := by
      rw [hm]; simp
    cases o with
    | error e2 => exact ⟨more, e⟩
    | ok v =>
      obtain ⟨y, quo, p⟩ := v
      simp only []
      rcases func p (y.take b.length) (get_constant false) with _ | ⟨d, w⟩
      · exact ⟨more ++ [Request.func], by simp [e]⟩
      · simp only []
        split
        · exact ⟨more ++ [Request.func] ++ [Request.create_not] ++ [Request.mux_inplace],
            by simp [e]⟩
        · exact ⟨more ++ [Request.func] ++ [Request.create_not] ++ [Request.mux_inplace],
            by simp [e]⟩

/-- The ripple subtractor on operands of equal size returns, after the requests of one
cell for every bit. -/
theorem borrow_ripple_subtractor_inplace_run_requests (cap : Capability)
    (b : List Signal) (s : RippleState) (hl : s.a.length = b.length) :
    ∃ more, (borrow_ripple_subtractor_inplace_run cap b s).1.requests = s.requests ++ more
      ∧ more.length = s.a.length * (full_subtractor_requests cap).length
      ∧ (borrow_ripple_subtractor_inplace_run cap b s).2 = .ok () := by
  obtain ⟨r, hr⟩ := borrow_ripple_loop_returns cap s.a b s.borrow hl
  have hv := borrow_ripple_loop_run_value cap s.a b s.requests s.borrow
  rw [hr] at hv
  simp only [borrow_ripple_subtractor_inplace_run, if_pos hl]
  rcases h : borrow_ripple_loop_run cap s.a b (s.requests, s.borrow) with _ | ⟨l, d, w⟩
  · rw [h] at hv; simp at hv
  · obtain ⟨more, m1, m2⟩ := borrow_ripple_loop_run_requests cap _ _ _ _ _ h
    exact ⟨more, m1, m2, rfl⟩

/-- C17: `borrow_ripple_subtractor_inplace`, `restoring_array_divider` and
`restoring_array_divider_advance` fail their size assertion exactly when
`a.size() != b.size()`, whatever the cell realization, the borrow, the contents of the
vectors and the pluggable subtractor.  On the explicit state (the requests made to the
network so far and, for the ripple subtractor, the reference parameters `a` and
`borrow`), which returns what the generators return: a call on operands of different
sizes ends with the failed assertion in the state in which it started, so that no gate
has been requested and neither `a` nor `borrow` has been written when the assertion is
evaluated; a call on operands of equal size passes the assertion and makes its
requests after it, the dividers starting with the request of a constant and the
ripple subtractor making the requests of one cell for every bit. -/
theorem size_assertions (cap : Capability) (a b : List Signal) (c : Signal)
    (func : Inplace) (requests : List Request) :
    (borrow_ripple_subtractor_inplace cap a b c = none ↔ a.length ≠ b.length)
      ∧ (restoring_array_divider cap a b = .error Failure.size_assertion
          ↔ a.length ≠ b.length)
      ∧ (restoring_array_divider_advance a b func = .error Failure.size_assertion
          ↔ a.length ≠ b.length)
      ∧ ((∀ d w, borrow_ripple_subtractor_inplace cap a b c = some (d, w) →
            ∃ l, borrow_ripple_subtractor_inplace_run cap b ⟨requests, a, c⟩
              = (⟨l, d, w⟩, .ok ()))
          ∧ (restoring_array_divider_run cap a b requests).2
            = restoring_array_divider cap a b
          ∧ (restoring_array_divider_advance_run a b func requests).2
            = restoring_array_divider_advance a b func)
      ∧ (a.length ≠ b.length →
          borrow_ripple_subtractor_inplace_run cap b ⟨requests, a, c⟩
            = (⟨requests, a, c⟩, .error Failure.size_assertion)
          ∧ restoring_array_divider_run cap a b requests
            = (requests, .error Failure.size_assertion)
          ∧ restoring_array_divider_advance_run a b func requests
            = (requests, .error Failure.size_assertion))
      ∧ (a.length = b.length →
          (∃ more, (borrow_ripple_subtractor_inplace_run cap b ⟨requests, a, c⟩).1.requests
                = requests ++ more
              ∧ more.length = a.length * (full_subtractor_requests cap).length
              ∧ (borrow_ripple_subtractor_inplace_run cap b ⟨requests, a, c⟩).2 = .ok ())
          ∧ (∃ more, (restoring_array_divider_run cap a b requests).1
                = requests ++ Request.get_constant :: more)
          ∧ (∃ more, (restoring_array_divider_advance_run a b func requests).1
                = requests ++ Request.get_constant :: more)) := by
  obtain ⟨i1, i2, i3⟩ := size_assertions_iff cap a b c func
  refine ⟨i1, i2, i3, ⟨?_, restoring_array_divider_run_value cap a b requests,
    restoring_array_divider_advance_run_value a b func requests⟩, ?_, ?_⟩
  · exact (borrow_ripple_subtractor_inplace_run_value cap b ⟨requests, a, c⟩).1
  · intro hl
    refine ⟨?_, ?_, ?_⟩
    · simp only [borrow_ripple_subtractor_inplace_run, if_neg hl]
    · simp only [restoring_array_divider_run, if_pos hl]
    · simp only [restoring_array_divider_advance_run, if_pos hl]
  · intro hl
    exact ⟨borrow_ripple_subtractor_inplace_run_requests cap b ⟨requests, a, c⟩ hl,
      restoring_array_divider_run_requests cap a b requests hl,
      restoring_array_divider_advance_run_requests a b func requests hl⟩

/-- Witness for C17 on operands of one and two bits, where the three calls end with the
failed assertion in the state in which they started, next to a call of the ripple
subtractor on operands of one bit, which makes the seven requests of its cell and
writes `a`. -/
theorem size_assertions_witness :
    borrow_ripple_subtractor_inplace_run gate_network [true] ⟨[], [false], false⟩
        = (⟨[Request.create_and, Request.create_and, Request.create_nor,
              Request.create_and, Request.create_and, Request.create_nor,
              Request.create_nor], [true], true⟩, .ok ())
      ∧ (restoring_array_divider_run gate_network [true] [true] []).1
        = [Request.get_constant, Request.zero_extend, Request.get_constant,
            Request.create_and, Request.create_and, Request.create_nor,
            Request.create_and, Request.create_and, Request.create_nor,
            Request.create_nor, Request.create_not, Request.mux_inplace]
      ∧ borrow_ripple_subtractor_inplace_run gate_network [true, false]
          ⟨[Request.get_constant], [true], false⟩
        = (⟨[Request.get_constant], [true], false⟩, .error Failure.size_assertion)
      ∧ restoring_array_divider_run gate_network [true] [true, false]
          [Request.get_constant]
        = ([Request.get_constant], .error Failure.size_assertion)
      ∧ restoring_array_divider_advance_run [true] [true, false]
          (borrow_ripple_subtractor_inplace gate_network) [Request.get_constant]
        = ([Request.get_constant], .error Failure.size_assertion) :=
  ⟨rfl, rfl,
    (size_assertions gate_network [true] [true, false] false
      (borrow_ripple_subtractor_inplace gate_network)
      [Request.get_constant]).2.2.2.2.1 (by decide)⟩

/-! ### The multiplier command and an unknown adder -/

/-- C18, refuted: with `--bit 1 --advance ripple` the command creates two primary
inputs in its network before it prints the error message and exits with status 1. -/
theorem unknown_adder_counterexample :
    multiplier_command_execute ⟨some 1, none, false, false, some "ripple"⟩
      = [Event.print ("multiplicand and multiplier bit are same: " ++ toString 1),
          Event.create_pi, Event.create_pi,
          Event.print "error: no ripplefunction!", Event.exit 1] := by
  have h1 : ("ripple" : String) ≠ "brent-kung" := by decide
  have h2 : ("ripple" : String) ≠ "kogge-stone" := by decide
  have h3 : ("ripple" : String) ≠ "han-carlson" := by decide
  simp [multiplier_command_execute, operand_setup, h1, h2, h3]

/-- C18, amended: on the path `--advance` an adder tag other than "brent-kung",
"kogge-stone" and "han-carlson" makes the command print the error message and exit
with status 1 after the primary inputs of both operands have been created in its
network and before any generator is called: no gate and no primary output is created,
nothing is added to the AIG store and no adder is substituted. -/
theorem unknown_adder (BIT : Nat) (bit1 : Option Nat) (func : String)
    (h1 : func ≠ "brent-kung") (h2 : func ≠ "kogge-stone") (h3 : func ≠ "han-carlson") :
    multiplier_command_execute ⟨some BIT, bit1, false, false, some func⟩
      = (operand_setup BIT bit1).1
        ++ List.replicate (operand_setup BIT bit1).2.1 Event.create_pi
        ++ List.replicate (operand_setup BIT bit1).2.2 Event.create_pi
        ++ [Event.print ("error: no " ++ func ++ "function!"), Event.exit 1] := by
  simp [multiplier_command_execute, h1, h2, h3]

/-- Witness for the amended C18 with `--bit 2 --bit1 3 --advance ripple`. -/
theorem unknown_adder_witness :
    multiplier_command_execute ⟨some 2, some 3, false, false, some "ripple"⟩
      = (operand_setup 2 (some 3)).1
        ++ List.replicate (operand_setup 2 (some 3)).2.1 Event.create_pi
        ++ List.replicate (operand_setup 2 (some 3)).2.2 Event.create_pi
        ++ [Event.print ("error: no " ++ "ripple" ++ "function!"), Event.exit 1] :=
  unknown_adder 2 (some 3) "ripple" (by decide) (by decide) (by decide)

/-! ### The optimized divider -/

theorem value_replicate_append (k : Nat) (b : List Signal) :
    value (List.replicate k false ++ b) = 2 ^ k * value b := by
  induction k with
  | zero => simp
  | succ k ih =>
    rw [List.replicate_succ, List.cons_append, value, ih, pow_succ]
    simp
    ring

theorem value_take_drop (N : Nat) :
    ∀ l : List Signal, value l = value (l.take N) + 2 ^ N * value (l.drop N) := by
  induction N with
  | zero => intro l; simp [value]
  | succ N ih =>
    intro l
    cases l with
    | nil => simp [value]
    | cons x xs =>
      simp only [List.take_succ_cons, List.drop_succ_cons, value]
      rw [ih xs, pow_succ]
      ring

theorem create_nary_or_foldl (l : List Signal) :
    ∀ acc : Bool, l.foldl (fun acc s => acc || s) acc = (acc || decide (value l ≠ 0)) := by
  induction l with
  | nil => intro acc; simp [value]
  | cons x xs ih =>
    intro acc
    rw [List.foldl_cons, ih]
    cases acc <;> cases x <;> simp [value]

theorem create_nary_or_eq (l : List Signal) :
    create_nary_or l = decide (value l ≠ 0) := by
  unfold create_nary_or
  rw [create_nary_or_foldl]
  simp

theorem mux_word_true :
    ∀ (t e : List Signal), t.length ≤ e.length → mux_word true t e = t := by
  intro t
  induction t with
  | nil => intro e _; simp [mux_word]
  | cons x xs ih =>
    intro e h
    cases e with
    | nil => simp at h
    | cons y ys =>
      have h2 := ih ys (by simpa using h)
      unfold mux_word at h2 ⊢
      rw [List.zipWith_cons_cons, h2]
      rfl

theorem mux_word_false :
    ∀ (t e : List Signal), e.length ≤ t.length → mux_word false t e = e := by
  intro t
  induction t with
  | nil =>
    intro e h
    cases e with
    | nil => rfl
    | cons y ys => simp at h
  | cons x xs ih =>
    intro e h
    cases e with
    | nil => simp [mux_word]
    | cons y ys =>
      have h2 := ih ys (by simpa using h)
      unfold mux_word at h2 ⊢
      rw [List.zipWith_cons_cons, h2]
      rfl

theorem value_reverse_concat (quo : List Signal) (q : Signal) :
    value (quo ++ [q]).reverse = q.toNat + 2 * value quo.reverse := by
  rw [List.reverse_append]
  rfl

theorem mux_inplace_eq (cond : Signal) (t e : List Signal) :
    mux_inplace cond t e = mux_word cond t e := rfl

/-- What a subtractor that meets the contract returns, in terms of values. -/
theorem is_subtractor_balance (N : Nat) (func : Inplace) (h : is_subtractor N func)
    (p y : List Signal) (hp : p.length = N) (hy : y.length = N) :
    ∃ d w, func p y false = some (d, w) ∧ d.length = N
      ∧ value p + 2 ^ N * w.toNat = value d + value y
      ∧ w = decide (value p < value y) := by
  have hpos : (0 : Int) < 2 ^ N := by positivity
  have h0 := Int.emod_nonneg ((value p : Int) - value y) (ne_of_gt hpos)
  have h1 := Int.emod_lt_of_pos ((value p : Int) - value y) hpos
  have e : ((((value p : Int) - value y) % 2 ^ N).toNat : Int)
      = ((value p : Int) - value y) % 2 ^ N := Int.toNat_of_nonneg h0
  have hlt : (((value p : Int) - value y) % 2 ^ N).toNat < 2 ^ N := by
    have : ((((value p : Int) - value y) % 2 ^ N).toNat : Int) < ((2 ^ N : Nat) : Int) := by
      rw [e]; push_cast; exact h1
    exact_mod_cast this
  have hv : ((value (low_bits N ((((value p : Int) - value y) % 2 ^ N).toNat)) : Nat) : Int)
      = ((value p : Int) - value y - false.toNat) % 2 ^ N := by
    rw [value_low_bits, Nat.mod_eq_of_lt hlt, e]
    simp
  have hbal := balance_of_difference (value p) (value y)
    (value (low_bits N ((((value p : Int) - value y) % 2 ^ N).toNat))) N false
    (decide (value p < value y)) hv (by simp) (hp ▸ value_lt p) (hy ▸ value_lt y)
  simp only [Bool.toNat_false, Nat.add_zero] at hbal
  exact ⟨low_bits N ((((value p : Int) - value y) % 2 ^ N).toNat),
    decide (value p < value y), h p y hp hy, length_low_bits _ _, hbal, rfl⟩

/-- The loop of the optimized divider: one quotient bit for every padding zero of `y`. -/
theorem restoring_array_divider_advance_loop_spec (A N : Nat) (func : Inplace)
    (hfunc : is_subtractor N func) (b : List Signal) (hb : b.length = N) :
    ∀ (k r : Nat) (quo p_rem : List Signal), k ≤ r → p_rem.length = N →
      value quo.reverse * (2 * (2 ^ k * value b)) + value p_rem = A →
      value p_rem < 2 * (2 ^ k * value b) →
      ∃ quo2 p2, restoring_array_divider_advance_loop N func r
            (List.replicate k false ++ b, quo, p_rem) = .ok (b, quo2, p2)
        ∧ quo2.length = quo.length + k ∧ p2.length = N
        ∧ value quo2.reverse * (2 * value b) + value p2 = A
        ∧ value p2 < 2 * value b := by
  intro k
  induction k with
  | zero =>
    intro r quo p_rem _ hp hA hlt
    refine ⟨quo, p_rem, ?_, rfl, hp, by simpa using hA, by simpa using hlt⟩
    cases r with
    | zero => simp [restoring_array_divider_advance_loop]
    | succ r => simp [restoring_array_divider_advance_loop, hb]
  | succ k ih =>
    intro r quo p_rem hr hp hA hlt
    cases r with
    | zero => omega
    | succ r =>
      have hylen : (List.replicate (k + 1) false ++ b).length > N := by
        simp [hb]
      have htake : ((List.replicate (k + 1) false ++ b).take N).length = N := by
        rw [List.length_take]; omega
      obtain ⟨d, w, hf, hd, hbal, hw⟩ := is_subtractor_balance N func hfunc p_rem
        ((List.replicate (k + 1) false ++ b).take N) hp htake
      have hsplit := value_take_drop N (List.replicate (k + 1) false ++ b)
      rw [value_replicate_append] at hsplit
      have hdlt : value d < 2 ^ N := hd ▸ value_lt d
      have hplt : value p_rem < 2 ^ N := hp ▸ value_lt p_rem
      have hpk : 2 ^ (k + 1) = 2 * 2 ^ k := by rw [pow_succ]; ring
      have hytail : List.replicate (k + 1) false ++ b
          = false :: (List.replicate k false ++ b) := by
        rw [List.replicate_succ, List.cons_append]
      simp only [restoring_array_divider_advance_loop, if_pos hylen, hf, get_constant]
      rw [create_nary_or_eq]
      generalize hY : 2 ^ k * value b = Y at hA hlt hsplit ⊢
      have hYY : 2 ^ (k + 1) * value b = 2 * Y := by rw [hpk, ← hY]; ring
      rw [hYY] at hsplit hA hlt
      generalize hu : value ((List.replicate (k + 1) false ++ b).drop N) = U at hsplit ⊢
      generalize hl : value ((List.replicate (k + 1) false ++ b).take N) = L
        at hsplit hbal hw ⊢
      by_cases hc : U ≠ 0
      · -- the divisor does not fit in the window: quotient bit 0, remainder kept
        have hcond : decide (U ≠ 0) = true := by simp [hc]
        rw [hcond, mux_word_true _ _ (by rw [hp]; simp [mux_word, hp, hd])]
        have hge : 2 ^ N ≤ 2 * Y := by
          have : 2 ^ N * 1 ≤ 2 ^ N * U := Nat.mul_le_mul_left _ (by omega)
          omega
        rw [hytail]
        obtain ⟨quo2, p2, e1, e2, e3, e4, e5⟩ := ih r
          (quo ++ [mux true (create_not true) (create_not w)]) p_rem (by omega) hp
          (by
            have : mux true (create_not true) (create_not w) = false := by
              cases w <;> rfl
            rw [value_reverse_concat, this, hY, ← hA]
            simp only [Bool.toNat_false]
            ring)
          (by rw [hY]; omega)
        refine ⟨quo2, p2, e1, ?_, e3, e4, e5⟩
        rw [e2]; simp; omega
      · -- the divisor fits in the window: the subtractor decides
        have hU : U = 0 := by omega
        have hcond : decide (U ≠ 0) = false := by simp [hU]
        rw [hcond, mux_word_false _ _ (by rw [hp]; simp [mux_word, hp, hd])]
        have hL : L = 2 * Y := by rw [hU] at hsplit; omega
        rw [hytail]
        by_cases hlt2 : value p_rem < L
        · have hw2 : w = true := by rw [hw]; simp [hlt2]
          subst hw2
          rw [mux_word_true _ _ (by rw [hp, hd])]
          obtain ⟨quo2, p2, e1, e2, e3, e4, e5⟩ := ih r
            (quo ++ [mux false (create_not false) (create_not true)]) p_rem (by omega) hp
            (by
              have : mux false (create_not false) (create_not true) = false := rfl
              rw [value_reverse_concat, this, hY, ← hA]
              simp only [Bool.toNat_false]
              ring)
            (by rw [hY]; omega)
          refine ⟨quo2, p2, e1, ?_, e3, e4, e5⟩
          rw [e2]; simp; omega
        · have hw2 : w = false := by rw [hw]; simp [hlt2]
          subst hw2
          rw [mux_word_false _ _ (by rw [hp, hd])]
          simp only [Bool.toNat_false, Nat.mul_zero, Nat.add_zero] at hbal
          obtain ⟨quo2, p2, e1, e2, e3, e4, e5⟩ := ih r
            (quo ++ [mux false (create_not false) (create_not false)]) d (by omega) hd
            (by
              have : mux false (create_not false) (create_not false) = true := rfl
              rw [value_reverse_concat, this, hY, ← hA, hbal, hL]
              simp only [Bool.toNat_true]
              ring)
            (by rw [hY]; omega)
          refine ⟨quo2, p2, e1, ?_, e3, e4, e5⟩
          rw [e2]; simp; omega

/-- The ripple subtractor with the seven-gate cell meets the contract of the divider. -/
theorem borrow_ripple_is_subtractor (N : Nat) :
    is_subtractor N (borrow_ripple_subtractor_inplace gate_network) := by
  intro p y hp hy
  obtain ⟨d, w, e, l, v, hw⟩ :=
    borrow_ripple_subtractor_inplace_difference p y false (hp.trans hy.symm)
  simp only [Bool.toNat_false, Nat.add_zero, Nat.cast_zero, sub_zero] at v hw
  rw [hp] at l v
  rw [e, eq_low_bits_int d N _ l v, hw]

/-- The Kogge-Stone subtractor meets the contract of the divider. -/
theorem kogge_stone_is_subtractor (N : Nat) (hN : 1 ≤ N) :
    is_subtractor N kogge_stone_subtractor_inplace := by
  intro p y hp hy
  obtain ⟨d, w, e, l, v, hw⟩ :=
    kogge_stone_subtractor_inplace_difference p y false (by omega) (hy.trans hp.symm)
  simp only [Bool.toNat_false, Nat.add_zero, Nat.cast_zero, sub_zero] at v hw
  rw [hp] at l v
  rw [e, eq_low_bits_int d N _ l v, hw]

/-- The Brent-Kung subtractor meets the contract of the divider. -/
theorem brent_kung_is_subtractor (N : Nat) (hN : 1 ≤ N) :
    is_subtractor N brent_kung_subtractor_inplace := by
  intro p y hp hy
  obtain ⟨d, w, e, l, v, hw⟩ :=
    brent_kung_subtractor_inplace_zero p y (by omega) (hy.trans hp.symm)
  simp only [Bool.toNat_false, Nat.add_zero, Nat.cast_zero, sub_zero] at v hw
  rw [hp] at l v
  rw [e, eq_low_bits_int d N _ l v, hw]

/-- The Han-Carlson subtractor meets the contract of the divider. -/
theorem han_carlson_is_subtractor (N : Nat) (hN : 1 ≤ N) :
    is_subtractor N han_carlson_subtractor_inplace := by
  intro p y hp hy
  obtain ⟨d, w, e, l, v, hw⟩ :=
    han_carlson_subtractor_inplace_zero p y (by omega) (hy.trans hp.symm)
  simp only [Bool.toNat_false, Nat.add_zero, Nat.cast_zero, sub_zero] at v hw
  rw [hp] at l v
  rw [e, eq_low_bits_int d N _ l v, hw]

/-- C12: `restoring_array_divider_advance` on an `N`-bit dividend `A`, `N ≥ 1`, a nonzero
`N`-bit divisor `B` and an inner subtractor `func` that for `N`-bit operands and
borrow-in false leaves `(p - y) mod 2^N` in `p` and `[p < y]` in `borrow`: the call
returns two `N`-bit vectors `(quo, rem)` with `value(quo) * B + value(rem) = A` and
`value(rem) < B`. -/
theorem restoring_array_divider_advance_correct (a b : List Signal) (func : Inplace)
    (hn : 1 ≤ a.length) (hlen : b.length = a.length) (hB : value b ≠ 0)
    (hfunc : is_subtractor a.length func) :
    ∃ quo rem, restoring_array_divider_advance a b func = .ok (quo, rem)
      ∧ quo.length = a.length ∧ rem.length = a.length
      ∧ value quo * value b + value rem = value a ∧ value rem < value b := by
  have hA : value a < 2 ^ a.length := value_lt a
  have hpow : 2 ^ a.length = 2 * 2 ^ (a.length - 1) := by
    have : a.length = (a.length - 1) + 1 := by omega
    rw [this, pow_succ]; simp; ring
  have hstart : value a < 2 * (2 ^ (a.length - 1) * value b) := by
    have h1 : 2 ^ (a.length - 1) * 1 ≤ 2 ^ (a.length - 1) * value b :=
      Nat.mul_le_mul_left _ (by omega)
    omega
  obtain ⟨quo2, p2, e1, e2, e3, e4, e5⟩ := restoring_array_divider_advance_loop_spec
    (value a) a.length func hfunc b hlen (a.length - 1) a.length [] a (by omega) rfl
    (by simp [value]) hstart
  obtain ⟨d, w, hf, hd, hbal, hw⟩ :=
    is_subtractor_balance a.length func hfunc p2 b e3 hlen
  have hb1 : ∃ y ys, b = y :: ys := by
    cases b with
    | nil => simp at hlen; omega
    | cons y ys => exact ⟨y, ys, rfl⟩
  obtain ⟨y, ys, hby⟩ := hb1
  have hres : restoring_array_divider_advance a b func
      = .ok ((quo2 ++ [create_not w]).reverse, mux_inplace (create_not w) d p2) := by
    simp only [restoring_array_divider_advance, get_constant] at e1 hf ⊢
    rw [if_neg (by omega), if_neg (by omega)]
    simp only [e1]
    have ht : b.take a.length = b := by rw [← hlen]; exact List.take_length _
    rw [ht]
    simp only [hf]
    rw [hby]
  refine ⟨_, _, hres, ?_, ?_, ?_, ?_⟩
  · simp [e2]; omega
  · simp [mux_inplace, hd, e3]
  · rw [value_reverse_concat, mux_inplace_eq]
    by_cases hlt : value p2 < value b
    · have hw2 : w = true := by rw [hw]; simp [hlt]
      subst hw2
      simp only [create_not, Bool.not_true, Bool.toNat_false, Nat.zero_add]
      rw [mux_word_false _ _ (by rw [hd, e3])]
      rw [← e4]; ring
    · have hw2 : w = false := by rw [hw]; simp [hlt]
      subst hw2
      simp only [create_not, Bool.not_false, Bool.toNat_true]
      rw [mux_word_true _ _ (by rw [hd, e3])]
      simp only [Bool.toNat_false, Nat.mul_zero, Nat.add_zero] at hbal
      rw [← e4, hbal]; ring
  · rw [mux_inplace_eq]
    by_cases hlt : value p2 < value b
    · have hw2 : w = true := by rw [hw]; simp [hlt]
      subst hw2
      simp only [create_not, Bool.not_true]
      rw [mux_word_false _ _ (by rw [hd, e3])]
      exact hlt
    · have hw2 : w = false := by rw [hw]; simp [hlt]
      subst hw2
      simp only [create_not, Bool.not_false]
      rw [mux_word_true _ _ (by rw [hd, e3])]
      simp only [Bool.toNat_false, Nat.mul_zero, Nat.add_zero] at hbal
      omega

/-- Witness for C12 on `5 / 2` over three bits with the ripple subtractor. -/
theorem restoring_array_divider_advance_correct_witness :
    ∃ quo rem, restoring_array_divider_advance [true, false, true] [false, true, false]
          (borrow_ripple_subtractor_inplace gate_network) = .ok (quo, rem)
      ∧ quo.length = [true, false, true].length ∧ rem.length = [true, false, true].length
      ∧ value quo * value [false, true, false] + value rem = value [true, false, true]
      ∧ value rem < value [false, true, false] :=
  restoring_array_divider_advance_correct [true, false, true] [false, true, false]
    (borrow_ripple_subtractor_inplace gate_network) (by decide) (by decide) (by decide)
    (borrow_ripple_is_subtractor _)

/-! ### The systolic multiplier -/

theorem kogge_stone_full_adder_eq (x y c : Bool) :
    kogge_stone_full_adder x y c = some (xor (xor x y) c, (x && y) || (xor x y && c)) := by
  cases x <;> cases y <;> cases c <;> decide

theorem getElem?_eq_some_bit_at (l : List Signal) (i : Nat) (h : i < l.length) :
    l[i]? = some (bit_at l i) := by
  simp [bit_at, List.getElem?_eq_getElem h]

theorem bit_at_set (l : List Signal) (i : Nat) (v : Signal) (k : Nat) (h : i < l.length) :
    bit_at (l.set i v) k = if k = i then v else bit_at l k := by
  unfold bit_at
  simp only [List.getD_eq_getElem?_getD]
  by_cases e : k = i
  · subst e
    simp [List.getElem?_set, h]
  · have e2 : i ≠ k := fun x => e x.symm
    simp [List.getElem?_set, e, e2]

theorem length_constant_word (v w : Nat) : (constant_word v w).length = w := by
  simp [constant_word]

theorem bit_at_constant_word_zero (w k : Nat) : bit_at (constant_word 0 w) k = false := by
  unfold bit_at constant_word
  simp only [List.getD_eq_getElem?_getD, List.getElem?_map]
  cases h : (List.range w)[k]? <;> simp [get_constant]

/-- One row of the systolic multiplier: every cell adds its partial product to the sum
and carry bits of the previous row; the sum bits move one position down. -/
theorem new_multiplier_row_spec (a : List Signal) (bj : Signal) (j : Nat)
    (res0 tmp0 : List Signal) (hj : j < res0.length) (htmp : tmp0.length = a.length * 2) :
    ∀ (r i : Nat) (res tmp : List Signal), i + r = a.length →
      res.length = res0.length → tmp.length = tmp0.length →
      (∀ k, k < i → bit_at tmp k = row_carry a tmp0 bj k) →
      (∀ k, i ≤ k → k < a.length → bit_at tmp k = bit_at tmp0 k) →
      (∀ k, k + 1 < i → bit_at tmp (a.length + k) = row_sum a tmp0 bj (k + 1)) →
      (∀ k, i ≤ k + 1 → k < a.length →
        bit_at tmp (a.length + k) = bit_at tmp0 (a.length + k)) →
      (∀ x, bit_at res x = if x = j ∧ 0 < i then row_sum a tmp0 bj 0 else bit_at res0 x) →
      ∃ res2 tmp2, new_multiplier_row a bj j r i (res, tmp) = some (res2, tmp2)
        ∧ res2.length = res0.length ∧ tmp2.length = tmp0.length
        ∧ (∀ k, k < a.length → bit_at tmp2 k = row_carry a tmp0 bj k)
        ∧ (∀ k, k + 1 < a.length →
            bit_at tmp2 (a.length + k) = row_sum a tmp0 bj (k + 1))
        ∧ (∀ k, a.length ≤ k + 1 → k < a.length →
            bit_at tmp2 (a.length + k) = bit_at tmp0 (a.length + k))
        ∧ (∀ x, bit_at res2 x
            = if x = j ∧ 0 < a.length then row_sum a tmp0 bj 0 else bit_at res0 x) := by
  intro r
  induction r with
  | zero =>
    intro i res tmp hi hres htl h1 _ h3 h4 h5
    have e : i = a.length := by omega
    subst e
    exact ⟨res, tmp, rfl, hres, htl, h1, h3, h4, h5⟩
  | succ r ih =>
    intro i res tmp hi hres htl h1 h2 h3 h4 h5
    have hia : i < a.length := by omega
    have e1 := getElem?_eq_some_bit_at a i hia
    have e2 := getElem?_eq_some_bit_at tmp (a.length + i) (by omega)
    have e3 := getElem?_eq_some_bit_at tmp i (by omega)
    simp only [new_multiplier_row, e1, e2, e3, kogge_stone_full_adder_eq, create_and]
    rw [h2 i (le_refl _) hia, h4 i (by omega) hia]
    by_cases h0 : i = 0
    · subst h0
      simp only [ne_eq, not_true_eq_false, if_false]
      refine ih 1 (res.set j (row_sum a tmp0 bj 0)) (tmp.set 0 (row_carry a tmp0 bj 0))
        (by omega) (by simp [hres]) (by simp [htl]) ?_ ?_ ?_ ?_ ?_
      · intro k hk
        have : k = 0 := by omega
        subst this
        rw [bit_at_set _ _ _ _ (by omega)]
        simp
      · intro k hk1 hk2
        rw [bit_at_set _ _ _ _ (by omega), if_neg (by omega)]
        exact h2 k (by omega) hk2
      · intro k hk
        omega
      · intro k _ hk2
        rw [bit_at_set _ _ _ _ (by omega), if_neg (by omega)]
        exact h4 k (by omega) hk2
      · intro x
        rw [bit_at_set _ _ _ _ (by omega), h5 x]
        by_cases e : x = j
        · simp [e]
        · simp [e]
    · simp only [ne_eq, h0, not_false_eq_true, if_true]
      refine ih (i + 1) res
        ((tmp.set (a.length + i - 1) (row_sum a tmp0 bj i)).set i (row_carry a tmp0 bj i))
        (by omega) hres (by simp [htl]) ?_ ?_ ?_ ?_ ?_
      · intro k hk
        rw [bit_at_set _ _ _ _ (by simp; omega)]
        by_cases e : k = i
        · simp [e]
        · rw [if_neg e, bit_at_set _ _ _ _ (by omega), if_neg (by omega)]
          exact h1 k (by omega)
      · intro k hk1 hk2
        rw [bit_at_set _ _ _ _ (by simp; omega), if_neg (by omega),
          bit_at_set _ _ _ _ (by omega), if_neg (by omega)]
        exact h2 k (by omega) hk2
      · intro k hk
        rw [bit_at_set _ _ _ _ (by simp; omega), if_neg (by omega),
          bit_at_set _ _ _ _ (by omega)]
        by_cases e : k + 1 = i
        · have e2 : a.length + k = a.length + i - 1 := by omega
          rw [if_pos e2, e]
        · rw [if_neg (by omega)]
          exact h3 k (by omega)
      · intro k hk1 hk2
        rw [bit_at_set _ _ _ _ (by simp; omega), if_neg (by omega),
          bit_at_set _ _ _ _ (by omega), if_neg (by omega)]
        exact h4 k (by omega) hk2
      · intro x
        rw [h5 x]
        by_cases e : x = j
        · simp [e]
          intro h; omega
        · simp [e]

theorem value_upto_false : ∀ n, value_upto (fun _ => false) n = 0 := by
  intro n
  induction n with
  | zero => rfl
  | succ n ih => simp [value_upto, ih]

theorem value_upto_and (a : List Signal) (bj : Signal) :
    value_upto (fun k => bit_at a k && bj) a.length = value a * bj.toNat := by
  cases bj with
  | false => simp [value_upto_false]
  | true =>
    simp only [Bool.and_true, Bool.toNat_true, Nat.mul_one]
    exact (value_eq_value_upto a).symm

theorem value_upto_add (f : Nat → Bool) (m : Nat) :
    ∀ n, value_upto f (m + n) = value_upto f m + 2 ^ m * value_upto (fun k => f (m + k)) n := by
  intro n
  induction n with
  | zero => simp [value_upto]
  | succ n ih =>
    have e : m + (n + 1) = (m + n) + 1 := by omega
    rw [e, value_upto, ih, value_upto, pow_add]
    ring

theorem value_upto_lt (f : Nat → Bool) : ∀ n, value_upto f n < 2 ^ n := by
  intro n
  induction n with
  | zero => simp [value_upto]
  | succ n ih =>
    rw [value_upto, pow_succ]
    cases f n <;> simp <;> omega

/-- Balance of one row of carry-save cells. -/
theorem carry_save_balance (x y z : Nat → Bool) :
    ∀ n, value_upto x n + value_upto y n + value_upto z n
      = value_upto (fun k => xor (xor (x k) (y k)) (z k)) n
        + 2 * value_upto (fun k => (x k && y k) || (xor (x k) (y k) && z k)) n := by
  intro n
  induction n with
  | zero => rfl
  | succ n ih =>
    simp only [value_upto]
    have hcell : (x n).toNat + (y n).toNat + (z n).toNat
        = (xor (xor (x n) (y n)) (z n)).toNat
          + 2 * ((x n && y n) || (xor (x n) (y n) && z n)).toNat := by
      cases x n <;> cases y n <;> cases z n <;> rfl
    have h2 := congrArg (fun t => 2 ^ n * t) hcell
    simp only at h2
    linarith [h2, ih]

/-- Value of the carry-save pair `(tmp[n ..], tmp[0 .. n-1])`. -/
theorem new_multiplier_row_value (a : List Signal) (bj : Signal) (tmp0 tmp2 : List Signal)
    (hn : 1 ≤ a.length)
    (htop : bit_at tmp0 (a.length + (a.length - 1)) = false)
    (h1 : ∀ k, k < a.length → bit_at tmp2 k = row_carry a tmp0 bj k)
    (h2 : ∀ k, k + 1 < a.length → bit_at tmp2 (a.length + k) = row_sum a tmp0 bj (k + 1))
    (h3 : ∀ k, a.length ≤ k + 1 → k < a.length →
      bit_at tmp2 (a.length + k) = bit_at tmp0 (a.length + k)) :
    value a * bj.toNat + value_upto (fun k => bit_at tmp0 (a.length + k)) a.length
        + value_upto (bit_at tmp0) a.length
      = (row_sum a tmp0 bj 0).toNat
        + 2 * (value_upto (fun k => bit_at tmp2 (a.length + k)) a.length
          + value_upto (bit_at tmp2) a.length) := by
  have hbal := carry_save_balance (fun k => bit_at a k && bj)
    (fun k => bit_at tmp0 (a.length + k)) (bit_at tmp0) a.length
  rw [value_upto_and] at hbal
  have hc : value_upto (bit_at tmp2) a.length
      = value_upto (fun k => ((bit_at a k && bj) && bit_at tmp0 (a.length + k))
          || (xor (bit_at a k && bj) (bit_at tmp0 (a.length + k)) && bit_at tmp0 k))
        a.length :=
    value_upto_congr _ _ _ (fun k hk => h1 k hk)
  obtain ⟨n, hn2⟩ : ∃ n, a.length = n + 1 := ⟨a.length - 1, by omega⟩
  have hs : value_upto (fun k => bit_at tmp2 (a.length + k)) a.length
      = value_upto (fun k => row_sum a tmp0 bj (k + 1)) n := by
    rw [hn2, value_upto]
    rw [← hn2]
    have e1 : bit_at tmp2 (a.length + n) = false := by
      rw [h3 n (by omega) (by omega)]
      have : a.length - 1 = n := by omega
      rw [this] at htop
      exact htop
    rw [e1]
    simp only [Bool.toNat_false, Nat.mul_zero, Nat.add_zero]
    exact value_upto_congr _ _ _ (fun k hk => h2 k (by omega))
  have hsum : value_upto (fun k => xor (xor (bit_at a k && bj)
        (bit_at tmp0 (a.length + k))) (bit_at tmp0 k)) a.length
      = (row_sum a tmp0 bj 0).toNat
        + 2 * value_upto (fun k => row_sum a tmp0 bj (k + 1)) n := by
    have := value_upto_shift (fun k => row_sum a tmp0 bj k) n
    rw [← hn2] at this
    exact this
  rw [hs, hc]
  rw [hsum] at hbal
  linarith [hbal]

/-- The rows of the systolic multiplier accumulate the product of `a` and the bits of
`b` consumed so far. -/
theorem new_multiplier_rows_spec (a : List Signal) (hn : 1 ≤ a.length) :
    ∀ (rest : List Signal) (j : Nat) (res tmp : List Signal) (X : Nat),
      j + rest.length ≤ res.length → tmp.length = a.length * 2 →
      bit_at tmp (a.length + (a.length - 1)) = false →
      value_upto (bit_at res) j
          + 2 ^ j * (value_upto (fun k => bit_at tmp (a.length + k)) a.length
            + value_upto (bit_at tmp) a.length) = X →
      ∃ res2 tmp2, new_multiplier_rows a rest j (res, tmp) = some (res2, tmp2)
        ∧ res2.length = res.length ∧ tmp2.length = a.length * 2
        ∧ bit_at tmp2 (a.length + (a.length - 1)) = false
        ∧ value_upto (bit_at res2) (j + rest.length)
            + 2 ^ (j + rest.length)
              * (value_upto (fun k => bit_at tmp2 (a.length + k)) a.length
                + value_upto (bit_at tmp2) a.length)
          = X + 2 ^ j * (value a * value rest) := by
  intro rest
  induction rest with
  | nil =>
    intro j res tmp X _ htl htop hX
    exact ⟨res, tmp, rfl, rfl, htl, htop, by simpa [value] using hX⟩
  | cons bj rest ih =>
    intro j res tmp X hj htl htop hX
    simp only [List.length_cons] at hj
    obtain ⟨res1, tmp1, e1, l1, l2, c1, c2, c3, c4⟩ := new_multiplier_row_spec a bj j res tmp
      (by omega) htl a.length 0 res tmp (by omega) rfl rfl (fun k hk => by omega)
      (fun k _ _ => rfl) (fun k hk => by omega) (fun k _ _ => rfl)
      (fun x => by simp)
    have hrow := new_multiplier_row_value a bj tmp tmp1 hn htop c1 c2 c3
    have htop1 : bit_at tmp1 (a.length + (a.length - 1)) = false := by
      rw [c3 (a.length - 1) (by omega) (by omega)]
      exact htop
    have hres1 : value_upto (bit_at res1) (j + 1)
        = value_upto (bit_at res) j + 2 ^ j * (row_sum a tmp bj 0).toNat := by
      rw [value_upto]
      have e2 : value_upto (bit_at res1) j = value_upto (bit_at res) j :=
        value_upto_congr _ _ _ (fun k hk => by
          rw [c4 k, if_neg (by omega)])
      rw [e2, c4 j, if_pos ⟨rfl, by omega⟩]
    obtain ⟨res2, tmp2, e3, l3, l4, t4, v4⟩ := ih (j + 1) res1 tmp1
      (X + 2 ^ j * (value a * bj.toNat)) (by omega) (l2.trans htl) htop1 (by
        rw [hres1, pow_succ, ← hX]
        have h2 := congrArg (fun t => 2 ^ j * t) hrow
        simp only at h2
        linarith [h2])
    refine ⟨res2, tmp2, ?_, l3.trans l1, l4, t4, ?_⟩
    · simp only [new_multiplier_rows, e1, e3]
    · have e5 : j + (rest.length + 1) = j + 1 + rest.length := by omega
      simp only [List.length_cons]
      rw [e5, v4, value, pow_succ]
      ring

/-- The carry resolution over the last row is a ripple addition of the carry-save pair. -/
theorem new_multiplier_resolve_spec (n m : Nat) (tmp res0 : List Signal)
    (htmp : tmp.length = n * 2) (hres : m + n ≤ res0.length) :
    ∀ (r i : Nat) (res : List Signal) (carry : Signal), i + r = n →
      res.length = res0.length →
      carry = chain (fun k => bit_at tmp k && bit_at tmp (n + k))
        (fun k => xor (bit_at tmp k) (bit_at tmp (n + k))) false i →
      (∀ p, bit_at res p = if m ≤ p ∧ p < m + i then
          xor (xor (bit_at tmp (p - m)) (bit_at tmp (n + (p - m))))
            (chain (fun k => bit_at tmp k && bit_at tmp (n + k))
              (fun k => xor (bit_at tmp k) (bit_at tmp (n + k))) false (p - m))
        else bit_at res0 p) →
      ∃ res2 carry2, new_multiplier_resolve n m tmp r i (res, carry) = some (res2, carry2)
        ∧ res2.length = res0.length
        ∧ carry2 = chain (fun k => bit_at tmp k && bit_at tmp (n + k))
            (fun k => xor (bit_at tmp k) (bit_at tmp (n + k))) false n
        ∧ ∀ p, bit_at res2 p = if m ≤ p ∧ p < m + n then
            xor (xor (bit_at tmp (p - m)) (bit_at tmp (n + (p - m))))
              (chain (fun k => bit_at tmp k && bit_at tmp (n + k))
                (fun k => xor (bit_at tmp k) (bit_at tmp (n + k))) false (p - m))
          else bit_at res0 p := by
  intro r
  induction r with
  | zero =>
    intro i res carry hi hl hc hb
    have e : i = n := by omega
    subst e
    exact ⟨res, carry, rfl, hl, hc, hb⟩
  | succ r ih =>
    intro i res carry hi hl hc hb
    have e1 := getElem?_eq_some_bit_at tmp i (by omega)
    have e2 := getElem?_eq_some_bit_at tmp (n + i) (by omega)
    simp only [new_multiplier_resolve, e1, e2, kogge_stone_full_adder_eq]
    refine ih (i + 1) _ _ (by omega) (by simp [hl]) ?_ ?_
    · rw [chain, hc]
    · intro p
      rw [bit_at_set _ _ _ _ (by omega)]
      by_cases e : p = m + i
      · subst e
        have e3 : m + i - m = i := by omega
        rw [if_pos rfl, if_pos ⟨by omega, by omega⟩, e3, hc]
      · rw [if_neg e, hb p]
        by_cases h2 : m ≤ p ∧ p < m + i
        · rw [if_pos h2, if_pos ⟨h2.1, by omega⟩]
        · rw [if_neg h2, if_neg (by omega)]

/-- C14: `new_multiplier` on an `n`-bit `A`, `n ≥ 1`, and an `m`-bit `B` (any `m`, in
particular `m ≥ 1`) returns a vector of exactly `n + m` bits whose value is `A * B`. -/
theorem new_multiplier_correct (a b : List Signal) (hn : 1 ≤ a.length) :
    ∃ res, new_multiplier a b = some res ∧ res.length = a.length + b.length
      ∧ value res = value a * value b := by
  obtain ⟨res1, tmp1, e1, l1, l2, t1, v1⟩ := new_multiplier_rows_spec a hn b 0
    (constant_word 0 (a.length + b.length)) (constant_word 0 (a.length * 2)) 0
    (by rw [length_constant_word]; omega) (length_constant_word _ _)
    (bit_at_constant_word_zero _ _) (by
      have h1 : value_upto (fun k => bit_at (constant_word 0 (a.length * 2)) (a.length + k))
          a.length = 0 := by
        rw [value_upto_congr _ (fun _ => false) _
          (fun k _ => bit_at_constant_word_zero _ _)]
        exact value_upto_false _
      have h2 : value_upto (bit_at (constant_word 0 (a.length * 2))) a.length = 0 := by
        rw [value_upto_congr _ (fun _ => false) _
          (fun k _ => bit_at_constant_word_zero _ _)]
        exact value_upto_false _
      rw [h1, h2]
      rfl)
  rw [length_constant_word] at l1
  simp only [Nat.zero_add, pow_zero, Nat.one_mul] at v1
  -- writing constant false to the last entry of `tmp` changes nothing
  have hset : ∀ k, bit_at (tmp1.set (tmp1.length - 1) (get_constant false)) k
      = bit_at tmp1 k := by
    intro k
    rw [bit_at_set _ _ _ _ (by omega)]
    by_cases e : k = tmp1.length - 1
    · have e2 : k = a.length + (a.length - 1) := by omega
      rw [if_pos e, e2, t1]
      rfl
    · rw [if_neg e]
  obtain ⟨res2, carry2, e2, l3, hc2, hb2⟩ := new_multiplier_resolve_spec a.length b.length
    (tmp1.set (tmp1.length - 1) (get_constant false)) res1 (by simp [l2]) (by omega)
    a.length 0 res1 (get_constant false) (by omega) rfl rfl (fun p => by
      rw [if_neg (by omega)])
  refine ⟨res2, ?_, l3.trans l1, ?_⟩
  · simp only [new_multiplier, e1]
    rw [if_neg (by omega)]
    simp only [e2]
  · have hbal := add_balance (bit_at tmp1) (fun k => bit_at tmp1 (a.length + k)) false
      a.length
    have hlow : value_upto (bit_at res2) b.length = value_upto (bit_at res1) b.length :=
      value_upto_congr _ _ _ (fun k hk => by rw [hb2 k, if_neg (by omega)])
    have hhigh : value_upto (fun k => bit_at res2 (b.length + k)) a.length
        = value_upto (fun i => xor (xor (bit_at tmp1 i) (bit_at tmp1 (a.length + i)))
            (chain (fun i => bit_at tmp1 i && bit_at tmp1 (a.length + i))
              (fun i => xor (bit_at tmp1 i) (bit_at tmp1 (a.length + i))) false i))
          a.length :=
      value_upto_congr _ _ _ (fun k hk => by
        have e3 : b.length + k - b.length = k := by omega
        rw [hb2 (b.length + k), if_pos ⟨by omega, by omega⟩, e3]
        simp only [hset])
    have hval : value res2 = value_upto (bit_at res2) b.length
        + 2 ^ b.length * value_upto (fun k => bit_at res2 (b.length + k)) a.length := by
      rw [value_eq_value_upto, l3, l1, Nat.add_comm a.length b.length, value_upto_add]
    have hlt : value res2 < 2 ^ (a.length + b.length) := by
      have := value_lt res2
      rwa [l3, l1] at this
    have hprod : value a * value b < 2 ^ (a.length + b.length) := by
      rw [pow_add]
      exact Nat.mul_lt_mul'' (value_lt a) (value_lt b)
    rw [hlow, hhigh] at hval
    simp only [Bool.toNat_false, Nat.add_zero] at hbal
    have h2 := congrArg (fun t => 2 ^ b.length * t) hbal
    simp only at h2
    have hpow : 2 ^ (a.length + b.length) = 2 ^ b.length * 2 ^ a.length := by
      rw [pow_add]; ring
    generalize chain (fun i => bit_at tmp1 i && bit_at tmp1 (a.length + i))
      (fun i => xor (bit_at tmp1 i) (bit_at tmp1 (a.length + i))) false a.length = cout
      at h2 hbal
    cases cout with
    | false =>
      simp only [Bool.toNat_false, Nat.mul_zero, Nat.add_zero] at h2
      rw [Nat.mul_comm (value a) (value b)] at v1 ⊢
      rw [Nat.mul_comm (value a) (value b)] at hprod
      linarith [h2, v1, hval]
    | true =>
      exfalso
      simp only [Bool.toNat_true, Nat.mul_one] at h2
      have h3 : 2 ^ b.length * (2 ^ a.length) ≤ value a * value b := by
        nlinarith [h2, v1, hval]
      omega

/-- Witness for C14 on `5 * 3` with three and two bits. -/
theorem new_multiplier_correct_witness :
    ∃ res, new_multiplier [true, false, true] [true, true] = some res
      ∧ res.length = [true, false, true].length + [true, true].length
      ∧ value res = value [true, false, true] * value [true, true] :=
  new_multiplier_correct [true, false, true] [true, true] (by decide)

/-! ### The adder built from the ripple subtractor -/

theorem value_map_not (b : List Signal) :
    value (b.map create_not) + value b + 1 = 2 ^ b.length := by
  induction b with
  | nil => simp [value]
  | cons x xs ih =>
    simp only [List.map_cons, value, List.length_cons, pow_succ]
    cases x <;> simp [create_not] <;> omega

theorem full_subtractor_without_node (cap : Capability) (hcap : cap.has_create_node = false)
    (x y z : Signal) : full_subtractor cap x y z = full_subtractor gate_network x y z := by
  have hg : full_subtractor gate_network x y z = full_subtractor_gates x y z := rfl
  rw [hg]
  unfold full_subtractor
  rw [hcap]
  simp only [Bool.false_eq_true, if_false]
  split
  · exact full_subtractor_maj_eq_gates x y z
  · rfl

/-- C21: the adder of the command `adder --borrow_ripple_subtractor`, on any network
without LUT nodes (the cell is then the majority cell or the seven-gate cell): for
operands of equal length `n`, `borrow_ripple_subtractor_inplace` called on `a`, on the
complemented bits of `b` and on borrow-in 1 leaves the `n` low bits of `A + B` in `a`
and a borrow whose complement is bit `n` of `A + B`; the primary outputs of the command
are these `n` bits followed by bit `n` of `A + B`. -/
theorem ripple_subtractor_adds (cap : Capability) (hcap : cap.has_create_node = false)
    (a b : List Signal) (hlen : b.length = a.length) :
    borrow_ripple_subtractor_inplace cap a (b.map create_not) (get_constant true)
        = some (low_bits a.length (value a + value b),
            !(Nat.testBit (value a + value b) a.length))
      ∧ adder_borrow_ripple cap a b
        = some (low_bits a.length (value a + value b)
            ++ [Nat.testBit (value a + value b) a.length]) := by
  have hl : a.length = (b.map create_not).length := by simp [hlen]
  obtain ⟨d, w, hd, hdl, hbal⟩ := borrow_ripple_loop_balance cap
    (full_subtractor_without_node cap hcap) a (b.map create_not) (get_constant true) hl
  have hnot := value_map_not b
  rw [hlen] at hnot
  have hD : value d < 2 ^ a.length := hdl ▸ value_lt d
  have hbal2 : value d + 2 ^ a.length * (!w).toNat = value a + value b + false.toNat := by
    simp only [get_constant, Bool.toNat_true] at hbal
    cases w <;> simp at hbal ⊢ <;> omega
  obtain ⟨hv, hk⟩ := sum_of_balance (value a) (value b) (value d) a.length false (!w) hbal2 hD
  simp only [Bool.toNat_false, Nat.add_zero] at hv hk
  have hcall : borrow_ripple_subtractor_inplace cap a (b.map create_not) (get_constant true)
      = some (low_bits a.length (value a + value b),
          !(Nat.testBit (value a + value b) a.length)) := by
    simp only [borrow_ripple_subtractor_inplace, if_pos hl, hd]
    rw [eq_low_bits d a.length (value a + value b) hdl hv, ← hk]
    simp
  refine ⟨hcall, ?_⟩
  simp only [adder_borrow_ripple, hcall, create_not, Bool.not_not]

/-- Witness for C21 on `5 + 6` over three bits. -/
theorem ripple_subtractor_adds_witness :
    gate_network.has_create_node = false
      ∧ [false, true, true].length = [true, false, true].length
      ∧ (borrow_ripple_subtractor_inplace gate_network [true, false, true]
            ([false, true, true].map create_not) (get_constant true)
          = some (low_bits [true, false, true].length
              (value [true, false, true] + value [false, true, true]),
              !(Nat.testBit (value [true, false, true] + value [false, true, true])
                [true, false, true].length))
        ∧ adder_borrow_ripple gate_network [true, false, true] [false, true, true]
          = some (low_bits [true, false, true].length
              (value [true, false, true] + value [false, true, true])
              ++ [Nat.testBit (value [true, false, true] + value [false, true, true])
                [true, false, true].length])) :=
  ⟨rfl, rfl, ripple_subtractor_adds gate_network rfl [true, false, true]
    [false, true, true] rfl⟩

/-! ### The loops that list their calls compute the same nodes -/

theorem o_call_fst (st : List PG × List Call) (x : Nat) (src : List PG) (y : Nat) :
    (o_call st x src y).1 = o_at st.1 x src y := by
  unfold o_call o_at
  split <;> simp_all

theorem o_call_eq (st : List PG × List Call) (x : Nat) (src : List PG) (y : Nat)
    (hx : x < st.1.length) (hy : y < src.length) :
    o_call st x src y = (o_at st.1 x src y, st.2 ++ [⟨x, node st.1 x, node src y⟩]) := by
  unfold o_call node
  simp [List.getElem?_eq_getElem hx, List.getElem?_eq_getElem hy]

theorem brent_kung_inner_calls_fst (j : Nat) :
    ∀ (fuel i : Nat) (st : List PG × List Call),
      (brent_kung_inner_calls j fuel i st).1 = brent_kung_inner j fuel i st.1 := by
  intro fuel
  induction fuel with
  | zero => intro i st; rfl
  | succ f ih =>
    intro i st
    simp only [brent_kung_inner_calls, brent_kung_inner]
    split
    · split
      · exact ih _ st
      · rw [ih, o_call_fst]
    · rfl

theorem brent_kung_first_round_calls_fst :
    ∀ (rounds j : Nat) (st : List PG × List Call),
      (brent_kung_first_round_calls rounds j st).1 = brent_kung_first_round rounds j st.1 := by
  intro rounds
  induction rounds with
  | zero => intro j st; rfl
  | succ r ih =>
    intro j st
    simp only [brent_kung_first_round_calls, brent_kung_first_round]
    split
    · rw [ih, brent_kung_inner_calls_fst]
    · rfl

theorem kogge_stone_inner_calls_fst (j : Nat) (bak : List PG) :
    ∀ (fuel i : Nat) (st : List PG × List Call),
      (kogge_stone_inner_calls j bak fuel i st).1 = kogge_stone_inner j bak fuel i st.1 := by
  intro fuel
  induction fuel with
  | zero => intro i st; rfl
  | succ f ih =>
    intro i st
    simp only [kogge_stone_inner_calls, kogge_stone_inner]
    split
    · split
      · rfl
      · rw [ih, o_call_fst]
    · rfl

theorem kogge_stone_rounds_calls_fst :
    ∀ (rounds j : Nat) (st : List PG × List Call),
      (kogge_stone_rounds_calls rounds j st).1 = kogge_stone_rounds rounds j st.1 := by
  intro rounds
  induction rounds with
  | zero => intro j st; rfl
  | succ r ih =>
    intro j st
    simp only [kogge_stone_rounds_calls, kogge_stone_rounds]
    split
    · rw [ih, kogge_stone_inner_calls_fst]
    · rfl

theorem han_carlson_inner_calls_fst (j : Nat) (bak : List PG) :
    ∀ (fuel i : Nat) (st : List PG × List Call),
      (han_carlson_inner_calls j bak fuel i st).1 = han_carlson_inner j bak fuel i st.1 := by
  intro fuel
  induction fuel with
  | zero => intro i st; rfl
  | succ f ih =>
    intro i st
    simp only [han_carlson_inner_calls, han_carlson_inner]
    split
    · split
      · exact ih _ st
      · rw [ih, o_call_fst]
    · rfl

theorem han_carlson_rounds_calls_fst :
    ∀ (rounds j : Nat) (st : List PG × List Call),
      (han_carlson_rounds_calls rounds j st).1 = han_carlson_rounds rounds j st.1 := by
  intro rounds
  induction rounds with
  | zero => intro j st; rfl
  | succ r ih =>
    intro j st
    simp only [han_carlson_rounds_calls, han_carlson_rounds]
    split
    · split
      · rw [ih, brent_kung_inner_calls_fst]
      · rw [ih, han_carlson_inner_calls_fst]
    · rfl

theorem second_round_calls_fst :
    ∀ (fuel i : Nat) (st : List PG × List Call),
      (second_round_calls fuel i st).map Prod.fst = second_round fuel i st.1 := by
  intro fuel
  induction fuel with
  | zero => intro i st; rfl
  | succ f ih =>
    intro i st
    simp only [second_round_calls, second_round]
    split
    · rfl
    · split
      · exact ih _ st
      · split
        · split
          · rw [ih, o_call_fst]
          · rw [ih, o_call_fst]
        · rfl

/-- The generators are the carry assembly applied to the nodes listed with their calls. -/
theorem generators_from_nodes (a b : List Signal) (c : Signal) :
    kogge_stone_adder_inplace a b c
        = (kogge_stone_adder_nodes a b c).map
            (fun st => finish (List.zipWith (fun f g => create_xor f g) a b)
              (assemble c st.1) c)
      ∧ kogge_stone_subtractor_inplace a b c
        = (kogge_stone_subtractor_nodes a b c).map
            (fun st => finish (List.zipWith (fun f g => create_xor f g) a b)
              (assemble c st.1) c)
      ∧ brent_kung_adder_inplace a b c
        = (brent_kung_adder_nodes a b c).map
            (fun st => finish (List.zipWith (fun f g => create_xor f g) a b)
              (assemble c st.1) c)
      ∧ brent_kung_subtractor_inplace a b c
        = (brent_kung_subtractor_nodes a b).map
            (fun st => finish (List.zipWith (fun f g => create_xor f g) a b)
              (assemble c st.1) c)
      ∧ han_carlson_adder_inplace a b c
        = (han_carlson_adder_nodes a b c).map
            (fun st => finish (List.zipWith (fun f g => create_xor f g) a b)
              (assemble c st.1) c)
      ∧ han_carlson_subtractor_inplace a b c
        = (han_carlson_subtractor_nodes a b).map
            (fun st => finish (List.zipWith (fun f g => create_xor f g) a b)
              (assemble c st.1) c) := by
  have hsweep : ∀ (st : List PG × List Call),
      (match second_round (2 * st.1.length) 0 st.1 with
        | some pg => some (finish (List.zipWith (fun f g => create_xor f g) a b)
            (assemble c pg) c)
        | none => none)
      = (second_round_calls (2 * st.1.length) 0 st).map
          (fun st => finish (List.zipWith (fun f g => create_xor f g) a b)
            (assemble c st.1) c) := by
    intro st
    rw [← second_round_calls_fst]
    cases second_round_calls (2 * st.1.length) 0 st <;> rfl
  have hbka : brent_kung_adder_inplace a b c
        = (brent_kung_adder_nodes a b c).map
            (fun st => finish (List.zipWith (fun f g => create_xor f g) a b)
              (assemble c st.1) c) := by
    unfold brent_kung_adder_inplace brent_kung_adder_nodes brent_kung_adder_start
    split
    · rfl
    · simp only []
      rw [← hsweep, brent_kung_first_round_calls_fst, o_call_fst]
  have hbks : brent_kung_subtractor_inplace a b c
        = (brent_kung_subtractor_nodes a b).map
            (fun st => finish (List.zipWith (fun f g => create_xor f g) a b)
              (assemble c st.1) c) := by
    unfold brent_kung_subtractor_inplace brent_kung_subtractor_nodes
      brent_kung_subtractor_start
    split
    · rfl
    · simp only []
      rw [← hsweep, brent_kung_first_round_calls_fst]
  refine ⟨?_, ?_, hbka, hbks, ?_, ?_⟩
  · unfold kogge_stone_adder_inplace kogge_stone_adder_nodes kogge_stone_adder_start
    split
    · rfl
    · simp only [Option.map, kogge_stone_rounds_calls_fst, o_call_fst]
  · unfold kogge_stone_subtractor_inplace kogge_stone_subtractor_nodes
      kogge_stone_subtractor_start
    split
    · rfl
    · simp only [Option.map, kogge_stone_rounds_calls_fst, o_call_fst]
  · unfold han_carlson_adder_inplace han_carlson_adder_nodes han_carlson_adder_start
    split
    · exact hbka
    · split
      · rfl
      · simp only []
        rw [← hsweep, han_carlson_rounds_calls_fst]
  · unfold han_carlson_subtractor_inplace han_carlson_subtractor_nodes
      han_carlson_subtractor_start
    split
    · exact hbks
    · split
      · rfl
      · simp only []
        rw [← hsweep, han_carlson_rounds_calls_fst]

/-! ### One more round of a round loop -/

theorem kogge_stone_rounds_calls_succ :
    ∀ (r j : Nat) (st : List PG × List Call),
      kogge_stone_rounds_calls (r + 1) j st
        = if last_end (kogge_stone_rounds_calls r j st).1 ≠ 0 then
            kogge_stone_inner_calls (j + r) (kogge_stone_rounds_calls r j st).1
              (kogge_stone_rounds_calls r j st).1.length 0 (kogge_stone_rounds_calls r j st)
          else kogge_stone_rounds_calls r j st := by
  intro r
  induction r with
  | zero =>
    intro j st
    simp only [kogge_stone_rounds_calls, Nat.add_zero]
  | succ r ih =>
    intro j st
    by_cases h : last_end st.1 ≠ 0
    · have e1 : kogge_stone_rounds_calls (r + 1) j st
          = kogge_stone_rounds_calls r (j + 1)
              (kogge_stone_inner_calls j st.1 st.1.length 0 st) := by
        simp only [kogge_stone_rounds_calls, if_pos h]
      have e2 : kogge_stone_rounds_calls (r + 1 + 1) j st
          = kogge_stone_rounds_calls (r + 1) (j + 1)
              (kogge_stone_inner_calls j st.1 st.1.length 0 st) := by
        rw [kogge_stone_rounds_calls, if_pos h]
      rw [e2, ih, e1]
      have e3 : j + 1 + r = j + (r + 1) := by omega
      rw [e3]
    · have e1 : kogge_stone_rounds_calls (r + 1) j st = st := by
        simp only [kogge_stone_rounds_calls, if_neg h]
      have e2 : kogge_stone_rounds_calls (r + 1 + 1) j st = st := by
        rw [kogge_stone_rounds_calls, if_neg h]
      rw [e2, e1, if_neg h]

theorem brent_kung_first_round_calls_succ :
    ∀ (r j : Nat) (st : List PG × List Call),
      brent_kung_first_round_calls (r + 1) j st
        = if last_end (brent_kung_first_round_calls r j st).1 ≠ 0 then
            brent_kung_inner_calls (j + r) (brent_kung_first_round_calls r j st).1.length
              (2 ^ (j + r) - 1) (brent_kung_first_round_calls r j st)
          else brent_kung_first_round_calls r j st := by
  intro r
  induction r with
  | zero =>
    intro j st
    simp only [brent_kung_first_round_calls, Nat.add_zero]
  | succ r ih =>
    intro j st
    by_cases h : last_end st.1 ≠ 0
    · have e1 : brent_kung_first_round_calls (r + 1) j st
          = brent_kung_first_round_calls r (j + 1)
              (brent_kung_inner_calls j st.1.length (2 ^ j - 1) st) := by
        simp only [brent_kung_first_round_calls, if_pos h]
      have e2 : brent_kung_first_round_calls (r + 1 + 1) j st
          = brent_kung_first_round_calls (r + 1) (j + 1)
              (brent_kung_inner_calls j st.1.length (2 ^ j - 1) st) := by
        rw [brent_kung_first_round_calls, if_pos h]
      rw [e2, ih, e1]
      have e3 : j + 1 + r = j + (r + 1) := by omega
      rw [e3]
    · have e1 : brent_kung_first_round_calls (r + 1) j st = st := by
        simp only [brent_kung_first_round_calls, if_neg h]
      have e2 : brent_kung_first_round_calls (r + 1 + 1) j st = st := by
        rw [brent_kung_first_round_calls, if_neg h]
      rw [e2, e1, if_neg h]

theorem han_carlson_rounds_calls_succ :
    ∀ (r j : Nat) (st : List PG × List Call),
      han_carlson_rounds_calls (r + 1) j st
        = if last_end (han_carlson_rounds_calls r j st).1 ≠ 0 then
            if j + r < 2 then
              brent_kung_inner_calls (j + r) (han_carlson_rounds_calls r j st).1.length
                (2 ^ (j + r) - 1) (han_carlson_rounds_calls r j st)
            else
              han_carlson_inner_calls (j + r) (han_carlson_rounds_calls r j st).1
                (han_carlson_rounds_calls r j st).1.length (2 ^ 2 - 1)
                (han_carlson_rounds_calls r j st)
          else han_carlson_rounds_calls r j st := by
  intro r
  induction r with
  | zero =>
    intro j st
    simp only [han_carlson_rounds_calls, Nat.add_zero]
  | succ r ih =>
    intro j st
    by_cases h : last_end st.1 ≠ 0
    · have e1 : han_carlson_rounds_calls (r + 1) j st
          = han_carlson_rounds_calls r (j + 1)
              (if j < 2 then brent_kung_inner_calls j st.1.length (2 ^ j - 1) st
                else han_carlson_inner_calls j st.1 st.1.length (2 ^ 2 - 1) st) := by
        simp only [han_carlson_rounds_calls, if_pos h]
        split <;> rfl
      have e2 : han_carlson_rounds_calls (r + 1 + 1) j st
          = han_carlson_rounds_calls (r + 1) (j + 1)
              (if j < 2 then brent_kung_inner_calls j st.1.length (2 ^ j - 1) st
                else han_carlson_inner_calls j st.1 st.1.length (2 ^ 2 - 1) st) := by
        rw [han_carlson_rounds_calls, if_pos h]
        split <;> rfl
      rw [e2, ih, e1]
      have e3 : j + 1 + r = j + (r + 1) := by omega
      rw [e3]
    · have e1 : han_carlson_rounds_calls (r + 1) j st = st := by
        simp only [han_carlson_rounds_calls, if_neg h]
      have e2 : han_carlson_rounds_calls (r + 1 + 1) j st = st := by
        rw [han_carlson_rounds_calls, if_neg h]
      rw [e2, e1, if_neg h]

/-! ### The calls of a Kogge-Stone round -/

theorem kogge_stone_inner_calls_spec (j : Nat) (bak : List PG) :
    ∀ (fuel i : Nat) (st : List PG × List Call), st.1.length = bak.length →
      bak.length ≤ fuel + i →
      (∀ m, i + 2 ^ j ≤ m → node st.1 m = node bak m) →
      (kogge_stone_inner_calls j bak fuel i st).2
          = st.2 ++ (List.range' i (bak.length - 2 ^ j - i)).map
              (fun t => ⟨t + 2 ^ j, node bak (t + 2 ^ j), node bak t⟩)
        ∧ ∀ m, node (kogge_stone_inner_calls j bak fuel i st).1 m
            = if i + 2 ^ j ≤ m ∧ m < bak.length then
                (node bak m).o_operation (node bak (m - 2 ^ j))
              else node st.1 m := by
  have hq : 0 < 2 ^ j := Nat.two_pow_pos j
  intro fuel
  induction fuel with
  | zero =>
    intro i st hlen hf _
    have e : bak.length - 2 ^ j - i = 0 := by omega
    simp only [kogge_stone_inner_calls, e, List.range'_zero, List.map_nil, List.append_nil,
      true_and]
    intro m
    rw [if_neg (by omega)]
  | succ f ih =>
    intro i st hlen hf hbak
    simp only [kogge_stone_inner_calls]
    split
    · rename_i hi
      split
      · rename_i hge
        have e : bak.length - 2 ^ j - i = 0 := by omega
        simp only [e, List.range'_zero, List.map_nil, List.append_nil, true_and]
        intro m
        rw [if_neg (by omega)]
      · rename_i hlt
        have hx : i + 2 ^ j < st.1.length := by omega
        have hy : i < bak.length := by omega
        rw [o_call_eq st (i + 2 ^ j) bak i hx hy]
        have hnode := fun m => node_o_at st.1 bak (i + 2 ^ j) i m hx hy
        obtain ⟨h1, h2⟩ := ih (i + 1)
          (o_at st.1 (i + 2 ^ j) bak i, st.2 ++ [⟨i + 2 ^ j, node st.1 (i + 2 ^ j), node bak i⟩])
          (by simp only [length_o_at]; exact hlen) (by omega)
          (by
            intro m hm
            simp only []
            rw [hnode m, if_neg (by omega)]
            exact hbak m (by omega))
        refine ⟨?_, ?_⟩
        · rw [h1]
          have e : bak.length - 2 ^ j - i = (bak.length - 2 ^ j - (i + 1)) + 1 := by omega
          rw [e, List.range'_succ, List.map_cons, hbak (i + 2 ^ j) (le_refl _)]
          simp
        · intro m
          rw [h2 m]
          simp only []
          rw [hnode m]
          by_cases e : m = i + 2 ^ j
          · subst e
            rw [if_neg (by omega), if_pos rfl, if_pos ⟨le_refl _, by omega⟩,
              hbak _ (le_refl _)]
            congr 2
            omega
          · rw [if_neg e]
            by_cases c : i + 1 + 2 ^ j ≤ m ∧ m < bak.length
            · rw [if_pos c, if_pos ⟨by omega, c.2⟩]
            · rw [if_neg c, if_neg (by omega)]
    · rename_i hi
      have e : bak.length - 2 ^ j - i = 0 := by omega
      simp only [e, List.range'_zero, List.map_nil, List.append_nil, true_and]
      intro m
      rw [if_neg (by omega)]

/-- The states of the Kogge-Stone loop: while `2^r` is below the number of nodes, round
`r` is executed and the invariant of the ranges holds. -/
theorem kogge_stone_rounds_calls_inv (gs ps : Nat → Bool) (st0 : List PG × List Call)
    (hpos : 0 < st0.1.length) (hok : state_ok gs ps st0.1) (hinv : kogge_stone_inv 0 st0.1) :
    ∀ r, (∀ i, i < r → 2 ^ i < st0.1.length) →
      (kogge_stone_rounds_calls r 0 st0).1.length = st0.1.length
        ∧ state_ok gs ps (kogge_stone_rounds_calls r 0 st0).1
        ∧ kogge_stone_inv r (kogge_stone_rounds_calls r 0 st0).1
        ∧ (∀ r2, r = r2 + 1 →
            kogge_stone_rounds_calls r 0 st0
              = kogge_stone_inner_calls r2 (kogge_stone_rounds_calls r2 0 st0).1
                  st0.1.length 0 (kogge_stone_rounds_calls r2 0 st0)) := by
  intro r
  induction r with
  | zero =>
    intro _
    exact ⟨rfl, hok, hinv, fun r2 h => by omega⟩
  | succ r ih =>
    intro hr
    obtain ⟨hl, hok2, hinv2, _⟩ := ih (fun i hi => hr i (by omega))
    have h2r := hr r (by omega)
    have hlast : last_end (kogge_stone_rounds_calls r 0 st0).1 ≠ 0 := by
      rw [last_end_eq _ (by rw [hl]; exact hpos), hinv2 _ (by rw [hl]; omega), hl]
      omega
    have hstep : kogge_stone_rounds_calls (r + 1) 0 st0
        = kogge_stone_inner_calls r (kogge_stone_rounds_calls r 0 st0).1
            st0.1.length 0 (kogge_stone_rounds_calls r 0 st0) := by
      rw [kogge_stone_rounds_calls_succ, if_pos hlast, Nat.zero_add, hl]
    have hin := kogge_stone_inner_spec gs ps r (kogge_stone_rounds_calls r 0 st0).1 hok2 hinv2
      st0.1.length 0 (kogge_stone_rounds_calls r 0 st0).1 rfl (by rw [hl]; omega) hok2
      (by
        intro m hm
        rw [hinv2 m hm]
        have hp : 2 ^ (r + 1) = 2 * 2 ^ r := by rw [pow_succ]; omega
        split
        · omega
        · rfl)
    rw [← kogge_stone_inner_calls_fst, ← hstep] at hin
    obtain ⟨a1, a2, a3⟩ := hin
    refine ⟨a1.trans hl, a2, a3, ?_⟩
    intro r2 e
    have e2 : r2 = r := by omega
    subst e2
    exact hstep

/-- Every round of the Kogge-Stone loop below `ceil(log2 n)` is executed and is a
Kogge-Stone round; after `ceil(log2 n)` rounds every node is fully reduced. -/
theorem kogge_stone_rounds_calls_rounds (gs ps : Nat → Bool) (st0 : List PG × List Call)
    (hpos : 0 < st0.1.length) (hok : state_ok gs ps st0.1) (hinv : kogge_stone_inv 0 st0.1) :
    (∀ j, j < ceil_log2 st0.1.length →
      (kogge_stone_rounds_calls j 0 st0).1.length = st0.1.length
        ∧ kogge_stone_round j (kogge_stone_rounds_calls j 0 st0)
            (kogge_stone_rounds_calls (j + 1) 0 st0))
      ∧ (kogge_stone_rounds_calls (ceil_log2 st0.1.length) 0 st0).1.length = st0.1.length
      ∧ all_reduced (kogge_stone_rounds_calls (ceil_log2 st0.1.length) 0 st0).1 := by
  have hlow : ∀ i, i < ceil_log2 st0.1.length → 2 ^ i < st0.1.length :=
    ceil_log2_from_least st0.1.length st0.1.length 0 (by intro i hi; omega)
  refine ⟨?_, ?_⟩
  · intro j hj
    obtain ⟨hl, _, hinv1, _⟩ := kogge_stone_rounds_calls_inv gs ps st0 hpos hok hinv j
      (fun i hi => hlow i (by omega))
    obtain ⟨hl2, _, hinv2, hstep⟩ := kogge_stone_rounds_calls_inv gs ps st0 hpos hok hinv
      (j + 1) (fun i hi => hlow i (by omega))
    have hstep := hstep j rfl
    obtain ⟨t1, t2⟩ := kogge_stone_inner_calls_spec j (kogge_stone_rounds_calls j 0 st0).1
      st0.1.length 0 (kogge_stone_rounds_calls j 0 st0) rfl (by rw [hl]; omega)
      (fun m _ => rfl)
    rw [← hstep] at t1 t2
    refine ⟨hl, hl2.trans hl.symm, ?_, ?_, ?_, ?_⟩
    · intro m hm
      exact hinv2 m (by rw [hl2]; rw [hl] at hm; exact hm)
    · intro m hm h2
      rw [t2 m, if_pos ⟨by omega, hm⟩]
    · intro m hm
      rw [t2 m, if_neg (by omega)]
    · rw [t1, hl, Nat.sub_zero, List.range_eq_range']
  · obtain ⟨hl, _, hinvL, _⟩ := kogge_stone_rounds_calls_inv gs ps st0 hpos hok hinv
      (ceil_log2 st0.1.length) hlow
    refine ⟨hl, ?_⟩
    intro m hm
    rw [hinvL m hm]
    have := le_two_pow_ceil_log2 st0.1.length
    rw [hl] at hm
    omega

/-! ### The calls of a Brent-Kung round -/

theorem brent_kung_inner_calls_spec (j : Nat) (start : List PG) :
    ∀ (fuel i : Nat) (st : List PG × List Call), st.1.length = start.length →
      (∀ m, i ≤ m → node st.1 m = node start m) →
      ∃ new, (brent_kung_inner_calls j fuel i st).2 = st.2 ++ new
        ∧ (brent_kung_inner_calls j fuel i st).1.length = start.length
        ∧ (∀ c ∈ new, ∃ s, i + 2 ^ (j + 1) * s + 2 ^ j < start.length
            ∧ c = ⟨i + 2 ^ (j + 1) * s + 2 ^ j, node start (i + 2 ^ (j + 1) * s + 2 ^ j),
                node start (i + 2 ^ (j + 1) * s)⟩)
        ∧ new.length * 2 ^ (j + 1) ≤ start.length + 2 ^ j - (i + 1) := by
  have hq : 0 < 2 ^ j := Nat.two_pow_pos j
  have hp : 2 ^ (j + 1) = 2 * 2 ^ j := by rw [pow_succ]; omega
  intro fuel
  induction fuel with
  | zero =>
    intro i st hlen _
    exact ⟨[], by simp [brent_kung_inner_calls], hlen, by simp, by simp⟩
  | succ f ih =>
    intro i st hlen hst
    simp only [brent_kung_inner_calls]
    split
    · rename_i hi
      split
      · rename_i hge
        obtain ⟨new, h1, h2, h3, h4⟩ := ih (i + 2 ^ (j + 1)) st hlen
          (fun m hm => hst m (by omega))
        refine ⟨new, h1, h2, ?_, ?_⟩
        · intro c hc
          obtain ⟨s, hs, e⟩ := h3 c hc
          refine ⟨s + 1, ?_, ?_⟩
          · rw [Nat.mul_add, Nat.mul_one]
            have : i + (2 ^ (j + 1) * s + 2 ^ (j + 1)) = i + 2 ^ (j + 1) + 2 ^ (j + 1) * s := by
              omega
            rw [this]
            exact hs
          · rw [e, Nat.mul_add, Nat.mul_one]
            have : i + (2 ^ (j + 1) * s + 2 ^ (j + 1)) = i + 2 ^ (j + 1) + 2 ^ (j + 1) * s := by
              omega
            rw [this]
        · have : new.length = 0 := by
            by_contra hne
            have h5 : 1 ≤ new.length := by omega
            have h6 : 2 ^ (j + 1) ≤ new.length * 2 ^ (j + 1) :=
              Nat.le_mul_of_pos_left _ h5
            omega
          rw [this]
          omega
      · rename_i hlt
        have hx : i + 2 ^ j < st.1.length := by omega
        rw [o_call_eq st (i + 2 ^ j) st.1 i hx hi]
        have hnode := fun m => node_o_at st.1 st.1 (i + 2 ^ j) i m hx hi
        obtain ⟨new, h1, h2, h3, h4⟩ := ih (i + 2 ^ (j + 1))
          (o_at st.1 (i + 2 ^ j) st.1 i, st.2 ++ [⟨i + 2 ^ j, node st.1 (i + 2 ^ j), node st.1 i⟩])
          (by simp only [length_o_at]; exact hlen)
          (by
            intro m hm
            simp only []
            rw [hnode m, if_neg (by omega)]
            exact hst m (by omega))
        refine ⟨⟨i + 2 ^ j, node st.1 (i + 2 ^ j), node st.1 i⟩ :: new, ?_, h2, ?_, ?_⟩
        · rw [h1]
          simp
        · intro c hc
          rcases List.mem_cons.mp hc with e | hc
          · refine ⟨0, by rw [Nat.mul_zero, Nat.add_zero, ← hlen]; exact hx, ?_⟩
            rw [e, Nat.mul_zero, Nat.add_zero, hst _ (by omega), hst _ (le_refl _)]
          · obtain ⟨s, hs, e⟩ := h3 c hc
            refine ⟨s + 1, ?_, ?_⟩
            · rw [Nat.mul_add, Nat.mul_one]
              have : i + (2 ^ (j + 1) * s + 2 ^ (j + 1))
                  = i + 2 ^ (j + 1) + 2 ^ (j + 1) * s := by omega
              rw [this]
              exact hs
            · rw [e, Nat.mul_add, Nat.mul_one]
              have : i + (2 ^ (j + 1) * s + 2 ^ (j + 1))
                  = i + 2 ^ (j + 1) + 2 ^ (j + 1) * s := by omega
              rw [this]
        · simp only [List.length_cons]
          have e1 : (new.length + 1) * 2 ^ (j + 1)
              = new.length * 2 ^ (j + 1) + 2 ^ (j + 1) := by ring
          rw [e1]
          rw [hlen] at hx
          by_cases hz : new.length = 0
          · rw [hz]
            omega
          · have h5 : 1 ≤ new.length := by omega
            have h6 : 2 ^ (j + 1) ≤ new.length * 2 ^ (j + 1) :=
              Nat.le_mul_of_pos_left _ h5
            omega
    · exact ⟨[], by simp, hlen, by simp, by simp⟩

/-- The number of calls of the down-sweep from round `j` on, on `n` nodes, is at most
`n / 2^j - 1`. -/
theorem brent_kung_first_round_calls_count :
    ∀ (rounds j : Nat) (st : List PG × List Call),
      (brent_kung_first_round_calls rounds j st).2.length
          ≤ st.2.length + (st.1.length / 2 ^ j - 1)
        ∧ (brent_kung_first_round_calls rounds j st).1.length = st.1.length := by
  intro rounds
  induction rounds with
  | zero =>
    intro j st
    simp [brent_kung_first_round_calls]
  | succ r ih =>
    intro j st
    have hq : 0 < 2 ^ j := Nat.two_pow_pos j
    simp only [brent_kung_first_round_calls]
    split
    · obtain ⟨new, h1, h2, _, h4⟩ := brent_kung_inner_calls_spec j st.1 st.1.length
        (2 ^ j - 1) st rfl (fun m _ => rfl)
      obtain ⟨i1, i2⟩ := ih (j + 1) (brent_kung_inner_calls j st.1.length (2 ^ j - 1) st)
      rw [h2] at i1 i2
      rw [h1, List.length_append] at i1
      refine ⟨?_, i2⟩
      have e : st.1.length + 2 ^ j - (2 ^ j - 1 + 1) = st.1.length := by omega
      rw [e] at h4
      have h5 : new.length ≤ st.1.length / 2 ^ (j + 1) :=
        (Nat.le_div_iff_mul_le (Nat.two_pow_pos (j + 1))).mpr h4
      have hh : st.1.length / 2 ^ (j + 1) = st.1.length / 2 ^ j / 2 := by
        rw [pow_succ, Nat.div_div_eq_div_mul]
      rw [hh] at h5 i1
      generalize st.1.length / 2 ^ j = q at h5 i1 ⊢
      omega
    · simp

/-! ### The calls of the up-sweep -/

theorem pending_of_all_reduced :
    ∀ pg : List PG, (∀ m, m < pg.length → (node pg m).end_ = 0) → pending pg = 0 := by
  intro pg
  induction pg with
  | nil => intro _; rfl
  | cons x xs ih =>
    intro h
    have h0 := h 0 (by simp)
    simp only [node, List.getD_cons_zero] at h0
    have hrest := ih (fun m hm => by
      have := h (m + 1) (by simpa using hm)
      simpa [node] using this)
    simp [pending, h0, hrest]

/-- In a combination of the up-sweep the node that absorbs starts right above the fully
reduced node it absorbs. -/
theorem up_sweep_adjacent (gs ps : Nat → Bool) (pg : List PG) (top j k : Nat)
    (hok : state_ok gs ps pg) (hlam : laminar pg)
    (htop : top < pg.length) (hjk : j < k) (hkt : k ≤ top)
    (hj0 : (node pg j).end_ = 0)
    (hbetween : ∀ m, j < m → m ≤ top → (node pg m).end_ ≠ 0)
    (hk : (node pg k).end_ = (node pg (j + 1)).end_) :
    adjacent ⟨k, node pg k, node pg j⟩ := by
  have hj1 : (node pg (j + 1)).end_ = j + 1 := by
    have h1 := (hok (j + 1) (by omega)).2.1
    by_contra hne
    have h2 := hlam j (j + 1) (by omega) (by omega) (by omega)
    rw [hj0] at h2
    exact hbetween (j + 1) (by omega) (by omega) (by omega)
  have hY := hok j (by omega)
  have hX := hok k (by omega)
  refine ⟨?_, ?_, ?_⟩
  · simp only []; rw [hj0]; omega
  · simp only []; rw [hk, hj1, hY.1]
  · simp only []; rw [hk, hj1, hX.1]; omega

theorem second_round_calls_spec (gs ps : Nat → Bool) :
    ∀ (fuel i : Nat) (pg : List PG) (tr : List Call), 0 < pg.length → i ≤ pg.length →
      state_ok gs ps pg → laminar pg →
      (∀ m, m < pg.length → pg.length ≤ m + i → (node pg m).end_ = 0) →
      pending pg + (pg.length - i) < fuel →
      ∃ out, second_round_calls fuel i (pg, tr) = some out ∧ out.1.length = pg.length
        ∧ state_ok gs ps out.1 ∧ all_reduced out.1
        ∧ (∃ new, out.2 = tr ++ new ∧ (∀ c ∈ new, adjacent c)
            ∧ new.length = pending pg) := by
  intro fuel
  induction fuel with
  | zero => intro i pg tr _ _ _ _ _ hf; omega
  | succ f ih =>
    intro i pg tr hpos hi hok hlam hzero hf
    simp only [second_round_calls]
    split
    · rename_i e
      have hall : ∀ m, m < pg.length → (node pg m).end_ = 0 :=
        fun m hm => hzero m hm (by omega)
      exact ⟨(pg, tr), rfl, rfl, hok, hall, [], by simp, by simp,
        by simp [pending_of_all_reduced pg hall]⟩
    · rename_i e
      have hiN : i < pg.length := by omega
      have hre := rev_end_eq pg i hiN
      split
      · rename_i hz
        refine ih (i + 1) pg tr hpos (by omega) hok hlam ?_ (by omega)
        intro m hm hge
        by_cases e2 : m = pg.length - 1 - i
        · rw [e2, ← hre]; exact hz
        · exact hzero m hm (by omega)
      · rename_i hz
        obtain ⟨a1, a2, a3, a4⟩ := find_j_spec pg pg.length i (by omega) (by omega)
        generalize find_j pg pg.length i = j at a1 a2 a3 a4 ⊢
        have h0 : rev_end pg (pg.length - 1) = 0 := by
          rw [rev_end_eq pg _ (by omega)]
          have := (hok 0 hpos).2.1
          have e3 : pg.length - 1 - (pg.length - 1) = 0 := by omega
          rw [e3]
          omega
        have hjN : j < pg.length := by
          by_contra hge
          exact a4 (pg.length - 1) (by omega) (by omega) h0
        have hj0 : rev_end pg j = 0 := by
          rcases a3 with h | h
          · omega
          · exact h
        have hij : i < j := by
          rcases Nat.eq_or_lt_of_le a1 with h | h
          · rw [h] at hz; exact absurd hj0 hz
          · exact h
        obtain ⟨b1, b2, b3, b4⟩ := find_k_spec pg j pg.length i (by omega) (by omega)
        generalize find_k pg j pg.length i = k at b1 b2 b3 b4 ⊢
        have hkj : k < j := by
          by_contra hge
          exact b4 (j - 1) (by omega) (by omega) rfl
        have hk : rev_end pg k = rev_end pg (j - 1) := by
          rcases b3 with h | h
          · omega
          · exact h
        rw [if_pos ⟨hjN, by omega⟩]
        have ej1 : pg.length - 1 - (j - 1) = pg.length - 1 - j + 1 := by omega
        rw [rev_end_eq pg j hjN] at hj0
        rw [rev_end_eq pg k (by omega), rev_end_eq pg (j - 1) (by omega), ej1] at hk
        have hbetween : ∀ m, pg.length - 1 - j < m → m ≤ pg.length - 1 - i →
            (node pg m).end_ ≠ 0 := by
          intro m h1 h2
          have := a4 (pg.length - 1 - m) (by omega) (by omega)
          rw [rev_end_eq pg _ (by omega)] at this
          have e3 : pg.length - 1 - (pg.length - 1 - m) = m := by omega
          rw [e3] at this
          exact this
        obtain ⟨s1, s2, s3⟩ := up_sweep_step gs ps pg (pg.length - 1 - i)
          (pg.length - 1 - j) (pg.length - 1 - k) hok hlam (by omega) (by omega) (by omega)
          (fun m h1 h2 => hzero m h2 (by omega)) hj0 hbetween hk
          (fun m h1 h2 => by
            have := b4 (pg.length - 1 - m) (by omega) (by omega)
            rw [rev_end_eq pg _ (by omega), rev_end_eq pg (j - 1) (by omega), ej1] at this
            have e3 : pg.length - 1 - (pg.length - 1 - m) = m := by omega
            rw [e3] at this
            exact this)
        have hadj := up_sweep_adjacent gs ps pg (pg.length - 1 - i)
          (pg.length - 1 - j) (pg.length - 1 - k) hok hlam (by omega) (by omega) (by omega)
          hj0 hbetween hk
        have hpend := pending_o_at pg (pg.length - 1 - k) (pg.length - 1 - j) (by omega)
          (by omega) hj0 (by
            rw [hk]
            have := a4 (j - 1) (by omega) (by omega)
            rw [rev_end_eq pg _ (by omega), ej1] at this
            exact this)
        have hl := length_o_at pg pg (pg.length - 1 - k) (pg.length - 1 - j)
        have hcall := o_call_eq (pg, tr) (pg.length - 1 - k) pg (pg.length - 1 - j)
          (by simp only []; omega) (by omega)
        simp only [] at hcall
        rw [hcall]
        have hfin : ∀ out : List PG × List Call,
            (∃ new, out.2 = (tr ++ [⟨pg.length - 1 - k, node pg (pg.length - 1 - k),
                  node pg (pg.length - 1 - j)⟩]) ++ new ∧ (∀ c ∈ new, adjacent c)
                ∧ new.length = pending (o_at pg (pg.length - 1 - k) pg (pg.length - 1 - j))) →
            ∃ new, out.2 = tr ++ new ∧ (∀ c ∈ new, adjacent c)
              ∧ new.length = pending pg := by
          intro out ⟨new, n1, n2, n3⟩
          refine ⟨⟨pg.length - 1 - k, node pg (pg.length - 1 - k),
            node pg (pg.length - 1 - j)⟩ :: new, ?_, ?_, ?_⟩
          · rw [n1]; simp
          · intro c hc
            rcases List.mem_cons.mp hc with e | hc
            · rw [e]; exact hadj
            · exact n2 c hc
          · simp only [List.length_cons]
            omega
        split
        · rename_i hne
          obtain ⟨out, o1, o2, o3, o4, o5⟩ :=
            ih i (o_at pg (pg.length - 1 - k) pg (pg.length - 1 - j))
              (tr ++ [⟨pg.length - 1 - k, node pg (pg.length - 1 - k),
                node pg (pg.length - 1 - j)⟩])
              (by rw [hl]; exact hpos) (by rw [hl]; exact hi) s1 s2
              (by
                intro m hm hge
                rw [hl] at hm hge
                rw [s3 m hm]
                split
                · rfl
                · exact hzero m hm hge)
              (by rw [hl]; omega)
          exact ⟨out, o1, o2.trans hl, o3, o4, hfin out o5⟩
        · rename_i heq
          obtain ⟨out, o1, o2, o3, o4, o5⟩ :=
            ih (i + 1) (o_at pg (pg.length - 1 - k) pg (pg.length - 1 - j))
              (tr ++ [⟨pg.length - 1 - k, node pg (pg.length - 1 - k),
                node pg (pg.length - 1 - j)⟩])
              (by rw [hl]; exact hpos) (by rw [hl]; omega) s1 s2
              (by
                intro m hm hge
                rw [hl] at hm hge
                rw [s3 m hm]
                split
                · rfl
                · exact hzero m hm (by omega))
              (by rw [hl]; omega)
          exact ⟨out, o1, o2.trans hl, o3, o4, hfin out o5⟩

/-- The up-sweep on a state with nested ranges: it ends within its budget, every node
is fully reduced, every call combines adjacent ranges and there is one call for every
node that was not fully reduced. -/
theorem up_sweep_calls_total (gs ps : Nat → Bool) (st : List PG × List Call)
    (hpos : 0 < st.1.length) (hok : state_ok gs ps st.1) (hlam : laminar st.1) :
    ∃ out, second_round_calls (2 * st.1.length) 0 st = some out
      ∧ out.1.length = st.1.length ∧ state_ok gs ps out.1 ∧ all_reduced out.1
      ∧ (∃ new, out.2 = st.2 ++ new ∧ (∀ c ∈ new, adjacent c)
          ∧ new.length = pending st.1) := by
  have := pending_lt_length gs ps st.1 hpos hok
  exact second_round_calls_spec gs ps (2 * st.1.length) 0 st.1 st.2 hpos (by omega) hok hlam
    (fun m h1 h2 => by omega) (by omega)

/-! ### The rounds of the Brent-Kung down-sweep -/

/-- The states of the down-sweep: while `2^r` is below the number of nodes, round `r` is
executed (the test on the last node does not end the loop), the invariant of the
ranges holds and every call combines adjacent ranges. -/
theorem brent_kung_first_round_calls_inv (gs ps : Nat → Bool) (st0 : List PG × List Call)
    (hpos : 0 < st0.1.length) (hok : state_ok gs ps st0.1)
    (hend : ∀ m, m < st0.1.length → (node st0.1 m).end_ = m) :
    ∀ r, (∀ i, i < r → 2 ^ i < st0.1.length) →
      (brent_kung_first_round_calls r 0 st0).1.length = st0.1.length
        ∧ state_ok gs ps (brent_kung_first_round_calls r 0 st0).1
        ∧ brent_kung_inv r (brent_kung_first_round_calls r 0 st0).1
        ∧ (∀ r2, r2 < r → last_end (brent_kung_first_round_calls r2 0 st0).1 ≠ 0)
        ∧ (∃ new, (brent_kung_first_round_calls r 0 st0).2 = st0.2 ++ new
            ∧ ∀ c ∈ new, adjacent c) := by
  intro r
  induction r with
  | zero =>
    intro _
    exact ⟨rfl, hok, brent_kung_inv_zero st0.1 hend, fun r2 h => by omega, [], by
      simp [brent_kung_first_round_calls], by simp⟩
  | succ r ih =>
    intro hr
    obtain ⟨hl, hok2, hinv2, hruns, new, hnew, hadj⟩ := ih (fun i hi => hr i (by omega))
    have h2r := hr r (by omega)
    have hq : 0 < 2 ^ r := Nat.two_pow_pos r
    have hp : 2 ^ (r + 1) = 2 * 2 ^ r := by rw [pow_succ]; omega
    have hlast : last_end (brent_kung_first_round_calls r 0 st0).1 ≠ 0 := by
      rw [last_end_eq _ (by rw [hl]; exact hpos), hl]
      obtain ⟨t, ht, hd, hmax⟩ := exists_level (st0.1.length - 1) r
      have := hinv2 (st0.1.length - 1) (by rw [hl]; omega) t ht hd hmax
      have : 2 ^ t ≤ 2 ^ r := Nat.pow_le_pow_right (by norm_num) ht
      omega
    have hstep : brent_kung_first_round_calls (r + 1) 0 st0
        = brent_kung_inner_calls r st0.1.length (2 ^ r - 1)
            (brent_kung_first_round_calls r 0 st0) := by
      rw [brent_kung_first_round_calls_succ, if_pos hlast, Nat.zero_add, hl]
    have hin := brent_kung_inner_spec gs ps r st0.1.length (2 ^ r - 1)
      (brent_kung_first_round_calls r 0 st0).1 (by rw [hl]; omega) ⟨0, by omega⟩ hok2
      (brent_kung_mid_start r _ hinv2)
    rw [← brent_kung_inner_calls_fst, ← hstep] at hin
    obtain ⟨a1, a2, a3⟩ := hin
    obtain ⟨new2, t1, _, t3, _⟩ := brent_kung_inner_calls_spec r
      (brent_kung_first_round_calls r 0 st0).1 st0.1.length (2 ^ r - 1)
      (brent_kung_first_round_calls r 0 st0) rfl (fun m _ => rfl)
    rw [← hstep] at t1
    refine ⟨a1.trans hl, a2, a3, ?_, new ++ new2, ?_, ?_⟩
    · intro r2 h2
      by_cases e : r2 = r
      · rw [e]; exact hlast
      · exact hruns r2 (by omega)
    · rw [t1, hnew, List.append_assoc]
    · intro c hc
      rcases List.mem_append.mp hc with h | h
      · exact hadj c h
      · obtain ⟨s, hs, e⟩ := t3 c h
        rw [hl] at hs
        have hY := hok2 (2 ^ r - 1 + 2 ^ (r + 1) * s) (by rw [hl]; omega)
        have hX := hok2 (2 ^ r - 1 + 2 ^ (r + 1) * s + 2 ^ r) (by rw [hl]; omega)
        have hXe := hinv2 (2 ^ r - 1 + 2 ^ (r + 1) * s + 2 ^ r) (by rw [hl]; omega) r
          (le_refl _) ⟨2 * s + 2, by rw [hp]; ring_nf; omega⟩ (Or.inl rfl)
        rw [e]
        refine ⟨?_, ?_, ?_⟩
        · simp only []; rw [hY.1]; exact hY.2.1
        · simp only []; rw [hY.1]; omega
        · simp only []; rw [hX.1]; omega

/-- Down-sweep and up-sweep, started on single-bit nodes: all rounds of the down-sweep
are executed, the up-sweep ends within its budget, every node is fully reduced, every
call combines adjacent ranges, and there are at most `n - 1` calls in either sweep. -/
theorem brent_kung_calls_total (gs ps : Nat → Bool) (st0 : List PG × List Call)
    (hpos : 0 < st0.1.length) (hok : state_ok gs ps st0.1)
    (hend : ∀ m, m < st0.1.length → (node st0.1 m).end_ = m) :
    ∃ out, second_round_calls
        (2 * (brent_kung_first_round_calls (ceil_log2 st0.1.length) 0 st0).1.length) 0
        (brent_kung_first_round_calls (ceil_log2 st0.1.length) 0 st0) = some out
      ∧ out.1.length = st0.1.length ∧ state_ok gs ps out.1 ∧ all_reduced out.1
      ∧ (∃ down up, (brent_kung_first_round_calls (ceil_log2 st0.1.length) 0 st0).2
            = st0.2 ++ down
          ∧ out.2 = st0.2 ++ down ++ up
          ∧ (∀ c ∈ down, adjacent c) ∧ (∀ c ∈ up, adjacent c)
          ∧ down.length ≤ st0.1.length - 1 ∧ up.length ≤ st0.1.length - 1) := by
  have hlow : ∀ i, i < ceil_log2 st0.1.length → 2 ^ i < st0.1.length :=
    ceil_log2_from_least st0.1.length st0.1.length 0 (by intro i hi; omega)
  obtain ⟨hl, hok2, hinv2, _, down, hdown, hadj⟩ :=
    brent_kung_first_round_calls_inv gs ps st0 hpos hok hend (ceil_log2 st0.1.length) hlow
  obtain ⟨out, o1, o2, o3, o4, up, hup, hadj2, hcount⟩ := up_sweep_calls_total gs ps
    (brent_kung_first_round_calls (ceil_log2 st0.1.length) 0 st0) (by rw [hl]; exact hpos)
    hok2 (laminar_of_brent_kung_inv _ _ hinv2)
  have hpend := pending_lt_length gs ps _ (by rw [hl]; exact hpos) hok2
  have hc := (brent_kung_first_round_calls_count (ceil_log2 st0.1.length) 0 st0).1
  rw [hdown, List.length_append, pow_zero, Nat.div_one] at hc
  rw [hl] at hpend
  refine ⟨out, o1, o2.trans hl, o3, o4, down, up, hdown, ?_, hadj, hadj2, by omega,
    by omega⟩
  rw [hup, hdown]

/-! ### The calls of a Han-Carlson round -/

theorem han_carlson_inner_calls_spec (j : Nat) (hj : 2 ≤ j) (bak : List PG) :
    ∀ (fuel i : Nat) (st : List PG × List Call), st.1.length = bak.length → i % 4 = 3 →
      (∀ m, i + 2 ^ j ≤ m → node st.1 m = node bak m) →
      ∃ new, (han_carlson_inner_calls j bak fuel i st).2 = st.2 ++ new
        ∧ (∀ c ∈ new, c.x % 4 = 3 ∧ 2 ^ j + 3 ≤ c.x ∧ c.x < bak.length
            ∧ c.X = node bak c.x ∧ c.Y = node bak (c.x - 2 ^ j))
        ∧ (∀ m, m % 4 ≠ 3 → node (han_carlson_inner_calls j bak fuel i st).1 m
            = node st.1 m) := by
  obtain ⟨u, hu⟩ : 2 ^ 2 ∣ 2 ^ j := pow_dvd_pow 2 hj
  have hu : 2 ^ j = 4 * u := by omega
  have h4 : (2 : Nat) ^ 2 = 4 := by norm_num
  intro fuel
  induction fuel with
  | zero =>
    intro i st _ _ _
    exact ⟨[], by simp [han_carlson_inner_calls], by simp, fun m _ => rfl⟩
  | succ f ih =>
    intro i st hlen hi hst
    simp only [han_carlson_inner_calls]
    split
    · rename_i hin
      split
      · rename_i hge
        exact ih (i + 2 ^ 2) st hlen (by omega) (fun m hm => hst m (by omega))
      · rename_i hlt
        have hx : i + 2 ^ j < st.1.length := by omega
        have hy : i < bak.length := by omega
        rw [o_call_eq st (i + 2 ^ j) bak i hx hy]
        have hnode := fun m => node_o_at st.1 bak (i + 2 ^ j) i m hx hy
        obtain ⟨new, h1, h2, h3⟩ := ih (i + 2 ^ 2)
          (o_at st.1 (i + 2 ^ j) bak i, st.2 ++ [⟨i + 2 ^ j, node st.1 (i + 2 ^ j), node bak i⟩])
          (by simp only [length_o_at]; exact hlen) (by omega)
          (by
            intro m hm
            simp only []
            rw [hnode m, if_neg (by omega)]
            exact hst m (by omega))
        refine ⟨⟨i + 2 ^ j, node st.1 (i + 2 ^ j), node bak i⟩ :: new, ?_, ?_, ?_⟩
        · rw [h1]; simp
        · intro c hc
          rcases List.mem_cons.mp hc with e | hc
          · rw [e]
            refine ⟨by simp only []; omega, by simp only []; omega,
              by simp only []; omega, hst _ (le_refl _), ?_⟩
            simp only []
            congr 1
            omega
          · exact h2 c hc
        · intro m hm
          rw [h3 m hm]
          simp only []
          rw [hnode m, if_neg (by omega)]
    · exact ⟨[], by simp, by simp, fun m _ => rfl⟩

/-- Range invariant of the Han-Carlson loop before round `r`: the blocks of the
Brent-Kung rounds up to round 2, the doubling on every fourth node from round 2 on. -/
theorem han_carlson_rounds_calls_inv (gs ps : Nat → Bool) (st0 : List PG × List Call)
    (hn : 5 ≤ st0.1.length) (hok : state_ok gs ps st0.1)
    (hend : ∀ m, m < st0.1.length → (node st0.1 m).end_ = m) :
    ∀ r, (∀ i, i < r → 2 ^ i < st0.1.length) →
      (han_carlson_rounds_calls r 0 st0).1.length = st0.1.length
        ∧ state_ok gs ps (han_carlson_rounds_calls r 0 st0).1
        ∧ (r ≤ 2 → brent_kung_inv r (han_carlson_rounds_calls r 0 st0).1)
        ∧ (2 ≤ r → han_carlson_inv r (han_carlson_rounds_calls r 0 st0).1)
        ∧ (∃ new, (han_carlson_rounds_calls r 0 st0).2 = st0.2 ++ new
            ∧ ∀ c ∈ new, adjacent c)
        ∧ (∀ r2, r = r2 + 1 → 2 ≤ r2 →
            ∃ new, (han_carlson_rounds_calls r 0 st0).2
                = (han_carlson_rounds_calls r2 0 st0).2 ++ new
              ∧ (∀ c ∈ new, c.x % 4 = 3
                  ∧ c.Y = node (han_carlson_rounds_calls r2 0 st0).1 (c.x - 2 ^ r2))
              ∧ (∀ m, m % 4 ≠ 3 → node (han_carlson_rounds_calls r 0 st0).1 m
                  = node (han_carlson_rounds_calls r2 0 st0).1 m)) := by
  intro r
  induction r with
  | zero =>
    intro _
    exact ⟨rfl, hok, fun _ => brent_kung_inv_zero st0.1 hend, fun h => by omega, ⟨[], by
      simp [han_carlson_rounds_calls], by simp⟩, fun r2 h => by omega⟩
  | succ r ih =>
    intro hr
    obtain ⟨hl, hok2, hbk, hhc, ⟨new, hnew, hadj⟩, _⟩ := ih (fun i hi => hr i (by omega))
    have h2r := hr r (by omega)
    have hq : 0 < 2 ^ r := Nat.two_pow_pos r
    have hp : 2 ^ (r + 1) = 2 * 2 ^ r := by rw [pow_succ]; omega
    rcases Nat.lt_or_ge r 2 with hlt | hge
    · -- a Brent-Kung round
      have hinv2 := hbk (by omega)
      have hq2 : 2 ^ r ≤ 2 := by
        have : 2 ^ r ≤ 2 ^ 1 := Nat.pow_le_pow_right (by norm_num) (by omega)
        simpa using this
      have hlast : last_end (han_carlson_rounds_calls r 0 st0).1 ≠ 0 := by
        rw [last_end_eq _ (by rw [hl]; omega), hl]
        obtain ⟨t, ht, hd, hmax⟩ := exists_level (st0.1.length - 1) r
        have := hinv2 (st0.1.length - 1) (by rw [hl]; omega) t ht hd hmax
        have : 2 ^ t ≤ 2 ^ r := Nat.pow_le_pow_right (by norm_num) ht
        omega
      have hstep : han_carlson_rounds_calls (r + 1) 0 st0
          = brent_kung_inner_calls r st0.1.length (2 ^ r - 1)
              (han_carlson_rounds_calls r 0 st0) := by
        rw [han_carlson_rounds_calls_succ, if_pos hlast, Nat.zero_add, if_pos hlt, hl]
      have hin := brent_kung_inner_spec gs ps r st0.1.length (2 ^ r - 1)
        (han_carlson_rounds_calls r 0 st0).1 (by rw [hl]; omega) ⟨0, by omega⟩ hok2
        (brent_kung_mid_start r _ hinv2)
      rw [← brent_kung_inner_calls_fst, ← hstep] at hin
      obtain ⟨a1, a2, a3⟩ := hin
      obtain ⟨new2, t1, _, t3, _⟩ := brent_kung_inner_calls_spec r
        (han_carlson_rounds_calls r 0 st0).1 st0.1.length (2 ^ r - 1)
        (han_carlson_rounds_calls r 0 st0) rfl (fun m _ => rfl)
      rw [← hstep] at t1
      refine ⟨a1.trans hl, a2, fun _ => a3, ?_, ⟨new ++ new2, ?_, ?_⟩, ?_⟩
      · intro h2
        have e : r + 1 = 2 := by omega
        rw [e] at a3 ⊢
        exact han_carlson_inv_two _ a3
      · rw [t1, hnew, List.append_assoc]
      · intro c hc
        rcases List.mem_append.mp hc with h | h
        · exact hadj c h
        · obtain ⟨s, hs, e⟩ := t3 c h
          rw [hl] at hs
          have hY := hok2 (2 ^ r - 1 + 2 ^ (r + 1) * s) (by rw [hl]; omega)
          have hX := hok2 (2 ^ r - 1 + 2 ^ (r + 1) * s + 2 ^ r) (by rw [hl]; omega)
          have hXe := hinv2 (2 ^ r - 1 + 2 ^ (r + 1) * s + 2 ^ r) (by rw [hl]; omega) r
            (le_refl _) ⟨2 * s + 2, by rw [hp]; ring_nf; omega⟩ (Or.inl rfl)
          rw [e]
          refine ⟨?_, ?_, ?_⟩
          · simp only []; rw [hY.1]; exact hY.2.1
          · simp only []; rw [hY.1]; omega
          · simp only []; rw [hX.1]; omega
      · intro r2 e1 e2
        omega
    · -- a Kogge-Stone style round
      have hinv2 := hhc hge
      obtain ⟨u, hu⟩ : 2 ^ 2 ∣ 2 ^ r := pow_dvd_pow 2 hge
      have hu : 2 ^ r = 4 * u := by omega
      have hlast : last_end (han_carlson_rounds_calls r 0 st0).1 ≠ 0 := by
        rw [last_end_eq _ (by rw [hl]; omega), hl]
        obtain ⟨l1, l2, l3⟩ := hinv2 (st0.1.length - 1) (by rw [hl]; omega)
        have hcases : (st0.1.length - 1) % 4 = 3 ∨ (st0.1.length - 1) % 4 = 1
            ∨ (st0.1.length - 1) % 2 = 0 := by omega
        rcases hcases with c | c | c
        · rw [l1 c]; omega
        · have := l2 c; omega
        · have := l3 c; omega
      have hstep : han_carlson_rounds_calls (r + 1) 0 st0
          = han_carlson_inner_calls r (han_carlson_rounds_calls r 0 st0).1 st0.1.length
              (2 ^ 2 - 1) (han_carlson_rounds_calls r 0 st0) := by
        rw [han_carlson_rounds_calls_succ, if_pos hlast, Nat.zero_add,
          if_neg (by omega), hl]
      have hin := han_carlson_inner_spec gs ps r hge (han_carlson_rounds_calls r 0 st0).1
        hok2 hinv2 st0.1.length (2 ^ 2 - 1) (han_carlson_rounds_calls r 0 st0).1 rfl
        (by rw [hl]; omega) (by norm_num) hok2
        (by
          intro m hm
          obtain ⟨m1, m2, m3⟩ := hinv2 m hm
          refine ⟨fun c => ?_, m2, m3⟩
          rw [m1 c]
          have h4 : (2 : Nat) ^ 2 - 1 = 3 := by norm_num
          rw [h4]
          split
          · omega
          · rfl)
      rw [← han_carlson_inner_calls_fst, ← hstep] at hin
      obtain ⟨a1, a2, a3⟩ := hin
      obtain ⟨new2, t1, t2, t3⟩ := han_carlson_inner_calls_spec r hge
        (han_carlson_rounds_calls r 0 st0).1 st0.1.length (2 ^ 2 - 1)
        (han_carlson_rounds_calls r 0 st0) rfl (by norm_num) (fun m _ => rfl)
      rw [← hstep] at t1 t3
      refine ⟨a1.trans hl, a2, fun h => by omega, fun _ => a3, ⟨new ++ new2, ?_, ?_⟩, ?_⟩
      · rw [t1, hnew, List.append_assoc]
      · intro c hc
        rcases List.mem_append.mp hc with h | h
        · exact hadj c h
        · obtain ⟨c1, c2, c3, c4, c5⟩ := t2 c h
          have hY := hok2 (c.x - 2 ^ r) (by omega)
          have hX := hok2 c.x c3
          have hXe := (hinv2 c.x c3).1 c1
          refine ⟨?_, ?_, ?_⟩
          · rw [c5, hY.1]; exact hY.2.1
          · rw [c5, c4, hY.1, hXe]; omega
          · rw [c4, hX.1]; exact hX.2.1
      · intro r2 e1 e2
        have e3 : r2 = r := by omega
        subst e3
        exact ⟨new2, t1, fun c hc => ⟨(t2 c hc).1, (t2 c hc).2.2.2.2⟩, t3⟩

/-- Han-Carlson rounds and up-sweep, started on single-bit nodes, on more than four
nodes: every node is fully reduced in the end and every call combines adjacent
ranges. -/
theorem han_carlson_calls_total (gs ps : Nat → Bool) (st0 : List PG × List Call)
    (hn : 5 ≤ st0.1.length) (hok : state_ok gs ps st0.1)
    (hend : ∀ m, m < st0.1.length → (node st0.1 m).end_ = m) :
    han_carlson_final (han_carlson_rounds_calls (ceil_log2 st0.1.length) 0 st0).1
      ∧ (han_carlson_rounds_calls (ceil_log2 st0.1.length) 0 st0).1.length = st0.1.length
      ∧ ∃ out, second_round_calls
        (2 * (han_carlson_rounds_calls (ceil_log2 st0.1.length) 0 st0).1.length) 0
        (han_carlson_rounds_calls (ceil_log2 st0.1.length) 0 st0) = some out
      ∧ out.1.length = st0.1.length ∧ state_ok gs ps out.1 ∧ all_reduced out.1
      ∧ (∃ new, out.2 = st0.2 ++ new ∧ ∀ c ∈ new, adjacent c) := by
  have hlow : ∀ i, i < ceil_log2 st0.1.length → 2 ^ i < st0.1.length :=
    ceil_log2_from_least st0.1.length st0.1.length 0 (by intro i hi; omega)
  have hL : 2 ≤ ceil_log2 st0.1.length := by
    by_contra h
    have h1 := le_two_pow_ceil_log2 st0.1.length
    have h2 : 2 ^ ceil_log2 st0.1.length ≤ 2 ^ 1 :=
      Nat.pow_le_pow_right (by norm_num) (by omega)
    omega
  obtain ⟨hl, hok2, _, hhc, ⟨new, hnew, hadj⟩, _⟩ :=
    han_carlson_rounds_calls_inv gs ps st0 hn hok hend (ceil_log2 st0.1.length) hlow
  have hfinal : han_carlson_final
      (han_carlson_rounds_calls (ceil_log2 st0.1.length) 0 st0).1 := by
    intro m hm
    obtain ⟨m1, m2, m3⟩ := hhc hL m hm
    refine ⟨fun c => ?_, m2, m3⟩
    rw [m1 c]
    have := le_two_pow_ceil_log2 st0.1.length
    rw [hl] at hm
    omega
  obtain ⟨out, o1, o2, o3, o4, up, hup, hadj2, _⟩ := up_sweep_calls_total gs ps
    (han_carlson_rounds_calls (ceil_log2 st0.1.length) 0 st0) (by rw [hl]; omega)
    hok2 (laminar_of_han_carlson_final _ hfinal)
  refine ⟨hfinal, hl, out, o1, o2.trans hl, o3, o4, new ++ up, ?_, ?_⟩
  · rw [hup, hnew, List.append_assoc]
  · intro c hc
    rcases List.mem_append.mp hc with h | h
    · exact hadj c h
    · exact hadj2 c h

/-! ### The states in which the loops are reached -/

theorem folded_start_ok (w : Nat) (gen pro : List Signal) (c : Signal)
    (hlen : pro.length = gen.length) (hpos : 0 < gen.length) :
    (o_call (pg_build w 0 gen pro, []) 0 [PG.new c (get_constant false) w 0] 0).1.length
        = gen.length
      ∧ state_ok (folded_g (bit_at gen) (bit_at pro) c) (folded_p (bit_at pro))
          (o_call (pg_build w 0 gen pro, []) 0 [PG.new c (get_constant false) w 0] 0).1
      ∧ (∀ m, m < (o_call (pg_build w 0 gen pro, []) 0
            [PG.new c (get_constant false) w 0] 0).1.length →
          (node (o_call (pg_build w 0 gen pro, []) 0
            [PG.new c (get_constant false) w 0] 0).1 m).end_ = m)
      ∧ (o_call (pg_build w 0 gen pro, []) 0 [PG.new c (get_constant false) w 0] 0).2
          = [⟨0, ⟨bit_at gen 0, bit_at pro 0, 0, 0⟩, PG.new c (get_constant false) w 0⟩] := by
  have hl : (pg_build w 0 gen pro).length = gen.length := by
    rw [length_pg_build]; omega
  have e := o_call_eq (pg_build w 0 gen pro, []) 0 [PG.new c (get_constant false) w 0] 0
    (by simp only []; omega) (by simp)
  simp only [List.nil_append] at e
  rw [e]
  refine ⟨by simp only [length_o_at]; exact hl, state_ok_fold w gen pro c, ?_, ?_⟩
  · intro m hm
    simp only [length_o_at] at hm
    exact end_fold w gen pro c m hm
  · simp only []
    rw [node_pg_build w gen pro 0 0 (by omega) (by omega)]
    simp [node]

theorem plain_start_ok (w : Nat) (gen pro : List Signal)
    (hlen : pro.length = gen.length) :
    (pg_build w 0 gen pro).length = gen.length
      ∧ state_ok (bit_at gen) (bit_at pro) (pg_build w 0 gen pro)
      ∧ (∀ m, m < (pg_build w 0 gen pro).length → (node (pg_build w 0 gen pro) m).end_ = m) := by
  have hl : (pg_build w 0 gen pro).length = gen.length := by
    rw [length_pg_build]; omega
  refine ⟨hl, state_ok_pg_build w gen pro, ?_⟩
  intro m hm
  rw [node_pg_build w gen pro 0 m (by omega) (by omega)]
  simp

/-! ### The nodes at the carry assembly and the calls made until then -/

/-- The nodes of `kogge_stone_adder_inplace` and of `kogge_stone_subtractor_inplace` at
the carry assembly: all fully reduced, after the fold of the input carry and calls that
combine adjacent ranges. -/
theorem kogge_stone_nodes_spec (a b : List Signal) (c : Signal)
    (hn : 1 ≤ a.length) (hlen : b.length = a.length) :
    (∃ st gs ps X rest, kogge_stone_adder_nodes a b c = some st ∧ st.1.length = a.length
        ∧ state_ok gs ps st.1 ∧ all_reduced st.1
        ∧ st.2 = ⟨0, X, PG.new c (get_constant false) a.length 0⟩ :: rest
        ∧ X.begin_ = 0 ∧ ∀ k ∈ rest, adjacent k)
      ∧ (∃ st gs ps X rest, kogge_stone_subtractor_nodes a b c = some st
        ∧ st.1.length = a.length ∧ state_ok gs ps st.1 ∧ all_reduced st.1
        ∧ st.2 = ⟨0, X, PG.new c (get_constant false) a.length 0⟩ :: rest
        ∧ X.begin_ = 0 ∧ ∀ k ∈ rest, adjacent k) := by
  have hguard : ¬ (a.length = 0 ∨ b.length < a.length) := by omega
  have hmain : ∀ gen pro : List Signal, pro.length = gen.length → gen.length = a.length →
      ∃ gs ps X rest,
        (kogge_stone_rounds_calls
          (ceil_log2 (o_call (pg_build a.length 0 gen pro, []) 0
            [PG.new c (get_constant false) a.length 0] 0).1.length) 0
          (o_call (pg_build a.length 0 gen pro, []) 0
            [PG.new c (get_constant false) a.length 0] 0)).1.length = a.length
        ∧ state_ok gs ps (kogge_stone_rounds_calls
          (ceil_log2 (o_call (pg_build a.length 0 gen pro, []) 0
            [PG.new c (get_constant false) a.length 0] 0).1.length) 0
          (o_call (pg_build a.length 0 gen pro, []) 0
            [PG.new c (get_constant false) a.length 0] 0)).1
        ∧ all_reduced (kogge_stone_rounds_calls
          (ceil_log2 (o_call (pg_build a.length 0 gen pro, []) 0
            [PG.new c (get_constant false) a.length 0] 0).1.length) 0
          (o_call (pg_build a.length 0 gen pro, []) 0
            [PG.new c (get_constant false) a.length 0] 0)).1
        ∧ (kogge_stone_rounds_calls
          (ceil_log2 (o_call (pg_build a.length 0 gen pro, []) 0
            [PG.new c (get_constant false) a.length 0] 0).1.length) 0
          (o_call (pg_build a.length 0 gen pro, []) 0
            [PG.new c (get_constant false) a.length 0] 0)).2
          = ⟨0, X, PG.new c (get_constant false) a.length 0⟩ :: rest
        ∧ X.begin_ = 0 ∧ ∀ k ∈ rest, adjacent k := by
    intro gen pro hpl hgl
    obtain ⟨s1, s2, s3, s4⟩ := folded_start_ok a.length gen pro c hpl (by omega)
    generalize o_call (pg_build a.length 0 gen pro, []) 0
      [PG.new c (get_constant false) a.length 0] 0 = st0 at s1 s2 s3 s4 ⊢
    have hinv0 : kogge_stone_inv 0 st0.1 := by
      intro m hm
      rw [s3 m hm]
      simp
    have hlow : ∀ i, i < ceil_log2 st0.1.length → 2 ^ i < st0.1.length :=
      ceil_log2_from_least st0.1.length st0.1.length 0 (by intro i hi; omega)
    obtain ⟨_, hl, hred⟩ := kogge_stone_rounds_calls_rounds _ _ st0 (by omega) s2 hinv0
    obtain ⟨_, hok, _, _⟩ := kogge_stone_rounds_calls_inv _ _ st0 (by omega) s2 hinv0
      (ceil_log2 st0.1.length) hlow
    -- the calls of the rounds, round by round
    have htr : ∀ r, r ≤ ceil_log2 st0.1.length →
        ∃ rest, (kogge_stone_rounds_calls r 0 st0).2 = st0.2 ++ rest
          ∧ ∀ k ∈ rest, adjacent k := by
      intro r
      induction r with
      | zero => intro _; exact ⟨[], by simp [kogge_stone_rounds_calls], by simp⟩
      | succ r ih =>
        intro hr
        obtain ⟨rest, h1, h2⟩ := ih (by omega)
        obtain ⟨hlr, hokr, hinvr, _⟩ := kogge_stone_rounds_calls_inv _ _ st0 (by omega) s2
          hinv0 r (fun i hi => hlow i (by omega))
        obtain ⟨_, _, _, _, t5⟩ :=
          ((kogge_stone_rounds_calls_rounds _ _ st0 (by omega) s2 hinv0).1 r (by omega)).2
        refine ⟨rest ++ (List.range ((kogge_stone_rounds_calls r 0 st0).1.length - 2 ^ r)).map
          (fun i => ⟨i + 2 ^ r, node (kogge_stone_rounds_calls r 0 st0).1 (i + 2 ^ r),
            node (kogge_stone_rounds_calls r 0 st0).1 i⟩), ?_, ?_⟩
        · rw [t5, h1, List.append_assoc]
        · intro k hk
          rcases List.mem_append.mp hk with h | h
          · exact h2 k h
          · obtain ⟨i, hi, e⟩ := List.mem_map.mp h
            rw [List.mem_range] at hi
            have hi2 : i + 2 ^ r < (kogge_stone_rounds_calls r 0 st0).1.length :=
              Nat.add_lt_of_lt_sub hi
            have hY := hokr i (Nat.lt_of_le_of_lt (Nat.le_add_right _ _) hi2)
            have hX := hokr (i + 2 ^ r) hi2
            have hXe := hinvr (i + 2 ^ r) hi2
            rw [← e]
            refine ⟨?_, ?_, ?_⟩
            · simp only []; rw [hY.1]; exact hY.2.1
            · simp only []; rw [hY.1, hXe]; omega
            · simp only []; rw [hX.1]; exact hX.2.1
    obtain ⟨rest, h1, h2⟩ := htr (ceil_log2 st0.1.length) (le_refl _)
    refine ⟨_, _, ⟨bit_at gen 0, bit_at pro 0, 0, 0⟩, rest, hl.trans (s1.trans hgl), hok,
      hred, ?_, rfl, h2⟩
    rw [h1, s4]
    rfl
  constructor
  · obtain ⟨gs, ps, X, rest, h⟩ := hmain (List.zipWith (fun f g => create_and f g) a b)
      (List.zipWith (fun f g => create_xor f g) a b) (by simp) (by simp [hlen])
    refine ⟨_, gs, ps, X, rest, ?_, h⟩
    simp only [kogge_stone_adder_nodes, kogge_stone_adder_start, if_neg hguard]
  · obtain ⟨gs, ps, X, rest, h⟩ := hmain
      (List.zipWith (fun f g => create_and (create_not f) g) a b)
      (List.zipWith (fun f g => create_or (create_not f) g) a b) (by simp) (by simp [hlen])
    refine ⟨_, gs, ps, X, rest, ?_, h⟩
    simp only [kogge_stone_subtractor_nodes, kogge_stone_subtractor_start, if_neg hguard]

/-- The nodes of `brent_kung_adder_inplace` at the carry assembly: all fully reduced,
after the fold of the input carry and at most `n - 1` calls in either sweep, each on
adjacent ranges. -/
theorem brent_kung_adder_nodes_spec (a b : List Signal) (c : Signal)
    (hn : 1 ≤ a.length) (hlen : b.length = a.length) :
    ∃ st gs ps X down up, brent_kung_adder_nodes a b c = some st ∧ st.1.length = a.length
      ∧ state_ok gs ps st.1 ∧ all_reduced st.1
      ∧ st.2 = ⟨0, X, PG.new c (get_constant false) a.length 0⟩ :: (down ++ up)
      ∧ X.begin_ = 0 ∧ (∀ k ∈ down ++ up, adjacent k)
      ∧ down.length ≤ a.length - 1 ∧ up.length ≤ a.length - 1 := by
  have hguard : ¬ (a.length = 0 ∨ b.length < a.length) := by omega
  obtain ⟨s1, s2, s3, s4⟩ := folded_start_ok a.length
    (List.zipWith (fun f g => create_and f g) a b)
    (List.zipWith (fun f g => create_xor f g) a b) c (by simp) (by simp [hlen]; omega)
  have hgl : (List.zipWith (fun f g => create_and f g) a b).length = a.length := by
    simp [hlen]
  rw [hgl] at s1
  have s5 : ∃ X : PG, X.begin_ = 0
      ∧ (o_call (pg_build a.length 0 (List.zipWith (fun f g => create_and f g) a b)
          (List.zipWith (fun f g => create_xor f g) a b), []) 0
          [PG.new c (get_constant false) a.length 0] 0).2
        = [⟨0, X, PG.new c (get_constant false) a.length 0⟩] := ⟨_, rfl, s4⟩
  simp only [brent_kung_adder_nodes, brent_kung_adder_start, if_neg hguard]
  generalize o_call (pg_build a.length 0 (List.zipWith (fun f g => create_and f g) a b)
      (List.zipWith (fun f g => create_xor f g) a b), []) 0
      [PG.new c (get_constant false) a.length 0] 0 = st0 at s1 s2 s3 s5 ⊢
  obtain ⟨X, hX, s4⟩ := s5
  obtain ⟨out, o1, o2, o3, o4, down, up, _, hout, hd, hu, cd, cu⟩ :=
    brent_kung_calls_total _ _ st0 (by omega) s2 s3
  rw [s1] at o2 cd cu
  refine ⟨out, _, _, X, down, up, o1, o2, o3, o4, ?_, hX, ?_, cd, cu⟩
  · rw [hout, s4]
    rfl
  · intro k hk
    rcases List.mem_append.mp hk with h | h
    · exact hd k h
    · exact hu k h

/-- The nodes of `brent_kung_subtractor_inplace` at the carry assembly: all fully
reduced, after calls on adjacent ranges only. -/
theorem brent_kung_subtractor_nodes_spec (a b : List Signal)
    (hn : 1 ≤ a.length) (hlen : b.length = a.length) :
    ∃ st gs ps, brent_kung_subtractor_nodes a b = some st ∧ st.1.length = a.length
      ∧ state_ok gs ps st.1 ∧ all_reduced st.1 ∧ ∀ k ∈ st.2, adjacent k := by
  have hguard : ¬ (a.length = 0 ∨ b.length < a.length) := by omega
  obtain ⟨s1, s2, s3⟩ := plain_start_ok a.length
    (List.zipWith (fun f g => create_and (create_not f) g) a b)
    (List.zipWith (fun f g => create_or (create_not f) g) a b) (by simp)
  have hgl : (List.zipWith (fun f g => create_and (create_not f) g) a b).length
      = a.length := by
    simp [hlen]
  rw [hgl] at s1
  simp only [brent_kung_subtractor_nodes, brent_kung_subtractor_start, if_neg hguard]
  obtain ⟨out, o1, o2, o3, o4, down, up, _, hout, hd, hu, _, _⟩ :=
    brent_kung_calls_total _ _
      (pg_build a.length 0 (List.zipWith (fun f g => create_and (create_not f) g) a b)
        (List.zipWith (fun f g => create_or (create_not f) g) a b), [])
      (by simp only []; omega) s2 s3
  simp only [] at o1 o2 hout
  refine ⟨out, _, _, o1, o2.trans s1, o3, o4, ?_⟩
  rw [hout]
  intro k hk
  simp only [List.nil_append] at hk
  rcases List.mem_append.mp hk with h | h
  · exact hd k h
  · exact hu k h

/-- The nodes of `han_carlson_adder_inplace` and of `han_carlson_subtractor_inplace` on
more than four bits at the carry assembly: all fully reduced, after calls on adjacent
ranges only. -/
theorem han_carlson_nodes_spec (a b : List Signal) (c : Signal)
    (hn : 4 < a.length) (hlen : b.length = a.length) :
    (∃ st gs ps, han_carlson_adder_nodes a b c = some st ∧ st.1.length = a.length
        ∧ state_ok gs ps st.1 ∧ all_reduced st.1 ∧ ∀ k ∈ st.2, adjacent k)
      ∧ (∃ st gs ps, han_carlson_subtractor_nodes a b = some st ∧ st.1.length = a.length
        ∧ state_ok gs ps st.1 ∧ all_reduced st.1 ∧ ∀ k ∈ st.2, adjacent k) := by
  have h4 : ¬ a.length ≤ 4 := by omega
  have hb : ¬ b.length < a.length := by omega
  have hmain : ∀ gen pro : List Signal, pro.length = gen.length → gen.length = a.length →
      ∃ st gs ps, second_round_calls
          (2 * (han_carlson_rounds_calls (ceil_log2 (pg_build a.length 0 gen pro).length) 0
            (pg_build a.length 0 gen pro, [])).1.length) 0
          (han_carlson_rounds_calls (ceil_log2 (pg_build a.length 0 gen pro).length) 0
            (pg_build a.length 0 gen pro, [])) = some st
        ∧ st.1.length = a.length ∧ state_ok gs ps st.1 ∧ all_reduced st.1
        ∧ ∀ k ∈ st.2, adjacent k := by
    intro gen pro hpl hgl
    obtain ⟨s1, s2, s3⟩ := plain_start_ok a.length gen pro hpl
    obtain ⟨_, _, out, o1, o2, o3, o4, new, hout, hadj⟩ := han_carlson_calls_total _ _
      (pg_build a.length 0 gen pro, []) (by simp only []; omega) s2 s3
    simp only [] at o1 o2 hout
    refine ⟨out, _, _, o1, o2.trans (s1.trans hgl), o3, o4, ?_⟩
    rw [hout]
    simpa using hadj
  constructor
  · obtain ⟨st, gs, ps, h⟩ := hmain (List.zipWith (fun f g => create_and f g) a b)
      (List.zipWith (fun f g => create_xor f g) a b) (by simp) (by simp [hlen])
    refine ⟨st, gs, ps, ?_, h.2⟩
    simp only [han_carlson_adder_nodes, han_carlson_adder_start, if_neg h4, if_neg hb]
    exact h.1
  · obtain ⟨st, gs, ps, h⟩ := hmain
      (List.zipWith (fun f g => create_and (create_not f) g) a b)
      (List.zipWith (fun f g => create_or (create_not f) g) a b) (by simp) (by simp [hlen])
    refine ⟨st, gs, ps, ?_, h.2⟩
    simp only [han_carlson_subtractor_nodes, han_carlson_subtractor_start, if_neg h4,
      if_neg hb]
    exact h.1

/-! ### The full adder cell of the systolic multiplier -/

/-- C22: `kogge_stone_full_adder(a, b, c)` returns the pair `(s, k)` of a full adder,
`s = a xor b xor c` and `k = majority(a, b, c)`, so that `a + b + c = s + 2 * k`; it is
the one-bit call of `kogge_stone_adder_inplace` with carry-in `buf(c)`, in which the
bound `ceil(log2 1)` of the round loop is 0 and the only call of `o_operation` is the
fold of the input carry into node 0. -/
theorem kogge_stone_full_adder_cell (a b c : Bool) :
    kogge_stone_full_adder a b c = some (create_xor3 a b c, create_maj a b c)
      ∧ a.toNat + b.toNat + c.toNat
        = (create_xor3 a b c).toNat + 2 * (create_maj a b c).toNat
      ∧ kogge_stone_adder_inplace [a] [b] (create_buf c)
        = some ([create_xor3 a b c], create_maj a b c)
      ∧ ceil_log2 [a].length = 0
      ∧ (kogge_stone_adder_nodes [a] [b] (create_buf c)).map Prod.snd
        = some [⟨0, PG.new (create_and a b) (create_xor a b) 1 0,
            PG.new (create_buf c) (get_constant false) 1 0⟩] := by
  cases a <;> cases b <;> cases c <;> decide

/-! ### One iteration of the optimized divider -/

theorem mux_word_nested (cond borrow : Signal) :
    ∀ (t e : List Signal), mux_word cond t (mux_word borrow t e)
      = List.zipWith (fun x z => if cond then x else if borrow then x else z) t e := by
  intro t
  induction t with
  | nil => intro e; simp [mux_word]
  | cons x xs ih =>
    intro e
    cases e with
    | nil => simp [mux_word]
    | cons z zs =>
      have h := ih zs
      unfold mux_word at h ⊢
      rw [List.zipWith_cons_cons, List.zipWith_cons_cons, List.zipWith_cons_cons, h]
      rfl

/-- C23: one iteration of the loop of `restoring_array_divider_advance`, for any inner
subtractor `func`, correct or not, whose result on this call is the pair
`(p1, borrow)`: with `cond` the OR of the divisor bits above the `N`-bit window, the
quotient bit appended is `false` when `cond` is true and `not borrow` when it is false,
and every entry of the partial remainder is the entry before the subtraction when
`cond` is true, and when `cond` is false the entry before the subtraction if `borrow`
is true and the entry of `p1` otherwise.  When `func` keeps the length of its operand,
the partial remainder is therefore unchanged when `cond` is true, and when `cond` is
false it is the value before the subtraction if `borrow` is true and `p1` otherwise. -/
theorem early_skip_override (N : Nat) (func : Inplace) (r : Nat)
    (y quo p_rem p1 : List Signal) (borrow : Signal) (hy : N < y.length)
    (hcall : func p_rem (y.take N) (get_constant false) = some (p1, borrow)) :
    restoring_array_divider_advance_loop N func (r + 1) (y, quo, p_rem)
        = restoring_array_divider_advance_loop N func r
            (y.tail,
              quo ++ [if create_nary_or (y.drop N) then false else !borrow],
              List.zipWith (fun x z => if create_nary_or (y.drop N) then x
                else if borrow then x else z) p_rem p1)
      ∧ (p1.length = p_rem.length →
          List.zipWith (fun x z => if create_nary_or (y.drop N) then x
              else if borrow then x else z) p_rem p1
            = if create_nary_or (y.drop N) then p_rem
              else if borrow then p_rem else p1) := by
  have hq : mux (create_nary_or (y.drop N)) (create_not (create_nary_or (y.drop N)))
      (create_not borrow) = if create_nary_or (y.drop N) then false else !borrow := by
    cases create_nary_or (y.drop N) <;> cases borrow <;> rfl
  constructor
  · cases y with
    | nil => simp at hy
    | cons y0 ys =>
      rw [restoring_array_divider_advance_loop]
      simp only [gt_iff_lt, hy, if_true, hcall, mux_word_nested, hq, List.tail_cons]
  · intro hlen
    rw [← mux_word_nested]
    have hin : mux_word borrow p_rem p1 = if borrow then p_rem else p1 := by
      cases borrow
      · simpa using mux_word_false p_rem p1 (le_of_eq hlen)
      · simpa using mux_word_true p_rem p1 (le_of_eq hlen.symm)
    have hl2 : (mux_word borrow p_rem p1).length = p_rem.length := by
      rw [hin]; split <;> simp [hlen]
    cases hc : create_nary_or (y.drop N)
    · rw [mux_word_false p_rem _ (le_of_eq hl2), hin]
      simp
    · rw [mux_word_true p_rem _ (le_of_eq hl2.symm)]
      simp

/-- Witness for C23: the first iteration on the dividend `1` and the divisor `3` over
two bits with the ripple subtractor; the shifted divisor has a bit above the window. -/
theorem early_skip_override_witness :
    2 < [false, true, true].length
      ∧ borrow_ripple_subtractor_inplace gate_network [true, false]
          ([false, true, true].take 2) (get_constant false) = some ([true, true], true)
      ∧ (restoring_array_divider_advance_loop 2
            (borrow_ripple_subtractor_inplace gate_network)
            (1 + 1) ([false, true, true], [], [true, false])
          = restoring_array_divider_advance_loop 2
              (borrow_ripple_subtractor_inplace gate_network) 1
              ([false, true, true].tail,
                [] ++ [if create_nary_or ([false, true, true].drop 2) then false else !true],
                List.zipWith (fun x z => if create_nary_or ([false, true, true].drop 2)
                  then x else if true then x else z) [true, false] [true, true])
        ∧ ([true, true].length = [true, false].length →
            List.zipWith (fun x z => if create_nary_or ([false, true, true].drop 2) then x
                else if true then x else z) [true, false] [true, true]
              = if create_nary_or ([false, true, true].drop 2) then [true, false]
                else if true then [true, false] else [true, true])) :=
  ⟨by decide, by decide,
    early_skip_override 2 (borrow_ripple_subtractor_inplace gate_network) 1
      [false, true, true] [] [true, false] [true, true] true (by decide) (by decide)⟩

/-! ### The borrow lookahead subtractor -/

theorem length_carry_chain :
    ∀ (gen pro : List Signal) (c : Signal),
      (carry_chain gen pro c).length = min gen.length pro.length + 1 := by
  intro gen
  induction gen with
  | nil => intro pro c; simp [carry_chain]
  | cons g gen ih =>
    intro pro c
    cases pro with
    | nil => simp [carry_chain]
    | cons p pro =>
      simp only [carry_chain, List.length_cons, ih]
      omega

theorem bit_at_carry_chain_zero (gen pro : List Signal) (c : Signal) :
    bit_at (carry_chain gen pro c) 0 = c := by
  cases gen with
  | nil => simp [carry_chain, bit_at]
  | cons g gen =>
    cases pro with
    | nil => simp [carry_chain, bit_at]
    | cons p pro => simp [carry_chain, bit_at]

theorem bit_at_carry_chain_succ :
    ∀ (gen pro : List Signal) (c : Signal) (i : Nat), i < gen.length → i < pro.length →
      bit_at (carry_chain gen pro c) (i + 1)
        = (bit_at gen i || (bit_at pro i && bit_at (carry_chain gen pro c) i)) := by
  intro gen
  induction gen with
  | nil => intro pro c i h; simp at h
  | cons g gen ih =>
    intro pro c i h1 h2
    cases pro with
    | nil => simp at h2
    | cons p pro =>
      cases i with
      | zero =>
        simp only [carry_chain, bit_at, List.getD_cons_succ, List.getD_cons_zero]
        have := bit_at_carry_chain_zero gen pro (create_or g (create_and p c))
        simp only [bit_at] at this
        rw [this]
        rfl
      | succ i =>
        have := ih pro (create_or g (create_and p c)) i (by simpa using h1)
          (by simpa using h2)
        simp only [carry_chain, bit_at, List.getD_cons_succ] at this ⊢
        exact this

/-- The serial recurrence meets the assumption made on the carry resolver. -/
theorem carry_lookahead_adder_inplace_rec_resolves :
    is_carry_resolver carry_lookahead_adder_inplace_rec := by
  intro k gen pro bor hg hp _
  refine ⟨?_, ?_, ?_⟩
  · simp only [carry_lookahead_adder_inplace_rec, length_carry_chain, hg, hp, Nat.min_self]
  · simp only [carry_lookahead_adder_inplace_rec, bit_at_carry_chain_zero]
  · intro i hi
    simp only [carry_lookahead_adder_inplace_rec]
    exact bit_at_carry_chain_succ gen pro _ i (by omega) (by omega)

theorem bit_at_append_replicate (a : List Signal) (k i : Nat) :
    bit_at (a ++ List.replicate k false) i = bit_at a i := by
  unfold bit_at
  rw [List.getD_eq_getElem?_getD, List.getD_eq_getElem?_getD]
  by_cases h : i < a.length
  · rw [List.getElem?_append_left h]
  · have ha : a[i]? = none := List.getElem?_eq_none (by omega)
    rw [List.getElem?_append_right (by omega), ha, List.getElem?_replicate]
    split <;> rfl

theorem bit_at_take (d : List Signal) (n i : Nat) (h : i < n) :
    bit_at (d.take n) i = bit_at d i := by
  unfold bit_at
  rw [List.getD_eq_getElem?_getD, List.getD_eq_getElem?_getD, List.getElem?_take_of_lt h]

theorem bit_at_length (a : List Signal) : bit_at a a.length = false := by
  unfold bit_at
  rw [List.getD_eq_getElem?_getD, List.getElem?_eq_none (le_refl _)]
  rfl

/-- On operands of `2^k ≥ 2` bits and with a carry resolver that meets the assumption,
`borrow_lookahead_subtractor_inplace_pow2` leaves in bit `i` of `a` the difference bit
of the serial borrow recurrence and does not assign `borrow`. -/
theorem borrow_lookahead_pow2_bits (cap : Capability) (resolve : Resolver)
    (hres : is_carry_resolver resolve) (k : Nat) (hk : 1 ≤ k) (a b : List Signal)
    (c : Signal) (ha : a.length = 2 ^ k) (hb : b.length = 2 ^ k) :
    ∃ d, borrow_lookahead_subtractor_inplace_pow2 cap resolve a b c = some (d, c)
      ∧ d.length = 2 ^ k
      ∧ ∀ i, i < 2 ^ k → bit_at d i
          = xor (xor (bit_at a i) (bit_at b i))
              (chain (fun i => !bit_at a i && bit_at b i)
                (fun i => !bit_at a i || bit_at b i) c i) := by
  have h2 : 2 ≤ 2 ^ k := by
    have : 2 ^ 1 ≤ 2 ^ k := Nat.pow_le_pow_right (by norm_num) hk
    simpa using this
  have hgl : (List.zipWith (fun f g => create_and (create_not f) g) a b).length = 2 ^ k := by
    simp [ha, hb]
  have hpl : (List.zipWith (fun f g => create_or (create_not f) g) a b).length = 2 ^ k := by
    simp [ha, hb]
  have hp2 : (List.zipWith (fun f g => create_xor f g) a b).length = 2 ^ k := by
    simp [ha, hb]
  obtain ⟨r1, r2, r3⟩ := hres k
    (List.zipWith (fun f g => create_and (create_not f) g) a b)
    (List.zipWith (fun f g => create_or (create_not f) g) a b)
    (c :: List.replicate a.length (get_constant false)) hgl hpl (by simp [ha])
  have hbor : ∀ i, i < 2 ^ k →
      bit_at (resolve (List.zipWith (fun f g => create_and (create_not f) g) a b)
        (List.zipWith (fun f g => create_or (create_not f) g) a b)
        (c :: List.replicate a.length (get_constant false))) i
      = chain (fun i => !bit_at a i && bit_at b i)
          (fun i => !bit_at a i || bit_at b i) c i := by
    intro i
    induction i with
    | zero =>
      intro _
      rw [r2]
      rfl
    | succ i ih =>
      intro hi
      rw [r3 i hi, ih (by omega), bit_at_zipWith _ _ _ i (by omega) (by omega),
        bit_at_zipWith _ _ _ i (by omega) (by omega)]
      rfl
  refine ⟨List.zipWith (fun f g => create_xor f g)
    (List.zipWith (fun f g => create_xor f g) a b)
    (resolve (List.zipWith (fun f g => create_and (create_not f) g) a b)
      (List.zipWith (fun f g => create_or (create_not f) g) a b)
      (c :: List.replicate a.length (get_constant false))), ?_, ?_, ?_⟩
  · simp only [borrow_lookahead_subtractor_inplace_pow2]
    rw [if_neg (by omega), if_neg (by omega), if_neg (by rw [r1, ha]; simp)]
  · rw [List.length_zipWith, hp2, r1]
    omega
  · intro i hi
    rw [bit_at_zipWith _ _ _ i (by rw [hp2]; exact hi) (by rw [r1]; omega), hbor i hi,
      bit_at_zipWith _ _ _ i (by omega) (by omega)]
    rfl

/-- With a carry resolver that meets the assumption, the borrow lookahead subtractor
returns the difference modulo `2^n` and the comparison `A < B + c`. -/
theorem borrow_lookahead_difference (cap : Capability) (resolve : Resolver)
    (hres : is_carry_resolver resolve) (a b : List Signal) (c : Signal)
    (hn : 1 ≤ a.length) (hlen : b.length = a.length) :
    ∃ d w, borrow_lookahead_subtractor_inplace cap resolve a b c = some (d, w)
      ∧ d.length = a.length
      ∧ (value d : Int) = ((value a : Int) - value b - c.toNat) % 2 ^ a.length
      ∧ w = decide (value a < value b + c.toNat) := by
  have hM := le_two_pow_ceil_log2 (a.length + 1)
  have hk : 1 ≤ ceil_log2 (a.length + 1) := by
    by_contra h
    have e : ceil_log2 (a.length + 1) = 0 := by omega
    rw [e, pow_zero] at hM
    omega
  have hra : resize a (2 ^ ceil_log2 (a.length + 1)) (get_constant false)
      = a ++ List.replicate (2 ^ ceil_log2 (a.length + 1) - a.length) false := by
    unfold resize
    rw [List.take_of_length_le (by omega)]
    rfl
  have hrb : resize b (2 ^ ceil_log2 (a.length + 1)) (get_constant false)
      = b ++ List.replicate (2 ^ ceil_log2 (a.length + 1) - a.length) false := by
    unfold resize
    rw [List.take_of_length_le (by omega), hlen]
    rfl
  obtain ⟨d, hd, hdl, hbits⟩ := borrow_lookahead_pow2_bits cap resolve hres
    (ceil_log2 (a.length + 1)) hk
    (a ++ List.replicate (2 ^ ceil_log2 (a.length + 1) - a.length) false)
    (b ++ List.replicate (2 ^ ceil_log2 (a.length + 1) - a.length) false) c
    (by simp; omega) (by simp [hlen]; omega)
  have hfa : (fun i => bit_at (a ++ List.replicate
      (2 ^ ceil_log2 (a.length + 1) - a.length) false) i) = bit_at a := by
    funext i; exact bit_at_append_replicate a _ i
  have hfb : (fun i => bit_at (b ++ List.replicate
      (2 ^ ceil_log2 (a.length + 1) - a.length) false) i) = bit_at b := by
    funext i; exact bit_at_append_replicate b _ i
  have hbits2 : ∀ i, i < 2 ^ ceil_log2 (a.length + 1) → bit_at d i
      = xor (xor (bit_at a i) (bit_at b i))
          (chain (fun i => !bit_at a i && bit_at b i)
            (fun i => !bit_at a i || bit_at b i) c i) := by
    intro i hi
    rw [hbits i hi, bit_at_append_replicate, bit_at_append_replicate]
    congr 1
    apply chain_congr
    intro t _
    rw [bit_at_append_replicate, bit_at_append_replicate]
    exact ⟨rfl, rfl⟩
  have hget : d[a.length]? = some (bit_at d a.length) :=
    getElem?_eq_some_bit_at d a.length (by omega)
  have hcall : borrow_lookahead_subtractor_inplace cap resolve a b c
      = some (d.take a.length, bit_at d a.length) := by
    simp only [borrow_lookahead_subtractor_inplace, hra, hrb, hd, hget]
  have hdl2 : (d.take a.length).length = a.length := by
    rw [List.length_take, hdl]; omega
  have hw : bit_at d a.length
      = chain (fun i => !bit_at a i && bit_at b i)
          (fun i => !bit_at a i || bit_at b i) c a.length := by
    rw [hbits2 a.length (by omega), bit_at_length a]
    have : bit_at b a.length = false := by rw [← hlen]; exact bit_at_length b
    rw [this]
    simp
  have hv : value (d.take a.length)
      = value_upto (fun i => xor (xor (bit_at a i) (bit_at b i))
          (chain (fun i => !bit_at a i && bit_at b i)
            (fun i => !bit_at a i || bit_at b i) c i)) a.length := by
    rw [value_eq_value_upto, hdl2]
    apply value_upto_congr
    intro i hi
    rw [bit_at_take d a.length i hi, hbits2 i (by omega)]
  have hbal := sub_balance (bit_at a) (bit_at b) c a.length
  rw [← hv, ← hw] at hbal
  have hva : value_upto (bit_at a) a.length = value a := (value_eq_value_upto a).symm
  have hvb : value_upto (bit_at b) a.length = value b := by
    rw [← hlen]; exact (value_eq_value_upto b).symm
  rw [hva, hvb] at hbal
  have hS := value_lt (d.take a.length)
  rw [hdl2] at hS
  exact ⟨_, _, hcall, hdl2, difference_of_balance _ _ _ _ c _ hbal hS⟩

/-- C24: `borrow_lookahead_subtractor_inplace` with any carry resolver that keeps
`bor[0]` and fills `bor[i + 1] = gen[i] or (pro[i] and bor[i])` on a block of a power
of two length: on operands of `n ≥ 1` bits and any borrow-in `c`, zero-extended to
`2^ceil(log2(n + 1))` bits, the call leaves `(A - B - c) mod 2^n` in the `n` entries
of `a` and sets `borrow` to `[A < B + c]`, read from extension bit `n`. -/
theorem borrow_lookahead_subtractor_inplace_correct (cap : Capability)
    (resolve : Resolver) (hres : is_carry_resolver resolve) (a b : List Signal)
    (c : Signal) (hn : 1 ≤ a.length) (hlen : b.length = a.length) :
    borrow_lookahead_subtractor_inplace cap resolve a b c
      = some (low_bits a.length
            ((((value a : Int) - value b - c.toNat) % 2 ^ a.length).toNat),
          decide (value a < value b + c.toNat)) := by
  obtain ⟨d, w, e, l, v, hw⟩ := borrow_lookahead_difference cap resolve hres a b c hn hlen
  rw [e, eq_low_bits_int d _ _ l v, hw]

/-- Witness for C24 on `5 - 6 - 1` over three bits, extended to four bits, with the
serial recurrence as carry resolver. -/
theorem borrow_lookahead_subtractor_inplace_correct_witness :
    is_carry_resolver carry_lookahead_adder_inplace_rec
      ∧ 1 ≤ [true, false, true].length
      ∧ [false, true, true].length = [true, false, true].length
      ∧ borrow_lookahead_subtractor_inplace gate_network carry_lookahead_adder_inplace_rec
          [true, false, true] [false, true, true] true
        = some (low_bits [true, false, true].length
              ((((value [true, false, true] : Int) - value [false, true, true]
                - true.toNat) % 2 ^ [true, false, true].length).toNat),
            decide (value [true, false, true] < value [false, true, true] + true.toNat)) :=
  ⟨carry_lookahead_adder_inplace_rec_resolves, by decide, rfl,
    borrow_lookahead_subtractor_inplace_correct gate_network
      carry_lookahead_adder_inplace_rec carry_lookahead_adder_inplace_rec_resolves
      [true, false, true] [false, true, true] true (by decide) rfl⟩

/-! ### The states in which the generators reach their loops -/

theorem adjacent_asserted (k : Call) (h : adjacent k) : k.X.begin_ ≥ k.Y.begin_ := by
  obtain ⟨_, h2, h3⟩ := h
  omega

/-- The generators that fold the input carry reach their loop on single-bit nodes, after
the one call `pg[0].o_operation(ntk, pg0)`. -/
theorem folded_starts (a b : List Signal) (c : Signal)
    (hn : 1 ≤ a.length) (hlen : b.length = a.length) :
    (∃ st0 gs ps X, kogge_stone_adder_start a b c = some st0 ∧ st0.1.length = a.length
        ∧ state_ok gs ps st0.1 ∧ (∀ m, m < st0.1.length → (node st0.1 m).end_ = m)
        ∧ X.begin_ = 0 ∧ st0.2 = [⟨0, X, PG.new c (get_constant false) a.length 0⟩])
      ∧ (∃ st0 gs ps X, kogge_stone_subtractor_start a b c = some st0
        ∧ st0.1.length = a.length
        ∧ state_ok gs ps st0.1 ∧ (∀ m, m < st0.1.length → (node st0.1 m).end_ = m)
        ∧ X.begin_ = 0 ∧ st0.2 = [⟨0, X, PG.new c (get_constant false) a.length 0⟩])
      ∧ (∃ st0 gs ps X, brent_kung_adder_start a b c = some st0 ∧ st0.1.length = a.length
        ∧ state_ok gs ps st0.1 ∧ (∀ m, m < st0.1.length → (node st0.1 m).end_ = m)
        ∧ X.begin_ = 0 ∧ st0.2 = [⟨0, X, PG.new c (get_constant false) a.length 0⟩]) := by
  have hguard : ¬ (a.length = 0 ∨ b.length < a.length) := by omega
  have hmain : ∀ gen pro : List Signal, pro.length = gen.length → gen.length = a.length →
      ∃ gs ps X,
        (o_call (pg_build a.length 0 gen pro, []) 0
          [PG.new c (get_constant false) a.length 0] 0).1.length = a.length
        ∧ state_ok gs ps (o_call (pg_build a.length 0 gen pro, []) 0
          [PG.new c (get_constant false) a.length 0] 0).1
        ∧ (∀ m, m < (o_call (pg_build a.length 0 gen pro, []) 0
            [PG.new c (get_constant false) a.length 0] 0).1.length →
          (node (o_call (pg_build a.length 0 gen pro, []) 0
            [PG.new c (get_constant false) a.length 0] 0).1 m).end_ = m)
        ∧ X.begin_ = 0
        ∧ (o_call (pg_build a.length 0 gen pro, []) 0
            [PG.new c (get_constant false) a.length 0] 0).2
          = [⟨0, X, PG.new c (get_constant false) a.length 0⟩] := by
    intro gen pro hpl hgl
    obtain ⟨s1, s2, s3, s4⟩ := folded_start_ok a.length gen pro c hpl (by omega)
    exact ⟨_, _, _, s1.trans hgl, s2, s3, rfl, s4⟩
  refine ⟨?_, ?_, ?_⟩
  · obtain ⟨gs, ps, X, h⟩ := hmain (List.zipWith (fun f g => create_and f g) a b)
      (List.zipWith (fun f g => create_xor f g) a b) (by simp) (by simp [hlen])
    exact ⟨_, gs, ps, X, by simp only [kogge_stone_adder_start, if_neg hguard], h⟩
  · obtain ⟨gs, ps, X, h⟩ := hmain
      (List.zipWith (fun f g => create_and (create_not f) g) a b)
      (List.zipWith (fun f g => create_or (create_not f) g) a b) (by simp) (by simp [hlen])
    exact ⟨_, gs, ps, X, by simp only [kogge_stone_subtractor_start, if_neg hguard], h⟩
  · obtain ⟨gs, ps, X, h⟩ := hmain (List.zipWith (fun f g => create_and f g) a b)
      (List.zipWith (fun f g => create_xor f g) a b) (by simp) (by simp [hlen])
    exact ⟨_, gs, ps, X, by simp only [brent_kung_adder_start, if_neg hguard], h⟩

/-- On more than four bits `han_carlson_adder_inplace` reaches its loop on single-bit
nodes, without any call. -/
theorem han_carlson_adder_start_spec (a b : List Signal)
    (hn : 4 < a.length) (hlen : b.length = a.length) :
    ∃ st0 gs ps, han_carlson_adder_start a b = some st0 ∧ st0.1.length = a.length
      ∧ state_ok gs ps st0.1 ∧ (∀ m, m < st0.1.length → (node st0.1 m).end_ = m)
      ∧ st0.2 = [] := by
  obtain ⟨s1, s2, s3⟩ := plain_start_ok a.length
    (List.zipWith (fun f g => create_and f g) a b)
    (List.zipWith (fun f g => create_xor f g) a b) (by simp)
  have hgl : (List.zipWith (fun f g => create_and f g) a b).length = a.length := by
    simp [hlen]
  refine ⟨(pg_build a.length 0 (List.zipWith (fun f g => create_and f g) a b)
    (List.zipWith (fun f g => create_xor f g) a b), []), _, _, ?_, s1.trans hgl, s2, s3,
    rfl⟩
  simp only [han_carlson_adder_start, if_neg (by omega : ¬ a.length ≤ 4),
    if_neg (by omega : ¬ b.length < a.length)]

/-! ### Full coverage after the up-sweep -/

/-- C25: for operands of `n ≥ 1` bits, `brent_kung_adder_inplace`,
`brent_kung_subtractor_inplace`, `han_carlson_adder_inplace` and
`han_carlson_subtractor_inplace` reach the carry assembly, which yields their result,
with `n` nodes, and every node `pg[i]` has `end == 0` and `begin == i`. -/
theorem full_coverage (a b : List Signal) (c : Signal)
    (hn : 1 ≤ a.length) (hlen : b.length = a.length) :
    (∃ st, brent_kung_adder_nodes a b c = some st
        ∧ brent_kung_adder_inplace a b c
          = some (finish (List.zipWith (fun f g => create_xor f g) a b)
              (assemble c st.1) c)
        ∧ st.1.length = a.length
        ∧ ∀ i, i < a.length → (node st.1 i).end_ = 0 ∧ (node st.1 i).begin_ = i)
      ∧ (∃ st, brent_kung_subtractor_nodes a b = some st
        ∧ brent_kung_subtractor_inplace a b c
          = some (finish (List.zipWith (fun f g => create_xor f g) a b)
              (assemble c st.1) c)
        ∧ st.1.length = a.length
        ∧ ∀ i, i < a.length → (node st.1 i).end_ = 0 ∧ (node st.1 i).begin_ = i)
      ∧ (∃ st, han_carlson_adder_nodes a b c = some st
        ∧ han_carlson_adder_inplace a b c
          = some (finish (List.zipWith (fun f g => create_xor f g) a b)
              (assemble c st.1) c)
        ∧ st.1.length = a.length
        ∧ ∀ i, i < a.length → (node st.1 i).end_ = 0 ∧ (node st.1 i).begin_ = i)
      ∧ (∃ st, han_carlson_subtractor_nodes a b = some st
        ∧ han_carlson_subtractor_inplace a b c
          = some (finish (List.zipWith (fun f g => create_xor f g) a b)
              (assemble c st.1) c)
        ∧ st.1.length = a.length
        ∧ ∀ i, i < a.length → (node st.1 i).end_ = 0 ∧ (node st.1 i).begin_ = i) := by
  obtain ⟨_, _, g3, g4, g5, g6⟩ := generators_from_nodes a b c
  obtain ⟨st1, gs1, ps1, _, _, _, e1, l1, ok1, red1, _⟩ :=
    brent_kung_adder_nodes_spec a b c hn hlen
  obtain ⟨st2, gs2, ps2, e2, l2, ok2, red2, _⟩ := brent_kung_subtractor_nodes_spec a b hn hlen
  have hbka : ∃ st, brent_kung_adder_nodes a b c = some st
      ∧ brent_kung_adder_inplace a b c
        = some (finish (List.zipWith (fun f g => create_xor f g) a b) (assemble c st.1) c)
      ∧ st.1.length = a.length
      ∧ ∀ i, i < a.length → (node st.1 i).end_ = 0 ∧ (node st.1 i).begin_ = i :=
    ⟨st1, e1, by rw [g3, e1]; rfl, l1, fun i hi =>
      ⟨red1 i (by rw [l1]; exact hi), (ok1 i (by rw [l1]; exact hi)).1⟩⟩
  have hbks : ∃ st, brent_kung_subtractor_nodes a b = some st
      ∧ brent_kung_subtractor_inplace a b c
        = some (finish (List.zipWith (fun f g => create_xor f g) a b) (assemble c st.1) c)
      ∧ st.1.length = a.length
      ∧ ∀ i, i < a.length → (node st.1 i).end_ = 0 ∧ (node st.1 i).begin_ = i :=
    ⟨st2, e2, by rw [g4, e2]; rfl, l2, fun i hi =>
      ⟨red2 i (by rw [l2]; exact hi), (ok2 i (by rw [l2]; exact hi)).1⟩⟩
  refine ⟨hbka, hbks, ?_, ?_⟩
  · rcases Nat.lt_or_ge 4 a.length with h5 | h4
    · obtain ⟨⟨st, gs, ps, e, l, ok, red, _⟩, _⟩ := han_carlson_nodes_spec a b c h5 hlen
      exact ⟨st, e, by rw [g5, e]; rfl, l, fun i hi =>
        ⟨red i (by rw [l]; exact hi), (ok i (by rw [l]; exact hi)).1⟩⟩
    · have e1 : han_carlson_adder_nodes a b c = brent_kung_adder_nodes a b c := by
        simp only [han_carlson_adder_nodes, if_pos h4]
      have e2 : han_carlson_adder_inplace a b c = brent_kung_adder_inplace a b c := by
        simp only [han_carlson_adder_inplace, if_pos h4]
      rw [e1, e2]
      exact hbka
  · rcases Nat.lt_or_ge 4 a.length with h5 | h4
    · obtain ⟨_, ⟨st, gs, ps, e, l, ok, red, _⟩⟩ := han_carlson_nodes_spec a b c h5 hlen
      exact ⟨st, e, by rw [g6, e]; rfl, l, fun i hi =>
        ⟨red i (by rw [l]; exact hi), (ok i (by rw [l]; exact hi)).1⟩⟩
    · have e1 : han_carlson_subtractor_nodes a b = brent_kung_subtractor_nodes a b := by
        simp only [han_carlson_subtractor_nodes, if_pos h4]
      have e2 : han_carlson_subtractor_inplace a b c
          = brent_kung_subtractor_inplace a b c := by
        simp only [han_carlson_subtractor_inplace, if_pos h4]
      rw [e1, e2]
      exact hbks

/-- Witness for C25 on three bits. -/
theorem full_coverage_witness :
    1 ≤ [true, false, true].length ∧ [false, true, true].length = [true, false, true].length
      ∧ ((∃ st, brent_kung_adder_nodes [true, false, true] [false, true, true] true = some st
          ∧ brent_kung_adder_inplace [true, false, true] [false, true, true] true
            = some (finish (List.zipWith (fun f g => create_xor f g) [true, false, true]
                [false, true, true]) (assemble true st.1) true)
          ∧ st.1.length = [true, false, true].length
          ∧ ∀ i, i < [true, false, true].length →
              (node st.1 i).end_ = 0 ∧ (node st.1 i).begin_ = i)
        ∧ (∃ st, brent_kung_subtractor_nodes [true, false, true] [false, true, true] = some st
          ∧ brent_kung_subtractor_inplace [true, false, true] [false, true, true] true
            = some (finish (List.zipWith (fun f g => create_xor f g) [true, false, true]
                [false, true, true]) (assemble true st.1) true)
          ∧ st.1.length = [true, false, true].length
          ∧ ∀ i, i < [true, false, true].length →
              (node st.1 i).end_ = 0 ∧ (node st.1 i).begin_ = i)
        ∧ (∃ st, han_carlson_adder_nodes [true, false, true] [false, true, true] true = some st
          ∧ han_carlson_adder_inplace [true, false, true] [false, true, true] true
            = some (finish (List.zipWith (fun f g => create_xor f g) [true, false, true]
                [false, true, true]) (assemble true st.1) true)
          ∧ st.1.length = [true, false, true].length
          ∧ ∀ i, i < [true, false, true].length →
              (node st.1 i).end_ = 0 ∧ (node st.1 i).begin_ = i)
        ∧ (∃ st, han_carlson_subtractor_nodes [true, false, true] [false, true, true]
            = some st
          ∧ han_carlson_subtractor_inplace [true, false, true] [false, true, true] true
            = some (finish (List.zipWith (fun f g => create_xor f g) [true, false, true]
                [false, true, true]) (assemble true st.1) true)
          ∧ st.1.length = [true, false, true].length
          ∧ ∀ i, i < [true, false, true].length →
              (node st.1 i).end_ = 0 ∧ (node st.1 i).begin_ = i)) :=
  ⟨by decide, rfl, full_coverage [true, false, true] [false, true, true] true (by decide) rfl⟩

/-! ### The rounds of the Kogge-Stone generators -/

/-- C26: in `kogge_stone_adder_inplace` and `kogge_stone_subtractor_inplace` on `n ≥ 1`
bits, every round `j < ceil(log2 n)` is executed and is a Kogge-Stone round: after it
node `m` has `end == m + 1 - 2^(j+1)` (0 when that is negative), every node `m ≥ 2^j`
is the result of one call with node `m - 2^j` of the snapshot taken before the round,
the calls of the round being exactly one per such node, and the nodes below `2^j` are
untouched.  After `ceil(log2 n)` rounds the carry assembly starts and every node has
`end == 0`. -/
theorem kogge_stone_round_invariant (a b : List Signal) (c : Signal)
    (hn : 1 ≤ a.length) (hlen : b.length = a.length) :
    (∀ j, j < ceil_log2 a.length →
        ∃ S T, kogge_stone_adder_rounds a b c j = some S
          ∧ kogge_stone_adder_rounds a b c (j + 1) = some T
          ∧ S.1.length = a.length ∧ kogge_stone_round j S T)
      ∧ (∃ F, kogge_stone_adder_rounds a b c (ceil_log2 a.length) = some F
          ∧ kogge_stone_adder_nodes a b c = some F ∧ F.1.length = a.length
          ∧ ∀ m, m < a.length → (node F.1 m).end_ = 0)
      ∧ (∀ j, j < ceil_log2 a.length →
        ∃ S T, kogge_stone_subtractor_rounds a b c j = some S
          ∧ kogge_stone_subtractor_rounds a b c (j + 1) = some T
          ∧ S.1.length = a.length ∧ kogge_stone_round j S T)
      ∧ (∃ F, kogge_stone_subtractor_rounds a b c (ceil_log2 a.length) = some F
          ∧ kogge_stone_subtractor_nodes a b c = some F ∧ F.1.length = a.length
          ∧ ∀ m, m < a.length → (node F.1 m).end_ = 0) := by
  obtain ⟨⟨sa, gsa, psa, _, ea, la, oka, enda, _, _⟩,
    ⟨ss, gss, pss, _, es, ls, oks, ends, _, _⟩, _⟩ := folded_starts a b c hn hlen
  have hia : kogge_stone_inv 0 sa.1 := by
    intro m hm
    rw [enda m hm]
    simp
  have his : kogge_stone_inv 0 ss.1 := by
    intro m hm
    rw [ends m hm]
    simp
  obtain ⟨ra, fa, reda⟩ := kogge_stone_rounds_calls_rounds gsa psa sa (by omega) oka hia
  obtain ⟨rs, fs, reds⟩ := kogge_stone_rounds_calls_rounds gss pss ss (by omega) oks his
  rw [la] at ra fa reda
  rw [ls] at rs fs reds
  refine ⟨?_, ?_, ?_, ?_⟩
  · intro j hj
    obtain ⟨h1, h2⟩ := ra j hj
    refine ⟨_, _, ?_, ?_, h1, h2⟩
    · simp only [kogge_stone_adder_rounds, ea, la, Nat.min_eq_left (Nat.le_of_lt hj)]
    · simp only [kogge_stone_adder_rounds, ea, la, Nat.min_eq_left (Nat.succ_le_of_lt hj)]
  · refine ⟨_, ?_, ?_, fa, ?_⟩
    · simp only [kogge_stone_adder_rounds, ea, la, Nat.min_self]
    · simp only [kogge_stone_adder_nodes, ea, la]
    · intro m hm
      exact reda m (by rw [fa]; exact hm)
  · intro j hj
    obtain ⟨h1, h2⟩ := rs j hj
    refine ⟨_, _, ?_, ?_, h1, h2⟩
    · simp only [kogge_stone_subtractor_rounds, es, ls, Nat.min_eq_left (Nat.le_of_lt hj)]
    · simp only [kogge_stone_subtractor_rounds, es, ls,
        Nat.min_eq_left (Nat.succ_le_of_lt hj)]
  · refine ⟨_, ?_, ?_, fs, ?_⟩
    · simp only [kogge_stone_subtractor_rounds, es, ls, Nat.min_self]
    · simp only [kogge_stone_subtractor_nodes, es, ls]
    · intro m hm
      exact reds m (by rw [fs]; exact hm)

/-- Witness for C26 on three bits. -/
theorem kogge_stone_round_invariant_witness :
    1 ≤ [true, false, true].length ∧ [false, true, true].length = [true, false, true].length
      ∧ ((∀ j, j < ceil_log2 [true, false, true].length →
          ∃ S T, kogge_stone_adder_rounds [true, false, true] [false, true, true] true j
              = some S
            ∧ kogge_stone_adder_rounds [true, false, true] [false, true, true] true (j + 1)
              = some T
            ∧ S.1.length = [true, false, true].length ∧ kogge_stone_round j S T)
        ∧ (∃ F, kogge_stone_adder_rounds [true, false, true] [false, true, true] true
              (ceil_log2 [true, false, true].length) = some F
            ∧ kogge_stone_adder_nodes [true, false, true] [false, true, true] true = some F
            ∧ F.1.length = [true, false, true].length
            ∧ ∀ m, m < [true, false, true].length → (node F.1 m).end_ = 0)
        ∧ (∀ j, j < ceil_log2 [true, false, true].length →
          ∃ S T, kogge_stone_subtractor_rounds [true, false, true] [false, true, true] true j
              = some S
            ∧ kogge_stone_subtractor_rounds [true, false, true] [false, true, true] true
              (j + 1) = some T
            ∧ S.1.length = [true, false, true].length ∧ kogge_stone_round j S T)
        ∧ (∃ F, kogge_stone_subtractor_rounds [true, false, true] [false, true, true] true
              (ceil_log2 [true, false, true].length) = some F
            ∧ kogge_stone_subtractor_nodes [true, false, true] [false, true, true] true
              = some F
            ∧ F.1.length = [true, false, true].length
            ∧ ∀ m, m < [true, false, true].length → (node F.1 m).end_ = 0)) :=
  ⟨by decide, rfl,
    kogge_stone_round_invariant [true, false, true] [false, true, true] true (by decide) rfl⟩

/-! ### The result of the Brent-Kung down-sweep -/

/-- C27: in `brent_kung_adder_inplace` on `n ≥ 1` bits, the test on the last node is
true before every round `r < ceil(log2 n)`, so that no round of the stride pattern is
left out, and at the end of the down-sweep, where the up-sweep starts, node `m` has
`begin == m` and `end == m + 1 - 2^v` with `2^v` the largest power of two that divides
`m + 1`; its `end` is 0 exactly when `m + 1` is a power of two. -/
theorem brent_kung_down_sweep_blocks (a b : List Signal) (c : Signal)
    (hn : 1 ≤ a.length) (hlen : b.length = a.length) :
    (∀ r, r < ceil_log2 a.length →
        ∃ st, brent_kung_adder_rounds a b c r = some st ∧ last_end st.1 ≠ 0)
      ∧ ∃ st, brent_kung_adder_rounds a b c (ceil_log2 a.length) = some st
          ∧ brent_kung_adder_nodes a b c = second_round_calls (2 * st.1.length) 0 st
          ∧ st.1.length = a.length
          ∧ ∀ m, m < a.length →
              (node st.1 m).begin_ = m
              ∧ (node st.1 m).end_ = m + 1 - 2 ^ padicValNat 2 (m + 1)
              ∧ ((node st.1 m).end_ = 0 ↔ ∃ k, m + 1 = 2 ^ k) := by
  obtain ⟨_, _, ⟨st0, gs, ps, _, e0, l0, ok0, end0, _, _⟩⟩ := folded_starts a b c hn hlen
  have hlow : ∀ i, i < ceil_log2 st0.1.length → 2 ^ i < st0.1.length :=
    ceil_log2_from_least st0.1.length st0.1.length 0 (by intro i hi; omega)
  obtain ⟨hl, hok, hinv, hruns, _⟩ := brent_kung_first_round_calls_inv gs ps st0 (by omega)
    ok0 end0 (ceil_log2 st0.1.length) hlow
  rw [l0] at hl hok hinv hruns
  refine ⟨?_, ?_⟩
  · intro r hr
    refine ⟨_, ?_, hruns r hr⟩
    simp only [brent_kung_adder_rounds, e0, l0, Nat.min_eq_left (Nat.le_of_lt hr)]
  · refine ⟨_, ?_, ?_, hl, ?_⟩
    · simp only [brent_kung_adder_rounds, e0, l0, Nat.min_self]
    · simp only [brent_kung_adder_nodes, e0, l0]
    · intro m hm
      have hm2 : m < (brent_kung_first_round_calls (ceil_log2 a.length) 0 st0).1.length := by
        rw [hl]; exact hm
      have hd : 2 ^ padicValNat 2 (m + 1) ∣ m + 1 := pow_padicValNat_dvd
      have hnd : ¬ 2 ^ (padicValNat 2 (m + 1) + 1) ∣ m + 1 :=
        pow_succ_padicValNat_not_dvd (by omega)
      have hle : 2 ^ padicValNat 2 (m + 1) ≤ m + 1 := Nat.le_of_dvd (by omega) hd
      have hv : padicValNat 2 (m + 1) ≤ ceil_log2 a.length := by
        have h1 := le_two_pow_ceil_log2 a.length
        have h2 : 2 ^ padicValNat 2 (m + 1) ≤ 2 ^ ceil_log2 a.length := by omega
        exact (Nat.pow_le_pow_iff_right (by norm_num)).mp h2
      have hend := hinv m hm2 (padicValNat 2 (m + 1)) hv hd (Or.inr hnd)
      refine ⟨(hok m hm2).1, by omega, ?_⟩
      constructor
      · intro hz
        exact ⟨padicValNat 2 (m + 1), by omega⟩
      · rintro ⟨k, hk⟩
        have : padicValNat 2 (m + 1) = k := by
          rw [hk]
          exact padicValNat.prime_pow k
        rw [this] at hend
        omega

/-- Witness for C27 on three bits. -/
theorem brent_kung_down_sweep_blocks_witness :
    1 ≤ [true, false, true].length ∧ [false, true, true].length = [true, false, true].length
      ∧ ((∀ r, r < ceil_log2 [true, false, true].length →
          ∃ st, brent_kung_adder_rounds [true, false, true] [false, true, true] true r
              = some st ∧ last_end st.1 ≠ 0)
        ∧ ∃ st, brent_kung_adder_rounds [true, false, true] [false, true, true] true
              (ceil_log2 [true, false, true].length) = some st
          ∧ brent_kung_adder_nodes [true, false, true] [false, true, true] true
            = second_round_calls (2 * st.1.length) 0 st
          ∧ st.1.length = [true, false, true].length
          ∧ ∀ m, m < [true, false, true].length →
              (node st.1 m).begin_ = m
              ∧ (node st.1 m).end_ = m + 1 - 2 ^ padicValNat 2 (m + 1)
              ∧ ((node st.1 m).end_ = 0 ↔ ∃ k, m + 1 = 2 ^ k)) :=
  ⟨by decide, rfl,
    brent_kung_down_sweep_blocks [true, false, true] [false, true, true] true (by decide) rfl⟩

/-! ### The rounds of the Han-Carlson adder -/

/-- C28: in `han_carlson_adder_inplace` on `n > 4` bits, at the end of the round loop,
where the up-sweep starts, every node `m` with `m mod 4 == 3` has `end == 0`, every
node with `m mod 4 == 1` has `end == m - 1` and every node of even index has
`end == m`; every round `j ≥ 2` below `ceil(log2 n)` is executed, each of its calls
updates a node `x` with `x mod 4 == 3` and passes node `x - 2^j` of the state before
the round, and the nodes of other indices are those before the round. -/
theorem han_carlson_rounds_result (a b : List Signal)
    (hn : 4 < a.length) (hlen : b.length = a.length) :
    (∃ st, han_carlson_adder_rounds a b (ceil_log2 a.length) = some st
        ∧ (∀ carry, han_carlson_adder_nodes a b carry
            = second_round_calls (2 * st.1.length) 0 st)
        ∧ st.1.length = a.length
        ∧ ∀ m, m < a.length →
            (m % 4 = 3 → (node st.1 m).end_ = 0)
            ∧ (m % 4 = 1 → (node st.1 m).end_ = m - 1)
            ∧ (m % 2 = 0 → (node st.1 m).end_ = m))
      ∧ ∀ j, 2 ≤ j → j < ceil_log2 a.length →
        ∃ S T new, han_carlson_adder_rounds a b j = some S
          ∧ han_carlson_adder_rounds a b (j + 1) = some T
          ∧ T.2 = S.2 ++ new
          ∧ (∀ k ∈ new, k.x % 4 = 3 ∧ k.Y = node S.1 (k.x - 2 ^ j))
          ∧ (∀ m, m % 4 ≠ 3 → node T.1 m = node S.1 m) := by
  obtain ⟨st0, gs, ps, e0, l0, ok0, end0, _⟩ := han_carlson_adder_start_spec a b hn hlen
  have hlow : ∀ i, i < ceil_log2 st0.1.length → 2 ^ i < st0.1.length :=
    ceil_log2_from_least st0.1.length st0.1.length 0 (by intro i hi; omega)
  obtain ⟨hfinal, hl, _⟩ := han_carlson_calls_total gs ps st0 (by omega) ok0 end0
  rw [l0] at hfinal hl
  refine ⟨⟨_, ?_, ?_, hl, ?_⟩, ?_⟩
  · simp only [han_carlson_adder_rounds, e0, l0, Nat.min_self]
  · intro carry
    simp only [han_carlson_adder_nodes, if_neg (by omega : ¬ a.length ≤ 4), e0, l0]
  · intro m hm
    obtain ⟨m1, m2, m3⟩ := hfinal m (by rw [hl]; exact hm)
    exact ⟨m1, fun h => by have := m2 h; omega, m3⟩
  · intro j hj2 hj
    rw [← l0] at hj
    obtain ⟨_, _, _, _, _, hround⟩ := han_carlson_rounds_calls_inv gs ps st0 (by omega)
      ok0 end0 (j + 1) (fun i hi => hlow i (by omega))
    obtain ⟨new, h1, h2, h3⟩ := hround j rfl hj2
    refine ⟨_, _, new, ?_, ?_, h1, h2, h3⟩
    · simp only [han_carlson_adder_rounds, e0, Nat.min_eq_left (Nat.le_of_lt hj)]
    · simp only [han_carlson_adder_rounds, e0, Nat.min_eq_left (Nat.succ_le_of_lt hj)]

/-- Witness for C28 on five bits. -/
theorem han_carlson_rounds_result_witness :
    4 < [true, false, true, true, false].length
      ∧ [false, true, true, false, true].length = [true, false, true, true, false].length
      ∧ ((∃ st, han_carlson_adder_rounds [true, false, true, true, false]
              [false, true, true, false, true]
              (ceil_log2 [true, false, true, true, false].length) = some st
          ∧ (∀ carry, han_carlson_adder_nodes [true, false, true, true, false]
                [false, true, true, false, true] carry
              = second_round_calls (2 * st.1.length) 0 st)
          ∧ st.1.length = [true, false, true, true, false].length
          ∧ ∀ m, m < [true, false, true, true, false].length →
              (m % 4 = 3 → (node st.1 m).end_ = 0)
              ∧ (m % 4 = 1 → (node st.1 m).end_ = m - 1)
              ∧ (m % 2 = 0 → (node st.1 m).end_ = m))
        ∧ ∀ j, 2 ≤ j → j < ceil_log2 [true, false, true, true, false].length →
          ∃ S T new, han_carlson_adder_rounds [true, false, true, true, false]
                [false, true, true, false, true] j = some S
            ∧ han_carlson_adder_rounds [true, false, true, true, false]
                [false, true, true, false, true] (j + 1) = some T
            ∧ T.2 = S.2 ++ new
            ∧ (∀ k ∈ new, k.x % 4 = 3 ∧ k.Y = node S.1 (k.x - 2 ^ j))
            ∧ (∀ m, m % 4 ≠ 3 → node T.1 m = node S.1 m)) :=
  ⟨by decide, rfl,
    han_carlson_rounds_result [true, false, true, true, false]
      [false, true, true, false, true] (by decide) rfl⟩

/-! ### No index gap in any combination -/

/-- C29: for operands of `n ≥ 1` bits, in every call `X.o_operation(Y)` of the
Kogge-Stone, Brent-Kung and Han-Carlson adders and subtractors the assertion
`X.begin >= Y.begin` holds, and every call other than the fold of the input carry into
node 0 (the first call of the generators that make it) combines adjacent ranges:
`Y.begin + 1 == X.end`, with `Y.end <= Y.begin` and `X.end <= X.begin`, so that the node
covers the indices from `Y.end` to `X.begin` after the call. -/
theorem no_index_gap (a b : List Signal) (c : Signal)
    (hn : 1 ≤ a.length) (hlen : b.length = a.length) :
    (∃ st X rest, kogge_stone_adder_nodes a b c = some st
        ∧ st.2 = ⟨0, X, PG.new c (get_constant false) a.length 0⟩ :: rest
        ∧ (∀ k ∈ st.2, k.X.begin_ ≥ k.Y.begin_) ∧ ∀ k ∈ rest, adjacent k)
      ∧ (∃ st X rest, kogge_stone_subtractor_nodes a b c = some st
        ∧ st.2 = ⟨0, X, PG.new c (get_constant false) a.length 0⟩ :: rest
        ∧ (∀ k ∈ st.2, k.X.begin_ ≥ k.Y.begin_) ∧ ∀ k ∈ rest, adjacent k)
      ∧ (∃ st X rest, brent_kung_adder_nodes a b c = some st
        ∧ st.2 = ⟨0, X, PG.new c (get_constant false) a.length 0⟩ :: rest
        ∧ (∀ k ∈ st.2, k.X.begin_ ≥ k.Y.begin_) ∧ ∀ k ∈ rest, adjacent k)
      ∧ (∃ st, brent_kung_subtractor_nodes a b = some st
        ∧ (∀ k ∈ st.2, k.X.begin_ ≥ k.Y.begin_) ∧ ∀ k ∈ st.2, adjacent k)
      ∧ (a.length ≤ 4 → ∃ st X rest, han_carlson_adder_nodes a b c = some st
        ∧ st.2 = ⟨0, X, PG.new c (get_constant false) a.length 0⟩ :: rest
        ∧ (∀ k ∈ st.2, k.X.begin_ ≥ k.Y.begin_) ∧ ∀ k ∈ rest, adjacent k)
      ∧ (4 < a.length → ∃ st, han_carlson_adder_nodes a b c = some st
        ∧ (∀ k ∈ st.2, k.X.begin_ ≥ k.Y.begin_) ∧ ∀ k ∈ st.2, adjacent k)
      ∧ (∃ st, han_carlson_subtractor_nodes a b = some st
        ∧ (∀ k ∈ st.2, k.X.begin_ ≥ k.Y.begin_) ∧ ∀ k ∈ st.2, adjacent k) := by
  have hfold : ∀ (tr : List Call) (X : PG) (rest : List Call), X.begin_ = 0 →
      tr = ⟨0, X, PG.new c (get_constant false) a.length 0⟩ :: rest →
      (∀ k ∈ rest, adjacent k) → ∀ k ∈ tr, k.X.begin_ ≥ k.Y.begin_ := by
    intro tr X rest hX htr hadj k hk
    rw [htr] at hk
    rcases List.mem_cons.mp hk with e | h
    · rw [e]
      simp [PG.new]
    · exact adjacent_asserted k (hadj k h)
  obtain ⟨⟨s1, _, _, X1, r1, e1, _, _, _, t1, x1, a1⟩,
    ⟨s2, _, _, X2, r2, e2, _, _, _, t2, x2, a2⟩⟩ := kogge_stone_nodes_spec a b c hn hlen
  obtain ⟨s3, _, _, X3, d3, u3, e3, _, _, _, t3, x3, a3, _, _⟩ :=
    brent_kung_adder_nodes_spec a b c hn hlen
  obtain ⟨s4, _, _, e4, _, _, _, a4⟩ := brent_kung_subtractor_nodes_spec a b hn hlen
  refine ⟨⟨s1, X1, r1, e1, t1, hfold _ X1 r1 x1 t1 a1, a1⟩,
    ⟨s2, X2, r2, e2, t2, hfold _ X2 r2 x2 t2 a2, a2⟩,
    ⟨s3, X3, d3 ++ u3, e3, t3, hfold _ X3 _ x3 t3 a3, a3⟩,
    ⟨s4, e4, fun k hk => adjacent_asserted k (a4 k hk), a4⟩, ?_, ?_, ?_⟩
  · intro h4
    refine ⟨s3, X3, d3 ++ u3, ?_, t3, hfold _ X3 _ x3 t3 a3, a3⟩
    simp only [han_carlson_adder_nodes, if_pos h4, e3]
  · intro h5
    obtain ⟨⟨st, _, _, e, _, _, _, ad⟩, _⟩ := han_carlson_nodes_spec a b c h5 hlen
    exact ⟨st, e, fun k hk => adjacent_asserted k (ad k hk), ad⟩
  · rcases Nat.lt_or_ge 4 a.length with h5 | h4
    · obtain ⟨_, ⟨st, _, _, e, _, _, _, ad⟩⟩ := han_carlson_nodes_spec a b c h5 hlen
      exact ⟨st, e, fun k hk => adjacent_asserted k (ad k hk), ad⟩
    · refine ⟨s4, ?_, fun k hk => adjacent_asserted k (a4 k hk), a4⟩
      simp only [han_carlson_subtractor_nodes, if_pos h4, e4]

/-- Witness for C29 on three bits. -/
theorem no_index_gap_witness :
    1 ≤ [true, false, true].length ∧ [false, true, true].length = [true, false, true].length
      ∧ ((∃ st X rest, kogge_stone_adder_nodes [true, false, true] [false, true, true] true
            = some st
          ∧ st.2 = ⟨0, X, PG.new true (get_constant false) [true, false, true].length 0⟩
              :: rest
          ∧ (∀ k ∈ st.2, k.X.begin_ ≥ k.Y.begin_) ∧ ∀ k ∈ rest, adjacent k)
        ∧ (∃ st X rest, kogge_stone_subtractor_nodes [true, false, true]
              [false, true, true] true = some st
          ∧ st.2 = ⟨0, X, PG.new true (get_constant false) [true, false, true].length 0⟩
              :: rest
          ∧ (∀ k ∈ st.2, k.X.begin_ ≥ k.Y.begin_) ∧ ∀ k ∈ rest, adjacent k)
        ∧ (∃ st X rest, brent_kung_adder_nodes [true, false, true] [false, true, true] true
            = some st
          ∧ st.2 = ⟨0, X, PG.new true (get_constant false) [true, false, true].length 0⟩
              :: rest
          ∧ (∀ k ∈ st.2, k.X.begin_ ≥ k.Y.begin_) ∧ ∀ k ∈ rest, adjacent k)
        ∧ (∃ st, brent_kung_subtractor_nodes [true, false, true] [false, true, true]
            = some st
          ∧ (∀ k ∈ st.2, k.X.begin_ ≥ k.Y.begin_) ∧ ∀ k ∈ st.2, adjacent k)
        ∧ ([true, false, true].length ≤ 4 →
          ∃ st X rest, han_carlson_adder_nodes [true, false, true] [false, true, true] true
            = some st
          ∧ st.2 = ⟨0, X, PG.new true (get_constant false) [true, false, true].length 0⟩
              :: rest
          ∧ (∀ k ∈ st.2, k.X.begin_ ≥ k.Y.begin_) ∧ ∀ k ∈ rest, adjacent k)
        ∧ (4 < [true, false, true].length →
          ∃ st, han_carlson_adder_nodes [true, false, true] [false, true, true] true
            = some st
          ∧ (∀ k ∈ st.2, k.X.begin_ ≥ k.Y.begin_) ∧ ∀ k ∈ st.2, adjacent k)
        ∧ (∃ st, han_carlson_subtractor_nodes [true, false, true] [false, true, true]
            = some st
          ∧ (∀ k ∈ st.2, k.X.begin_ ≥ k.Y.begin_) ∧ ∀ k ∈ st.2, adjacent k)) :=
  ⟨by decide, rfl, no_index_gap [true, false, true] [false, true, true] true (by decide) rfl⟩

/-! ### The number of combinations of the Brent-Kung adder -/

/-- C30: `brent_kung_adder_inplace` on `n ≥ 1` bits makes, after the fold of the input
carry, at most `n - 1` calls of `o_operation` in the down-sweep and at most `n - 1` in
the up-sweep, hence at most `2 * (n - 1)` in both together, and none when `n = 1`. -/
theorem brent_kung_linear (a b : List Signal) (c : Signal)
    (hn : 1 ≤ a.length) (hlen : b.length = a.length) :
    ∃ D st X down up, brent_kung_adder_rounds a b c (ceil_log2 a.length) = some D
      ∧ brent_kung_adder_nodes a b c = some st
      ∧ D.2 = ⟨0, X, PG.new c (get_constant false) a.length 0⟩ :: down
      ∧ st.2 = ⟨0, X, PG.new c (get_constant false) a.length 0⟩ :: (down ++ up)
      ∧ down.length ≤ a.length - 1 ∧ up.length ≤ a.length - 1
      ∧ (down ++ up).length ≤ 2 * (a.length - 1)
      ∧ (a.length = 1 → down ++ up = []) := by
  obtain ⟨_, _, ⟨st0, gs, ps, X, e0, l0, ok0, end0, _, t0⟩⟩ := folded_starts a b c hn hlen
  obtain ⟨out, o1, _, _, _, down, up, hdown, hout, _, _, cd, cu⟩ :=
    brent_kung_calls_total gs ps st0 (by omega) ok0 end0
  rw [l0] at o1 hdown cd cu
  rw [t0] at hdown hout
  refine ⟨brent_kung_first_round_calls (ceil_log2 a.length) 0 st0, out, X, down, up,
    ?_, ?_, ?_, ?_, cd, cu, ?_, ?_⟩
  · simp only [brent_kung_adder_rounds, e0, l0, Nat.min_self]
  · simp only [brent_kung_adder_nodes, e0, l0]
    exact o1
  · rw [hdown]; rfl
  · rw [hout]; rfl
  · rw [List.length_append]; omega
  · intro h1
    have hd0 : down.length = 0 := by omega
    have hu0 : up.length = 0 := by omega
    rw [List.length_eq_zero.mp hd0, List.length_eq_zero.mp hu0]
    rfl

/-- Witness for C30 on three bits. -/
theorem brent_kung_linear_witness :
    1 ≤ [true, false, true].length ∧ [false, true, true].length = [true, false, true].length
      ∧ ∃ D st X down up,
        brent_kung_adder_rounds [true, false, true] [false, true, true] true
            (ceil_log2 [true, false, true].length) = some D
        ∧ brent_kung_adder_nodes [true, false, true] [false, true, true] true = some st
        ∧ D.2 = ⟨0, X, PG.new true (get_constant false) [true, false, true].length 0⟩ :: down
        ∧ st.2 = ⟨0, X, PG.new true (get_constant false) [true, false, true].length 0⟩
            :: (down ++ up)
        ∧ down.length ≤ [true, false, true].length - 1
        ∧ up.length ≤ [true, false, true].length - 1
        ∧ (down ++ up).length ≤ 2 * ([true, false, true].length - 1)
        ∧ ([true, false, true].length = 1 → down ++ up = []) :=
  ⟨by decide, rfl,
    brent_kung_linear [true, false, true] [false, true, true] true (by decide) rfl⟩

/-! ### The ripple subtractor that returns its result -/

theorem borrow_ripple_subtractor_loop_eq (cap : Capability) :
    ∀ (a b : List Signal) (c : Signal),
      borrow_ripple_subtractor_loop cap a b c = borrow_ripple_loop cap a b c := by
  intro a
  induction a with
  | nil => intro b c; rfl
  | cons x xs ih =>
    intro b c
    cases b with
    | nil => rfl
    | cons y ys =>
      simp only [borrow_ripple_subtractor_loop, borrow_ripple_loop, ih]

/-- C39: for vectors `a`, `b` of equal length and any borrow-in `c`, whatever the cell
realization, `borrow_ripple_subtractor(a, b, c)` returns a pair, and it is exactly the
pair of the difference vector and the output borrow that
`borrow_ripple_subtractor_inplace` leaves in its arguments `a` and `borrow`. -/
theorem borrow_ripple_subtractor_agrees (cap : Capability) (a b : List Signal)
    (c : Signal) (hlen : a.length = b.length) :
    ∃ d w, borrow_ripple_subtractor cap a b c = some (d, w)
      ∧ borrow_ripple_subtractor_inplace cap a b c = some (d, w)
      ∧ d.length = a.length := by
  obtain ⟨r, hr⟩ := borrow_ripple_loop_returns cap a b c hlen
  have hl : ∀ (a b : List Signal) (c : Signal) (r : List Signal × Signal),
      borrow_ripple_loop cap a b c = some r → r.1.length = a.length := by
    intro a
    induction a with
    | nil =>
      intro b c r h
      simp only [borrow_ripple_loop, Option.some.injEq] at h
      rw [← h]
    | cons x xs ih =>
      intro b c r h
      cases b with
      | nil => simp [borrow_ripple_loop] at h
      | cons y ys =>
        simp only [borrow_ripple_loop] at h
        split at h
        · rename_i rest out e
          simp only [Option.some.injEq] at h
          rw [← h]
          simp [ih ys _ _ e]
        · simp at h
  refine ⟨r.1, r.2, ?_, ?_, hl a b c r hr⟩
  · simp only [borrow_ripple_subtractor, if_pos hlen, borrow_ripple_subtractor_loop_eq, hr]
  · simp only [borrow_ripple_subtractor_inplace, if_pos hlen, hr]

/-- Witness for C39 on `5 - 6 - 1` over three bits with the seven-gate cell. -/
theorem borrow_ripple_subtractor_agrees_witness :
    ∃ d w, borrow_ripple_subtractor gate_network [true, false, true] [false, true, true]
          true = some (d, w)
      ∧ borrow_ripple_subtractor_inplace gate_network [true, false, true]
          [false, true, true] true = some (d, w)
      ∧ d.length = [true, false, true].length :=
  borrow_ripple_subtractor_agrees gate_network [true, false, true] [false, true, true]
    true rfl

/-! ### The width of the borrow lookahead extension -/

theorem ceil_log2_succ_least (n k : Nat) (h : n < 2 ^ k) : ceil_log2 (n + 1) ≤ k := by
  by_contra hlt
  have h1 := ceil_log2_from_least (n + 1) (n + 1) 0 (by intro i hi; omega) k
    (by unfold ceil_log2 at hlt; omega)
  omega

theorem length_resize (v : List Signal) (n : Nat) (x : Signal) :
    (resize v n x).length = n := by
  unfold resize
  rw [List.length_append, List.length_take, List.length_replicate]
  omega

/-- On operands of `2^k` bits and with a carry resolver that meets the assumption,
`borrow_lookahead_subtractor_inplace_pow2` returns `2^k` bits. -/
theorem borrow_lookahead_pow2_returns (cap : Capability) (resolve : Resolver)
    (hres : is_carry_resolver resolve) (k : Nat) (a b : List Signal) (c : Signal)
    (ha : a.length = 2 ^ k) (hb : b.length = 2 ^ k) :
    ∃ d, borrow_lookahead_subtractor_inplace_pow2 cap resolve a b c = some (d, c)
      ∧ d.length = 2 ^ k := by
  cases k with
  | zero =>
    rw [pow_zero] at ha hb
    match a, b, ha, hb with
    | [a0], [b0], _, _ =>
      exact ⟨[(full_subtractor cap a0 b0 c).1],
        by simp [borrow_lookahead_subtractor_inplace_pow2], by simp⟩
  | succ k =>
    obtain ⟨d, h1, h2, _⟩ := borrow_lookahead_pow2_bits cap resolve hres (k + 1)
      (by omega) a b c ha hb
    exact ⟨d, h1, h2⟩

/-- C38: `borrow_lookahead_subtractor_inplace` on operands of `n ≥ 0` bits extends them
with constant-false bits to the width `2^ceil(log2(n + 1))`, the smallest power of two
strictly greater than `n` (twice `n` when `n` is a power of two); with a carry resolver
that keeps the size of `bor`, the extended result has that width, its entry `n` exists
and is the borrow returned, and exactly its first `n` entries are copied back. -/
theorem borrow_lookahead_extension_width (cap : Capability) (resolve : Resolver)
    (hres : is_carry_resolver resolve) (a b : List Signal) (c : Signal)
    (hlen : b.length = a.length) :
    a.length < 2 ^ ceil_log2 (a.length + 1)
      ∧ (∀ k, a.length < 2 ^ k → 2 ^ ceil_log2 (a.length + 1) ≤ 2 ^ k)
      ∧ (∀ k, a.length = 2 ^ k → 2 ^ ceil_log2 (a.length + 1) = 2 * a.length)
      ∧ resize a (2 ^ ceil_log2 (a.length + 1)) (get_constant false)
          = a ++ List.replicate (2 ^ ceil_log2 (a.length + 1) - a.length) false
      ∧ resize b (2 ^ ceil_log2 (a.length + 1)) (get_constant false)
          = b ++ List.replicate (2 ^ ceil_log2 (a.length + 1) - a.length) false
      ∧ ∃ a_ext w,
          borrow_lookahead_subtractor_inplace_pow2 cap resolve
              (resize a (2 ^ ceil_log2 (a.length + 1)) (get_constant false))
              (resize b (2 ^ ceil_log2 (a.length + 1)) (get_constant false)) c
            = some (a_ext, c)
          ∧ a_ext.length = 2 ^ ceil_log2 (a.length + 1)
          ∧ a_ext[a.length]? = some w
          ∧ borrow_lookahead_subtractor_inplace cap resolve a b c
            = some (a_ext.take a.length, w)
          ∧ (a_ext.take a.length).length = a.length := by
  have hM : a.length + 1 ≤ 2 ^ ceil_log2 (a.length + 1) := le_two_pow_ceil_log2 _
  have hra : resize a (2 ^ ceil_log2 (a.length + 1)) (get_constant false)
      = a ++ List.replicate (2 ^ ceil_log2 (a.length + 1) - a.length) false := by
    unfold resize
    rw [List.take_of_length_le (by omega)]
    rfl
  have hrb : resize b (2 ^ ceil_log2 (a.length + 1)) (get_constant false)
      = b ++ List.replicate (2 ^ ceil_log2 (a.length + 1) - a.length) false := by
    unfold resize
    rw [List.take_of_length_le (by omega), hlen]
    rfl
  obtain ⟨d, hd, hdl⟩ := borrow_lookahead_pow2_returns cap resolve hres
    (ceil_log2 (a.length + 1))
    (resize a (2 ^ ceil_log2 (a.length + 1)) (get_constant false))
    (resize b (2 ^ ceil_log2 (a.length + 1)) (get_constant false)) c
    (length_resize _ _ _) (length_resize _ _ _)
  have hget : d[a.length]? = some (bit_at d a.length) :=
    getElem?_eq_some_bit_at d a.length (by omega)
  refine ⟨by omega, ?_, ?_, hra, hrb, d, bit_at d a.length, hd, hdl, hget, ?_, ?_⟩
  · intro k hk
    exact Nat.pow_le_pow_right (by norm_num) (ceil_log2_succ_least _ _ hk)
  · intro k hk
    have h1 : ceil_log2 (a.length + 1) ≤ k + 1 :=
      ceil_log2_succ_least _ _ (by rw [hk]; exact Nat.pow_lt_pow_right (by norm_num) (by omega))
    have h2 : k < ceil_log2 (a.length + 1) := by
      by_contra h
      have : 2 ^ ceil_log2 (a.length + 1) ≤ 2 ^ k :=
        Nat.pow_le_pow_right (by norm_num) (by omega)
      omega
    have h3 : ceil_log2 (a.length + 1) = k + 1 := by omega
    rw [h3, hk, pow_succ]
    ring
  · simp only [borrow_lookahead_subtractor_inplace, hd, hget]
  · rw [List.length_take, hdl]
    omega

/-- Witness for C38 on operands of four bits, extended to eight bits, with the serial
recurrence as carry resolver. -/
theorem borrow_lookahead_extension_width_witness :
    is_carry_resolver carry_lookahead_adder_inplace_rec
      ∧ [false, true, true, false].length = [true, false, true, true].length
      ∧ 2 ^ ceil_log2 ([true, false, true, true].length + 1) = 8
      ∧ ([true, false, true, true].length
            < 2 ^ ceil_log2 ([true, false, true, true].length + 1)
        ∧ (∀ k, [true, false, true, true].length < 2 ^ k →
            2 ^ ceil_log2 ([true, false, true, true].length + 1) ≤ 2 ^ k)
        ∧ (∀ k, [true, false, true, true].length = 2 ^ k →
            2 ^ ceil_log2 ([true, false, true, true].length + 1)
              = 2 * [true, false, true, true].length)
        ∧ resize [true, false, true, true]
              (2 ^ ceil_log2 ([true, false, true, true].length + 1)) (get_constant false)
            = [true, false, true, true] ++ List.replicate
                (2 ^ ceil_log2 ([true, false, true, true].length + 1)
                  - [true, false, true, true].length) false
        ∧ resize [false, true, true, false]
              (2 ^ ceil_log2 ([true, false, true, true].length + 1)) (get_constant false)
            = [false, true, true, false] ++ List.replicate
                (2 ^ ceil_log2 ([true, false, true, true].length + 1)
                  - [true, false, true, true].length) false
        ∧ ∃ a_ext w,
            borrow_lookahead_subtractor_inplace_pow2 gate_network
                carry_lookahead_adder_inplace_rec
                (resize [true, false, true, true]
                  (2 ^ ceil_log2 ([true, false, true, true].length + 1))
                  (get_constant false))
                (resize [false, true, true, false]
                  (2 ^ ceil_log2 ([true, false, true, true].length + 1))
                  (get_constant false)) false
              = some (a_ext, false)
            ∧ a_ext.length = 2 ^ ceil_log2 ([true, false, true, true].length + 1)
            ∧ a_ext[[true, false, true, true].length]? = some w
            ∧ borrow_lookahead_subtractor_inplace gate_network
                carry_lookahead_adder_inplace_rec [true, false, true, true]
                [false, true, true, false] false
              = some (a_ext.take [true, false, true, true].length, w)
            ∧ (a_ext.take [true, false, true, true].length).length
              = [true, false, true, true].length) :=
  ⟨carry_lookahead_adder_inplace_rec_resolves, rfl, by decide,
    borrow_lookahead_extension_width gate_network carry_lookahead_adder_inplace_rec
      carry_lookahead_adder_inplace_rec_resolves [true, false, true, true]
      [false, true, true, false] false rfl⟩

/-! ### The input carry of the Han-Carlson adder on wide operands -/

theorem bit_at_low_bits : ∀ (n v i : Nat), i < n → bit_at (low_bits n v) i = Nat.testBit v i := by
  intro n
  induction n with
  | zero => intro v i h; omega
  | succ n ih =>
    intro v i h
    cases i with
    | zero => rfl
    | succ i =>
      have h1 := ih (v / 2) i (by omega)
      rw [Nat.testBit_succ, ← h1]
      rfl

theorem eq_of_bit_at (s t : List Signal) (hl : s.length = t.length)
    (h : ∀ i, i < s.length → bit_at s i = bit_at t i) : s = t := by
  apply List.ext_getElem hl
  intro i h1 h2
  have h3 := h i h1
  simpa [bit_at, List.getD_eq_getElem?_getD, List.getElem?_eq_getElem h1,
    List.getElem?_eq_getElem h2] using h3

theorem bit_at_cons_tail (x : Signal) (l : List Signal) (i : Nat) :
    bit_at (x :: l.tail) (i + 1) = bit_at l (i + 1) := by
  cases l with
  | nil => simp [bit_at]
  | cons y ys => simp [bit_at]

/-- On more than four bits the Han-Carlson adder returns, whatever the input carry `c`,
the bits `1, ..., n` of `A + B`, and in bit 0 the sum bit of `a[0]`, `b[0]` and `c`. -/
theorem han_carlson_adder_inplace_wide_bits (a b : List Signal) (c : Signal)
    (hn : 5 ≤ a.length) (hlen : b.length = a.length) :
    han_carlson_adder_inplace a b c
      = some (xor (xor (bit_at a 0) (bit_at b 0)) c
            :: (low_bits a.length (value a + value b)).tail,
          Nat.testBit (value a + value b) a.length) := by
  obtain ⟨out, e, hl, hg⟩ := han_carlson_adder_inplace_wide a b c hn hlen
  have hl2 : (List.zipWith (fun f g => create_xor f g) a b).length = a.length := by
    simp [hlen]
  -- the result for the carry `c`
  obtain ⟨f1, f2, f3⟩ := finish_spec (List.zipWith (fun f g => create_xor f g) a b) out c
    (fun i => if i = 0 then c
      else chain (bit_at (List.zipWith (fun f g => create_and f g) a b))
        (bit_at (List.zipWith (fun f g => create_xor f g) a b)) false i)
    (by simp) (by rw [hl2]; exact hl) (by omega)
    (fun m hm => by rw [hg m hm]; simp)
  -- the result for the carry 0
  obtain ⟨g1, g2, g3⟩ := finish_spec (List.zipWith (fun f g => create_xor f g) a b) out
    false
    (chain (bit_at (List.zipWith (fun f g => create_and f g) a b))
        (bit_at (List.zipWith (fun f g => create_xor f g) a b)) false)
    rfl (by rw [hl2]; exact hl) (by omega) hg
  obtain ⟨k1, k2, k3⟩ := adder_finish a b false out hlen hl (by omega) hg
  simp only [Bool.toNat_false, Nat.add_zero] at k2 k3
  have k4 := eq_low_bits _ _ _ k1 k2
  rw [hl2] at f1 f2 f3 g2 g3
  rw [e]
  congr 1
  apply Prod.ext
  · apply eq_of_bit_at
    · rw [f1, List.length_cons, List.length_tail, length_low_bits]
      omega
    · intro i hi
      rw [f1] at hi
      rw [f2 i hi]
      cases i with
      | zero =>
        rw [bit_at_zipWith _ _ _ 0 (by omega) (by omega)]
        rfl
      | succ i =>
        rw [bit_at_cons_tail, ← k4, g2 (i + 1) hi]
        simp
  · show (finish (List.zipWith (fun f g => create_xor f g) a b) (assemble c out) c).2 = _
    rw [f3, ← k3, g3]
    exact if_neg (by omega)

/-- C36: for `n > 4`, all `n`-bit `A`, `B` and every carry-in `c`,
`han_carlson_adder_inplace` leaves in `a` the vector whose bit 0 is
`a[0] xor b[0] xor c` and whose bits `1, ..., n-1` are the bits `1, ..., n-1` of
`A + B`, taken without the carry-in, and sets `carry` to bit `n` of `A + B`: the
carry-in reaches result bit 0 only. -/
theorem han_carlson_adder_carry_in (a b : List Signal) (c : Signal)
    (hn : 4 < a.length) (hlen : b.length = a.length) :
    ∃ s k, han_carlson_adder_inplace a b c = some (s, k) ∧ s.length = a.length
      ∧ bit_at s 0 = xor (xor (bit_at a 0) (bit_at b 0)) c
      ∧ (∀ i, 1 ≤ i → i < a.length → bit_at s i = Nat.testBit (value a + value b) i)
      ∧ k = Nat.testBit (value a + value b) a.length
      ∧ han_carlson_adder_inplace a b (!c) = some ((!bit_at s 0) :: s.tail, k) := by
  refine ⟨_, _, han_carlson_adder_inplace_wide_bits a b c hn hlen, ?_, rfl, ?_, rfl, ?_⟩
  · rw [List.length_cons, List.length_tail, length_low_bits]
    omega
  · intro i h1 hi
    obtain ⟨j, rfl⟩ : ∃ j, i = j + 1 := ⟨i - 1, by omega⟩
    rw [bit_at_cons_tail, bit_at_low_bits _ _ _ hi]
  · rw [han_carlson_adder_inplace_wide_bits a b (!c) hn hlen]
    congr 2
    simp only [bit_at, List.getD_cons_zero, List.tail_cons]
    cases a.getD 0 false <;> cases b.getD 0 false <;> cases c <;> rfl

/-- Witness for C36 on `21 + 11` over five bits with carry-in 1: the result is
`[1, 0, 0, 0, 0]` with carry-out 1, where `21 + 11 + 1 = 33`. -/
theorem han_carlson_adder_carry_in_witness :
    han_carlson_adder_inplace [true, false, true, false, true]
        [true, true, false, true, false] true
      = some ([true, false, false, false, false], true)
    ∧ ∃ s k, han_carlson_adder_inplace [true, false, true, false, true]
          [true, true, false, true, false] true = some (s, k)
      ∧ s.length = [true, false, true, false, true].length
      ∧ bit_at s 0 = xor (xor (bit_at [true, false, true, false, true] 0)
          (bit_at [true, true, false, true, false] 0)) true
      ∧ (∀ i, 1 ≤ i → i < [true, false, true, false, true].length →
          bit_at s i = Nat.testBit (value [true, false, true, false, true]
            + value [true, true, false, true, false]) i)
      ∧ k = Nat.testBit (value [true, false, true, false, true]
            + value [true, true, false, true, false])
          [true, false, true, false, true].length
      ∧ han_carlson_adder_inplace [true, false, true, false, true]
          [true, true, false, true, false] (!true) = some ((!bit_at s 0) :: s.tail, k) :=
  ⟨by decide, han_carlson_adder_carry_in [true, false, true, false, true]
    [true, true, false, true, false] true (by decide) rfl⟩

/-! ### Termination of the up-sweep on any state whose node 0 is fully reduced -/

theorem pending_le_length : ∀ l : List PG, pending l ≤ l.length := by
  intro l
  induction l with
  | nil => simp [pending]
  | cons x xs ih =>
    simp only [pending, List.length_cons]
    split <;> omega

theorem pending_lt_length_of_zero (pg : List PG) (hpos : 0 < pg.length)
    (h0 : (node pg 0).end_ = 0) : pending pg < pg.length := by
  cases pg with
  | nil => simp at hpos
  | cons x xs =>
    simp only [node, List.getD_cons_zero] at h0
    have := pending_le_length xs
    simp only [pending, List.length_cons]
    rw [if_pos h0]
    omega

/-- The two searches of one iteration of the up-sweep, on any state whose node 0 is
fully reduced: `j` stops inside the vector at the first fully reduced node after `i`,
and `k` stops before `j`, at a node that is not fully reduced. -/
theorem up_sweep_search (pg : List PG) (i : Nat) (hpos : 0 < pg.length)
    (h0 : (node pg 0).end_ = 0) (hi : i < pg.length) (hz : rev_end pg i ≠ 0) :
    i < find_j pg pg.length i
      ∧ find_j pg pg.length i < pg.length
      ∧ rev_end pg (find_j pg pg.length i) = 0
      ∧ (∀ x, i ≤ x → x < find_j pg pg.length i → rev_end pg x ≠ 0)
      ∧ i ≤ find_k pg (find_j pg pg.length i) pg.length i
      ∧ find_k pg (find_j pg pg.length i) pg.length i < find_j pg pg.length i
      ∧ rev_end pg (find_k pg (find_j pg pg.length i) pg.length i) ≠ 0 := by
  obtain ⟨a1, a2, a3, a4⟩ := find_j_spec pg pg.length i (by omega) (by omega)
  generalize find_j pg pg.length i = j at a1 a2 a3 a4 ⊢
  have hr0 : rev_end pg (pg.length - 1) = 0 := by
    rw [rev_end_eq pg _ (by omega)]
    have e3 : pg.length - 1 - (pg.length - 1) = 0 := by omega
    rw [e3]
    exact h0
  have hjN : j < pg.length := by
    by_contra hge
    exact a4 (pg.length - 1) (by omega) (by omega) hr0
  have hj0 : rev_end pg j = 0 := by
    rcases a3 with h | h
    · omega
    · exact h
  have hij : i < j := by
    rcases Nat.eq_or_lt_of_le a1 with h | h
    · rw [h] at hz; exact absurd hj0 hz
    · exact h
  obtain ⟨b1, b2, b3, b4⟩ := find_k_spec pg j pg.length i (by omega) (by omega)
  generalize find_k pg j pg.length i = k at b1 b2 b3 b4 ⊢
  have hkj : k < j := by
    by_contra hge
    exact b4 (j - 1) (by omega) (by omega) rfl
  exact ⟨hij, hjN, hj0, a4, b1, hkj, a4 k b1 hkj⟩

/-- One combination of the up-sweep on any state: the node at reverse distance `k`,
not fully reduced, absorbs the fully reduced node at reverse distance `j`; its field
`end` becomes 0, no other field `end` changes, and one node less is left to reduce. -/
theorem up_sweep_combination (pg : List PG) (j k : Nat) (hj : j < pg.length) (hk : k < j)
    (hj0 : rev_end pg j = 0) (hk0 : rev_end pg k ≠ 0) :
    (o_at pg (pg.length - 1 - k) pg (pg.length - 1 - j)).length = pg.length
      ∧ (∀ m, (node (o_at pg (pg.length - 1 - k) pg (pg.length - 1 - j)) m).end_
          = if m = pg.length - 1 - k then 0 else (node pg m).end_)
      ∧ pending (o_at pg (pg.length - 1 - k) pg (pg.length - 1 - j)) + 1 = pending pg := by
  rw [rev_end_eq pg j hj] at hj0
  rw [rev_end_eq pg k (by omega)] at hk0
  refine ⟨length_o_at _ _ _ _, ?_, pending_o_at pg _ _ (by omega) (by omega) hj0 hk0⟩
  intro m
  rw [node_o_at pg pg _ _ m (by omega) (by omega)]
  by_cases e : m = pg.length - 1 - k
  · simp [e, PG.o_operation, hj0]
  · simp [e]

/-- The up-sweep from position `i` on any state whose node 0 is fully reduced: it ends
within `pending + (n - i)` iterations, every node is fully reduced afterwards and
there is one call for every node that was not. -/
theorem second_round_calls_terminates :
    ∀ (fuel i : Nat) (pg : List PG) (tr : List Call), 0 < pg.length → i ≤ pg.length →
      (node pg 0).end_ = 0 →
      (∀ m, m < pg.length → pg.length ≤ m + i → (node pg m).end_ = 0) →
      pending pg + (pg.length - i) < fuel →
      ∃ out, second_round_calls fuel i (pg, tr) = some out ∧ out.1.length = pg.length
        ∧ all_reduced out.1
        ∧ ∃ new, out.2 = tr ++ new ∧ new.length = pending pg
            ∧ ∀ c ∈ new, c.x < pg.length ∧ c.X.end_ ≠ 0 ∧ c.Y.end_ = 0 := by
  intro fuel
  induction fuel with
  | zero => intro i pg tr _ _ _ _ hf; omega
  | succ f ih =>
    intro i pg tr hpos hi h0 hzero hf
    simp only [second_round_calls]
    split
    · rename_i e
      have hall : ∀ m, m < pg.length → (node pg m).end_ = 0 :=
        fun m hm => hzero m hm (by omega)
      exact ⟨(pg, tr), rfl, rfl, hall, [], by simp,
        by simp [pending_of_all_reduced pg hall], by simp⟩
    · rename_i e
      have hiN : i < pg.length := by omega
      have hre := rev_end_eq pg i hiN
      split
      · rename_i hz
        refine ih (i + 1) pg tr hpos (by omega) h0 ?_ (by omega)
        intro m hm hge
        by_cases e2 : m = pg.length - 1 - i
        · rw [e2, ← hre]; exact hz
        · exact hzero m hm (by omega)
      · rename_i hz
        obtain ⟨hij, hjN, hj0, _, hik, hkj, hk0⟩ := up_sweep_search pg i hpos h0 hiN hz
        generalize find_j pg pg.length i = j at hij hjN hj0 hik hkj hk0 ⊢
        generalize find_k pg j pg.length i = k at hik hkj hk0 ⊢
        obtain ⟨hl, s3, hpend⟩ := up_sweep_combination pg j k hjN hkj hj0 hk0
        rw [if_pos ⟨hjN, by omega⟩]
        have hcall := o_call_eq (pg, tr) (pg.length - 1 - k) pg (pg.length - 1 - j)
          (by simp only []; omega) (by omega)
        simp only [] at hcall
        rw [hcall]
        rw [rev_end_eq pg j hjN] at hj0
        rw [rev_end_eq pg k (by omega)] at hk0
        have h01 : (node (o_at pg (pg.length - 1 - k) pg (pg.length - 1 - j)) 0).end_ = 0 := by
          rw [s3 0]
          split
          · rfl
          · exact h0
        have hfin : ∀ out : List PG × List Call,
            (∃ new, out.2 = (tr ++ [⟨pg.length - 1 - k, node pg (pg.length - 1 - k),
                  node pg (pg.length - 1 - j)⟩]) ++ new
                ∧ new.length = pending (o_at pg (pg.length - 1 - k) pg (pg.length - 1 - j))
                ∧ ∀ c ∈ new,
                  c.x < (o_at pg (pg.length - 1 - k) pg (pg.length - 1 - j)).length
                    ∧ c.X.end_ ≠ 0 ∧ c.Y.end_ = 0) →
            ∃ new, out.2 = tr ++ new ∧ new.length = pending pg
              ∧ ∀ c ∈ new, c.x < pg.length ∧ c.X.end_ ≠ 0 ∧ c.Y.end_ = 0 := by
          intro out ⟨new, n1, n2, n3⟩
          refine ⟨⟨pg.length - 1 - k, node pg (pg.length - 1 - k),
            node pg (pg.length - 1 - j)⟩ :: new, ?_, ?_, ?_⟩
          · rw [n1]; simp
          · simp only [List.length_cons]
            omega
          · intro c hc
            rcases List.mem_cons.mp hc with e | hc
            · rw [e]
              exact ⟨by simp only []; omega, hk0, hj0⟩
            · have := n3 c hc
              rw [hl] at this
              exact this
        split
        · rename_i hne
          obtain ⟨out, o1, o2, o3, o4⟩ :=
            ih i (o_at pg (pg.length - 1 - k) pg (pg.length - 1 - j))
              (tr ++ [⟨pg.length - 1 - k, node pg (pg.length - 1 - k),
                node pg (pg.length - 1 - j)⟩])
              (by rw [hl]; exact hpos) (by rw [hl]; exact hi) h01
              (by
                intro m hm hge
                rw [hl] at hm hge
                rw [s3 m]
                split
                · rfl
                · exact hzero m hm hge)
              (by rw [hl]; omega)
          exact ⟨out, o1, o2.trans hl, o3, hfin out o4⟩
        · rename_i heq
          obtain ⟨out, o1, o2, o3, o4⟩ :=
            ih (i + 1) (o_at pg (pg.length - 1 - k) pg (pg.length - 1 - j))
              (tr ++ [⟨pg.length - 1 - k, node pg (pg.length - 1 - k),
                node pg (pg.length - 1 - j)⟩])
              (by rw [hl]; exact hpos) (by rw [hl]; omega) h01
              (by
                intro m hm hge
                rw [hl] at hm hge
                rw [s3 m]
                split
                · rfl
                · exact hzero m hm (by omega))
              (by rw [hl]; omega)
          exact ⟨out, o1, o2.trans hl, o3, hfin out o4⟩

/-- C32: the up-sweep terminates on every state of `n ≥ 1` nodes whose node 0 has
`end == 0`: the loop, which stays at `i` when the combined node `k` is not `i`, returns
within its budget of `2n` iterations with every node fully reduced, having made
exactly as many combinations as there were nodes with `end != 0` on entry, each one on
a node with `end != 0` and with a node with `end == 0` as argument; in every iteration
at a node with `end != 0` the search for `j` stops inside the vector at a node with
`end == 0`, the search for `k` stops at a node strictly more significant than `j` that
has `end != 0`, and the combination sets the field `end` of that node alone to 0. -/
theorem up_sweep_terminates (st : List PG × List Call) (hpos : 0 < st.1.length)
    (h0 : (node st.1 0).end_ = 0) :
    (∃ out, second_round_calls (2 * st.1.length) 0 st = some out
        ∧ second_round (2 * st.1.length) 0 st.1 = some out.1
        ∧ out.1.length = st.1.length ∧ all_reduced out.1
        ∧ ∃ new, out.2 = st.2 ++ new ∧ new.length = pending st.1
            ∧ ∀ c ∈ new, c.x < st.1.length ∧ c.X.end_ ≠ 0 ∧ c.Y.end_ = 0)
      ∧ ∀ (pg : List PG) (i : Nat), 0 < pg.length → (node pg 0).end_ = 0 →
          i < pg.length → rev_end pg i ≠ 0 →
          find_j pg pg.length i < pg.length
            ∧ rev_end pg (find_j pg pg.length i) = 0
            ∧ find_k pg (find_j pg pg.length i) pg.length i < find_j pg pg.length i
            ∧ pg.length - 1 - find_j pg pg.length i
              < pg.length - 1 - find_k pg (find_j pg pg.length i) pg.length i
            ∧ rev_end pg (find_k pg (find_j pg pg.length i) pg.length i) ≠ 0
            ∧ (∀ m, (node (o_at pg
                  (pg.length - 1 - find_k pg (find_j pg pg.length i) pg.length i) pg
                  (pg.length - 1 - find_j pg pg.length i)) m).end_
                = if m = pg.length - 1 - find_k pg (find_j pg pg.length i) pg.length i
                  then 0 else (node pg m).end_)
            ∧ pending (o_at pg
                  (pg.length - 1 - find_k pg (find_j pg pg.length i) pg.length i) pg
                  (pg.length - 1 - find_j pg pg.length i)) + 1 = pending pg := by
  constructor
  · have hlt := pending_lt_length_of_zero st.1 hpos h0
    obtain ⟨out, o1, o2, o3, o4⟩ := second_round_calls_terminates (2 * st.1.length) 0
      st.1 st.2 hpos (by omega) h0 (fun m h1 h2 => by omega) (by omega)
    refine ⟨out, o1, ?_, o2, o3, o4⟩
    rw [← second_round_calls_fst, show (st.1, st.2) = st from rfl] at *
    rw [o1]
    rfl
  · intro pg i hpos2 h02 hi hz
    obtain ⟨hij, hjN, hj0, _, hik, hkj, hk0⟩ := up_sweep_search pg i hpos2 h02 hi hz
    obtain ⟨_, s3, hpend⟩ := up_sweep_combination pg _ _ hjN hkj hj0 hk0
    exact ⟨hjN, hj0, hkj, by omega, hk0, s3, hpend⟩

/-- Witness for C32 on three nodes of which the two upper ones are not reduced: the loop
returns, every node is then fully reduced, and two combinations are made. -/
theorem up_sweep_terminates_witness :
    second_round 6 0 [⟨false, false, 0, 0⟩, ⟨true, true, 1, 1⟩, ⟨false, true, 2, 2⟩]
        = some [⟨false, false, 0, 0⟩, ⟨true, false, 1, 0⟩, ⟨true, false, 2, 0⟩]
      ∧ pending [⟨false, false, 0, 0⟩, ⟨true, true, 1, 1⟩, ⟨false, true, 2, 2⟩] = 2
      ∧ ∃ out, second_round_calls 6 0
            ([⟨false, false, 0, 0⟩, ⟨true, true, 1, 1⟩, ⟨false, true, 2, 2⟩], [])
          = some out
        ∧ all_reduced out.1 ∧ out.2.length = 2 := by
  obtain ⟨⟨out, o1, _, _, o4, new, n1, n2, _⟩, _⟩ := up_sweep_terminates
    ([⟨false, false, 0, 0⟩, ⟨true, true, 1, 1⟩, ⟨false, true, 2, 2⟩], [])
    (by decide) (by decide)
  exact ⟨by decide, by decide, out, o1, o4, by rw [n1]; simp [n2, pending]⟩

/-! ### The sequential chain of `advance_multiplier` -/

theorem advance_multiplier_loop_calls_fst (func : Inplace) :
    ∀ (r i : Nat) (st : (List (List Signal) × List Signal) × List Invocation),
      (advance_multiplier_loop_calls func r i st).map Prod.fst
        = advance_multiplier_loop func r i st.1 := by
  intro r
  induction r with
  | zero => intro i st; rfl
  | succ r ih =>
    intro i st
    obtain ⟨⟨pp, res⟩, calls⟩ := st
    simp only [advance_multiplier_loop_calls, advance_multiplier_loop]
    rcases pp[i + 1]? with _ | x
    · rfl
    · rcases pp[i]? with _ | y
      · rfl
      · simp only []
        rcases func x y (get_constant false) with _ | ⟨x1, k⟩
        · rfl
        · exact ih _ _

/-- The generator is the first component of the generator that lists its invocations. -/
theorem advance_multiplier_calls_fst (a b : List Signal) (func : Inplace) :
    (advance_multiplier_calls a b func).map Prod.fst = advance_multiplier a b func := by
  simp only [advance_multiplier_calls, advance_multiplier]
  split
  · rfl
  · have h := advance_multiplier_loop_calls_fst func
      ((extend_partial_products (a.length + b.length) 0 (partial_products a b)).length - 1)
      0 ((extend_partial_products (a.length + b.length) 0 (partial_products a b), []), [])
    simp only [] at h
    rw [← h]
    generalize advance_multiplier_loop_calls func _ 0 _ = o
    rcases o with _ | ⟨⟨pp, res⟩, calls⟩
    · rfl
    · rfl

theorem length_extend_partial_products (res_bit : Nat) :
    ∀ (rows : List (List Signal)) (i : Nat),
      (extend_partial_products res_bit i rows).length = rows.length := by
  intro rows
  induction rows with
  | nil => intro i; rfl
  | cons row rest ih =>
    intro i
    simp only [extend_partial_products, List.length_cons, ih]

theorem getD_extend_partial_products (res_bit : Nat) :
    ∀ (rows : List (List Signal)) (i t : Nat), t < rows.length →
      (extend_partial_products res_bit i rows).getD t []
        = zero_extend (List.replicate (i + t) false ++ rows.getD t []) res_bit := by
  intro rows
  induction rows with
  | nil => intro i t h; simp at h
  | cons row rest ih =>
    intro i t h
    cases t with
    | zero =>
      simp only [extend_partial_products, List.getD_cons_zero, Nat.add_zero]
      split
      · rename_i e
        rw [e]
        rfl
      · rfl
    | succ t =>
      simp only [extend_partial_products, List.getD_cons_succ]
      rw [ih (i + 1) t (by simpa using h)]
      congr 3
      omega

/-- Row `i` of `advance_multiplier`: `i` constant-false entries, the entries
`a[.] and b[i]`, and constant-false entries up to `n + m` entries. -/
theorem advance_multiplier_rows_spec (a b : List Signal) :
    (advance_multiplier_rows a b).length = b.length
      ∧ ∀ i, i < b.length →
          (advance_multiplier_rows a b).getD i []
            = List.replicate i false ++ a.map (fun ai => create_and ai (bit_at b i))
              ++ List.replicate (b.length - i) false
          ∧ ((advance_multiplier_rows a b).getD i []).length = a.length + b.length := by
  have hpl : (partial_products a b).length = b.length := by simp [partial_products]
  refine ⟨?_, ?_⟩
  · unfold advance_multiplier_rows
    rw [length_extend_partial_products, hpl]
  · intro i hi
    have hrow : (partial_products a b).getD i []
        = a.map (fun ai => create_and ai (bit_at b i)) := by
      simp [partial_products, bit_at, List.getD_eq_getElem?_getD,
        List.getElem?_eq_getElem hi]
    have e : (advance_multiplier_rows a b).getD i []
        = List.replicate i false ++ a.map (fun ai => create_and ai (bit_at b i))
          ++ List.replicate (b.length - i) false := by
      unfold advance_multiplier_rows
      rw [getD_extend_partial_products _ _ 0 i (by rw [hpl]; exact hi), hrow]
      simp only [zero_extend, Nat.zero_add, get_constant, List.length_append,
        List.length_replicate, List.length_map]
      congr 2
      omega
    refine ⟨e, ?_⟩
    rw [e]
    simp only [List.length_append, List.length_replicate, List.length_map]
    omega

theorem length_accumulated (func : Inplace) (N : Nat) (hf : keeps_width N func)
    (rows : List (List Signal))
    (hrows : ∀ t, t < rows.length → (rows.getD t []).length = N) :
    ∀ i, i < rows.length → (accumulated func rows i).length = N := by
  intro i
  induction i with
  | zero => intro h; exact hrows 0 h
  | succ i ih =>
    intro h
    obtain ⟨s, k, e, l⟩ := hf (rows.getD (i + 1) []) (accumulated func rows i)
      (hrows (i + 1) h) (ih (by omega))
    simp only [accumulated, e]
    exact l

/-- The adder loop from position `i`, when row `i` holds what has been accumulated and
the rows above are untouched: `r` more invocations are made, invocation `t` adds the
accumulated row `i + t` into row `i + t + 1` with carry-in false, and the last one
sets the result. -/
theorem advance_multiplier_loop_calls_spec (func : Inplace) (N : Nat)
    (hf : keeps_width N func) (rows : List (List Signal))
    (hrows : ∀ t, t < rows.length → (rows.getD t []).length = N) :
    ∀ (r i : Nat) (pp : List (List Signal)) (res : List Signal) (calls : List Invocation),
      i + r + 1 = rows.length → pp.length = rows.length →
      pp.getD i [] = accumulated func rows i →
      (∀ t, i < t → t < rows.length → pp.getD t [] = rows.getD t []) →
      ∃ pp2, advance_multiplier_loop_calls func r i ((pp, res), calls)
        = some ((pp2, if r = 0 then res else accumulated func rows (rows.length - 1)),
            calls ++ (List.range r).map (fun t =>
              ⟨rows.getD (i + t + 1) [], accumulated func rows (i + t), get_constant false⟩)) := by
  intro r
  induction r with
  | zero =>
    intro i pp res calls _ _ _ _
    exact ⟨pp, by simp [advance_multiplier_loop_calls]⟩
  | succ r ih =>
    intro i pp res calls hir hpp hacc hrest
    have h1 : pp[i + 1]? = some (rows.getD (i + 1) []) := by
      rw [← hrest (i + 1) (by omega) (by omega), List.getD_eq_getElem?_getD,
        List.getElem?_eq_getElem (by omega : i + 1 < pp.length)]
      rfl
    have h2 : pp[i]? = some (accumulated func rows i) := by
      rw [← hacc, List.getD_eq_getElem?_getD,
        List.getElem?_eq_getElem (by omega : i < pp.length)]
      rfl
    obtain ⟨s, k, e, l⟩ := hf (rows.getD (i + 1) []) (accumulated func rows i)
      (hrows (i + 1) (by omega)) (length_accumulated func N hf rows hrows i (by omega))
    have hs : accumulated func rows (i + 1) = s := by simp only [accumulated, e]
    simp only [advance_multiplier_loop_calls, h1, h2, e]
    obtain ⟨pp2, e2⟩ := ih (i + 1) (pp.set (i + 1) s)
      (if i = (pp.set (i + 1) s).length - 2 then s else res)
      (calls ++ [⟨rows.getD (i + 1) [], accumulated func rows i, get_constant false⟩])
      (by omega) (by rw [List.length_set]; exact hpp)
      (by
        rw [hs, List.getD_eq_getElem?_getD, List.getElem?_set_self (by omega)]
        rfl)
      (by
        intro t h3 h4
        rw [← hrest t (by omega) h4, List.getD_eq_getElem?_getD,
          List.getD_eq_getElem?_getD, List.getElem?_set_ne (by omega)])
    refine ⟨pp2, ?_⟩
    have hres : (if r = 0 then (if i = (pp.set (i + 1) s).length - 2 then s else res)
          else accumulated func rows (rows.length - 1))
        = (if r + 1 = 0 then res else accumulated func rows (rows.length - 1)) := by
      rw [if_neg (Nat.succ_ne_zero r)]
      by_cases hr : r = 0
      · rw [if_pos hr, List.length_set, if_pos (by omega), ← hs]
        congr 1
        omega
      · rw [if_neg hr]
    have hcalls : calls
          ++ [⟨rows.getD (i + 1) [], accumulated func rows i, get_constant false⟩]
          ++ (List.range r).map (fun t =>
              (⟨rows.getD (i + 1 + t + 1) [], accumulated func rows (i + 1 + t),
                get_constant false⟩ : Invocation))
        = calls ++ (List.range (r + 1)).map (fun t =>
              (⟨rows.getD (i + t + 1) [], accumulated func rows (i + t),
                get_constant false⟩ : Invocation)) := by
      rw [List.append_assoc, List.range_succ_eq_map, List.map_cons, List.map_map]
      congr 1
      rw [List.singleton_append]
      congr 1
      apply List.map_congr_left
      intro t _
      simp only [Function.comp]
      rw [show i + 1 + t = i + (t + 1) by omega]
    rw [e2, hres, hcalls]

/-- The invocations of `advance_multiplier` on a multiplier of `m ≥ 1` bits, for a
function `func` that keeps the width `n + m`. -/
theorem advance_multiplier_calls_spec (a b : List Signal) (func : Inplace)
    (hm : 1 ≤ b.length) (hf : keeps_width (a.length + b.length) func) :
    advance_multiplier_calls a b func
      = some (if b.length = 1 then []
          else accumulated func (advance_multiplier_rows a b) (b.length - 1),
        (List.range (b.length - 1)).map (fun i =>
          ⟨(advance_multiplier_rows a b).getD (i + 1) [],
            accumulated func (advance_multiplier_rows a b) i, get_constant false⟩)) := by
  obtain ⟨hl, hrow⟩ := advance_multiplier_rows_spec a b
  obtain ⟨pp2, e⟩ := advance_multiplier_loop_calls_spec func (a.length + b.length) hf
    (advance_multiplier_rows a b)
    (fun t ht => (hrow t (by rw [← hl]; exact ht)).2)
    (b.length - 1) 0 (advance_multiplier_rows a b) [] []
    (by rw [hl]; omega) rfl rfl (fun t _ _ => rfl)
  unfold advance_multiplier_rows at hl e ⊢
  simp only [advance_multiplier_calls]
  rw [if_neg (by rw [hl]; omega), hl, e]
  simp only [hl, List.nil_append, Nat.zero_add]
  congr 2
  by_cases h1 : b.length = 1
  · rw [if_pos h1, if_pos (by omega)]
  · rw [if_neg h1, if_neg (by omega)]

/-- An adder that meets the contract keeps the width. -/
theorem keeps_width_of_is_adder (N : Nat) (func : Inplace) (h : is_adder N func) :
    keeps_width N func := by
  intro x y hx hy
  obtain ⟨k, e⟩ := h x y hx hy
  exact ⟨_, k, e, length_low_bits _ _⟩

/-- The Kogge-Stone adder meets the contract of the multiplier. -/
theorem kogge_stone_is_adder (N : Nat) (hN : 1 ≤ N) :
    is_adder N kogge_stone_adder_inplace := by
  intro x y hx hy
  obtain ⟨s, k, e, l, v, _⟩ :=
    kogge_stone_adder_inplace_sum x y false (by omega) (hy.trans hx.symm)
  simp only [Bool.toNat_false, Nat.add_zero] at v
  rw [hx] at l v
  exact ⟨k, by
    rw [get_constant, e, eq_low_bits s N ((value x + value y) % 2 ^ N) l
      (by rw [Nat.mod_mod]; exact v)]⟩

/-- The Brent-Kung adder meets the contract of the multiplier. -/
theorem brent_kung_is_adder (N : Nat) (hN : 1 ≤ N) :
    is_adder N brent_kung_adder_inplace := by
  intro x y hx hy
  obtain ⟨s, k, e, l, v, _⟩ :=
    brent_kung_adder_inplace_sum x y false (by omega) (hy.trans hx.symm)
  simp only [Bool.toNat_false, Nat.add_zero] at v
  rw [hx] at l v
  exact ⟨k, by
    rw [get_constant, e, eq_low_bits s N ((value x + value y) % 2 ^ N) l
      (by rw [Nat.mod_mod]; exact v)]⟩

/-- The Han-Carlson adder meets the contract of the multiplier. -/
theorem han_carlson_is_adder (N : Nat) (hN : 1 ≤ N) :
    is_adder N han_carlson_adder_inplace := by
  intro x y hx hy
  obtain ⟨s, k, e, l, v, _⟩ :=
    han_carlson_adder_inplace_zero x y (by omega) (hy.trans hx.symm)
  simp only [Bool.toNat_false, Nat.add_zero] at v
  rw [hx] at l v
  exact ⟨k, by
    rw [get_constant, e, eq_low_bits s N ((value x + value y) % 2 ^ N) l
      (by rw [Nat.mod_mod]; exact v)]⟩

/-- C31: `advance_multiplier` folds the rows as a sequential chain.  For a multiplier
`b` of `m ≥ 1` bits (and any `a`, of `n` bits) it builds `m` rows, row `i` being the
entries `a[.] and b[i]` preceded by `i` constant-false entries and zero-extended to
exactly `n + m` entries; with a function `func` that accepts operands of `n + m` bits
and leaves `n + m` bits, it invokes `func` exactly `m - 1` times, invocation
`i = 0, ..., m-2` adding the row accumulated so far (row 0 for `i = 0`, otherwise what
invocation `i - 1` left) into row `i + 1` with carry-in constant false. -/
theorem advance_multiplier_chain (a b : List Signal) (func : Inplace)
    (hm : 1 ≤ b.length) (hf : keeps_width (a.length + b.length) func) :
    (advance_multiplier_rows a b).length = b.length
      ∧ (∀ i, i < b.length →
          (advance_multiplier_rows a b).getD i []
            = List.replicate i false ++ a.map (fun ai => create_and ai (bit_at b i))
              ++ List.replicate (b.length - i) false
          ∧ ((advance_multiplier_rows a b).getD i []).length = a.length + b.length)
      ∧ ∃ res calls, advance_multiplier_calls a b func = some (res, calls)
          ∧ advance_multiplier a b func = some res
          ∧ calls.length = b.length - 1
          ∧ ∀ i, i < b.length - 1 →
              calls[i]? = some ⟨(advance_multiplier_rows a b).getD (i + 1) [],
                accumulated func (advance_multiplier_rows a b) i, get_constant false⟩ := by
  obtain ⟨hl, hrow⟩ := advance_multiplier_rows_spec a b
  have e := advance_multiplier_calls_spec a b func hm hf
  refine ⟨hl, hrow, _, _, e, ?_, by simp, ?_⟩
  · rw [← advance_multiplier_calls_fst, e]
    rfl
  · intro i hi
    rw [List.getElem?_map, List.getElem?_range hi]
    rfl

/-- Witness for C31 on `a = [1, 1]`, `b = [1, 0, 1]` with the Kogge-Stone adder: three
rows of five entries and two invocations. -/
theorem advance_multiplier_chain_witness :
    advance_multiplier_rows [true, true] [true, false, true]
        = [[true, true, false, false, false], [false, false, false, false, false],
            [false, false, true, true, false]]
      ∧ advance_multiplier_calls [true, true] [true, false, true] kogge_stone_adder_inplace
        = some ([true, true, true, true, false],
            [⟨[false, false, false, false, false], [true, true, false, false, false], false⟩,
              ⟨[false, false, true, true, false], [true, true, false, false, false],
                false⟩])
      ∧ ∃ res calls, advance_multiplier_calls [true, true] [true, false, true]
            kogge_stone_adder_inplace = some (res, calls)
          ∧ advance_multiplier [true, true] [true, false, true] kogge_stone_adder_inplace
            = some res
          ∧ calls.length = [true, false, true].length - 1
          ∧ ∀ i, i < [true, false, true].length - 1 →
              calls[i]? = some ⟨(advance_multiplier_rows [true, true]
                  [true, false, true]).getD (i + 1) [],
                accumulated kogge_stone_adder_inplace
                  (advance_multiplier_rows [true, true] [true, false, true]) i,
                get_constant false⟩ :=
  ⟨by decide, by decide,
    (advance_multiplier_chain [true, true] [true, false, true] kogge_stone_adder_inplace
      (by decide) (keeps_width_of_is_adder _ _ (kogge_stone_is_adder _ (by decide)))).2.2⟩

/-! ### The product returned by `advance_multiplier` -/

theorem value_append (l r : List Signal) :
    value (l ++ r) = value l + 2 ^ l.length * value r := by
  induction l with
  | nil => simp [value]
  | cons x xs ih =>
    rw [List.cons_append, value, value, ih, List.length_cons, pow_succ]
    ring

theorem value_replicate_false (k : Nat) : value (List.replicate k false) = 0 := by
  induction k with
  | zero => rfl
  | succ k ih => rw [List.replicate_succ, value, ih]; rfl

theorem value_map_and (a : List Signal) (bj : Signal) :
    value (a.map (fun ai => create_and ai bj)) = bj.toNat * value a := by
  induction a with
  | nil => simp [value]
  | cons x xs ih =>
    rw [List.map_cons, value, value, ih]
    cases x <;> cases bj <;> simp [create_and]

theorem value_take_succ :
    ∀ (b : List Signal) (i : Nat),
      value (b.take (i + 1)) = value (b.take i) + 2 ^ i * (bit_at b i).toNat := by
  intro b
  induction b with
  | nil => intro i; simp [value, bit_at]
  | cons x xs ih =>
    intro i
    cases i with
    | zero => simp [value, bit_at]
    | succ i =>
      rw [List.take_succ_cons, List.take_succ_cons, value, value, ih i, pow_succ]
      simp only [bit_at, List.getD_cons_succ]
      ring

theorem value_take_le (b : List Signal) (k : Nat) : value (b.take k) ≤ value b := by
  have := value_take_drop k b
  omega

/-- With an adder that meets the contract, the row accumulated after `i` additions
holds the product of `A` and the `i + 1` low bits of `B`. -/
theorem accumulated_value (a b : List Signal) (func : Inplace)
    (hf : is_adder (a.length + b.length) func) :
    ∀ i, i < b.length →
      (accumulated func (advance_multiplier_rows a b) i).length = a.length + b.length
        ∧ value (accumulated func (advance_multiplier_rows a b) i)
          = value a * value (b.take (i + 1)) := by
  obtain ⟨hl, hrow⟩ := advance_multiplier_rows_spec a b
  have hrv : ∀ i, i < b.length → value ((advance_multiplier_rows a b).getD i [])
      = 2 ^ i * ((bit_at b i).toNat * value a) := by
    intro i hi
    rw [(hrow i hi).1, value_append, value_append, value_replicate_false,
      value_replicate_false, value_map_and]
    simp
  have hbound : ∀ k, value a * value (b.take k) < 2 ^ (a.length + b.length) := by
    intro k
    have h1 := value_lt a
    have h2 := value_lt b
    have h3 := value_take_le b k
    rw [pow_add]
    exact Nat.mul_lt_mul'' h1 (by omega)
  intro i
  induction i with
  | zero =>
    intro h
    refine ⟨(hrow 0 h).2, ?_⟩
    show value ((advance_multiplier_rows a b).getD 0 []) = _
    rw [hrv 0 h, value_take_succ]
    simp [value]
    ring
  | succ i ih =>
    intro h
    obtain ⟨l1, v1⟩ := ih (by omega)
    obtain ⟨k, e⟩ := hf ((advance_multiplier_rows a b).getD (i + 1) [])
      (accumulated func (advance_multiplier_rows a b) i) (hrow (i + 1) h).2 l1
    have hs : accumulated func (advance_multiplier_rows a b) (i + 1)
        = low_bits (a.length + b.length)
          ((value ((advance_multiplier_rows a b).getD (i + 1) [])
            + value (accumulated func (advance_multiplier_rows a b) i))
              % 2 ^ (a.length + b.length)) := by
      simp only [accumulated, e]
    rw [hs]
    refine ⟨length_low_bits _ _, ?_⟩
    rw [value_low_bits, Nat.mod_mod, hrv (i + 1) h, v1]
    have e2 : 2 ^ (i + 1) * ((bit_at b (i + 1)).toNat * value a)
          + value a * value (b.take (i + 1))
        = value a * value (b.take (i + 1 + 1)) := by
      rw [value_take_succ b (i + 1)]
      ring
    rw [e2]
    exact Nat.mod_eq_of_lt (hbound _)

/-- With an adder that meets the contract and a multiplier of at least two bits,
`advance_multiplier` returns the `n + m` low bits of the product, which is the whole
product. -/
theorem advance_multiplier_product (a b : List Signal) (func : Inplace)
    (hm : 2 ≤ b.length) (hf : is_adder (a.length + b.length) func) :
    ∃ res, advance_multiplier a b func = some res
      ∧ res.length = a.length + b.length ∧ value res = value a * value b := by
  have e := advance_multiplier_calls_spec a b func (by omega)
    (keeps_width_of_is_adder _ _ hf)
  obtain ⟨l, v⟩ := accumulated_value a b func hf (b.length - 1) (by omega)
  refine ⟨accumulated func (advance_multiplier_rows a b) (b.length - 1), ?_, l, ?_⟩
  · rw [← advance_multiplier_calls_fst, e, if_neg (by omega)]
    rfl
  · rw [v, show b.length - 1 + 1 = b.length by omega, List.take_length]

/-- C37: `advance_multiplier` on an operand `a` of `n` bits, a multiplier `b` of `m ≥ 2`
bits and every `func` that for operands of `n + m` bits and carry-in false leaves
`(x + y) mod 2^(n+m)` in its first operand returns exactly `n + m` bits whose value is
`A * B`: the `n + m` low bits of the product, which is below `2^(n+m)`. -/
theorem advance_multiplier_correct (a b : List Signal) (func : Inplace)
    (hm : 2 ≤ b.length) (hf : is_adder (a.length + b.length) func) :
    advance_multiplier a b func
        = some (low_bits (a.length + b.length) (value a * value b))
      ∧ (low_bits (a.length + b.length) (value a * value b)).length
        = a.length + b.length
      ∧ value (low_bits (a.length + b.length) (value a * value b)) = value a * value b := by
  obtain ⟨res, e, l, v⟩ := advance_multiplier_product a b func hm hf
  have hlt : value a * value b < 2 ^ (a.length + b.length) := by
    rw [pow_add]
    exact Nat.mul_lt_mul'' (value_lt a) (value_lt b)
  refine ⟨?_, length_low_bits _ _, ?_⟩
  · rw [e, eq_low_bits res _ (value a * value b) l (by rw [Nat.mod_eq_of_lt hlt]; exact v)]
  · rw [value_low_bits, Nat.mod_eq_of_lt hlt]

/-- Witness for C37 on `3 * 5 = 15` with `n = 2`, `m = 3` and the Han-Carlson adder. -/
theorem advance_multiplier_correct_witness :
    is_adder ([true, true].length + [true, false, true].length) han_carlson_adder_inplace
      ∧ advance_multiplier [true, true] [true, false, true] han_carlson_adder_inplace
        = some [true, true, true, true, false]
      ∧ (advance_multiplier [true, true] [true, false, true] han_carlson_adder_inplace
          = some (low_bits ([true, true].length + [true, false, true].length)
              (value [true, true] * value [true, false, true]))
        ∧ (low_bits ([true, true].length + [true, false, true].length)
            (value [true, true] * value [true, false, true])).length
          = [true, true].length + [true, false, true].length
        ∧ value (low_bits ([true, true].length + [true, false, true].length)
            (value [true, true] * value [true, false, true]))
          = value [true, true] * value [true, false, true]) :=
  ⟨han_carlson_is_adder _ (by decide), by decide,
    advance_multiplier_correct [true, true] [true, false, true] han_carlson_adder_inplace
      (by decide) (han_carlson_is_adder _ (by decide))⟩

/-! ### The dividers as restoring recurrences -/

theorem borrow_ripple_loop_without_node (cap : Capability)
    (hcap : cap.has_create_node = false) :
    ∀ (a b : List Signal) (c : Signal),
      borrow_ripple_loop cap a b c = borrow_ripple_loop gate_network a b c := by
  intro a
  induction a with
  | nil => intro b c; rfl
  | cons x xs ih =>
    intro b c
    cases b with
    | nil => rfl
    | cons y ys =>
      simp only [borrow_ripple_loop, full_subtractor_without_node cap hcap, ih]

/-- On a network without LUT nodes the ripple subtractor meets the contract of the
divider. -/
theorem borrow_ripple_is_subtractor_without_node (cap : Capability)
    (hcap : cap.has_create_node = false) (N : Nat) :
    is_subtractor N (borrow_ripple_subtractor_inplace cap) := by
  intro p y hp hy
  have e : borrow_ripple_subtractor_inplace cap p y false
      = borrow_ripple_subtractor_inplace gate_network p y false := by
    simp only [borrow_ripple_subtractor_inplace, borrow_ripple_loop_without_node cap hcap]
  rw [e]
  exact borrow_ripple_is_subtractor N p y hp hy

/-- One restoring step with a subtractor that meets the contract: the complement of the
borrow is the quotient bit and the multiplexer selects the new partial remainder. -/
theorem restoring_select (L : Nat) (func : Inplace) (h : is_subtractor L func)
    (p y : List Signal) (hp : p.length = L) (hy : y.length = L) :
    ∃ d w, func p y false = some (d, w)
      ∧ create_not w = decide (value y ≤ value p)
      ∧ (mux_word (create_not w) d p).length = L
      ∧ value (mux_word (create_not w) d p)
          = (if value y ≤ value p then value p - value y else value p)
      ∧ mux_word w p d = mux_word (create_not w) d p := by
  obtain ⟨d, w, hf, hd, hbal, hw⟩ := is_subtractor_balance L func h p y hp hy
  refine ⟨d, w, hf, ?_⟩
  by_cases hlt : value p < value y
  · have hw2 : w = true := by rw [hw]; simp [hlt]
    subst hw2
    simp only [create_not, Bool.not_true]
    rw [mux_word_false _ _ (by rw [hd, hp]), mux_word_true _ _ (by rw [hd, hp]),
      if_neg (by omega)]
    exact ⟨by simp; omega, hp, rfl, rfl⟩
  · have hw2 : w = false := by rw [hw]; simp [hlt]
    subst hw2
    simp only [create_not, Bool.not_false]
    rw [mux_word_true _ _ (by rw [hd, hp]), mux_word_false _ _ (by rw [hd, hp]),
      if_pos (by omega)]
    simp only [Bool.toNat_false, Nat.mul_zero, Nat.add_zero] at hbal
    exact ⟨by simp; omega, hd, by omega, rfl⟩

/-- One iteration of the loop of `restoring_array_divider_advance`, for a partial
remainder of `N` bits and any divisor, zero included. -/
theorem restoring_array_divider_advance_loop_step (N : Nat) (func : Inplace)
    (hfunc : is_subtractor N func) (r : Nat) (y0 : Signal) (y quo p_rem : List Signal)
    (hy : N ≤ y.length) (hp : p_rem.length = N) :
    ∃ s, s.length = N
      ∧ value s = (if value (y0 :: y) ≤ value p_rem then value p_rem - value (y0 :: y)
          else value p_rem)
      ∧ restoring_array_divider_advance_loop N func (r + 1) (y0 :: y, quo, p_rem)
        = restoring_array_divider_advance_loop N func r
            (y, quo ++ [decide (value (y0 :: y) ≤ value p_rem)], s) := by
  have hylen : (y0 :: y).length > N := by simp; omega
  have htake : ((y0 :: y).take N).length = N := by
    rw [List.length_take]; omega
  obtain ⟨d, w, hf, hq, hl, hv, hsw⟩ := restoring_select N func hfunc p_rem
    ((y0 :: y).take N) hp htake
  have hsplit := value_take_drop N (y0 :: y)
  have hplt : value p_rem < 2 ^ N := hp ▸ value_lt p_rem
  simp only [restoring_array_divider_advance_loop, if_pos hylen, hf, get_constant]
  rw [create_nary_or_eq]
  generalize hu : value ((y0 :: y).drop N) = U at hsplit ⊢
  generalize hL : value ((y0 :: y).take N) = L at hsplit hq hv ⊢
  generalize hY : value (y0 :: y) = Y at hsplit ⊢
  by_cases hc : U ≠ 0
  · -- the divisor does not fit in the window: quotient bit 0, remainder kept
    have hcond : decide (U ≠ 0) = true := by simp [hc]
    have hge : 2 ^ N ≤ Y := by
      have : 2 ^ N * 1 ≤ 2 ^ N * U := Nat.mul_le_mul_left _ (by omega)
      omega
    refine ⟨p_rem, hp, by rw [if_neg (by omega)], ?_⟩
    rw [hcond, hsw, mux_word_true _ _ (by rw [hp, hl])]
    have hq0 : mux true (create_not true) (create_not w) = decide (Y ≤ value p_rem) := by
      have h1 : decide (Y ≤ value p_rem) = false := by simp; omega
      rw [h1]
      cases w <;> rfl
    rw [hq0]
  · -- the divisor fits in the window: the subtractor decides
    have hU : U = 0 := by omega
    have hcond : decide (U ≠ 0) = false := by simp [hU]
    have hLY : L = Y := by rw [hU] at hsplit; omega
    rw [hLY] at hq hv
    refine ⟨mux_word (create_not w) d p_rem, hl, hv, ?_⟩
    rw [hcond, hsw, mux_word_false _ _ (by rw [hp, hl])]
    have hq0 : mux false (create_not false) (create_not w) = decide (Y ≤ value p_rem) := by
      rw [← hq]
      cases w <;> rfl
    rw [hq0]

/-- The loop of `restoring_array_divider_advance` on a divisor with `k` padding zeros:
it makes the steps of weight `2^k, ..., 2^1` of the restoring recurrence and leaves the
step of weight `2^0` to the statements after the loop. -/
theorem restoring_array_divider_advance_loop_steps (N : Nat) (func : Inplace)
    (hfunc : is_subtractor N func) (b : List Signal) (hb : b.length = N) :
    ∀ (k r : Nat) (quo p_rem : List Signal), k ≤ r → p_rem.length = N →
      ∃ quo2 p2, restoring_array_divider_advance_loop N func r
            (List.replicate k false ++ b, quo, p_rem) = .ok (b, quo2, p2)
        ∧ p2.length = N
        ∧ quo2 ++ restoring_quotient (value b) 1 (value p2)
          = quo ++ restoring_quotient (value b) (k + 1) (value p_rem)
        ∧ restoring_remainder (value b) 1 (value p2)
          = restoring_remainder (value b) (k + 1) (value p_rem) := by
  intro k
  induction k with
  | zero =>
    intro r quo p_rem _ hp
    refine ⟨quo, p_rem, ?_, hp, rfl, rfl⟩
    cases r with
    | zero => simp [restoring_array_divider_advance_loop]
    | succ r => simp [restoring_array_divider_advance_loop, hb]
  | succ k ih =>
    intro r quo p_rem hr hp
    cases r with
    | zero => omega
    | succ r =>
      have hy : List.replicate (k + 1) false ++ b
          = false :: (List.replicate k false ++ b) := by
        rw [List.replicate_succ, List.cons_append]
      have hyv : value (false :: (List.replicate k false ++ b)) = 2 ^ (k + 1) * value b := by
        rw [← hy, value_replicate_append]
      obtain ⟨s, s1, s2, s3⟩ := restoring_array_divider_advance_loop_step N func hfunc r
        false (List.replicate k false ++ b) quo p_rem (by simp [hb]) hp
      rw [hyv] at s2 s3
      obtain ⟨quo2, p2, e1, e2, e3, e4⟩ := ih r
        (quo ++ [decide (2 ^ (k + 1) * value b ≤ value p_rem)]) s (by omega) s1
      refine ⟨quo2, p2, ?_, e2, ?_, ?_⟩
      · rw [hy, s3, e1]
      · rw [e3, s2]
        simp [restoring_quotient]
      · rw [e4, s2]
        simp [restoring_remainder]

/-- The optimized divider computes the restoring recurrence, for any divisor, zero
included, and any inner subtractor that meets the contract. -/
theorem restoring_array_divider_advance_steps (a b : List Signal) (func : Inplace)
    (hn : 1 ≤ a.length) (hlen : b.length = a.length)
    (hfunc : is_subtractor a.length func) :
    ∃ rem, restoring_array_divider_advance a b func
        = .ok ((restoring_quotient (value b) a.length (value a)).reverse, rem)
      ∧ rem.length = a.length
      ∧ value rem = restoring_remainder (value b) a.length (value a) := by
  obtain ⟨quo2, p2, e1, e2, e3, e4⟩ := restoring_array_divider_advance_loop_steps
    a.length func hfunc b hlen (a.length - 1) a.length [] a (by omega) rfl
  rw [show a.length - 1 + 1 = a.length by omega, List.nil_append] at e3
  rw [show a.length - 1 + 1 = a.length by omega] at e4
  obtain ⟨d, w, hf, hq, hl, hv, _⟩ := restoring_select a.length func hfunc p2 b e2 hlen
  have hb1 : ∃ y ys, b = y :: ys := by
    cases b with
    | nil => simp at hlen; omega
    | cons y ys => exact ⟨y, ys, rfl⟩
  obtain ⟨y, ys, hby⟩ := hb1
  have hres : restoring_array_divider_advance a b func
      = .ok ((quo2 ++ [create_not w]).reverse, mux_inplace (create_not w) d p2) := by
    simp only [restoring_array_divider_advance, get_constant] at e1 hf ⊢
    rw [if_neg (by omega), if_neg (by omega)]
    simp only [e1]
    have ht : b.take a.length = b := by rw [← hlen]; exact List.take_length _
    rw [ht]
    simp only [hf]
    rw [hby]
  refine ⟨mux_inplace (create_not w) d p2, ?_, ?_, ?_⟩
  · rw [hres, ← e3, hq]
    simp [restoring_quotient]
  · rw [mux_inplace_eq]; exact hl
  · rw [mux_inplace_eq, hv, ← e4]
    simp [restoring_remainder]

/-- With the divisor 0 every step of the restoring recurrence yields the bit 1 and
keeps the partial remainder. -/
theorem restoring_zero :
    ∀ (k R : Nat), restoring_quotient 0 k R = List.replicate k true
      ∧ restoring_remainder 0 k R = R := by
  intro k
  induction k with
  | zero => intro R; exact ⟨rfl, rfl⟩
  | succ k ih =>
    intro R
    obtain ⟨i1, i2⟩ := ih R
    simp [restoring_quotient, restoring_remainder, i1, i2, List.replicate_succ]

theorem value_replicate_true (k : Nat) : value (List.replicate k true) + 1 = 2 ^ k := by
  induction k with
  | zero => rfl
  | succ k ih =>
    rw [List.replicate_succ, value, pow_succ]
    simp
    omega

/-- C35: the divisor 0 is not tested and has a definite result: for every `N ≥ 1` and
every `N`-bit `A`, `restoring_array_divider_advance` called with the divisor of `N`
constant-false bits and an inner subtractor that meets the contract (such as
`borrow_ripple_subtractor_inplace` on a network without LUT nodes) returns the all-ones
quotient of `N` bits, of value `2^N - 1`, and the remainder `A`, bit for bit. -/
theorem restoring_array_divider_advance_zero_divisor (a : List Signal) (func : Inplace)
    (hn : 1 ≤ a.length) (hfunc : is_subtractor a.length func) :
    restoring_array_divider_advance a (List.replicate a.length false) func
        = .ok (List.replicate a.length true, a)
      ∧ value (List.replicate a.length true) = 2 ^ a.length - 1
      ∧ ∀ cap : Capability, cap.has_create_node = false →
          restoring_array_divider_advance a (List.replicate a.length false)
              (borrow_ripple_subtractor_inplace cap)
            = .ok (List.replicate a.length true, a) := by
  have hgen : ∀ f : Inplace, is_subtractor a.length f →
      restoring_array_divider_advance a (List.replicate a.length false) f
        = .ok (List.replicate a.length true, a) := by
    intro f hf
    obtain ⟨rem, e1, e2, e3⟩ := restoring_array_divider_advance_steps a
      (List.replicate a.length false) f hn (by simp) hf
    rw [value_replicate_false] at e1 e3
    rw [(restoring_zero a.length (value a)).1] at e1
    rw [(restoring_zero a.length (value a)).2] at e3
    have hv : value rem = value a % 2 ^ a.length := by
      rw [e3, Nat.mod_eq_of_lt (value_lt a)]
    have hr : rem = a := by
      rw [eq_low_bits rem _ _ e2 hv,
        ← eq_low_bits a _ (value a) rfl (Nat.mod_eq_of_lt (value_lt a)).symm]
    rw [e1, hr, List.reverse_replicate]
  refine ⟨hgen func hfunc, ?_, ?_⟩
  · have := value_replicate_true a.length
    omega
  · intro cap hcap
    exact hgen _ (borrow_ripple_is_subtractor_without_node cap hcap _)

/-- Witness for C35 on `A = 5` over three bits with the ripple subtractor. -/
theorem restoring_array_divider_advance_zero_divisor_witness :
    is_subtractor [true, false, true].length (borrow_ripple_subtractor_inplace gate_network)
      ∧ restoring_array_divider_advance [true, false, true] [false, false, false]
          (borrow_ripple_subtractor_inplace gate_network)
        = .ok ([true, true, true], [true, false, true])
      ∧ (restoring_array_divider_advance [true, false, true]
            (List.replicate [true, false, true].length false)
            (borrow_ripple_subtractor_inplace gate_network)
          = .ok (List.replicate [true, false, true].length true, [true, false, true])
        ∧ value (List.replicate [true, false, true].length true)
          = 2 ^ [true, false, true].length - 1
        ∧ ∀ cap : Capability, cap.has_create_node = false →
            restoring_array_divider_advance [true, false, true]
                (List.replicate [true, false, true].length false)
                (borrow_ripple_subtractor_inplace cap)
              = .ok (List.replicate [true, false, true].length true,
                  [true, false, true])) :=
  ⟨borrow_ripple_is_subtractor _, rfl,
    restoring_array_divider_advance_zero_divisor [true, false, true]
      (borrow_ripple_subtractor_inplace gate_network) (by decide)
      (borrow_ripple_is_subtractor _)⟩

end MagicLS
